import Mathlib

/-!
# libcove: intrusive red-black tree (`container/rbtree.h`, `container/rbtree.c`)

A shallow embedding of the tree code over an explicit memory.  A pointer is a
natural number, `NULL` is `0`, and the memory maps every address to the three
words of a `struct rb_node`.  Every load or store through a pointer checks the
pointer against `NULL` and reports `Fault.null_deref`; every `while` loop
takes a fuel argument and reports `Fault.out_of_fuel` when it is exhausted.
-/

namespace Libcove

/-! ## Machine model -/

/-- Modulus of `uintptr_t` arithmetic (64-bit target). -/
def UINTPTR_MOD : Nat := 18446744073709551616

/-- Colour constant `RB_RED`. -/
def RB_RED : Nat := 0

/-- Colour constant `RB_BLACK`. -/
def RB_BLACK : Nat := 1

/-- The three words of `struct rb_node`. -/
structure rb_node where
  __rb_parent_color : Nat
  rb_left : Nat
  rb_right : Nat
deriving DecidableEq, Repr

/-- Program state: `root` is the field `rb_node` of the `struct rb_root` handle,
`mem` holds the nodes. -/
structure rb_state where
  root : Nat
  mem : Nat → rb_node

/-- Ways in which a run fails to return. -/
inductive Fault where
  | null_deref
  | out_of_fuel
deriving DecidableEq, Repr

/-- Outcome of one pass through a `while (true)` body. -/
inductive Ctl (α β : Type) where
  | next (a : α)
  | done (b : β)

/-- Pure update of the parent/colour word of the node at `p`. -/
def rb_state.wr_pc (s : rb_state) (p v : Nat) : rb_state :=
  { s with mem := Function.update s.mem p { s.mem p with __rb_parent_color := v } }

/-- Pure update of the left pointer of the node at `p`. -/
def rb_state.wr_left (s : rb_state) (p v : Nat) : rb_state :=
  { s with mem := Function.update s.mem p { s.mem p with rb_left := v } }

/-- Pure update of the right pointer of the node at `p`. -/
def rb_state.wr_right (s : rb_state) (p v : Nat) : rb_state :=
  { s with mem := Function.update s.mem p { s.mem p with rb_right := v } }

/-- Read `*p`. -/
def load (s : rb_state) (p : Nat) : Except Fault rb_node :=
  if p = 0 then .error .null_deref else .ok (s.mem p)

/-- Read `p->__rb_parent_color`. -/
def get_pc (s : rb_state) (p : Nat) : Except Fault Nat :=
  if p = 0 then .error .null_deref else .ok (s.mem p).__rb_parent_color

/-- Read `p->rb_left`. -/
def get_left (s : rb_state) (p : Nat) : Except Fault Nat :=
  if p = 0 then .error .null_deref else .ok (s.mem p).rb_left

/-- Read `p->rb_right`. -/
def get_right (s : rb_state) (p : Nat) : Except Fault Nat :=
  if p = 0 then .error .null_deref else .ok (s.mem p).rb_right

/-- Write `p->__rb_parent_color = v`. -/
def set_pc (s : rb_state) (p v : Nat) : Except Fault rb_state :=
  if p = 0 then .error .null_deref else .ok (s.wr_pc p v)

/-- Write `p->rb_left = v`. -/
def set_left (s : rb_state) (p v : Nat) : Except Fault rb_state :=
  if p = 0 then .error .null_deref else .ok (s.wr_left p v)

/-- Write `p->rb_right = v`. -/
def set_right (s : rb_state) (p v : Nat) : Except Fault rb_state :=
  if p = 0 then .error .null_deref else .ok (s.wr_right p v)

/-! ## `rbtree.h`: parent/colour word -/

/-- Macro `__rb_parent(pc)`: `pc & ~3`. -/
def __rb_parent (pc : Nat) : Nat := pc &&& 18446744073709551612

/-- Macro `__rb_color(pc)`: `pc & 1`. -/
def __rb_color (pc : Nat) : Nat := pc &&& 1

/-- Macro `__rb_is_black(pc)`. -/
def __rb_is_black (pc : Nat) : Nat := __rb_color pc

/-- Macro `__rb_is_red(pc)`: `!__rb_color(pc)`. -/
def __rb_is_red (pc : Nat) : Nat := if __rb_color pc = 0 then 1 else 0

/-- Macro `rb_parent(rb)`. -/
def rb_parent (s : rb_state) (rb : Nat) : Except Fault Nat := do
  let pc ← get_pc s rb
  pure (__rb_parent pc)

/-- Macro `rb_color(rb)`. -/
def rb_color (s : rb_state) (rb : Nat) : Except Fault Bool := do
  let pc ← get_pc s rb
  pure (decide (__rb_color pc ≠ 0))

/-- Macro `rb_is_black(rb)`. -/
def rb_is_black (s : rb_state) (rb : Nat) : Except Fault Bool := do
  let pc ← get_pc s rb
  pure (decide (__rb_is_black pc ≠ 0))

/-- Macro `rb_is_red(rb)`. -/
def rb_is_red (s : rb_state) (rb : Nat) : Except Fault Bool := do
  let pc ← get_pc s rb
  pure (decide (__rb_is_red pc ≠ 0))

/-- Inline function `rb_set_parent_color`. -/
def rb_set_parent_color (s : rb_state) (node parent color : Nat) : Except Fault rb_state :=
  set_pc s node ((parent + color) % UINTPTR_MOD)

/-- Inline function `rb_set_parent`. -/
def rb_set_parent (s : rb_state) (node parent : Nat) : Except Fault rb_state := do
  let c ← rb_color s node
  set_pc s node (((if c then 1 else 0) + parent) % UINTPTR_MOD)

/-- Inline function `rb_set_black`. -/
def rb_set_black (s : rb_state) (node : Nat) : Except Fault rb_state := do
  let pc ← get_pc s node
  set_pc s node ((pc + RB_BLACK) % UINTPTR_MOD)

/-- The location a `struct rb_node **` points at: the root handle or a child
field of a node. -/
inductive rb_link where
  | root
  | left (p : Nat)
  | right (p : Nat)
deriving DecidableEq, Repr

/-- Read `*link`. -/
def rb_link.read (s : rb_state) : rb_link → Except Fault Nat
  | .root => pure s.root
  | .left p => get_left s p
  | .right p => get_right s p

/-- Write `*link = v`. -/
def rb_link.write (s : rb_state) (v : Nat) : rb_link → Except Fault rb_state
  | .root => pure { s with root := v }
  | .left p => set_left s p v
  | .right p => set_right s p v

/-- Inline function `rb_link_node`. -/
def rb_link_node (s : rb_state) (node parent : Nat) (link : rb_link) :
    Except Fault rb_state := do
  let s ← set_pc s node parent
  let s ← set_right s node 0
  let s ← set_left s node 0
  link.write s node

/-! ## `rbtree.c`: helpers -/

/-- Static function `rb_red_parent`. -/
def rb_red_parent (s : rb_state) (red : Nat) : Except Fault Nat :=
  get_pc s red

/-- Static function `__rb_change_child`. -/
def __rb_change_child (s : rb_state) (old new parent : Nat) : Except Fault rb_state :=
  if parent = 0 then pure { s with root := new }
  else do
    let l ← get_left s parent
    if l = old then set_left s parent new else set_right s parent new

/-- Static function `__rb_rotate_left`. -/
def __rb_rotate_left (s : rb_state) (parent child color : Nat) : Except Fault rb_state := do
  let cl ← get_left s child
  let s ← set_right s parent cl
  let s ← set_left s child parent
  if cl ≠ 0 then rb_set_parent_color s cl parent color else pure s

/-- Static function `__rb_rotate_right`; as in the source, `cr` is read from
`child->rb_left`. -/
def __rb_rotate_right (s : rb_state) (parent child color : Nat) : Except Fault rb_state := do
  let cr ← get_left s child
  let s ← set_left s parent cr
  let s ← set_right s child parent
  if cr ≠ 0 then rb_set_parent_color s cr parent color else pure s

/-- Static function `__rb_rotate_set_parent`. -/
def __rb_rotate_set_parent (s : rb_state) (old new color : Nat) : Except Fault rb_state := do
  let parent ← rb_parent s old
  let pc ← get_pc s old
  let s ← set_pc s new pc
  let s ← rb_set_parent_color s old new color
  __rb_change_child s old new parent

/-! ## `rbtree.c`: insertion -/

/-- One pass through the `while (true)` body of `__rb_insert`.  The loop
variables are `node` and `parent`; `aug` is whatever the rotation hook
maintains. -/
def __rb_insert_iter {σ : Type} (augment_rotate : rb_state → Nat → Nat → σ → σ)
    (s : rb_state) (aug : σ) (node parent : Nat) :
    Except Fault (Ctl (rb_state × σ × Nat × Nat) (rb_state × σ)) :=
  if parent = 0 then do
    let s ← rb_set_parent_color s node 0 RB_BLACK
    pure (.done (s, aug))
  else do
    let pblack ← rb_is_black s parent
    if pblack then pure (.done (s, aug))
    else do
      let gparent ← rb_red_parent s parent
      let tmp ← get_right s gparent
      if tmp ≠ parent then do
        let ured ← (if tmp ≠ 0 then rb_is_red s tmp else pure false)
        if ured then do
          let s ← rb_set_parent_color s parent gparent RB_BLACK
          let s ← rb_set_parent_color s tmp gparent RB_BLACK
          let node := gparent
          let parent ← rb_parent s node
          let s ← rb_set_parent_color s node parent RB_RED
          pure (.next (s, aug, node, parent))
        else do
          let tmp ← get_right s parent
          let (s, aug, parent, tmp) ←
            (if tmp = node then do
              let tmp ← get_left s node
              let s ← set_right s parent tmp
              let s ← set_left s node parent
              let s ← (if tmp ≠ 0 then rb_set_parent_color s tmp parent RB_BLACK else pure s)
              let s ← rb_set_parent_color s parent node RB_RED
              let aug := augment_rotate s parent node aug
              let parent := node
              let tmp ← get_right s parent
              pure (s, aug, parent, tmp)
            else pure (s, aug, parent, tmp))
          let s ← set_left s gparent tmp
          let s ← set_right s parent gparent
          let s ← (if tmp ≠ 0 then rb_set_parent_color s tmp gparent RB_BLACK else pure s)
          let s ← __rb_rotate_set_parent s gparent parent RB_RED
          let aug := augment_rotate s gparent parent aug
          pure (.done (s, aug))
      else do
        let tmp ← get_left s gparent
        let ured ← (if tmp ≠ 0 then rb_is_red s tmp else pure false)
        if ured then do
          let s ← rb_set_parent_color s parent gparent RB_BLACK
          let s ← rb_set_parent_color s tmp gparent RB_BLACK
          let node := gparent
          let parent ← rb_parent s node
          let s ← rb_set_parent_color s node parent RB_RED
          pure (.next (s, aug, node, parent))
        else do
          let tmp ← get_left s parent
          let (s, aug, parent) ←
            (if tmp = node then do
              let tmp ← get_right s node
              let s ← set_left s parent tmp
              let s ← set_right s node parent
              let s ← (if tmp ≠ 0 then rb_set_parent_color s tmp parent RB_BLACK else pure s)
              let s ← rb_set_parent_color s parent node RB_RED
              let aug := augment_rotate s parent node aug
              let parent := node
              let _tmp ← get_left s parent
              pure (s, aug, parent)
            else pure (s, aug, parent))
          let tmp ← get_left s parent
          let s ← set_right s gparent tmp
          let s ← set_left s parent gparent
          let s ← (if tmp ≠ 0 then rb_set_parent_color s tmp gparent RB_BLACK else pure s)
          let s ← __rb_rotate_set_parent s gparent parent RB_RED
          let aug := augment_rotate s gparent parent aug
          pure (.done (s, aug))

/-- The `while (true)` loop of `__rb_insert`, at most `fuel` passes. -/
def __rb_insert_loop {σ : Type} (augment_rotate : rb_state → Nat → Nat → σ → σ) :
    Nat → rb_state → σ → Nat → Nat → Except Fault (rb_state × σ)
  | 0, _, _, _, _ => .error .out_of_fuel
  | fuel + 1, s, aug, node, parent =>
    match __rb_insert_iter augment_rotate s aug node parent with
    | .error e => .error e
    | .ok (.done r) => .ok r
    | .ok (.next (s1, aug1, node1, parent1)) =>
      __rb_insert_loop augment_rotate fuel s1 aug1 node1 parent1

/-- Static function `__rb_insert`. -/
def __rb_insert {σ : Type} (augment_rotate : rb_state → Nat → Nat → σ → σ)
    (fuel : Nat) (s : rb_state) (aug : σ) (node : Nat) : Except Fault (rb_state × σ) := do
  let parent ← rb_red_parent s node
  __rb_insert_loop augment_rotate fuel s aug node parent

/-- The default rotation hook `augment_rotate` of `rbtree.c`: it does nothing. -/
def augment_rotate (_s : rb_state) (_old _new : Nat) (u : Unit) : Unit := u

/-- Function `rb_insert_color`. -/
def rb_insert_color (fuel : Nat) (s : rb_state) (node : Nat) : Except Fault rb_state := do
  let r ← __rb_insert augment_rotate fuel s () node
  pure r.1

/-- The search loop `while (*link)` of `rb_add`. -/
def rb_add_search (less : Nat → Nat → Bool) (node : Nat) :
    Nat → rb_state → rb_link → Nat → Except Fault (rb_link × Nat)
  | 0, _, _, _ => .error .out_of_fuel
  | fuel + 1, s, link, parent =>
    match link.read s with
    | .error e => .error e
    | .ok cur =>
      if cur = 0 then .ok (link, parent)
      else if less node cur then rb_add_search less node fuel s (.left cur) cur
      else rb_add_search less node fuel s (.right cur) cur

/-- Inline function `rb_add`. -/
def rb_add (fuel : Nat) (s : rb_state) (node : Nat) (less : Nat → Nat → Bool) :
    Except Fault rb_state := do
  let (link, parent) ← rb_add_search less node fuel s .root 0
  let s ← rb_link_node s node parent link
  rb_insert_color fuel s node

/-! ## `rbtree.c`: removal -/

/-- The `do ... while (successor->rb_left)` loop of `__rb_erase`; returns the
final `(parent, successor)`. -/
def __rb_erase_leftmost : Nat → rb_state → Nat → Except Fault (Nat × Nat)
  | 0, _, _ => .error .out_of_fuel
  | fuel + 1, s, successor =>
    match get_left s successor with
    | .error e => .error e
    | .ok next =>
      match get_left s next with
      | .error e => .error e
      | .ok l => if l ≠ 0 then __rb_erase_leftmost fuel s next else .ok (successor, next)

/-- Static function `__rb_erase`: returns the new state and the node to
rebalance at (or `NULL`). -/
def __rb_erase (fuel : Nat) (s : rb_state) (node : Nat) : Except Fault (rb_state × Nat) := do
  let tmp ← get_left s node
  let child ← get_right s node
  let parent ← rb_parent s node
  if tmp = 0 then do
    let s ← __rb_change_child s node child parent
    let prev_node ← load s node
    if child ≠ 0 then do
      let pc ← get_pc s node
      let s ← set_pc s child pc
      pure (s, 0)
    else
      pure (s, if __rb_is_black prev_node.__rb_parent_color ≠ 0 then parent else 0)
  else if child = 0 then do
    let s ← __rb_change_child s node tmp parent
    let pc ← get_pc s node
    let s ← set_pc s tmp pc
    pure (s, 0)
  else do
    let successor := child
    let sl ← get_left s successor
    let (s, parent, successor, succ_right) ←
      (if sl = 0 then do
        let succ_right ← get_right s successor
        pure (s, successor, successor, succ_right)
      else do
        let (parent, successor) ← __rb_erase_leftmost fuel s successor
        let succ_right ← get_right s successor
        let s ← set_left s parent succ_right
        let s ← set_right s successor child
        let s ← rb_set_parent s child successor
        pure (s, parent, successor, succ_right))
    let s ← set_left s successor tmp
    let s ← rb_set_parent s tmp successor
    let prev_succ ← load s successor
    let pc ← get_pc s node
    let s ← set_pc s successor pc
    let np ← rb_parent s node
    let s ← __rb_change_child s node successor np
    if succ_right ≠ 0 then do
      let s ← rb_set_parent_color s succ_right parent RB_BLACK
      pure (s, 0)
    else
      pure (s, if __rb_is_black prev_succ.__rb_parent_color ≠ 0 then parent else 0)

/-- One pass through the `while (true)` body of `__rb_erase_rebalance`.  The
loop variables are `node` and `parent`. -/
def __rb_erase_rebalance_iter (s : rb_state) (node parent : Nat) :
    Except Fault (Ctl (rb_state × Nat × Nat) rb_state) := do
  let siblings ← get_right s parent
  if siblings ≠ node then do
    let sred ← rb_is_red s siblings
    let (s, siblings) ←
      (if sred then do
        let tmp1 ← get_left s siblings
        let s ← __rb_rotate_left s parent siblings RB_BLACK
        let s ← __rb_rotate_set_parent s parent siblings RB_RED
        pure (s, tmp1)
      else pure (s, siblings))
    let tmp1 ← get_right s siblings
    let b1 ← (if tmp1 = 0 then pure true else rb_is_black s tmp1)
    if b1 then do
      let tmp2 ← get_left s siblings
      let b2 ← (if tmp2 = 0 then pure true else rb_is_black s tmp2)
      if b2 then do
        let s ← rb_set_parent_color s siblings parent RB_RED
        let pred ← rb_is_red s parent
        if pred then do
          let s ← rb_set_black s parent
          pure (.done s)
        else do
          let node := parent
          let parent ← rb_parent s node
          pure (.next (s, node, parent))
      else do
        let s ← __rb_rotate_right s siblings tmp2 RB_BLACK
        let s ← __rb_rotate_set_parent s siblings tmp2 RB_RED
        let siblings := tmp2
        let _tmp1 ← get_right s siblings
        let _tmp2 ← get_left s siblings
        let s ← __rb_rotate_left s parent siblings RB_BLACK
        let s ← __rb_rotate_set_parent s parent siblings RB_BLACK
        pure (.next (s, node, parent))
    else do
      let s ← __rb_rotate_left s parent siblings RB_BLACK
      let s ← __rb_rotate_set_parent s parent siblings RB_BLACK
      pure (.next (s, node, parent))
  else do
    let siblings ← get_left s parent
    let sred ← rb_is_red s siblings
    let (s, siblings) ←
      (if sred then do
        let tmp1 ← get_right s siblings
        let s ← __rb_rotate_right s parent siblings RB_BLACK
        let s ← __rb_rotate_set_parent s parent siblings RB_RED
        pure (s, tmp1)
      else pure (s, siblings))
    let tmp1 ← get_left s siblings
    let b1 ← (if tmp1 = 0 then pure true else rb_is_black s tmp1)
    if b1 then do
      let tmp2 ← get_right s siblings
      let b2 ← (if tmp2 = 0 then pure true else rb_is_black s tmp2)
      if b2 then do
        let s ← rb_set_parent_color s siblings parent RB_RED
        let pred ← rb_is_red s parent
        if pred then do
          let s ← rb_set_black s parent
          pure (.done s)
        else do
          let node := parent
          let parent ← rb_parent s node
          pure (.next (s, node, parent))
      else do
        let s ← __rb_rotate_left s siblings tmp2 RB_BLACK
        let s ← __rb_rotate_set_parent s siblings tmp2 RB_RED
        let siblings := tmp2
        let _tmp1 ← get_left s siblings
        let _tmp2 ← get_right s siblings
        let s ← __rb_rotate_right s parent siblings RB_BLACK
        let s ← __rb_rotate_set_parent s parent siblings RB_BLACK
        pure (.next (s, node, parent))
    else do
      let s ← __rb_rotate_right s parent siblings RB_BLACK
      let s ← __rb_rotate_set_parent s parent siblings RB_BLACK
      pure (.next (s, node, parent))

/-- The `while (true)` loop of `__rb_erase_rebalance` from given loop variables
`node` and `parent`, at most `fuel` passes. -/
def __rb_erase_rebalance_loop : Nat → rb_state → Nat → Nat → Except Fault rb_state
  | 0, _, _, _ => .error .out_of_fuel
  | fuel + 1, s, node, parent =>
    match __rb_erase_rebalance_iter s node parent with
    | .error e => .error e
    | .ok (.done s1) => .ok s1
    | .ok (.next (s1, node1, parent1)) => __rb_erase_rebalance_loop fuel s1 node1 parent1

/-- Static function `__rb_erase_rebalance`: the loop starts with `node = NULL`. -/
def __rb_erase_rebalance (fuel : Nat) (s : rb_state) (parent : Nat) : Except Fault rb_state :=
  __rb_erase_rebalance_loop fuel s 0 parent

/-- Function `rb_erase`. -/
def rb_erase (fuel : Nat) (s : rb_state) (node : Nat) : Except Fault rb_state := do
  let (s, rebalance) ← __rb_erase fuel s node
  if rebalance ≠ 0 then __rb_erase_rebalance fuel s rebalance else pure s

/-! ## Abstract trees and the representation relation -/

/-- Node colours. -/
inductive Color where
  | red
  | black
deriving DecidableEq, Repr

/-- The colour bit stored in the low bit of `__rb_parent_color`. -/
def Color.bit : Color → Nat
  | .red => 0
  | .black => 1

/-- A binary tree whose nodes are the addresses of `struct rb_node`s, with
their colours. -/
inductive Tree where
  | nil
  | node (a : Nat) (c : Color) (l r : Tree)
deriving DecidableEq, Repr

/-- The pointer that designates a tree: the address of its root, `NULL` for
the empty tree. -/
def Tree.ptr : Tree → Nat
  | .nil => 0
  | .node a _ _ _ => a

/-- In-order sequence of the node addresses. -/
def Tree.inorder : Tree → List Nat
  | .nil => []
  | .node a _ l r => l.inorder ++ a :: r.inorder

/-- Height: number of nodes on the longest downward path. -/
def Tree.height : Tree → Nat
  | .nil => 0
  | .node _ _ l r => max l.height r.height + 1

/-- The root, if present, is black (an absent tree counts as black). -/
def Tree.rootBlack : Tree → Prop
  | .nil => True
  | .node _ c _ _ => c = .black

/-- No red node has a red child. -/
def Tree.noRedRed : Tree → Prop
  | .nil => True
  | .node _ c l r => (c = .red → l.rootBlack ∧ r.rootBlack) ∧ l.noRedRed ∧ r.noRedRed

/-- Number of black nodes on the leftmost path down to an absent child. -/
def Tree.bh : Tree → Nat
  | .nil => 0
  | .node _ c l _ => l.bh + c.bit

/-- Every node has the same number of black nodes on all paths down to an
absent child. -/
def Tree.balanced : Tree → Prop
  | .nil => True
  | .node _ _ l r => l.bh = r.bh ∧ l.balanced ∧ r.balanced

/-- The red-black invariants: black root, no red-red edge, equal black counts. -/
def Tree.isRB (t : Tree) : Prop := t.rootBlack ∧ t.noRedRed ∧ t.balanced

/-- The memory `m` holds the tree `t` below a node at `q` (`NULL` for the
root): every node is a non-null, 4-aligned address in range, its parent/colour
word is its parent plus its colour bit, and its child pointers designate its
subtrees. -/
def Owns (m : Nat → rb_node) : Nat → Tree → Prop
  | _, .nil => True
  | q, .node a c l r =>
    a ≠ 0 ∧ a % 4 = 0 ∧ a < UINTPTR_MOD ∧ m a = ⟨q + c.bit, l.ptr, r.ptr⟩ ∧
      Owns m a l ∧ Owns m a r

/-- The state `s` holds exactly the tree `t`: the root handle designates it,
parent links are consistent, and no node occurs twice. -/
def Represents (s : rb_state) (t : Tree) : Prop :=
  s.root = t.ptr ∧ Owns s.mem 0 t ∧ t.inorder.Nodup

/-- The slot `link` is an empty child slot of the tree owned by `parent`
(the root handle of an empty tree when `parent` is `NULL`). -/
def EmptySlot (s : rb_state) (t : Tree) (parent : Nat) : rb_link → Prop
  | .root => parent = 0 ∧ s.root = 0
  | .left p => parent = p ∧ p ∈ t.inorder ∧ (s.mem p).rb_left = 0
  | .right p => parent = p ∧ p ∈ t.inorder ∧ (s.mem p).rb_right = 0

instance : (t : Tree) → Decidable t.rootBlack
  | .nil => isTrue trivial
  | .node _ c _ _ => inferInstanceAs (Decidable (c = .black))

instance Tree.decNoRedRed : (t : Tree) → Decidable t.noRedRed
  | .nil => isTrue trivial
  | .node _ c l r =>
    have := Tree.decNoRedRed l
    have := Tree.decNoRedRed r
    inferInstanceAs (Decidable ((c = .red → l.rootBlack ∧ r.rootBlack) ∧ l.noRedRed ∧ r.noRedRed))

instance Tree.decBalanced : (t : Tree) → Decidable t.balanced
  | .nil => isTrue trivial
  | .node _ _ l r =>
    have := Tree.decBalanced l
    have := Tree.decBalanced r
    inferInstanceAs (Decidable (l.bh = r.bh ∧ l.balanced ∧ r.balanced))

instance (t : Tree) : Decidable t.isRB :=
  inferInstanceAs (Decidable (t.rootBlack ∧ t.noRedRed ∧ t.balanced))

instance Owns.dec (m : Nat → rb_node) : (q : Nat) → (t : Tree) → Decidable (Owns m q t)
  | _, .nil => isTrue trivial
  | q, .node a c l r =>
    have := Owns.dec m a l
    have := Owns.dec m a r
    inferInstanceAs (Decidable (a ≠ 0 ∧ a % 4 = 0 ∧ a < UINTPTR_MOD ∧
      m a = ⟨q + c.bit, l.ptr, r.ptr⟩ ∧ Owns m a l ∧ Owns m a r))

instance (s : rb_state) (t : Tree) : Decidable (Represents s t) :=
  inferInstanceAs (Decidable (s.root = t.ptr ∧ Owns s.mem 0 t ∧ t.inorder.Nodup))

/-- Read the nodes reachable from `p` through the child pointers in in-order,
down to depth `fuel`. -/
def inorder_walk (s : rb_state) : Nat → Nat → List Nat
  | 0, _ => []
  | fuel + 1, p =>
    if p = 0 then []
    else inorder_walk s fuel (s.mem p).rb_left ++ p :: inorder_walk s fuel (s.mem p).rb_right

/-- A state with an empty tree; node memory is zero-filled. -/
def rb_empty : rb_state := ⟨0, fun _ => ⟨0, 0, 0⟩⟩

/-- Ordering callback used in the examples: compare node addresses. -/
def addr_less (a b : Nat) : Bool := decide (a < b)

/-- Add the nodes of a list one after the other with `rb_add`. -/
def rb_add_all (fuel : Nat) (less : Nat → Nat → Bool) :
    rb_state → List Nat → Except Fault rb_state
  | s, [] => .ok s
  | s, n :: ns =>
    match rb_add fuel s n less with
    | .error e => .error e
    | .ok s1 => rb_add_all fuel less s1 ns

/-- Erase the nodes of a list one after the other with `rb_erase`. -/
def rb_erase_all (fuel : Nat) : rb_state → List Nat → Except Fault rb_state
  | s, [] => .ok s
  | s, n :: ns =>
    match rb_erase fuel s n with
    | .error e => .error e
    | .ok s1 => rb_erase_all fuel s1 ns


/-! ## Paths: a tree with a hole -/

/-- One level of the path from a position in the tree up to the root: the
node at `a` with colour `c` whose other subtree is `sib`.  For `L` the
position is the left child of `a`, for `R` the right child. -/
inductive Frame where
  | L (a : Nat) (c : Color) (sib : Tree)
  | R (a : Nat) (c : Color) (sib : Tree)
deriving DecidableEq, Repr

/-- Address of the node of a frame. -/
def Frame.addr : Frame → Nat
  | .L a _ _ => a
  | .R a _ _ => a

/-- Colour of the node of a frame. -/
def Frame.color : Frame → Color
  | .L _ c _ => c
  | .R _ c _ => c

/-- Sibling subtree of a frame. -/
def Frame.sib : Frame → Tree
  | .L _ _ t => t
  | .R _ _ t => t

/-- Put the tree `t` at the position described by the path (innermost frame
first). -/
def plug : List Frame → Tree → Tree
  | [], t => t
  | .L a c sib :: fs, t => plug fs (.node a c t sib)
  | .R a c sib :: fs, t => plug fs (.node a c sib t)

/-- The parent pointer of the position described by a path. -/
def pathParent : List Frame → Nat
  | [] => 0
  | f :: _ => f.addr

/-- The child slot that holds the position described by a path. -/
def pathLink : List Frame → rb_link
  | [] => .root
  | .L a _ _ :: _ => .left a
  | .R a _ _ :: _ => .right a

/-- Addresses that come before the position in in-order. -/
def pathBefore : List Frame → List Nat
  | [] => []
  | .L _ _ _ :: fs => pathBefore fs
  | .R a _ sib :: fs => pathBefore fs ++ (sib.inorder ++ [a])

/-- Addresses that come after the position in in-order. -/
def pathAfter : List Frame → List Nat
  | [] => []
  | .L a _ sib :: fs => (a :: sib.inorder) ++ pathAfter fs
  | .R _ _ _ :: fs => pathAfter fs

/-- The memory holds the path: the slot of the position holds the pointer `h`,
every frame node has its parent/colour word and child pointers, and owns its
sibling subtree. -/
def OwnsPath (s : rb_state) : Nat → List Frame → Prop
  | h, [] => s.root = h
  | h, .L a c sib :: fs =>
    a ≠ 0 ∧ a % 4 = 0 ∧ a < UINTPTR_MOD ∧ s.mem a = ⟨pathParent fs + c.bit, h, sib.ptr⟩ ∧
      Owns s.mem a sib ∧ OwnsPath s a fs
  | h, .R a c sib :: fs =>
    a ≠ 0 ∧ a % 4 = 0 ∧ a < UINTPTR_MOD ∧ s.mem a = ⟨pathParent fs + c.bit, sib.ptr, h⟩ ∧
      Owns s.mem a sib ∧ OwnsPath s a fs

/-- Recolour the root of a tree black. -/
def Tree.setBlack : Tree → Tree
  | .nil => .nil
  | .node a _ l r => .node a .black l r

/-- Colour of the root; an absent tree counts as black. -/
def Tree.color : Tree → Color
  | .nil => .black
  | .node _ c _ _ => c

/-- The effect of one pass of the insertion loop on a tree given as a path and
the subtree rooted at `node`.  `none` stands for the shapes on which the loop
would read through a null grandparent. -/
def ins_iter : List Frame → Tree → Option (Ctl (List Frame × Tree) Tree)
  | _, .nil => none
  | [], .node n _ l r => some (.done (.node n .black l r))
  | .L p .black sib :: fs, .node n c l r =>
    some (.done (plug (.L p .black sib :: fs) (.node n c l r)))
  | .R p .black sib :: fs, .node n c l r =>
    some (.done (plug (.R p .black sib :: fs) (.node n c l r)))
  | [.L _ .red _], .node _ _ _ _ => none
  | [.R _ .red _], .node _ _ _ _ => none
  | .L p .red sib :: .L g gc u :: fs, .node n c l r =>
    match u with
    | .node ua .red ul ur =>
      some (.next (fs, .node g .red (.node p .black (.node n c l r) sib) (.node ua .black ul ur)))
    | _ => some (.done (plug fs (.node p gc (.node n c l r) (.node g .red sib.setBlack u))))
  | .R p .red sib :: .L g gc u :: fs, .node n c l r =>
    match u with
    | .node ua .red ul ur =>
      some (.next (fs, .node g .red (.node p .black sib (.node n c l r)) (.node ua .black ul ur)))
    | _ => some (.done (plug fs
        (.node n gc (.node p .red sib l.setBlack) (.node g .red r.setBlack u))))
  | .L p .red sib :: .R g gc u :: fs, .node n c l r =>
    match u with
    | .node ua .red ul ur =>
      some (.next (fs, .node g .red (.node ua .black ul ur) (.node p .black (.node n c l r) sib)))
    | _ => some (.done (plug fs
        (.node n gc (.node g .red u l.setBlack) (.node p .red r.setBlack sib))))
  | .R p .red sib :: .R g gc u :: fs, .node n c l r =>
    match u with
    | .node ua .red ul ur =>
      some (.next (fs, .node g .red (.node ua .black ul ur) (.node p .black sib (.node n c l r))))
    | _ => some (.done (plug fs (.node p gc (.node g .red u sib.setBlack) (.node n c l r))))

/-- The effect of the insertion loop on a path and subtree, at most `fuel`
passes. -/
def ins_loop : Nat → List Frame → Tree → Option Tree
  | 0, _, _ => none
  | fuel + 1, fs, t =>
    match ins_iter fs t with
    | none => none
    | some (.done T) => some T
    | some (.next (fs1, t1)) => ins_loop fuel fs1 t1

/-- Red-black validity of a path around a position that holds a subtree with
root colour `c` and black height `k`: every sibling subtree is valid and has
the black height of the position, a red frame has black children, and the
topmost frame is black. -/
def PathRB : List Frame → Color → Nat → Prop
  | [], c, _ => c = .black
  | f :: fs, c, k =>
    f.sib.noRedRed ∧ f.sib.balanced ∧ f.sib.bh = k ∧
      (f.color = .red → c = .black ∧ f.sib.rootBlack) ∧ PathRB fs f.color (k + f.color.bit)

/-- Loop invariant of the insertion loop: `node` is red, its subtree is valid
below the root, and the rest of the tree is valid around a black position of
the same black height. -/
def InsInv (fs : List Frame) (t : Tree) : Prop :=
  t.color = .red ∧ t.noRedRed ∧ t.balanced ∧ PathRB fs .black t.bh

/-- Example state: the root `80` (black) with left child `40` (red). -/
def ex_state_two : rb_state :=
  ⟨80, fun a => if a = 80 then ⟨1, 40, 0⟩ else if a = 40 then ⟨80, 0, 0⟩ else ⟨0, 0, 0⟩⟩

/-- The tree held by `ex_state_two`. -/
def ex_tree_two : Tree := .node 80 .black (.node 40 .red .nil .nil) .nil

instance EmptySlot.dec (s : rb_state) (t : Tree) (parent : Nat) :
    (link : rb_link) → Decidable (EmptySlot s t parent link)
  | .root => inferInstanceAs (Decidable (parent = 0 ∧ s.root = 0))
  | .left p => inferInstanceAs (Decidable (parent = p ∧ p ∈ t.inorder ∧ (s.mem p).rb_left = 0))
  | .right p => inferInstanceAs (Decidable (parent = p ∧ p ∈ t.inorder ∧ (s.mem p).rb_right = 0))

/-- The path that the search loop of `rb_add` follows from a tree position
down to an empty slot: left where `less node a` holds, right otherwise. -/
def descend (less : Nat → Nat → Bool) (n : Nat) : Tree → List Frame → List Frame
  | .nil, acc => acc
  | .node a c l r, acc =>
    if less n a then descend less n l (.L a c r :: acc) else descend less n r (.R a c l :: acc)

/-- A strict weak order given as a boolean callback: irreflexive, transitive,
and with transitive incomparability (stated as negative transitivity). -/
structure StrictWeakOrder (less : Nat → Nat → Bool) : Prop where
  irrefl : ∀ a, less a a = false
  trans : ∀ a b c, less a b = true → less b c = true → less a c = true
  neg_trans : ∀ a b c, less a b = false → less b c = false → less a c = false

/-- A sequence of nodes is sorted by `less`: no later node is less than an
earlier one. -/
def SortedBy (less : Nat → Nat → Bool) (l : List Nat) : Prop :=
  l.Pairwise (fun a b => less b a = false)

instance (less : Nat → Nat → Bool) (l : List Nat) : Decidable (SortedBy less l) :=
  inferInstanceAs (Decidable (l.Pairwise (fun a b => less b a = false)))

/-- Example state: the root `160` (black) with the red leaves `80` and `240`. -/
def ex_state_three : rb_state :=
  ⟨160, fun a =>
    if a = 160 then ⟨1, 80, 240⟩ else if a = 80 then ⟨160, 0, 0⟩
    else if a = 240 then ⟨160, 0, 0⟩ else ⟨0, 0, 0⟩⟩

/-- The tree held by `ex_state_three`. -/
def ex_tree_three : Tree :=
  .node 160 .black (.node 80 .red .nil .nil) (.node 240 .red .nil .nil)

/-- The fault a run ended with, if any. -/
def fault_of {α : Type} : Except Fault α → Option Fault
  | .error e => some e
  | .ok _ => none

/-- The state a run returned, if any. -/
def state_of : Except Fault rb_state → Option rb_state
  | .error _ => none
  | .ok s => some s

/-- Example tree: black root `160`, red left child `80` with black children
`40` and `120`, black right child `240`; `40` has the red left child `20`. -/
def erase_tree_six : Tree :=
  .node 160 .black
    (.node 80 .red (.node 40 .black (.node 20 .red .nil .nil) .nil) (.node 120 .black .nil .nil))
    (.node 240 .black .nil .nil)

/-- A state that holds `erase_tree_six`. -/
def erase_state_six : rb_state :=
  ⟨160, fun a =>
    if a = 160 then ⟨1, 80, 240⟩ else if a = 80 then ⟨160, 40, 120⟩
    else if a = 40 then ⟨81, 20, 0⟩ else if a = 20 then ⟨40, 0, 0⟩
    else if a = 120 then ⟨81, 0, 0⟩ else if a = 240 then ⟨161, 0, 0⟩ else ⟨0, 0, 0⟩⟩

/-- Example tree: black root `160`, red left child `80` with black children
`40` and `120`, black right child `240`. -/
def erase_tree_five : Tree :=
  .node 160 .black
    (.node 80 .red (.node 40 .black .nil .nil) (.node 120 .black .nil .nil))
    (.node 240 .black .nil .nil)

/-- A state that holds `erase_tree_five`. -/
def erase_state_five : rb_state :=
  ⟨160, fun a =>
    if a = 160 then ⟨1, 80, 240⟩ else if a = 80 then ⟨160, 40, 120⟩
    else if a = 40 then ⟨81, 0, 0⟩ else if a = 120 then ⟨81, 0, 0⟩
    else if a = 240 then ⟨161, 0, 0⟩ else ⟨0, 0, 0⟩⟩

/-- Example tree: black root `160` with black children `80` and `240`; `80`
has the red left child `40` (the tree after adding 160, 80, 240, 40). -/
def erase_tree_four : Tree :=
  .node 160 .black (.node 80 .black (.node 40 .red .nil .nil) .nil) (.node 240 .black .nil .nil)

/-- A state that holds `erase_tree_four`. -/
def erase_state_four : rb_state :=
  ⟨160, fun a =>
    if a = 160 then ⟨1, 80, 240⟩ else if a = 80 then ⟨161, 40, 0⟩
    else if a = 40 then ⟨80, 0, 0⟩ else if a = 240 then ⟨161, 0, 0⟩ else ⟨0, 0, 0⟩⟩

/-! ## `rbtree.h`: lookup -/

/-- The `while (cur)` loop of `rb_find`, at most `fuel` passes.  The function
takes a `const` root and contains no store, so the embedding reads the state
and returns only the node found. -/
def rb_find_loop {κ : Type} (key : κ) (compar : κ → Nat → Int) :
    Nat → rb_state → Nat → Except Fault Nat
  | 0, _, _ => .error .out_of_fuel
  | fuel + 1, s, cur =>
    if cur = 0 then .ok 0
    else
      let c := compar key cur
      if c < 0 then
        match get_left s cur with
        | .error e => .error e
        | .ok l => rb_find_loop key compar fuel s l
      else if c > 0 then
        match get_right s cur with
        | .error e => .error e
        | .ok r => rb_find_loop key compar fuel s r
      else .ok cur

/-- Inline function `rb_find`. -/
def rb_find {κ : Type} (fuel : Nat) (s : rb_state) (key : κ) (compar : κ → Nat → Int) :
    Except Fault Nat :=
  rb_find_loop key compar fuel s s.root

/-- A sequence of nodes is ordered for a three-way comparison against a fixed
key: the sign of the comparison never increases along the sequence, so the
nodes before the key come first, then the nodes equal to it, then the nodes
after it. -/
def SearchOrdered (cmp : Nat → Int) (l : List Nat) : Prop :=
  l.Pairwise (fun a b => (cmp b).sign ≤ (cmp a).sign)

instance (cmp : Nat → Int) (l : List Nat) : Decidable (SearchOrdered cmp l) :=
  inferInstanceAs (Decidable (l.Pairwise _))

/-! ## Rotation hook trace of the insertion loop -/

/-- The rotations of one pass of the insertion loop on a path and subtree, in
the order performed, each as the pair (root of the rotated subtree before the
rotation, root after it): none for a recolouring pass or a pass that stops,
one at the grandparent for the outer shapes, and one at the parent followed by
one at the grandparent for the inner shapes. -/
def ins_iter_rots : List Frame → Tree → List (Nat × Nat)
  | .L p .red _ :: .L g _ u :: _, .node _ _ _ _ =>
    match u with
    | .node _ .red _ _ => []
    | _ => [(g, p)]
  | .R p .red _ :: .L g _ u :: _, .node n _ _ _ =>
    match u with
    | .node _ .red _ _ => []
    | _ => [(p, n), (g, n)]
  | .L p .red _ :: .R g _ u :: _, .node n _ _ _ =>
    match u with
    | .node _ .red _ _ => []
    | _ => [(p, n), (g, n)]
  | .R p .red _ :: .R g _ u :: _, .node _ _ _ _ =>
    match u with
    | .node _ .red _ _ => []
    | _ => [(g, p)]
  | _, _ => []

/-- The rotations of the whole insertion loop, at most `fuel` passes. -/
def ins_loop_rots : Nat → List Frame → Tree → List (Nat × Nat)
  | 0, _, _ => []
  | fuel + 1, fs, t =>
    match ins_iter fs t with
    | some (.next (fs1, t1)) => ins_iter_rots fs t ++ ins_loop_rots fuel fs1 t1
    | _ => ins_iter_rots fs t

/-- The hook state after the calls `h old new` for a list of rotations, in
order. -/
def run_hook {σ : Type} (h : Nat → Nat → σ → σ) (rots : List (Nat × Nat)) (aug : σ) : σ :=
  rots.foldl (fun a r => h r.1 r.2 a) aug

/-! ## Abstract side of the structural phase of removal -/

/-- The tree with its root given the colour `c` (the empty tree is unchanged). -/
def Tree.setColor (c : Color) : Tree → Tree
  | .nil => .nil
  | .node a _ l r => .node a c l r

/-- A frame whose hole is the left child of its node. -/
def Frame.isLeft : Frame → Bool
  | .L _ _ _ => true
  | .R _ _ _ => false

/-- The contents of the node of a frame whose parent is `parent` and whose
hole holds the pointer `h`. -/
def Frame.cell (parent h : Nat) : Frame → rb_node
  | .L _ c sib => ⟨parent + c.bit, h, sib.ptr⟩
  | .R _ c sib => ⟨parent + c.bit, sib.ptr, h⟩

/-- The parent pointer of the position described by a path segment whose
topmost frame hangs below `q`. -/
def segParent (q : Nat) : List Frame → Nat
  | [] => q
  | f :: _ => f.addr

/-- The root of the subtree described by a path segment around a position that
holds `h`: the node of the topmost frame, or `h` for the empty segment. -/
def segTop (h : Nat) : List Frame → Nat
  | [] => h
  | f :: fs => segTop f.addr fs

/-- The nodes of a path segment: the frame nodes and their sibling subtrees. -/
def segFoot : List Frame → List Nat
  | [] => []
  | f :: fs => f.addr :: (f.sib.inorder ++ segFoot fs)

/-- The memory holds a path segment (innermost frame first) whose position
holds the pointer `h` and whose topmost frame hangs below `q`. -/
def OwnsSeg (m : Nat → rb_node) (q : Nat) : Nat → List Frame → Prop
  | _, [] => True
  | h, f :: fs =>
    f.addr ≠ 0 ∧ f.addr % 4 = 0 ∧ f.addr < UINTPTR_MOD ∧ m f.addr = f.cell (segParent q fs) h ∧
      Owns m f.addr f.sib ∧ OwnsSeg m q f.addr fs

/-! ## Mirror images -/

/-- The mirror image of a state: every node has its two child pointers
exchanged. -/
def rb_state.mirror (s : rb_state) : rb_state :=
  ⟨s.root, fun a => ⟨(s.mem a).__rb_parent_color, (s.mem a).rb_right, (s.mem a).rb_left⟩⟩

/-- The mirror image of a tree. -/
def Tree.mirror : Tree → Tree
  | .nil => .nil
  | .node a c l r => .node a c r.mirror l.mirror

/-- The tree `erase_tree_five` without its black leaf `240`: the right slot of
the root is empty and one black node short. -/
def erase_tree_short : Tree :=
  .node 160 .black (.node 80 .red (.node 40 .black .nil .nil) (.node 120 .black .nil .nil)) .nil

/-- A state that holds `erase_tree_short`, as `__rb_erase` leaves it when the
node `240` is removed from `erase_state_five`. -/
def erase_state_short : rb_state :=
  ⟨160, fun a =>
    if a = 160 then ⟨1, 80, 0⟩ else if a = 80 then ⟨160, 40, 120⟩
    else if a = 40 then ⟨81, 0, 0⟩ else if a = 120 then ⟨81, 0, 0⟩
    else if a = 240 then ⟨161, 0, 0⟩ else ⟨0, 0, 0⟩⟩

/-! ## Example states for the removal rebalance -/

/-- Example tree: black root `320` with the red left child `160` and the black
right child `400`; `160` has lost its black left child and keeps the black
right child `240`. -/
def erase_tree_case2 : Tree :=
  .node 320 .black (.node 160 .red .nil (.node 240 .black .nil .nil)) (.node 400 .black .nil .nil)

/-- A state that holds `erase_tree_case2`. -/
def erase_state_case2 : rb_state :=
  ⟨320, fun a =>
    if a = 320 then ⟨1, 160, 400⟩ else if a = 160 then ⟨320, 0, 240⟩
    else if a = 240 then ⟨161, 0, 0⟩ else if a = 400 then ⟨321, 0, 0⟩ else ⟨0, 0, 0⟩⟩

/-- Example tree: black root `160` with the black leaf `80` on the left and the
black node `240` on the right, which has the red right child `320`. -/
def erase_tree_case5 : Tree :=
  .node 160 .black (.node 80 .black .nil .nil) (.node 240 .black .nil (.node 320 .red .nil .nil))

/-- A state that holds `erase_tree_case5`. -/
def erase_state_case5 : rb_state :=
  ⟨160, fun a =>
    if a = 160 then ⟨1, 80, 240⟩ else if a = 80 then ⟨161, 0, 0⟩
    else if a = 240 then ⟨161, 0, 320⟩ else if a = 320 then ⟨240, 0, 0⟩ else ⟨0, 0, 0⟩⟩

/-- When a pass of the removal rebalance asks for another pass: the root handle
it leaves and the loop variables `node` and `parent` of the next pass. -/
def next_of : Except Fault (Ctl (rb_state × Nat × Nat) rb_state) → Option (Nat × Nat × Nat)
  | .ok (.next (s, node, parent)) => some (s.root, node, parent)
  | _ => none

/-! ## `refcount.c`: reference counters -/

/-- The constant `UINT32_MAX` of `<stdint.h>`. -/
def UINT32_MAX : Nat := 4294967295

/-- The constant `INT32_MAX` of `<stdint.h>`. -/
def INT32_MAX : Nat := 2147483647

/-- The type `struct rc`; the counter is a `uint32_t`. -/
structure rc where
  ref : Nat
deriving DecidableEq

/-- The type `struct arc`; the counter is an `atomic_uint`.  Under sequential
execution an atomic read-modify-write is a plain one. -/
structure arc where
  ref : Nat
deriving DecidableEq

/-- How a call that may reach `abort()` ends: it returns with the memory and a
value, or the process aborts with the memory as it is at that point. -/
inductive Run (σ α : Type) where
  | ret (mem : σ) (val : α)
  | abort (mem : σ)
deriving DecidableEq

/-- Function `rc_init`; `none` is the null pointer. -/
def rc_init (refcount : Option rc) : Run (Option rc) Unit :=
  match refcount with
  | none => .ret none ()
  | some _ => .ret (some ⟨0⟩) ()

/-- Function `rc_inc`. -/
def rc_inc (refcount : Option rc) : Run (Option rc) Unit :=
  match refcount with
  | none => .ret none ()
  | some r =>
    let v := r.ref
    if v = UINT32_MAX then .abort (some r)
    else
      let v := (v + 1) % 4294967296
      .ret (some ⟨v⟩) ()

/-- Function `rc_dec`. -/
def rc_dec (refcount : Option rc) : Run (Option rc) Bool :=
  match refcount with
  | none => .ret none false
  | some r =>
    let old_val := r.ref
    .ret (some ⟨(old_val + 4294967295) % 4294967296⟩) (if old_val = 1 then true else false)

/-- Function `rc_cmp`. -/
def rc_cmp (refcount : Option rc) (val : Nat) : Bool :=
  match refcount with
  | none => false
  | some r => decide (r.ref = val)

/-- Function `arc_init`. -/
def arc_init (refcount : Option arc) : Run (Option arc) Unit :=
  match refcount with
  | none => .ret none ()
  | some _ => .ret (some ⟨0⟩) ()

/-- Function `arc_inc`: the fetch-and-add comes first, the test of the old
value after it. -/
def arc_inc (refcount : Option arc) : Run (Option arc) Unit :=
  match refcount with
  | none => .ret none ()
  | some r =>
    let old_val := r.ref
    let m : Option arc := some ⟨(old_val + 1) % 4294967296⟩
    if old_val = INT32_MAX then .abort m else .ret m ()

/-- Function `arc_dec`. -/
def arc_dec (refcount : Option arc) : Run (Option arc) Bool :=
  match refcount with
  | none => .ret none false
  | some r =>
    let old_val := r.ref
    .ret (some ⟨(old_val + 4294967295) % 4294967296⟩) (if old_val = 1 then true else false)

/-- Function `arc_cmp`. -/
def arc_cmp (refcount : Option arc) (val : Nat) : Bool :=
  match refcount with
  | none => false
  | some r => decide (r.ref = val)

/-! ## `minico.h`: stackless coroutines -/

/-- The type `co_state_t`. -/
inductive co_state where
  | CO_STATE_INIT
  | CO_STATE_RUN
  | CO_STATE_YIELD
  | CO_STATE_FINISH
deriving DecidableEq

/-- The type `struct co_block`.  The task pointer `fn` and the pointer `data`
are addresses, `0` for null; `label` is a `uint32_t`. -/
structure co_block where
  state : co_state
  fn : Nat
  data : Nat
  label : Nat
deriving DecidableEq

/-- What the task pointers designate: the function at an address takes the
block and the data pointer and returns the block it leaves and its `int`
result, or does not return (`none`). -/
@[reducible] def co_tasks : Type := Nat → co_block → Nat → Option (co_block × Int)

/-- A block as `struct co_block co = { 0 }` leaves it. -/
def co_zero : co_block := ⟨.CO_STATE_INIT, 0, 0, 0⟩

/-- Inline function `co_init`. -/
def co_init (_co : co_block) (fn data : Nat) : co_block :=
  ⟨.CO_STATE_INIT, fn, data, 0⟩

/-- Inline function `co_poll`. -/
def co_poll (tasks : co_tasks) (co : co_block) : Option (co_block × Int) :=
  if co.state = .CO_STATE_FINISH then some (co, 0)
  else
    let co := { co with state := .CO_STATE_RUN }
    if co.fn ≠ 0 then tasks co.fn co co.data
    else some ({ co with state := .CO_STATE_FINISH }, 0)

/-- Inline function `co_stop`. -/
def co_stop (co : co_block) : co_block × Int :=
  ({ co with state := .CO_STATE_FINISH }, 0)

/-- Inline function `co_done`. -/
def co_done (co : co_block) : Bool :=
  decide (co.state = .CO_STATE_FINISH)

/-- The statements of a task body from a point before the yields `ys` (source
line and value of each `CO_YIELD`), `CO_END` and `return r`: a `CO_YIELD`
stores its line in the label, sets the state and returns its value; `CO_END`
sets the state, and the `return` after it gives `r`. -/
def co_body_from (ys : List (Nat × Int)) (r : Int) (co : co_block) : co_block × Int :=
  match ys with
  | [] => ({ co with state := .CO_STATE_FINISH }, r)
  | (line, v) :: _ =>
    ({ co with label := line % 4294967296, state := .CO_STATE_YIELD }, v)

/-- The jump of `switch ((co)->label)` to the `case __LINE__:` inside one of
the yields `ys`: execution goes on after that yield (the `break` leaves its
`do ... while (0)`).  When no case matches, the body of the switch is skipped
and the `return r` after it is reached. -/
def co_body_resume : List (Nat × Int) → Int → co_block → co_block × Int
  | [], r, co => (co, r)
  | (line, _) :: rest, r, co =>
    if co.label = line % 4294967296 then co_body_from rest r co
    else co_body_resume rest r co

/-- A task whose body is `CO_BEGIN(co);`, one `CO_YIELD(co, v)` for each entry
`(line, v)` of `ys`, `CO_END(co);` and `return r;`, as the macros expand:
`case 0:` stands before the first statement. -/
def co_body (ys : List (Nat × Int)) (r : Int) (co : co_block) (_data : Nat) :
    Option (co_block × Int) :=
  if co.label = 0 then some (co_body_from ys r co) else some (co_body_resume ys r co)

/-- The results of `n` calls of `co_poll` in a row, and the block they leave. -/
def co_poll_seq (tasks : co_tasks) : Nat → co_block → Option (co_block × List Int)
  | 0, co => some (co, [])
  | n + 1, co =>
    match co_poll tasks co with
    | none => none
    | some (co1, v) =>
      match co_poll_seq tasks n co1 with
      | none => none
      | some (co2, vs) => some (co2, v :: vs)

/-- The block of a task at address `fn` with data `data` after the yields
`pre` have been passed, one per call of `co_poll`: fresh from `co_init`, or
stopped at the last yield of `pre`. -/
def co_at (fn data : Nat) (pre : List (Nat × Int)) : co_block :=
  match pre.getLast? with
  | none => ⟨.CO_STATE_INIT, fn, data, 0⟩
  | some y => ⟨.CO_STATE_YIELD, fn, data, y.1⟩

/-! ## Traversal

`rb_first`, `rb_last`, `rb_next` and `rb_prev` are declared in `rbtree.h` and
used by the tests, but no source file defines them. -/

/-- Modelled from the spec: the descent "all-left" from a node, the loop of
`rb_first` and of the first case of `rb_next`; the functions are only declared
in `rbtree.h`. -/
def rb_leftmost : Nat → rb_state → Nat → Except Fault Nat
  | 0, _, _ => .error .out_of_fuel
  | fuel + 1, s, node =>
    match get_left s node with
    | .error e => .error e
    | .ok l => if l = 0 then .ok node else rb_leftmost fuel s l

/-- Modelled from the spec: the descent "all-right" from a node, the loop of
`rb_last` and of the first case of `rb_prev`. -/
def rb_rightmost : Nat → rb_state → Nat → Except Fault Nat
  | 0, _, _ => .error .out_of_fuel
  | fuel + 1, s, node =>
    match get_right s node with
    | .error e => .error e
    | .ok r => if r = 0 then .ok node else rb_rightmost fuel s r

/-- Modelled from the spec: `rb_first` (declared in `rbtree.h`, not defined
under `src/`): "descend all-left from root"; null for the empty tree. -/
def rb_first (fuel : Nat) (s : rb_state) : Except Fault Nat :=
  if s.root = 0 then .ok 0 else rb_leftmost fuel s s.root

/-- Modelled from the spec: `rb_last` (declared in `rbtree.h`, not defined
under `src/`): "descend all-right from root"; null for the empty tree. -/
def rb_last (fuel : Nat) (s : rb_state) : Except Fault Nat :=
  if s.root = 0 then .ok 0 else rb_rightmost fuel s s.root

/-- Modelled from the spec: the second case of `rb_next`, "climb parent links
until arriving via a left child edge"; null when the root is passed. -/
def rb_climb_next : Nat → rb_state → Nat → Except Fault Nat
  | 0, _, _ => .error .out_of_fuel
  | fuel + 1, s, node =>
    match rb_parent s node with
    | .error e => .error e
    | .ok parent =>
      if parent = 0 then .ok 0
      else
        match get_left s parent with
        | .error e => .error e
        | .ok l => if l = node then .ok parent else rb_climb_next fuel s parent

/-- Modelled from the spec: the second case of `rb_prev`, "climb parent links
until arriving via a right child edge"; null when the root is passed. -/
def rb_climb_prev : Nat → rb_state → Nat → Except Fault Nat
  | 0, _, _ => .error .out_of_fuel
  | fuel + 1, s, node =>
    match rb_parent s node with
    | .error e => .error e
    | .ok parent =>
      if parent = 0 then .ok 0
      else
        match get_right s parent with
        | .error e => .error e
        | .ok r => if r = node then .ok parent else rb_climb_prev fuel s parent

/-- Modelled from the spec: `rb_next` (declared in `rbtree.h`, not defined
under `src/`): "if a right child exists, descend to its leftmost descendant;
otherwise climb parent links until arriving via a left child edge". -/
def rb_next (fuel : Nat) (s : rb_state) (cur : Nat) : Except Fault Nat :=
  match get_right s cur with
  | .error e => .error e
  | .ok r => if r ≠ 0 then rb_leftmost fuel s r else rb_climb_next fuel s cur

/-- Modelled from the spec: `rb_prev` (declared in `rbtree.h`, not defined
under `src/`): "if a left child exists, descend to its rightmost descendant;
otherwise climb parent links until arriving via a right child edge". -/
def rb_prev (fuel : Nat) (s : rb_state) (cur : Nat) : Except Fault Nat :=
  match get_left s cur with
  | .error e => .error e
  | .ok l => if l ≠ 0 then rb_rightmost fuel s l else rb_climb_prev fuel s cur

/-- The loop `for (rb = start; rb; rb = step(rb))` of the test function
`check`, at most `k` passes: the nodes visited, in order. -/
def rb_walk (step : Nat → Except Fault Nat) : Nat → Nat → Except Fault (List Nat)
  | 0, _ => .error .out_of_fuel
  | k + 1, cur =>
    if cur = 0 then .ok []
    else
      match step cur with
      | .error e => .error e
      | .ok nx =>
        match rb_walk step k nx with
        | .error e => .error e
        | .ok rest => .ok (cur :: rest)

/-! ## Example states for the removal rebalance and the rotations -/

/-- Example tree: black root `160` with the black leaf `80` on the left and the
black node `240` on the right, which has the red children `200` and `320`. -/
def erase_tree_case5_full : Tree :=
  .node 160 .black (.node 80 .black .nil .nil)
    (.node 240 .black (.node 200 .red .nil .nil) (.node 320 .red .nil .nil))

/-- A state that holds `erase_tree_case5_full`. -/
def erase_state_case5_full : rb_state :=
  ⟨160, fun a =>
    if a = 160 then ⟨1, 80, 240⟩ else if a = 80 then ⟨161, 0, 0⟩
    else if a = 240 then ⟨161, 200, 320⟩ else if a = 200 then ⟨240, 0, 0⟩
    else if a = 320 then ⟨240, 0, 0⟩ else ⟨0, 0, 0⟩⟩

/-- Example tree: black root `160` with the black leaves `80` and `240`. -/
def erase_tree_case3 : Tree :=
  .node 160 .black (.node 80 .black .nil .nil) (.node 240 .black .nil .nil)

/-- A state that holds `erase_tree_case3`. -/
def erase_state_case3 : rb_state :=
  ⟨160, fun a =>
    if a = 160 then ⟨1, 80, 240⟩ else if a = 80 then ⟨161, 0, 0⟩
    else if a = 240 then ⟨161, 0, 0⟩ else ⟨0, 0, 0⟩⟩

/-- The state a pass of the removal rebalance hands to the next pass, if it
asks for one. -/
def next_state_of : Except Fault (Ctl (rb_state × Nat × Nat) rb_state) → Option rb_state
  | .ok (.next (s, _, _)) => some s
  | _ => none

/-- The three words of the node at `a`, with the parent/colour word decoded
into parent pointer and colour bit: parent, colour, left, right. -/
def node_view (s : rb_state) (a : Nat) : List Nat :=
  [__rb_parent (s.mem a).__rb_parent_color, __rb_color (s.mem a).__rb_parent_color,
    (s.mem a).rb_left, (s.mem a).rb_right]

/-! ## Parent links -/

/-- Parent links of the nodes in `nodes` are consistent in the state `s`: the
node the root handle points to has a null parent, and for every other node
`rb_parent` is a node of `nodes` that has it as its left or right child. -/
def ParentLinked (s : rb_state) (nodes : List Nat) : Prop :=
  ∀ a ∈ nodes, a ≠ 0 ∧
    (a = s.root → __rb_parent (s.mem a).__rb_parent_color = 0) ∧
    (a ≠ s.root →
      __rb_parent (s.mem a).__rb_parent_color ∈ nodes ∧
      ((s.mem (__rb_parent (s.mem a).__rb_parent_color)).rb_left = a ∨
        (s.mem (__rb_parent (s.mem a).__rb_parent_color)).rb_right = a))

/-! ## Insertion: the loop variables pass by pass -/

/-- The state and the loop variables `node` and `parent` at the start of every
pass of the `while (true)` loop of `__rb_insert`, at most `fuel` passes; a pass
is followed by another one exactly when `__rb_insert_iter` takes the
`continue`. -/
def __rb_insert_passes {σ : Type} (augment_rotate : rb_state → Nat → Nat → σ → σ) :
    Nat → rb_state → σ → Nat → Nat → List (rb_state × Nat × Nat)
  | 0, _, _, _, _ => []
  | fuel + 1, s, aug, node, parent =>
    (s, node, parent) ::
      match __rb_insert_iter augment_rotate s aug node parent with
      | .ok (.next (s1, aug1, node1, parent1)) =>
        __rb_insert_passes augment_rotate fuel s1 aug1 node1 parent1
      | _ => []

/-- The passes of the loop that `rb_insert_color` runs: `__rb_insert` reads
`parent` with `rb_red_parent(node)` and enters the loop. -/
def rb_insert_color_passes (fuel : Nat) (s : rb_state) (node : Nat) :
    List (rb_state × Nat × Nat) :=
  match rb_red_parent s node with
  | .ok parent => __rb_insert_passes augment_rotate fuel s () node parent
  | .error _ => []

/-! ## Writes that stay inside a set of nodes -/

/-- The set of addresses `A` is closed in the memory `m`: its members are
non-null aligned addresses, the word of a member is a parent pointer plus a
colour bit, and the parent pointer and the two child pointers stored at a
member are null or members. -/
def Closed (A : Nat → Prop) (m : Nat → rb_node) : Prop :=
  ∀ a, A a → a ≠ 0 ∧ a % 4 = 0 ∧ a < UINTPTR_MOD ∧
    (∃ p b, (m a).__rb_parent_color = p + b ∧ b ≤ 1 ∧ (p = 0 ∨ A p)) ∧
    ((m a).rb_left = 0 ∨ A (m a).rb_left) ∧ ((m a).rb_right = 0 ∨ A (m a).rb_right)

/-- The state `s` differs from the memory `m0` only inside the set `A`, which
is closed in `s`. -/
def Within (A : Nat → Prop) (m0 : Nat → rb_node) (s : rb_state) : Prop :=
  Closed A s.mem ∧ ∀ a, ¬ A a → s.mem a = m0 a

/-- The result of a run satisfies `P` if the run returns. -/
def Ensures {α : Type} (P : α → Prop) : Except Fault α → Prop
  | .ok a => P a
  | .error _ => True

/-- What a pass of the removal rebalance hands on stays inside `A`: the state,
and the loop variables `node` and `parent` of the next pass. -/
def WithinCtl (A : Nat → Prop) (m0 : Nat → rb_node) :
    Ctl (rb_state × Nat × Nat) rb_state → Prop
  | .next (s, node, parent) => Within A m0 s ∧ (node = 0 ∨ A node) ∧ (parent = 0 ∨ A parent)
  | .done s => Within A m0 s

/-- The state at the start of every pass of the `while (true)` loop of
`__rb_erase_rebalance`, at most `fuel` passes; a pass is followed by another
one exactly when `__rb_erase_rebalance_iter` does not `break`. -/
def __rb_erase_rebalance_passes : Nat → rb_state → Nat → Nat → List rb_state
  | 0, _, _, _ => []
  | fuel + 1, s, node, parent =>
    s ::
      match __rb_erase_rebalance_iter s node parent with
      | .ok (.next (s1, node1, parent1)) => __rb_erase_rebalance_passes fuel s1 node1 parent1
      | _ => []

/-! # Theorems -/

/-! ## Basic facts about the machine model -/

theorem rb_parent_mask (q b : Nat) (hq : q % 4 = 0) (hlt : q < UINTPTR_MOD) (hb : b ≤ 1) :
    __rb_parent (q + b) = q := by
  unfold __rb_parent
  unfold UINTPTR_MOD at hlt
  obtain ⟨k, rfl⟩ : ∃ k, q = 2 ^ 2 * k := ⟨q / 4, by omega⟩
  have hk : k < 2 ^ 62 := by omega
  have hmask : (18446744073709551612 : Nat) = 2 ^ 2 * (2 ^ 62 - 1) + 0 := by norm_num
  have hb2 : b < 2 ^ 2 := by omega
  apply Nat.eq_of_testBit_eq
  intro i
  rw [Nat.testBit_land, hmask, Nat.testBit_mul_pow_two_add k hb2,
    Nat.testBit_mul_pow_two_add _ (by norm_num : 0 < 2 ^ 2),
    show 2 ^ 2 * k = 2 ^ 2 * k + 0 from rfl, Nat.testBit_mul_pow_two_add k (by norm_num : 0 < 2 ^ 2)]
  by_cases hi : i < 2
  · simp [hi]
  · simp only [hi, if_false, Nat.testBit_two_pow_sub_one]
    by_cases h62 : i - 2 < 62
    · simp [h62]
    · have : k < 2 ^ (i - 2) := lt_of_lt_of_le hk (Nat.pow_le_pow_right (by norm_num) (by omega))
      simp [Nat.testBit_lt_two_pow this]

theorem rb_color_mask (q b : Nat) (hq : q % 4 = 0) (hb : b ≤ 1) :
    __rb_color (q + b) = b := by
  unfold __rb_color
  rw [Nat.and_one_is_mod]
  omega

theorem Color.bit_le (c : Color) : c.bit ≤ 1 := by cases c <;> simp [Color.bit]

@[simp] theorem mem_wr_pc (s : rb_state) (p v a : Nat) :
    (s.wr_pc p v).mem a =
      if a = p then ⟨v, (s.mem p).rb_left, (s.mem p).rb_right⟩ else s.mem a := by
  simp [rb_state.wr_pc, Function.update_apply]

@[simp] theorem mem_wr_left (s : rb_state) (p v a : Nat) :
    (s.wr_left p v).mem a =
      if a = p then ⟨(s.mem p).__rb_parent_color, v, (s.mem p).rb_right⟩ else s.mem a := by
  simp [rb_state.wr_left, Function.update_apply]

@[simp] theorem mem_wr_right (s : rb_state) (p v a : Nat) :
    (s.wr_right p v).mem a =
      if a = p then ⟨(s.mem p).__rb_parent_color, (s.mem p).rb_left, v⟩ else s.mem a := by
  simp [rb_state.wr_right, Function.update_apply]

@[simp] theorem root_wr_pc (s : rb_state) (p v : Nat) : (s.wr_pc p v).root = s.root := rfl
@[simp] theorem root_wr_left (s : rb_state) (p v : Nat) : (s.wr_left p v).root = s.root := rfl
@[simp] theorem root_wr_right (s : rb_state) (p v : Nat) : (s.wr_right p v).root = s.root := rfl

/-! ## Representation lemmas -/

theorem Owns_congr {m m1 : Nat → rb_node} {q : Nat} {t : Tree}
    (h : ∀ a ∈ t.inorder, m1 a = m a) (ho : Owns m q t) : Owns m1 q t := by
  induction t generalizing q with
  | nil => trivial
  | node a c l r ihl ihr =>
    simp only [Owns] at ho ⊢
    obtain ⟨h0, h4, hlt, hm, hl, hr⟩ := ho
    refine ⟨h0, h4, hlt, ?_, ihl (fun x hx => h x ?_) hl, ihr (fun x hx => h x ?_) hr⟩
    · rw [h a (by simp [Tree.inorder]), hm]
    · simp [Tree.inorder, hx]
    · simp [Tree.inorder, hx]

theorem Owns_ptr_ne_zero {m : Nat → rb_node} {q : Nat} {t : Tree} (ho : Owns m q t) :
    ∀ a ∈ t.inorder, a ≠ 0 := by
  induction t generalizing q with
  | nil => simp [Tree.inorder]
  | node a c l r ihl ihr =>
    simp only [Owns] at ho
    obtain ⟨h0, -, -, -, hl, hr⟩ := ho
    intro x hx
    simp only [Tree.inorder, List.mem_append, List.mem_cons] at hx
    rcases hx with hx | rfl | hx
    · exact ihl hl x hx
    · exact h0
    · exact ihr hr x hx

theorem Tree.ptr_mem {t : Tree} (h : t.ptr ≠ 0) : t.ptr ∈ t.inorder := by
  cases t with
  | nil => simp [Tree.ptr] at h
  | node a c l r => simp [Tree.ptr, Tree.inorder]

theorem inorder_plug (fs : List Frame) (t : Tree) :
    (plug fs t).inorder = pathBefore fs ++ (t.inorder ++ pathAfter fs) := by
  induction fs generalizing t with
  | nil => simp [plug, pathBefore, pathAfter]
  | cons f fs ih =>
    cases f <;> simp [plug, pathBefore, pathAfter, ih, Tree.inorder]

theorem OwnsPath_congr {s s1 : rb_state} {h : Nat} {fs : List Frame}
    (hroot : s1.root = s.root)
    (hm : ∀ a ∈ pathBefore fs ++ pathAfter fs, s1.mem a = s.mem a)
    (ho : OwnsPath s h fs) : OwnsPath s1 h fs := by
  induction fs generalizing h with
  | nil => simpa [OwnsPath, hroot] using ho
  | cons f fs ih =>
    cases f with
    | L a c sib =>
      simp only [OwnsPath] at ho ⊢
      obtain ⟨h0, h4, hlt, hma, hs, hp⟩ := ho
      refine ⟨h0, h4, hlt, ?_, Owns_congr (fun x hx => hm x ?_) hs, ih (fun x hx => hm x ?_) hp⟩
      · rw [hm a (by simp [pathAfter]), hma]
      · simp [pathAfter, hx]
      · simp only [pathBefore, pathAfter, List.mem_append, List.mem_cons] at hx ⊢
        tauto
    | R a c sib =>
      simp only [OwnsPath] at ho ⊢
      obtain ⟨h0, h4, hlt, hma, hs, hp⟩ := ho
      refine ⟨h0, h4, hlt, ?_, Owns_congr (fun x hx => hm x ?_) hs, ih (fun x hx => hm x ?_) hp⟩
      · rw [hm a (by simp [pathBefore]), hma]
      · simp [pathBefore, hx]
      · simp only [pathBefore, pathAfter, List.mem_append, List.mem_cons] at hx ⊢
        tauto

theorem owns_plug (s : rb_state) (fs : List Frame) (t : Tree) :
    (s.root = (plug fs t).ptr ∧ Owns s.mem 0 (plug fs t)) ↔
      (OwnsPath s t.ptr fs ∧ Owns s.mem (pathParent fs) t) := by
  induction fs generalizing t with
  | nil => simp [plug, OwnsPath, pathParent]
  | cons f fs ih =>
    cases f with
    | L a c sib =>
      rw [plug, ih]
      simp only [OwnsPath, Owns, Tree.ptr, pathParent, Frame.addr]
      constructor
      · rintro ⟨hp, h0, h4, hlt, hm, h1, h2⟩
        exact ⟨⟨h0, h4, hlt, hm, by assumption, hp⟩, by assumption⟩
      · rintro ⟨⟨h0, h4, hlt, hm, h1, hp⟩, h2⟩
        exact ⟨hp, h0, h4, hlt, hm, by assumption, by assumption⟩
    | R a c sib =>
      rw [plug, ih]
      simp only [OwnsPath, Owns, Tree.ptr, pathParent, Frame.addr]
      constructor
      · rintro ⟨hp, h0, h4, hlt, hm, h1, h2⟩
        exact ⟨⟨h0, h4, hlt, hm, by assumption, hp⟩, by assumption⟩
      · rintro ⟨⟨h0, h4, hlt, hm, h1, hp⟩, h2⟩
        exact ⟨hp, h0, h4, hlt, hm, by assumption, by assumption⟩

theorem represents_plug (s : rb_state) (fs : List Frame) (t : Tree) :
    Represents s (plug fs t) ↔
      (OwnsPath s t.ptr fs ∧ Owns s.mem (pathParent fs) t ∧
        (pathBefore fs ++ (t.inorder ++ pathAfter fs)).Nodup) := by
  unfold Represents
  rw [← and_assoc, owns_plug, inorder_plug, and_assoc]

@[simp] theorem Tree.ptr_nil : Tree.nil.ptr = 0 := rfl
@[simp] theorem Tree.ptr_node (a : Nat) (c : Color) (l r : Tree) : (Tree.node a c l r).ptr = a := rfl
@[simp] theorem Tree.color_nil : Tree.nil.color = .black := rfl
@[simp] theorem Tree.color_node (a : Nat) (c : Color) (l r : Tree) :
    (Tree.node a c l r).color = c := rfl
@[simp] theorem pathParent_nil : pathParent [] = 0 := rfl
@[simp] theorem pathParent_cons (f : Frame) (fs : List Frame) : pathParent (f :: fs) = f.addr := rfl
@[simp] theorem Frame.addr_L (a : Nat) (c : Color) (t : Tree) : (Frame.L a c t).addr = a := rfl
@[simp] theorem Frame.addr_R (a : Nat) (c : Color) (t : Tree) : (Frame.R a c t).addr = a := rfl
@[simp] theorem Color.bit_red : Color.red.bit = 0 := rfl
@[simp] theorem Color.bit_black : Color.black.bit = 1 := rfl
@[simp] theorem Tree.inorder_nil : Tree.nil.inorder = [] := rfl
@[simp] theorem Tree.inorder_node (a : Nat) (c : Color) (l r : Tree) :
    (Tree.node a c l r).inorder = l.inorder ++ a :: r.inorder := rfl
@[simp] theorem Tree.setBlack_ptr (t : Tree) : t.setBlack.ptr = t.ptr := by cases t <;> rfl
@[simp] theorem Tree.setBlack_inorder (t : Tree) : t.setBlack.inorder = t.inorder := by
  cases t <;> rfl

@[simp] theorem get_pc_ok (s : rb_state) {p : Nat} (hp : p ≠ 0) :
    get_pc s p = .ok (s.mem p).__rb_parent_color := by simp [get_pc, hp]
@[simp] theorem get_left_ok (s : rb_state) {p : Nat} (hp : p ≠ 0) :
    get_left s p = .ok (s.mem p).rb_left := by simp [get_left, hp]
@[simp] theorem get_right_ok (s : rb_state) {p : Nat} (hp : p ≠ 0) :
    get_right s p = .ok (s.mem p).rb_right := by simp [get_right, hp]
@[simp] theorem set_pc_ok (s : rb_state) {p : Nat} (v : Nat) (hp : p ≠ 0) :
    set_pc s p v = .ok (s.wr_pc p v) := by simp [set_pc, hp]
@[simp] theorem set_left_ok (s : rb_state) {p : Nat} (v : Nat) (hp : p ≠ 0) :
    set_left s p v = .ok (s.wr_left p v) := by simp [set_left, hp]
@[simp] theorem set_right_ok (s : rb_state) {p : Nat} (v : Nat) (hp : p ≠ 0) :
    set_right s p v = .ok (s.wr_right p v) := by simp [set_right, hp]

theorem OwnsPath_parent {s : rb_state} {h : Nat} {fs : List Frame} (ho : OwnsPath s h fs) :
    pathParent fs % 4 = 0 ∧ pathParent fs < UINTPTR_MOD := by
  cases fs with
  | nil => simp [UINTPTR_MOD]
  | cons f fs =>
    cases f <;> simp only [OwnsPath] at ho <;> simp [ho.2.1, ho.2.2.1]

@[simp] theorem ok_bind {ε α β : Type} (a : α) (f : α → Except ε β) :
    (Except.ok a >>= f) = f a := rfl
@[simp] theorem error_bind {ε α β : Type} (e : ε) (f : α → Except ε β) :
    (Except.error e >>= f) = Except.error e := rfl
@[simp] theorem pure_eq_ok {ε α : Type} (a : α) : (pure a : Except ε α) = Except.ok a := rfl
@[simp] theorem map_ok {ε α β : Type} (a : α) (f : α → β) :
    (f <$> (Except.ok a : Except ε α)) = Except.ok (f a) := rfl

theorem rb_color_aligned {q : Nat} (hq : q % 4 = 0) : __rb_color q = 0 := by
  have := rb_color_mask q 0 hq (by omega)
  simpa using this

theorem rb_parent_aligned {q : Nat} (hq : q % 4 = 0) (hlt : q < UINTPTR_MOD) :
    __rb_parent q = q := by
  have := rb_parent_mask q 0 hq hlt (by omega)
  simpa using this

theorem Owns_root {m : Nat → rb_node} {q : Nat} {t : Tree} (ho : Owns m q t) (h : t.ptr ≠ 0) :
    t.ptr % 4 = 0 ∧ t.ptr < UINTPTR_MOD ∧ (m t.ptr).__rb_parent_color = q + t.color.bit := by
  cases t with
  | nil => simp at h
  | node a c l r =>
    simp only [Owns] at ho
    obtain ⟨-, h4, hlt, hm, -, -⟩ := ho
    simp [h4, hlt, hm]

theorem OwnsPath.tail {s : rb_state} {h : Nat} {f : Frame} {fs : List Frame}
    (ho : OwnsPath s h (f :: fs)) : OwnsPath s f.addr fs := by
  cases f <;> exact ho.2.2.2.2.2

theorem ite_set_pc (s : rb_state) (t v : Nat) :
    (if t = 0 then Except.ok s else set_pc s t v : Except Fault rb_state) =
      Except.ok (if t = 0 then s else s.wr_pc t v) := by
  split <;> simp [*]

theorem mem_ite (c : Prop) [Decidable c] (s s1 : rb_state) (a : Nat) :
    (if c then s else s1).mem a = if c then s.mem a else s1.mem a := by
  split <;> rfl

theorem root_ite (c : Prop) [Decidable c] (s s1 : rb_state) :
    (if c then s else s1).root = if c then s.root else s1.root := by
  split <;> rfl

theorem Owns_setBlack_of {m m1 : Nat → rb_node} {q q1 : Nat} {t : Tree}
    (ho : Owns m q t) (hnd : t.inorder.Nodup)
    (hroot : t.ptr ≠ 0 → m1 t.ptr = ⟨q1 + 1, (m t.ptr).rb_left, (m t.ptr).rb_right⟩)
    (hrest : ∀ a ∈ t.inorder, a ≠ t.ptr → m1 a = m a) : Owns m1 q1 t.setBlack := by
  cases t with
  | nil => trivial
  | node a c l r =>
    simp only [Owns] at ho
    obtain ⟨h0, h4, hlt, hm, hl, hr⟩ := ho
    simp only [Tree.inorder_node, List.nodup_append, List.nodup_cons, List.disjoint_cons_right] at hnd
    simp only [Tree.ptr_node] at hroot hrest
    simp only [Tree.setBlack, Owns, Color.bit_black]
    refine ⟨h0, h4, hlt, ?_, Owns_congr (fun x hx => hrest x ?_ ?_) hl,
      Owns_congr (fun x hx => hrest x ?_ ?_) hr⟩
    · rw [hroot h0, hm]
    · simp [hx]
    · rintro rfl; exact hnd.2.2.1 hx
    · simp [hx]
    · rintro rfl; exact hnd.2.1.1 hx

theorem change_child_path {s s0 : rb_state} {fs : List Frame} {old : Nat} (new : Nat)
    (ho : OwnsPath s0 old fs) (hroot : s.root = s0.root)
    (hagree : ∀ a ∈ pathBefore fs ++ pathAfter fs, s.mem a = s0.mem a)
    (hold : old ≠ 0) (hnotin : old ∉ pathBefore fs ++ pathAfter fs)
    (hnd : (pathBefore fs ++ pathAfter fs).Nodup) :
    ∃ s1, __rb_change_child s old new (pathParent fs) = .ok s1 ∧ OwnsPath s1 new fs ∧
      ∀ a, a ∉ pathBefore fs ++ pathAfter fs → s1.mem a = s.mem a := by
  cases fs with
  | nil =>
    refine ⟨{ s with root := new }, by simp [__rb_change_child], by simp [OwnsPath], fun a _ => rfl⟩
  | cons f fs =>
    cases f with
    | L a c sib =>
      simp only [OwnsPath] at ho
      obtain ⟨h0, h4, hlt, hma, hs, hp⟩ := ho
      have hsa : s.mem a = s0.mem a := hagree a (by simp [pathAfter])
      have hnot : ∀ x ∈ pathBefore (Frame.L a c sib :: fs) ++ pathAfter (Frame.L a c sib :: fs),
          x ≠ a → (s.wr_left a new).mem x = s0.mem x := by
        intro x hx hxa
        simp [hxa, hagree x hx]
      simp only [pathBefore, pathAfter, List.nodup_append, List.nodup_cons, List.mem_append,
        List.mem_cons, List.disjoint_append_right, List.disjoint_cons_right,
        List.disjoint_append_left, List.disjoint_cons_left, not_or] at hnd
      refine ⟨s.wr_left a new, by simp [__rb_change_child, h0, hsa, hma], ?_, ?_⟩
      · simp only [OwnsPath]
        refine ⟨h0, h4, hlt, by simp [hsa, hma], Owns_congr (fun x hx => hnot x ?_ ?_) hs,
          OwnsPath_congr (s := s0) hroot (fun x hx => hnot x ?_ ?_) hp⟩
        · simp [pathAfter, hx]
        · rintro rfl; tauto
        · simp only [pathBefore, pathAfter, List.mem_append, List.mem_cons] at hx ⊢
          tauto
        · rintro rfl
          simp only [List.mem_append] at hx
          tauto
      · intro x hx
        have : x ≠ a := by rintro rfl; exact hx (by simp [pathAfter])
        simp [this]
    | R a c sib =>
      simp only [OwnsPath] at ho
      obtain ⟨h0, h4, hlt, hma, hs, hp⟩ := ho
      have hsa : s.mem a = s0.mem a := hagree a (by simp [pathBefore])
      have hnot : ∀ x ∈ pathBefore (Frame.R a c sib :: fs) ++ pathAfter (Frame.R a c sib :: fs),
          x ≠ a → (s.wr_right a new).mem x = s0.mem x := by
        intro x hx hxa
        simp [hxa, hagree x hx]
      have hsl : sib.ptr ≠ old := by
        intro h
        have := Tree.ptr_mem (t := sib) (by rw [h]; exact hold)
        rw [h] at this
        exact hnotin (by simp [pathBefore, this])
      simp only [pathBefore, pathAfter, List.nodup_append, List.nodup_cons, List.mem_append,
        List.mem_cons, List.disjoint_append_right, List.disjoint_cons_right,
        List.disjoint_append_left, List.disjoint_cons_left, List.disjoint_singleton,
        List.nodup_nil, List.not_mem_nil, List.mem_singleton, List.disjoint_nil_right, not_or] at hnd
      refine ⟨s.wr_right a new, by simp [__rb_change_child, h0, hsa, hma, hsl], ?_, ?_⟩
      · simp only [OwnsPath]
        refine ⟨h0, h4, hlt, by simp [hsa, hma], Owns_congr (fun x hx => hnot x ?_ ?_) hs,
          OwnsPath_congr (s := s0) hroot (fun x hx => hnot x ?_ ?_) hp⟩
        · simp [pathBefore, hx]
        · rintro rfl; tauto
        · simp only [pathBefore, pathAfter, List.mem_append, List.mem_cons] at hx ⊢
          tauto
        · rintro rfl
          simp only [List.mem_append] at hx
          tauto
      · intro x hx
        have : x ≠ a := by rintro rfl; exact hx (by simp [pathBefore])
        simp [this]
theorem disj_named {X : List Nat} {x : Nat} (h : ∀ a, X.count a + (if x = a then 1 else 0) ≤ 1) :
    ∀ a ∈ X, a ≠ x := by
  intro a ha hax
  have h1 := h a
  have h2 := List.one_le_count_iff.mpr ha
  subst hax
  simp at h1
  omega

theorem disj_region {X Y : List Nat} (h : ∀ a, X.count a + Y.count a ≤ 1) :
    ∀ a ∈ X, a ∉ Y := by
  intro a ha hay
  have h1 := h a
  have h2 := List.one_le_count_iff.mpr ha
  have h3 := List.one_le_count_iff.mpr hay
  omega

theorem ne_named {x y : Nat} (h : ∀ a, (if x = a then 1 else 0) + (if y = a then 1 else 0) ≤ 1) :
    x ≠ y := by
  intro hxy
  have := h x
  simp [hxy] at this


theorem ne_ptr_of_notin {a : Nat} {Y : Tree} (h0 : a ≠ 0) (h : a ∉ Y.inorder) : a ≠ Y.ptr := by
  intro e
  by_cases hY : Y.ptr = 0
  · exact h0 (e.trans hY)
  · exact h (e ▸ Tree.ptr_mem hY)

theorem Represents.ne_zero {s : rb_state} {fs : List Frame} {t : Tree}
    (h : Represents s (plug fs t)) :
    ∀ a ∈ pathBefore fs ++ (t.inorder ++ pathAfter fs), a ≠ 0 := by
  intro a ha
  rw [← inorder_plug] at ha
  exact Owns_ptr_ne_zero h.2.1 a ha

theorem uintptr_add_black {g : Nat} (h4 : g % 4 = 0) (hlt : g < UINTPTR_MOD) :
    (g + RB_BLACK) % UINTPTR_MOD = g + 1 := by
  unfold UINTPTR_MOD at *; unfold RB_BLACK; omega

theorem uintptr_add_red {g : Nat} (hlt : g < UINTPTR_MOD) :
    (g + RB_RED) % UINTPTR_MOD = g := by
  unfold UINTPTR_MOD at *; unfold RB_RED; omega

theorem uncle_not_red {s : rb_state} {g : Nat} {u : Tree} (hg4 : g % 4 = 0)
    (hou : Owns s.mem g u) (hu : u.color = .black) :
    (if u.ptr = 0 then Except.ok false else rb_is_red s u.ptr) = .ok false := by
  split
  · rfl
  · rename_i h
    have := Owns_root hou h
    rw [hu] at this
    simp [rb_is_red, h, __rb_is_red, this.2.2, rb_color_mask, Color.bit, hg4]

theorem region_sep {X P W : List Nat} (h : ∀ a, X.count a + P.count a + W.count a ≤ 1) :
    ∀ a ∈ X, a ∉ P ∧ a ∉ W := by
  intro a ha
  have h1 := h a
  have h2 := List.one_le_count_iff.mpr ha
  constructor
  · intro hp
    have := List.one_le_count_iff.mpr hp
    omega
  · intro hw
    have := List.one_le_count_iff.mpr hw
    omega

theorem nodup_of_count {X : List Nat} (h : ∀ a, X.count a ≤ 1) : X.Nodup :=
  List.nodup_iff_count_le_one.mpr h

theorem mem_reparent_ne (S : rb_state) (Y : Tree) (v : Nat) {a : Nat} (h : a ∉ Y.inorder) :
    (if Y.ptr = 0 then S else S.wr_pc Y.ptr v).mem a = S.mem a := by
  by_cases hY : Y.ptr = 0
  · simp only [hY, if_true]
  · have : a ≠ Y.ptr := fun e => h (e ▸ Tree.ptr_mem hY)
    simp only [hY, if_false, mem_wr_pc, this]

theorem root_reparent (S : rb_state) (Y : Tree) (v : Nat) :
    (if Y.ptr = 0 then S else S.wr_pc Y.ptr v).root = S.root := by
  split <;> rfl

theorem mem_reparent_ne_ptr (S : rb_state) (Y : Tree) (v : Nat) {a : Nat} (h : a ≠ Y.ptr) :
    (if Y.ptr = 0 then S else S.wr_pc Y.ptr v).mem a = S.mem a := by
  by_cases hY : Y.ptr = 0
  · simp only [hY, if_true]
  · simp only [hY, if_false, mem_wr_pc, h]

set_option maxRecDepth 4000 in
theorem insert_iter_LL {σ : Type} (hook : rb_state → Nat → Nat → σ → σ) (s : rb_state) (aug : σ)
    (fs : List Frame) (p g n : Nat) (gc c : Color) (sib u l r : Tree)
    (hu : u.color = .black)
    (hrep : Represents s (plug (.L p .red sib :: .L g gc u :: fs) (.node n c l r))) :
    ∃ s1 s0, __rb_insert_iter hook s aug n p = .ok (.done (s1, hook s0 g p aug)) ∧
      Represents s1 (plug fs (.node p gc (.node n c l r) (.node g .red sib.setBlack u))) := by
  rw [represents_plug] at hrep
  obtain ⟨hpath, hown, hnd⟩ := hrep
  simp only [OwnsPath, Tree.ptr_node, pathParent_cons, Frame.addr_L, Frame.addr_R, Color.bit_red, Owns,
    Nat.add_zero] at hpath hown
  obtain ⟨hp0, hp4, hplt, hmp, hsib, hg0, hg4, hglt, hmg, hou, hpath⟩ := hpath
  obtain ⟨hn0, hn4, hnlt, hmn, hol, hor⟩ := hown
  have key := fun a => List.nodup_iff_count_le_one.mp hnd a
  simp only [pathBefore, pathAfter, Tree.inorder_node, List.count_append, List.count_cons,
    List.count_nil, beq_iff_eq] at key
  have hcb := gc.bit_le
  obtain ⟨hgp4, hgplt⟩ := OwnsPath_parent hpath
  have hpg : p ≠ g := ne_named (fun a => by have := key a; omega)
  have hnp : n ≠ p := ne_named (fun a => by have := key a; omega)
  have hng : n ≠ g := ne_named (fun a => by have := key a; omega)
  have hup : p ≠ u.ptr := ne_ptr_of_notin hp0 fun h =>
    disj_named (x := p) (fun a => by have := key a; omega) _ h rfl
  have hsn : n ≠ sib.ptr := ne_ptr_of_notin hn0 fun h =>
    disj_named (x := n) (fun a => by have := key a; omega) _ h rfl
  have hsp : p ≠ sib.ptr := ne_ptr_of_notin hp0 fun h =>
    disj_named (x := p) (fun a => by have := key a; omega) _ h rfl
  have hsg : g ≠ sib.ptr := ne_ptr_of_notin hg0 fun h =>
    disj_named (x := g) (fun a => by have := key a; omega) _ h rfl
  have hured := uncle_not_red hg4 hou hu
  have hg2 := uintptr_add_black hg4 hglt
  have hp2 := uintptr_add_red hplt
  simp only [__rb_insert_iter, hp0, rb_is_black, hmp, __rb_is_black, rb_color_aligned, rb_parent_aligned,
    rb_color_mask, rb_parent_mask, hp4, hg4, rb_red_parent, hg0, hmg,
    hup, hup.symm, hured, hsn, hsn.symm, __rb_rotate_set_parent, rb_parent, rb_set_parent_color, hpg,
    hpg.symm, ite_set_pc, hg2, hp2,
    get_pc_ok, get_right_ok, get_left_ok, set_pc_ok, set_left_ok, set_right_ok, ok_bind, pure_eq_ok,
    if_false, ne_eq, not_false_eq_true, not_true_eq_false,
    decide_True, decide_False, if_true, Bool.false_eq_true, ite_not, hsg, hsp, hsg.symm,
    hsp.symm, mem_wr_pc, mem_wr_left, mem_wr_right, mem_reparent_ne_ptr, hcb, hgplt, hgp4]
  generalize hS : rb_state.wr_pc _ g p = S
  have hSroot : S.root = s.root := by
    subst hS
    simp only [root_wr_pc, root_reparent, root_wr_right, root_wr_left]
  have hW : ∀ a, a ∉ p :: g :: sib.inorder → S.mem a = s.mem a := by
    intro a ha
    simp only [List.mem_cons, List.mem_append, not_or] at ha
    obtain ⟨h1, h2, h3⟩ := ha
    subst hS
    simp only [mem_wr_pc, mem_wr_left, mem_wr_right, mem_reparent_ne, h1, h2, h3, if_false,
      not_false_eq_true]
  have hreg : ∀ X : List Nat, (∀ a, X.count a + (pathBefore fs ++ pathAfter fs).count a +
      (p :: g :: sib.inorder).count a ≤ 1) → ∀ a ∈ X,
      a ∉ pathBefore fs ++ pathAfter fs ∧ S.mem a = s.mem a :=
    fun X hX a ha => ⟨(region_sep hX a ha).1, hW a (region_sep hX a ha).2⟩
  obtain ⟨s1, hs1, hpath1, hmem1⟩ := change_child_path (s := S) p hpath hSroot
    (fun a ha => hW a (disj_region (fun a => by
      have := key a; simp only [List.count_append, List.count_cons, beq_iff_eq]; omega) a ha))
    hg0 (fun h => disj_named (x := g)
        (fun a => by have := key a; simp only [List.count_append]; omega) _ h rfl)
    (nodup_of_count (fun a => by have := key a; simp only [List.count_append]; omega))
  rw [hs1]
  refine ⟨s1, _, rfl, ?_⟩
  rw [represents_plug]
  refine ⟨hpath1, ?_, ?_⟩
  · have hreg1 : ∀ X : List Nat, (∀ a, X.count a + (pathBefore fs ++ pathAfter fs).count a +
        (p :: g :: sib.inorder).count a ≤ 1) → ∀ a ∈ X, s1.mem a = s.mem a := by
      intro X hX a ha
      rw [hmem1 a (hreg X hX a ha).1, (hreg X hX a ha).2]
    have hnamed : ∀ x, (∀ a, (pathBefore fs ++ pathAfter fs).count a + (if x = a then 1 else 0) ≤ 1) →
        s1.mem x = _ := fun x hx => hmem1 x (fun h => disj_named hx _ h rfl)
    have hps : p ∉ sib.inorder := fun h =>
      disj_named (x := p) (fun a => by have := key a; omega) _ h rfl
    have hns : n ∉ sib.inorder := fun h =>
      disj_named (x := n) (fun a => by have := key a; omega) _ h rfl
    have hgs : g ∉ sib.inorder := fun h =>
      disj_named (x := g) (fun a => by have := key a; omega) _ h rfl
    simp only [Owns, Color.bit_red, Nat.add_zero, Tree.setBlack_ptr, Tree.ptr_node]
    refine ⟨hp0, hp4, hplt, ?mp, ⟨hn0, hn4, hnlt, ?mn, ?ol, ?or⟩, hg0, hg4, hglt, ?mg, ?os, ?ou⟩
    case mp =>
      rw [hnamed p (fun a => by have := key a; simp only [List.count_append]; omega)]
      subst hS
      simp only [mem_wr_pc, mem_wr_left, mem_wr_right, mem_reparent_ne, hps, hpg, hpg.symm, hnp,
        hnp.symm, hng, hng.symm, if_false, if_true, hmp, hmg, not_false_eq_true]
    case mn =>
      rw [hnamed n (fun a => by have := key a; simp only [List.count_append]; omega)]
      subst hS
      simp only [mem_wr_pc, mem_wr_left, mem_wr_right, mem_reparent_ne, hns, hpg, hpg.symm, hnp,
        hnp.symm, hng, hng.symm, if_false, if_true, hmn, not_false_eq_true]
    case ol =>
      exact Owns_congr (hreg1 _ (fun a => by
        have := key a; simp only [List.count_append, List.count_cons, beq_iff_eq]; omega)) hol
    case or =>
      exact Owns_congr (hreg1 _ (fun a => by
        have := key a; simp only [List.count_append, List.count_cons, beq_iff_eq]; omega)) hor
    case mg =>
      rw [hnamed g (fun a => by have := key a; simp only [List.count_append]; omega)]
      subst hS
      simp only [mem_wr_pc, mem_wr_left, mem_wr_right, mem_reparent_ne, hgs, hpg, hpg.symm, hnp,
        hnp.symm, hng, hng.symm, if_false, if_true, hmg, not_false_eq_true]
    case os =>
      refine Owns_setBlack_of hsib (nodup_of_count (fun a => by have := key a; omega)) ?_ ?_
      · intro h
        rw [hmem1 _ (disj_region (fun a => by have := key a; simp only [List.count_append]; omega) _
          (Tree.ptr_mem h))]
        subst hS
        simp only [mem_wr_pc, mem_wr_left, mem_wr_right, hsn, hsn.symm, hsp, hsp.symm,
          hsg, hsg.symm, if_false, if_true, h, not_false_eq_true]
      · intro a ha hne
        rw [hmem1 _ (disj_region (fun a => by have := key a; simp only [List.count_append]; omega) _ ha)]
        subst hS
        simp only [mem_wr_pc, mem_wr_left, mem_wr_right, hne, if_false, ite_self,
          not_false_eq_true, mem_reparent_ne_ptr, ne_eq,
          disj_named (x := g) (fun a => by have := key a; omega) a ha,
          disj_named (x := p) (fun a => by have := key a; omega) a ha]
    case ou =>
      exact Owns_congr (hreg1 _ (fun a => by
        have := key a; simp only [List.count_append, List.count_cons, beq_iff_eq]; omega)) hou
  · have := hnd
    simp only [pathBefore, pathAfter, Tree.inorder_node, Tree.setBlack_inorder, List.append_assoc,
      List.cons_append, List.nil_append, List.singleton_append] at this ⊢
    exact this

set_option maxRecDepth 4000 in
theorem insert_iter_LR {σ : Type} (hook : rb_state → Nat → Nat → σ → σ) (s : rb_state) (aug : σ)
    (fs : List Frame) (p g n : Nat) (gc c : Color) (sib u l r : Tree)
    (hu : u.color = .black)
    (hrep : Represents s (plug (.R p .red sib :: .L g gc u :: fs) (.node n c l r))) :
    ∃ s1 s0 s2, __rb_insert_iter hook s aug n p =
        .ok (.done (s1, hook s0 g n (hook s2 p n aug))) ∧
      Represents s1 (plug fs
        (.node n gc (.node p .red sib l.setBlack) (.node g .red r.setBlack u))) := by
  rw [represents_plug] at hrep
  obtain ⟨hpath, hown, hnd⟩ := hrep
  simp only [OwnsPath, Tree.ptr_node, pathParent_cons, Frame.addr_L, Frame.addr_R, Color.bit_red, Owns,
    Nat.add_zero] at hpath hown
  obtain ⟨hp0, hp4, hplt, hmp, hsib, hg0, hg4, hglt, hmg, hou, hpath⟩ := hpath
  obtain ⟨hn0, hn4, hnlt, hmn, hol, hor⟩ := hown
  have key := fun a => List.nodup_iff_count_le_one.mp hnd a
  simp only [pathBefore, pathAfter, Tree.inorder_node, List.count_append, List.count_cons,
    List.count_nil, beq_iff_eq] at key
  have hcb := gc.bit_le
  obtain ⟨hgp4, hgplt⟩ := OwnsPath_parent hpath
  have hpg : p ≠ g := ne_named (fun a => by have := key a; omega)
  have hnp : n ≠ p := ne_named (fun a => by have := key a; omega)
  have hng : n ≠ g := ne_named (fun a => by have := key a; omega)
  have hup : p ≠ u.ptr := ne_ptr_of_notin hp0 fun h =>
    disj_named (x := p) (fun a => by have := key a; omega) _ h rfl
  have hln : n ≠ l.ptr := ne_ptr_of_notin hn0 fun h =>
    disj_named (x := n) (fun a => by have := key a; omega) _ h rfl
  have hlp : p ≠ l.ptr := ne_ptr_of_notin hp0 fun h =>
    disj_named (x := p) (fun a => by have := key a; omega) _ h rfl
  have hlg : g ≠ l.ptr := ne_ptr_of_notin hg0 fun h =>
    disj_named (x := g) (fun a => by have := key a; omega) _ h rfl
  have hrn : n ≠ r.ptr := ne_ptr_of_notin hn0 fun h =>
    disj_named (x := n) (fun a => by have := key a; omega) _ h rfl
  have hrp : p ≠ r.ptr := ne_ptr_of_notin hp0 fun h =>
    disj_named (x := p) (fun a => by have := key a; omega) _ h rfl
  have hrg : g ≠ r.ptr := ne_ptr_of_notin hg0 fun h =>
    disj_named (x := g) (fun a => by have := key a; omega) _ h rfl
  have hured := uncle_not_red hg4 hou hu
  have hg2 := uintptr_add_black hg4 hglt
  have hp2 := uintptr_add_black hp4 hplt
  have hn2 := uintptr_add_red hnlt
  simp only [__rb_insert_iter, hp0, hn0, rb_is_black, hmp, hmn, __rb_is_black, rb_color_aligned, rb_parent_aligned,
    rb_color_mask, rb_parent_mask, hp4, hg4, rb_red_parent, hg0, hmg,
    hup, hup.symm, hured, __rb_rotate_set_parent, rb_parent, rb_set_parent_color, hpg, hpg.symm, hnp, hnp.symm,
    hng, hng.symm, ite_set_pc, hg2, hp2, hn2,
    get_pc_ok, get_right_ok, get_left_ok, set_pc_ok, set_left_ok, set_right_ok, ok_bind, pure_eq_ok, if_false, ne_eq, not_false_eq_true,
    decide_True, decide_False, if_true, Bool.false_eq_true, not_true_eq_false, ite_not,
    hln, hln.symm, hlp, hlp.symm, hlg, hlg.symm, hrn, hrn.symm, hrp, hrp.symm, hrg, hrg.symm,
    mem_wr_pc, mem_wr_left, mem_wr_right, mem_ite, ite_self, hcb, hgplt, hgp4]
  generalize hS : rb_state.wr_pc _ g n = S
  have hSroot : S.root = s.root := by
    subst hS
    simp only [root_wr_pc, root_reparent, root_wr_right, root_wr_left]
  have hW : ∀ a, a ∉ n :: p :: g :: (l.inorder ++ r.inorder) → S.mem a = s.mem a := by
    intro a ha
    simp only [List.mem_cons, List.mem_append, not_or] at ha
    obtain ⟨h1, h2, h3, h4, h5⟩ := ha
    subst hS
    simp only [mem_wr_pc, mem_wr_left, mem_wr_right, mem_reparent_ne, h1, h2, h3, h4, h5, if_false,
      not_false_eq_true]
  have hreg : ∀ X : List Nat, (∀ a, X.count a + (pathBefore fs ++ pathAfter fs).count a +
      (n :: p :: g :: (l.inorder ++ r.inorder)).count a ≤ 1) → ∀ a ∈ X,
      a ∉ pathBefore fs ++ pathAfter fs ∧ S.mem a = s.mem a :=
    fun X hX a ha => ⟨(region_sep hX a ha).1, hW a (region_sep hX a ha).2⟩
  obtain ⟨s1, hs1, hpath1, hmem1⟩ := change_child_path (s := S) n hpath hSroot
    (fun a ha => hW a (disj_region (fun a => by
      have := key a; simp only [List.count_append, List.count_cons, beq_iff_eq]; omega) a ha))
    hg0 (fun h => disj_named (x := g)
        (fun a => by have := key a; simp only [List.count_append]; omega) _ h rfl)
    (nodup_of_count (fun a => by have := key a; simp only [List.count_append]; omega))
  rw [hs1]
  refine ⟨s1, _, _, rfl, ?_⟩
  rw [represents_plug]
  refine ⟨hpath1, ?_, ?_⟩
  · have hreg1 : ∀ X : List Nat, (∀ a, X.count a + (pathBefore fs ++ pathAfter fs).count a +
        (n :: p :: g :: (l.inorder ++ r.inorder)).count a ≤ 1) → ∀ a ∈ X, s1.mem a = s.mem a := by
      intro X hX a ha
      rw [hmem1 a (hreg X hX a ha).1, (hreg X hX a ha).2]
    have hnamed : ∀ x, (∀ a, (pathBefore fs ++ pathAfter fs).count a + (if x = a then 1 else 0) ≤ 1) →
        s1.mem x = _ := fun x hx => hmem1 x (fun h => disj_named hx _ h rfl)
    have hnl : n ∉ l.inorder := fun h => disj_named (x := n) (fun a => by have := key a; omega) _ h rfl
    have hnr : n ∉ r.inorder := fun h => disj_named (x := n) (fun a => by have := key a; omega) _ h rfl
    have hpl : p ∉ l.inorder := fun h => disj_named (x := p) (fun a => by have := key a; omega) _ h rfl
    have hpr : p ∉ r.inorder := fun h => disj_named (x := p) (fun a => by have := key a; omega) _ h rfl
    have hgl : g ∉ l.inorder := fun h => disj_named (x := g) (fun a => by have := key a; omega) _ h rfl
    have hgr : g ∉ r.inorder := fun h => disj_named (x := g) (fun a => by have := key a; omega) _ h rfl
    simp only [Owns, Color.bit_red, Nat.add_zero, Tree.setBlack_ptr, Tree.ptr_node]
    refine ⟨hn0, hn4, hnlt, ?mn, ⟨hp0, hp4, hplt, ?mp, ?os, ?ol⟩, hg0, hg4, hglt, ?mg, ?or, ?ou⟩
    case mn =>
      rw [hnamed n (fun a => by have := key a; simp only [List.count_append]; omega)]
      subst hS
      simp only [mem_wr_pc, mem_wr_left, mem_wr_right, mem_reparent_ne, hnl, hnr, hpg, hpg.symm, hnp,
        hnp.symm, hng, hng.symm, if_false, if_true, hmn, hmg, not_false_eq_true]
    case mp =>
      rw [hnamed p (fun a => by have := key a; simp only [List.count_append]; omega)]
      subst hS
      simp only [mem_wr_pc, mem_wr_left, mem_wr_right, mem_reparent_ne, hpl, hpr, hpg, hpg.symm, hnp,
        hnp.symm, hng, hng.symm, if_false, if_true, hmp, not_false_eq_true]
    case os =>
      exact Owns_congr (hreg1 _ (fun a => by
        have := key a; simp only [List.count_append, List.count_cons, beq_iff_eq]; omega)) hsib
    case ol =>
      refine Owns_setBlack_of hol (nodup_of_count (fun a => by have := key a; omega)) ?_ ?_
      · intro h
        rw [hmem1 _ (disj_region (fun a => by have := key a; simp only [List.count_append]; omega) _
          (Tree.ptr_mem h))]
        have hlr : l.ptr ∉ r.inorder :=
          disj_region (fun a => by have := key a; omega) _ (Tree.ptr_mem h)
        subst hS
        simp only [mem_wr_pc, mem_wr_left, mem_wr_right, mem_reparent_ne, hlr, hln, hln.symm, hlp, hlp.symm,
          hlg, hlg.symm, if_false, if_true, h, not_false_eq_true]
      · intro a ha hne
        rw [hmem1 _ (disj_region (fun a => by have := key a; simp only [List.count_append]; omega) _ ha)]
        have har : a ∉ r.inorder := disj_region (fun a => by have := key a; omega) _ ha
        subst hS
        simp only [mem_wr_pc, mem_wr_left, mem_wr_right, mem_reparent_ne, har, hne, if_false, ite_self,
          not_false_eq_true, mem_reparent_ne_ptr, ne_eq,
          disj_named (x := g) (fun a => by have := key a; omega) a ha,
          disj_named (x := n) (fun a => by have := key a; omega) a ha,
          disj_named (x := p) (fun a => by have := key a; omega) a ha]
    case mg =>
      rw [hnamed g (fun a => by have := key a; simp only [List.count_append]; omega)]
      subst hS
      simp only [mem_wr_pc, mem_wr_left, mem_wr_right, mem_reparent_ne, hgl, hgr, hpg, hpg.symm, hnp,
        hnp.symm, hng, hng.symm, if_false, if_true, hmg, not_false_eq_true]
    case or =>
      refine Owns_setBlack_of hor (nodup_of_count (fun a => by have := key a; omega)) ?_ ?_
      · intro h
        rw [hmem1 _ (disj_region (fun a => by have := key a; simp only [List.count_append]; omega) _
          (Tree.ptr_mem h))]
        have hrl : r.ptr ∉ l.inorder := fun h1 =>
          disj_region (fun a => by have := key a; omega) _ h1 (Tree.ptr_mem h)
        subst hS
        simp only [mem_wr_pc, mem_wr_left, mem_wr_right, mem_reparent_ne, hrl, hrn, hrn.symm, hrp, hrp.symm,
          hrg, hrg.symm, if_false, if_true, h, not_false_eq_true]
      · intro a ha hne
        rw [hmem1 _ (disj_region (fun a => by have := key a; simp only [List.count_append]; omega) _ ha)]
        have hal : a ∉ l.inorder := fun h1 => disj_region (fun a => by have := key a; omega) _ h1 ha
        subst hS
        simp only [mem_wr_pc, mem_wr_left, mem_wr_right, mem_reparent_ne, hal, hne, if_false, ite_self,
          not_false_eq_true, mem_reparent_ne_ptr, ne_eq,
          disj_named (x := g) (fun a => by have := key a; omega) a ha,
          disj_named (x := n) (fun a => by have := key a; omega) a ha,
          disj_named (x := p) (fun a => by have := key a; omega) a ha]
    case ou =>
      exact Owns_congr (hreg1 _ (fun a => by
        have := key a; simp only [List.count_append, List.count_cons, beq_iff_eq]; omega)) hou
  · have := hnd
    simp only [pathBefore, pathAfter, Tree.inorder_node, Tree.setBlack_inorder, List.append_assoc,
      List.cons_append, List.nil_append, List.singleton_append] at this ⊢
    exact this

set_option maxRecDepth 4000 in
theorem insert_iter_RL {σ : Type} (hook : rb_state → Nat → Nat → σ → σ) (s : rb_state) (aug : σ)
    (fs : List Frame) (p g n : Nat) (gc c : Color) (sib u l r : Tree)
    (hu : u.color = .black)
    (hrep : Represents s (plug (.L p .red sib :: .R g gc u :: fs) (.node n c l r))) :
    ∃ s1 s0 s2, __rb_insert_iter hook s aug n p =
        .ok (.done (s1, hook s0 g n (hook s2 p n aug))) ∧
      Represents s1 (plug fs
        (.node n gc (.node g .red u l.setBlack) (.node p .red r.setBlack sib))) := by
  rw [represents_plug] at hrep
  obtain ⟨hpath, hown, hnd⟩ := hrep
  simp only [OwnsPath, Tree.ptr_node, pathParent_cons, Frame.addr_L, Frame.addr_R, Color.bit_red, Owns,
    Nat.add_zero] at hpath hown
  obtain ⟨hp0, hp4, hplt, hmp, hsib, hg0, hg4, hglt, hmg, hou, hpath⟩ := hpath
  obtain ⟨hn0, hn4, hnlt, hmn, hol, hor⟩ := hown
  have key := fun a => List.nodup_iff_count_le_one.mp hnd a
  simp only [pathBefore, pathAfter, Tree.inorder_node, List.count_append, List.count_cons,
    List.count_nil, beq_iff_eq] at key
  have hcb := gc.bit_le
  obtain ⟨hgp4, hgplt⟩ := OwnsPath_parent hpath
  have hpg : p ≠ g := ne_named (fun a => by have := key a; omega)
  have hnp : n ≠ p := ne_named (fun a => by have := key a; omega)
  have hng : n ≠ g := ne_named (fun a => by have := key a; omega)
  have hup : p ≠ u.ptr := ne_ptr_of_notin hp0 fun h =>
    disj_named (x := p) (fun a => by have := key a; omega) _ h rfl
  have hln : n ≠ l.ptr := ne_ptr_of_notin hn0 fun h =>
    disj_named (x := n) (fun a => by have := key a; omega) _ h rfl
  have hlp : p ≠ l.ptr := ne_ptr_of_notin hp0 fun h =>
    disj_named (x := p) (fun a => by have := key a; omega) _ h rfl
  have hlg : g ≠ l.ptr := ne_ptr_of_notin hg0 fun h =>
    disj_named (x := g) (fun a => by have := key a; omega) _ h rfl
  have hrn : n ≠ r.ptr := ne_ptr_of_notin hn0 fun h =>
    disj_named (x := n) (fun a => by have := key a; omega) _ h rfl
  have hrp : p ≠ r.ptr := ne_ptr_of_notin hp0 fun h =>
    disj_named (x := p) (fun a => by have := key a; omega) _ h rfl
  have hrg : g ≠ r.ptr := ne_ptr_of_notin hg0 fun h =>
    disj_named (x := g) (fun a => by have := key a; omega) _ h rfl
  have hured := uncle_not_red hg4 hou hu
  have hg2 := uintptr_add_black hg4 hglt
  have hp2 := uintptr_add_black hp4 hplt
  have hn2 := uintptr_add_red hnlt
  simp only [__rb_insert_iter, hp0, hn0, rb_is_black, hmp, hmn, __rb_is_black, rb_color_aligned, rb_parent_aligned,
    rb_color_mask, rb_parent_mask, hp4, hg4, rb_red_parent, hg0, hmg,
    hup, hup.symm, hured, __rb_rotate_set_parent, rb_parent, rb_set_parent_color, hpg, hpg.symm, hnp, hnp.symm,
    hng, hng.symm, ite_set_pc, hg2, hp2, hn2,
    get_pc_ok, get_right_ok, get_left_ok, set_pc_ok, set_left_ok, set_right_ok, ok_bind, pure_eq_ok, if_false, ne_eq, not_false_eq_true,
    decide_True, decide_False, if_true, Bool.false_eq_true, not_true_eq_false, ite_not,
    hln, hln.symm, hlp, hlp.symm, hlg, hlg.symm, hrn, hrn.symm, hrp, hrp.symm, hrg, hrg.symm,
    mem_wr_pc, mem_wr_left, mem_wr_right, mem_ite, ite_self, hcb, hgplt, hgp4]
  generalize hS : rb_state.wr_pc _ g n = S
  have hSroot : S.root = s.root := by
    subst hS
    simp only [root_wr_pc, root_reparent, root_wr_right, root_wr_left]
  have hW : ∀ a, a ∉ n :: p :: g :: (l.inorder ++ r.inorder) → S.mem a = s.mem a := by
    intro a ha
    simp only [List.mem_cons, List.mem_append, not_or] at ha
    obtain ⟨h1, h2, h3, h4, h5⟩ := ha
    subst hS
    simp only [mem_wr_pc, mem_wr_left, mem_wr_right, mem_reparent_ne, h1, h2, h3, h4, h5, if_false,
      not_false_eq_true]
  have hreg : ∀ X : List Nat, (∀ a, X.count a + (pathBefore fs ++ pathAfter fs).count a +
      (n :: p :: g :: (l.inorder ++ r.inorder)).count a ≤ 1) → ∀ a ∈ X,
      a ∉ pathBefore fs ++ pathAfter fs ∧ S.mem a = s.mem a :=
    fun X hX a ha => ⟨(region_sep hX a ha).1, hW a (region_sep hX a ha).2⟩
  obtain ⟨s1, hs1, hpath1, hmem1⟩ := change_child_path (s := S) n hpath hSroot
    (fun a ha => hW a (disj_region (fun a => by
      have := key a; simp only [List.count_append, List.count_cons, beq_iff_eq]; omega) a ha))
    hg0 (fun h => disj_named (x := g)
        (fun a => by have := key a; simp only [List.count_append]; omega) _ h rfl)
    (nodup_of_count (fun a => by have := key a; simp only [List.count_append]; omega))
  rw [hs1]
  refine ⟨s1, _, _, rfl, ?_⟩
  rw [represents_plug]
  refine ⟨hpath1, ?_, ?_⟩
  · have hreg1 : ∀ X : List Nat, (∀ a, X.count a + (pathBefore fs ++ pathAfter fs).count a +
        (n :: p :: g :: (l.inorder ++ r.inorder)).count a ≤ 1) → ∀ a ∈ X, s1.mem a = s.mem a := by
      intro X hX a ha
      rw [hmem1 a (hreg X hX a ha).1, (hreg X hX a ha).2]
    have hnamed : ∀ x, (∀ a, (pathBefore fs ++ pathAfter fs).count a + (if x = a then 1 else 0) ≤ 1) →
        s1.mem x = _ := fun x hx => hmem1 x (fun h => disj_named hx _ h rfl)
    have hnl : n ∉ l.inorder := fun h => disj_named (x := n) (fun a => by have := key a; omega) _ h rfl
    have hnr : n ∉ r.inorder := fun h => disj_named (x := n) (fun a => by have := key a; omega) _ h rfl
    have hpl : p ∉ l.inorder := fun h => disj_named (x := p) (fun a => by have := key a; omega) _ h rfl
    have hpr : p ∉ r.inorder := fun h => disj_named (x := p) (fun a => by have := key a; omega) _ h rfl
    have hgl : g ∉ l.inorder := fun h => disj_named (x := g) (fun a => by have := key a; omega) _ h rfl
    have hgr : g ∉ r.inorder := fun h => disj_named (x := g) (fun a => by have := key a; omega) _ h rfl
    simp only [Owns, Color.bit_red, Nat.add_zero, Tree.setBlack_ptr, Tree.ptr_node]
    refine ⟨hn0, hn4, hnlt, ?mn, ⟨hg0, hg4, hglt, ?mg, ?ou, ?ol⟩, hp0, hp4, hplt, ?mp, ?or, ?os⟩
    case mn =>
      rw [hnamed n (fun a => by have := key a; simp only [List.count_append]; omega)]
      subst hS
      simp only [mem_wr_pc, mem_wr_left, mem_wr_right, mem_reparent_ne, hnl, hnr, hpg, hpg.symm, hnp,
        hnp.symm, hng, hng.symm, if_false, if_true, hmn, hmg, not_false_eq_true]
    case mp =>
      rw [hnamed p (fun a => by have := key a; simp only [List.count_append]; omega)]
      subst hS
      simp only [mem_wr_pc, mem_wr_left, mem_wr_right, mem_reparent_ne, hpl, hpr, hpg, hpg.symm, hnp,
        hnp.symm, hng, hng.symm, if_false, if_true, hmp, not_false_eq_true]
    case os =>
      exact Owns_congr (hreg1 _ (fun a => by
        have := key a; simp only [List.count_append, List.count_cons, beq_iff_eq]; omega)) hsib
    case ol =>
      refine Owns_setBlack_of hol (nodup_of_count (fun a => by have := key a; omega)) ?_ ?_
      · intro h
        rw [hmem1 _ (disj_region (fun a => by have := key a; simp only [List.count_append]; omega) _
          (Tree.ptr_mem h))]
        have hlr : l.ptr ∉ r.inorder :=
          disj_region (fun a => by have := key a; omega) _ (Tree.ptr_mem h)
        subst hS
        simp only [mem_wr_pc, mem_wr_left, mem_wr_right, mem_reparent_ne, hlr, hln, hln.symm, hlp, hlp.symm,
          hlg, hlg.symm, if_false, if_true, h, not_false_eq_true]
      · intro a ha hne
        rw [hmem1 _ (disj_region (fun a => by have := key a; simp only [List.count_append]; omega) _ ha)]
        have har : a ∉ r.inorder := disj_region (fun a => by have := key a; omega) _ ha
        subst hS
        simp only [mem_wr_pc, mem_wr_left, mem_wr_right, mem_reparent_ne, har, hne, if_false, ite_self,
          not_false_eq_true, mem_reparent_ne_ptr, ne_eq,
          disj_named (x := g) (fun a => by have := key a; omega) a ha,
          disj_named (x := n) (fun a => by have := key a; omega) a ha,
          disj_named (x := p) (fun a => by have := key a; omega) a ha]
    case mg =>
      rw [hnamed g (fun a => by have := key a; simp only [List.count_append]; omega)]
      subst hS
      simp only [mem_wr_pc, mem_wr_left, mem_wr_right, mem_reparent_ne, hgl, hgr, hpg, hpg.symm, hnp,
        hnp.symm, hng, hng.symm, if_false, if_true, hmg, not_false_eq_true]
    case or =>
      refine Owns_setBlack_of hor (nodup_of_count (fun a => by have := key a; omega)) ?_ ?_
      · intro h
        rw [hmem1 _ (disj_region (fun a => by have := key a; simp only [List.count_append]; omega) _
          (Tree.ptr_mem h))]
        have hrl : r.ptr ∉ l.inorder := fun h1 =>
          disj_region (fun a => by have := key a; omega) _ h1 (Tree.ptr_mem h)
        subst hS
        simp only [mem_wr_pc, mem_wr_left, mem_wr_right, mem_reparent_ne, hrl, hrn, hrn.symm, hrp, hrp.symm,
          hrg, hrg.symm, if_false, if_true, h, not_false_eq_true]
      · intro a ha hne
        rw [hmem1 _ (disj_region (fun a => by have := key a; simp only [List.count_append]; omega) _ ha)]
        have hal : a ∉ l.inorder := fun h1 => disj_region (fun a => by have := key a; omega) _ h1 ha
        subst hS
        simp only [mem_wr_pc, mem_wr_left, mem_wr_right, mem_reparent_ne, hal, hne, if_false, ite_self,
          not_false_eq_true, mem_reparent_ne_ptr, ne_eq,
          disj_named (x := g) (fun a => by have := key a; omega) a ha,
          disj_named (x := n) (fun a => by have := key a; omega) a ha,
          disj_named (x := p) (fun a => by have := key a; omega) a ha]
    case ou =>
      exact Owns_congr (hreg1 _ (fun a => by
        have := key a; simp only [List.count_append, List.count_cons, beq_iff_eq]; omega)) hou
  · have := hnd
    simp only [pathBefore, pathAfter, Tree.inorder_node, Tree.setBlack_inorder, List.append_assoc,
      List.cons_append, List.nil_append, List.singleton_append] at this ⊢
    exact this

set_option maxRecDepth 4000 in
theorem insert_iter_RR {σ : Type} (hook : rb_state → Nat → Nat → σ → σ) (s : rb_state) (aug : σ)
    (fs : List Frame) (p g n : Nat) (gc c : Color) (sib u l r : Tree)
    (hu : u.color = .black)
    (hrep : Represents s (plug (.R p .red sib :: .R g gc u :: fs) (.node n c l r))) :
    ∃ s1 s0, __rb_insert_iter hook s aug n p = .ok (.done (s1, hook s0 g p aug)) ∧
      Represents s1 (plug fs (.node p gc (.node g .red u sib.setBlack) (.node n c l r))) := by
  rw [represents_plug] at hrep
  obtain ⟨hpath, hown, hnd⟩ := hrep
  simp only [OwnsPath, Tree.ptr_node, pathParent_cons, Frame.addr_L, Frame.addr_R, Color.bit_red, Owns,
    Nat.add_zero] at hpath hown
  obtain ⟨hp0, hp4, hplt, hmp, hsib, hg0, hg4, hglt, hmg, hou, hpath⟩ := hpath
  obtain ⟨hn0, hn4, hnlt, hmn, hol, hor⟩ := hown
  have key := fun a => List.nodup_iff_count_le_one.mp hnd a
  simp only [pathBefore, pathAfter, Tree.inorder_node, List.count_append, List.count_cons,
    List.count_nil, beq_iff_eq] at key
  have hcb := gc.bit_le
  obtain ⟨hgp4, hgplt⟩ := OwnsPath_parent hpath
  have hpg : p ≠ g := ne_named (fun a => by have := key a; omega)
  have hnp : n ≠ p := ne_named (fun a => by have := key a; omega)
  have hng : n ≠ g := ne_named (fun a => by have := key a; omega)
  have hup : p ≠ u.ptr := ne_ptr_of_notin hp0 fun h =>
    disj_named (x := p) (fun a => by have := key a; omega) _ h rfl
  have hsn : n ≠ sib.ptr := ne_ptr_of_notin hn0 fun h =>
    disj_named (x := n) (fun a => by have := key a; omega) _ h rfl
  have hsp : p ≠ sib.ptr := ne_ptr_of_notin hp0 fun h =>
    disj_named (x := p) (fun a => by have := key a; omega) _ h rfl
  have hsg : g ≠ sib.ptr := ne_ptr_of_notin hg0 fun h =>
    disj_named (x := g) (fun a => by have := key a; omega) _ h rfl
  have hured := uncle_not_red hg4 hou hu
  have hg2 := uintptr_add_black hg4 hglt
  have hp2 := uintptr_add_red hplt
  simp only [__rb_insert_iter, hp0, rb_is_black, hmp, __rb_is_black, rb_color_aligned, rb_parent_aligned,
    rb_color_mask, rb_parent_mask, hp4, hg4, rb_red_parent, hg0, hmg,
    hup, hup.symm, hured, hsn, hsn.symm, __rb_rotate_set_parent, rb_parent, rb_set_parent_color, hpg,
    hpg.symm, ite_set_pc, hg2, hp2,
    get_pc_ok, get_right_ok, get_left_ok, set_pc_ok, set_left_ok, set_right_ok, ok_bind, pure_eq_ok,
    if_false, ne_eq, not_false_eq_true, not_true_eq_false,
    decide_True, decide_False, if_true, Bool.false_eq_true, ite_not, hsg, hsp, hsg.symm,
    hsp.symm, mem_wr_pc, mem_wr_left, mem_wr_right, mem_reparent_ne_ptr, hcb, hgplt, hgp4]
  generalize hS : rb_state.wr_pc _ g p = S
  have hSroot : S.root = s.root := by
    subst hS
    simp only [root_wr_pc, root_reparent, root_wr_right, root_wr_left]
  have hW : ∀ a, a ∉ p :: g :: sib.inorder → S.mem a = s.mem a := by
    intro a ha
    simp only [List.mem_cons, List.mem_append, not_or] at ha
    obtain ⟨h1, h2, h3⟩ := ha
    subst hS
    simp only [mem_wr_pc, mem_wr_left, mem_wr_right, mem_reparent_ne, h1, h2, h3, if_false,
      not_false_eq_true]
  have hreg : ∀ X : List Nat, (∀ a, X.count a + (pathBefore fs ++ pathAfter fs).count a +
      (p :: g :: sib.inorder).count a ≤ 1) → ∀ a ∈ X,
      a ∉ pathBefore fs ++ pathAfter fs ∧ S.mem a = s.mem a :=
    fun X hX a ha => ⟨(region_sep hX a ha).1, hW a (region_sep hX a ha).2⟩
  obtain ⟨s1, hs1, hpath1, hmem1⟩ := change_child_path (s := S) p hpath hSroot
    (fun a ha => hW a (disj_region (fun a => by
      have := key a; simp only [List.count_append, List.count_cons, beq_iff_eq]; omega) a ha))
    hg0 (fun h => disj_named (x := g)
        (fun a => by have := key a; simp only [List.count_append]; omega) _ h rfl)
    (nodup_of_count (fun a => by have := key a; simp only [List.count_append]; omega))
  rw [hs1]
  refine ⟨s1, _, rfl, ?_⟩
  rw [represents_plug]
  refine ⟨hpath1, ?_, ?_⟩
  · have hreg1 : ∀ X : List Nat, (∀ a, X.count a + (pathBefore fs ++ pathAfter fs).count a +
        (p :: g :: sib.inorder).count a ≤ 1) → ∀ a ∈ X, s1.mem a = s.mem a := by
      intro X hX a ha
      rw [hmem1 a (hreg X hX a ha).1, (hreg X hX a ha).2]
    have hnamed : ∀ x, (∀ a, (pathBefore fs ++ pathAfter fs).count a + (if x = a then 1 else 0) ≤ 1) →
        s1.mem x = _ := fun x hx => hmem1 x (fun h => disj_named hx _ h rfl)
    have hps : p ∉ sib.inorder := fun h =>
      disj_named (x := p) (fun a => by have := key a; omega) _ h rfl
    have hns : n ∉ sib.inorder := fun h =>
      disj_named (x := n) (fun a => by have := key a; omega) _ h rfl
    have hgs : g ∉ sib.inorder := fun h =>
      disj_named (x := g) (fun a => by have := key a; omega) _ h rfl
    simp only [Owns, Color.bit_red, Nat.add_zero, Tree.setBlack_ptr, Tree.ptr_node]
    refine ⟨hp0, hp4, hplt, ?mp, ⟨hg0, hg4, hglt, ?mg, ?ou, ?os⟩, hn0, hn4, hnlt, ?mn, ?ol, ?or⟩
    case mp =>
      rw [hnamed p (fun a => by have := key a; simp only [List.count_append]; omega)]
      subst hS
      simp only [mem_wr_pc, mem_wr_left, mem_wr_right, mem_reparent_ne, hps, hpg, hpg.symm, hnp,
        hnp.symm, hng, hng.symm, if_false, if_true, hmp, hmg, not_false_eq_true]
    case mn =>
      rw [hnamed n (fun a => by have := key a; simp only [List.count_append]; omega)]
      subst hS
      simp only [mem_wr_pc, mem_wr_left, mem_wr_right, mem_reparent_ne, hns, hpg, hpg.symm, hnp,
        hnp.symm, hng, hng.symm, if_false, if_true, hmn, not_false_eq_true]
    case ol =>
      exact Owns_congr (hreg1 _ (fun a => by
        have := key a; simp only [List.count_append, List.count_cons, beq_iff_eq]; omega)) hol
    case or =>
      exact Owns_congr (hreg1 _ (fun a => by
        have := key a; simp only [List.count_append, List.count_cons, beq_iff_eq]; omega)) hor
    case mg =>
      rw [hnamed g (fun a => by have := key a; simp only [List.count_append]; omega)]
      subst hS
      simp only [mem_wr_pc, mem_wr_left, mem_wr_right, mem_reparent_ne, hgs, hpg, hpg.symm, hnp,
        hnp.symm, hng, hng.symm, if_false, if_true, hmg, not_false_eq_true]
    case os =>
      refine Owns_setBlack_of hsib (nodup_of_count (fun a => by have := key a; omega)) ?_ ?_
      · intro h
        rw [hmem1 _ (disj_region (fun a => by have := key a; simp only [List.count_append]; omega) _
          (Tree.ptr_mem h))]
        subst hS
        simp only [mem_wr_pc, mem_wr_left, mem_wr_right, hsn, hsn.symm, hsp, hsp.symm,
          hsg, hsg.symm, if_false, if_true, h, not_false_eq_true]
      · intro a ha hne
        rw [hmem1 _ (disj_region (fun a => by have := key a; simp only [List.count_append]; omega) _ ha)]
        subst hS
        simp only [mem_wr_pc, mem_wr_left, mem_wr_right, hne, if_false, ite_self,
          not_false_eq_true, mem_reparent_ne_ptr, ne_eq,
          disj_named (x := g) (fun a => by have := key a; omega) a ha,
          disj_named (x := p) (fun a => by have := key a; omega) a ha]
    case ou =>
      exact Owns_congr (hreg1 _ (fun a => by
        have := key a; simp only [List.count_append, List.count_cons, beq_iff_eq]; omega)) hou
  · have := hnd
    simp only [pathBefore, pathAfter, Tree.inorder_node, Tree.setBlack_inorder, List.append_assoc,
      List.cons_append, List.nil_append, List.singleton_append] at this ⊢
    exact this

set_option maxRecDepth 4000 in
theorem insert_iter_red_LL {σ : Type} (hook : rb_state → Nat → Nat → σ → σ) (s : rb_state)
    (aug : σ) (fs : List Frame) (p g n ua : Nat) (gc c : Color) (sib ul ur l r : Tree)
    (hrep : Represents s
      (plug (.L p .red sib :: .L g gc (.node ua .red ul ur) :: fs) (.node n c l r))) :
    ∃ s1, __rb_insert_iter hook s aug n p = .ok (.next (s1, aug, g, pathParent fs)) ∧
      Represents s1 (plug fs (.node g .red (.node p .black (.node n c l r) sib) (.node ua .black ul ur))) := by
  rw [represents_plug] at hrep
  obtain ⟨hpath, hown, hnd⟩ := hrep
  simp only [OwnsPath, Tree.ptr_node, pathParent_cons, Frame.addr_L, Frame.addr_R, Color.bit_red, Owns,
    Nat.add_zero] at hpath hown
  obtain ⟨hp0, hp4, hplt, hmp, hsib, hg0, hg4, hglt, hmg, ⟨hu0, hu4, hult, hmu, houl, hour⟩, hpath⟩ :=
    hpath
  obtain ⟨hn0, hn4, hnlt, hmn, hol, hor⟩ := hown
  have key := fun a => List.nodup_iff_count_le_one.mp hnd a
  simp only [pathBefore, pathAfter, Tree.inorder_node, List.count_append, List.count_cons,
    List.count_nil, beq_iff_eq] at key
  have hcb := gc.bit_le
  obtain ⟨hgp4, hgplt⟩ := OwnsPath_parent hpath
  have hpg : p ≠ g := ne_named (fun a => by have := key a; omega)
  have hnp : n ≠ p := ne_named (fun a => by have := key a; omega)
  have hng : n ≠ g := ne_named (fun a => by have := key a; omega)
  have hnu : n ≠ ua := ne_named (fun a => by have := key a; omega)
  have hpu : p ≠ ua := ne_named (fun a => by have := key a; omega)
  have hgu : g ≠ ua := ne_named (fun a => by have := key a; omega)
  have hg2 := uintptr_add_black hg4 hglt
  have hgp2 := uintptr_add_red hgplt
  simp only [__rb_insert_iter, hp0, rb_is_black, rb_is_red, __rb_is_red, hmp, hmu, __rb_is_black,
    rb_color_aligned, rb_parent_aligned,
    rb_color_mask, rb_parent_mask, hp4, hg4, rb_red_parent, hg0, hu0, hmg,
    rb_parent, rb_set_parent_color, hpg,
    hpg.symm, hpu, hpu.symm, hgu, hgu.symm, hg2, hgp2,
    get_pc_ok, get_right_ok, get_left_ok, set_pc_ok, set_left_ok, set_right_ok, ok_bind, pure_eq_ok,
    if_false, ne_eq, not_false_eq_true, not_true_eq_false,
    decide_True, decide_False, if_true, Bool.false_eq_true, ite_not,
    mem_wr_pc, mem_wr_left, mem_wr_right, hcb, hgplt, hgp4]
  generalize hS : rb_state.wr_pc _ g _ = S
  have hSroot : S.root = s.root := by
    subst hS
    simp only [root_wr_pc]
  have hW : ∀ a, a ∉ [p, g, ua] → S.mem a = s.mem a := by
    intro a ha
    simp only [List.mem_cons, List.mem_singleton, List.not_mem_nil, or_false, not_or] at ha
    obtain ⟨h1, h2, h3⟩ := ha
    subst hS
    simp only [mem_wr_pc, h1, h2, h3, if_false]
  have hreg : ∀ X : List Nat, (∀ a, X.count a + ([] : List Nat).count a +
      [p, g, ua].count a ≤ 1) → ∀ a ∈ X, S.mem a = s.mem a :=
    fun X hX a ha => hW a (region_sep hX a ha).2
  refine ⟨S, rfl, ?_⟩
  rw [represents_plug]
  refine ⟨OwnsPath_congr hSroot (hreg _ (fun a => by
      have := key a; simp only [List.count_append, List.count_cons, List.count_nil, beq_iff_eq]
      omega)) hpath, ?_, ?_⟩
  · simp only [Owns, Color.bit_red, Color.bit_black, Nat.add_zero, Tree.ptr_node]
    refine ⟨hg0, hg4, hglt, ?mg, ⟨hp0, hp4, hplt, ?mp, ⟨hn0, hn4, hnlt, ?mn, ?ol, ?or⟩, ?os⟩, ⟨hu0, hu4, hult, ?mu, ?oul, ?our⟩⟩
    case mp =>
      subst hS
      simp only [mem_wr_pc, hpg, hpg.symm, hpu, hpu.symm, if_false, if_true, hmp]
    case mn =>
      subst hS
      simp only [mem_wr_pc, hnp, hng, hnu, if_false, if_true, hmn]
    case mg =>
      subst hS
      simp only [mem_wr_pc, hpg, hpg.symm, hgu, hgu.symm, if_false, if_true, hmg]
    case mu =>
      subst hS
      simp only [mem_wr_pc, hpu, hpu.symm, hgu, hgu.symm, if_false, if_true, hmu]
    case ol =>
      exact Owns_congr (hreg _ (fun a => by
        have := key a; simp only [List.count_append, List.count_cons, List.count_nil, beq_iff_eq]
        omega)) hol
    case or =>
      exact Owns_congr (hreg _ (fun a => by
        have := key a; simp only [List.count_append, List.count_cons, List.count_nil, beq_iff_eq]
        omega)) hor
    case os =>
      exact Owns_congr (hreg _ (fun a => by
        have := key a; simp only [List.count_append, List.count_cons, List.count_nil, beq_iff_eq]
        omega)) hsib
    case oul =>
      exact Owns_congr (hreg _ (fun a => by
        have := key a; simp only [List.count_append, List.count_cons, List.count_nil, beq_iff_eq]
        omega)) houl
    case our =>
      exact Owns_congr (hreg _ (fun a => by
        have := key a; simp only [List.count_append, List.count_cons, List.count_nil, beq_iff_eq]
        omega)) hour
  · have := hnd
    simp only [pathBefore, pathAfter, Tree.inorder_node, Tree.setBlack_inorder, List.append_assoc,
      List.cons_append, List.nil_append, List.singleton_append] at this ⊢
    exact this

set_option maxRecDepth 4000 in
theorem insert_iter_red_LR {σ : Type} (hook : rb_state → Nat → Nat → σ → σ) (s : rb_state)
    (aug : σ) (fs : List Frame) (p g n ua : Nat) (gc c : Color) (sib ul ur l r : Tree)
    (hrep : Represents s
      (plug (.R p .red sib :: .L g gc (.node ua .red ul ur) :: fs) (.node n c l r))) :
    ∃ s1, __rb_insert_iter hook s aug n p = .ok (.next (s1, aug, g, pathParent fs)) ∧
      Represents s1 (plug fs (.node g .red (.node p .black sib (.node n c l r)) (.node ua .black ul ur))) := by
  rw [represents_plug] at hrep
  obtain ⟨hpath, hown, hnd⟩ := hrep
  simp only [OwnsPath, Tree.ptr_node, pathParent_cons, Frame.addr_L, Frame.addr_R, Color.bit_red, Owns,
    Nat.add_zero] at hpath hown
  obtain ⟨hp0, hp4, hplt, hmp, hsib, hg0, hg4, hglt, hmg, ⟨hu0, hu4, hult, hmu, houl, hour⟩, hpath⟩ :=
    hpath
  obtain ⟨hn0, hn4, hnlt, hmn, hol, hor⟩ := hown
  have key := fun a => List.nodup_iff_count_le_one.mp hnd a
  simp only [pathBefore, pathAfter, Tree.inorder_node, List.count_append, List.count_cons,
    List.count_nil, beq_iff_eq] at key
  have hcb := gc.bit_le
  obtain ⟨hgp4, hgplt⟩ := OwnsPath_parent hpath
  have hpg : p ≠ g := ne_named (fun a => by have := key a; omega)
  have hnp : n ≠ p := ne_named (fun a => by have := key a; omega)
  have hng : n ≠ g := ne_named (fun a => by have := key a; omega)
  have hnu : n ≠ ua := ne_named (fun a => by have := key a; omega)
  have hpu : p ≠ ua := ne_named (fun a => by have := key a; omega)
  have hgu : g ≠ ua := ne_named (fun a => by have := key a; omega)
  have hg2 := uintptr_add_black hg4 hglt
  have hgp2 := uintptr_add_red hgplt
  simp only [__rb_insert_iter, hp0, rb_is_black, rb_is_red, __rb_is_red, hmp, hmu, __rb_is_black,
    rb_color_aligned, rb_parent_aligned,
    rb_color_mask, rb_parent_mask, hp4, hg4, rb_red_parent, hg0, hu0, hmg,
    rb_parent, rb_set_parent_color, hpg,
    hpg.symm, hpu, hpu.symm, hgu, hgu.symm, hg2, hgp2,
    get_pc_ok, get_right_ok, get_left_ok, set_pc_ok, set_left_ok, set_right_ok, ok_bind, pure_eq_ok,
    if_false, ne_eq, not_false_eq_true, not_true_eq_false,
    decide_True, decide_False, if_true, Bool.false_eq_true, ite_not,
    mem_wr_pc, mem_wr_left, mem_wr_right, hcb, hgplt, hgp4]
  generalize hS : rb_state.wr_pc _ g _ = S
  have hSroot : S.root = s.root := by
    subst hS
    simp only [root_wr_pc]
  have hW : ∀ a, a ∉ [p, g, ua] → S.mem a = s.mem a := by
    intro a ha
    simp only [List.mem_cons, List.mem_singleton, List.not_mem_nil, or_false, not_or] at ha
    obtain ⟨h1, h2, h3⟩ := ha
    subst hS
    simp only [mem_wr_pc, h1, h2, h3, if_false]
  have hreg : ∀ X : List Nat, (∀ a, X.count a + ([] : List Nat).count a +
      [p, g, ua].count a ≤ 1) → ∀ a ∈ X, S.mem a = s.mem a :=
    fun X hX a ha => hW a (region_sep hX a ha).2
  refine ⟨S, rfl, ?_⟩
  rw [represents_plug]
  refine ⟨OwnsPath_congr hSroot (hreg _ (fun a => by
      have := key a; simp only [List.count_append, List.count_cons, List.count_nil, beq_iff_eq]
      omega)) hpath, ?_, ?_⟩
  · simp only [Owns, Color.bit_red, Color.bit_black, Nat.add_zero, Tree.ptr_node]
    refine ⟨hg0, hg4, hglt, ?mg, ⟨hp0, hp4, hplt, ?mp, ?os, ⟨hn0, hn4, hnlt, ?mn, ?ol, ?or⟩⟩, ⟨hu0, hu4, hult, ?mu, ?oul, ?our⟩⟩
    case mp =>
      subst hS
      simp only [mem_wr_pc, hpg, hpg.symm, hpu, hpu.symm, if_false, if_true, hmp]
    case mn =>
      subst hS
      simp only [mem_wr_pc, hnp, hng, hnu, if_false, if_true, hmn]
    case mg =>
      subst hS
      simp only [mem_wr_pc, hpg, hpg.symm, hgu, hgu.symm, if_false, if_true, hmg]
    case mu =>
      subst hS
      simp only [mem_wr_pc, hpu, hpu.symm, hgu, hgu.symm, if_false, if_true, hmu]
    case ol =>
      exact Owns_congr (hreg _ (fun a => by
        have := key a; simp only [List.count_append, List.count_cons, List.count_nil, beq_iff_eq]
        omega)) hol
    case or =>
      exact Owns_congr (hreg _ (fun a => by
        have := key a; simp only [List.count_append, List.count_cons, List.count_nil, beq_iff_eq]
        omega)) hor
    case os =>
      exact Owns_congr (hreg _ (fun a => by
        have := key a; simp only [List.count_append, List.count_cons, List.count_nil, beq_iff_eq]
        omega)) hsib
    case oul =>
      exact Owns_congr (hreg _ (fun a => by
        have := key a; simp only [List.count_append, List.count_cons, List.count_nil, beq_iff_eq]
        omega)) houl
    case our =>
      exact Owns_congr (hreg _ (fun a => by
        have := key a; simp only [List.count_append, List.count_cons, List.count_nil, beq_iff_eq]
        omega)) hour
  · have := hnd
    simp only [pathBefore, pathAfter, Tree.inorder_node, Tree.setBlack_inorder, List.append_assoc,
      List.cons_append, List.nil_append, List.singleton_append] at this ⊢
    exact this

set_option maxRecDepth 4000 in
theorem insert_iter_red_RL {σ : Type} (hook : rb_state → Nat → Nat → σ → σ) (s : rb_state)
    (aug : σ) (fs : List Frame) (p g n ua : Nat) (gc c : Color) (sib ul ur l r : Tree)
    (hrep : Represents s
      (plug (.L p .red sib :: .R g gc (.node ua .red ul ur) :: fs) (.node n c l r))) :
    ∃ s1, __rb_insert_iter hook s aug n p = .ok (.next (s1, aug, g, pathParent fs)) ∧
      Represents s1 (plug fs (.node g .red (.node ua .black ul ur) (.node p .black (.node n c l r) sib))) := by
  rw [represents_plug] at hrep
  obtain ⟨hpath, hown, hnd⟩ := hrep
  simp only [OwnsPath, Tree.ptr_node, pathParent_cons, Frame.addr_L, Frame.addr_R, Color.bit_red, Owns,
    Nat.add_zero] at hpath hown
  obtain ⟨hp0, hp4, hplt, hmp, hsib, hg0, hg4, hglt, hmg, ⟨hu0, hu4, hult, hmu, houl, hour⟩, hpath⟩ :=
    hpath
  obtain ⟨hn0, hn4, hnlt, hmn, hol, hor⟩ := hown
  have key := fun a => List.nodup_iff_count_le_one.mp hnd a
  simp only [pathBefore, pathAfter, Tree.inorder_node, List.count_append, List.count_cons,
    List.count_nil, beq_iff_eq] at key
  have hcb := gc.bit_le
  obtain ⟨hgp4, hgplt⟩ := OwnsPath_parent hpath
  have hpg : p ≠ g := ne_named (fun a => by have := key a; omega)
  have hnp : n ≠ p := ne_named (fun a => by have := key a; omega)
  have hng : n ≠ g := ne_named (fun a => by have := key a; omega)
  have hnu : n ≠ ua := ne_named (fun a => by have := key a; omega)
  have hpu : p ≠ ua := ne_named (fun a => by have := key a; omega)
  have hgu : g ≠ ua := ne_named (fun a => by have := key a; omega)
  have hg2 := uintptr_add_black hg4 hglt
  have hgp2 := uintptr_add_red hgplt
  simp only [__rb_insert_iter, hp0, rb_is_black, rb_is_red, __rb_is_red, hmp, hmu, __rb_is_black,
    rb_color_aligned, rb_parent_aligned,
    rb_color_mask, rb_parent_mask, hp4, hg4, rb_red_parent, hg0, hu0, hmg,
    rb_parent, rb_set_parent_color, hpg,
    hpg.symm, hpu, hpu.symm, hgu, hgu.symm, hg2, hgp2,
    get_pc_ok, get_right_ok, get_left_ok, set_pc_ok, set_left_ok, set_right_ok, ok_bind, pure_eq_ok,
    if_false, ne_eq, not_false_eq_true, not_true_eq_false,
    decide_True, decide_False, if_true, Bool.false_eq_true, ite_not,
    mem_wr_pc, mem_wr_left, mem_wr_right, hcb, hgplt, hgp4]
  generalize hS : rb_state.wr_pc _ g _ = S
  have hSroot : S.root = s.root := by
    subst hS
    simp only [root_wr_pc]
  have hW : ∀ a, a ∉ [p, g, ua] → S.mem a = s.mem a := by
    intro a ha
    simp only [List.mem_cons, List.mem_singleton, List.not_mem_nil, or_false, not_or] at ha
    obtain ⟨h1, h2, h3⟩ := ha
    subst hS
    simp only [mem_wr_pc, h1, h2, h3, if_false]
  have hreg : ∀ X : List Nat, (∀ a, X.count a + ([] : List Nat).count a +
      [p, g, ua].count a ≤ 1) → ∀ a ∈ X, S.mem a = s.mem a :=
    fun X hX a ha => hW a (region_sep hX a ha).2
  refine ⟨S, rfl, ?_⟩
  rw [represents_plug]
  refine ⟨OwnsPath_congr hSroot (hreg _ (fun a => by
      have := key a; simp only [List.count_append, List.count_cons, List.count_nil, beq_iff_eq]
      omega)) hpath, ?_, ?_⟩
  · simp only [Owns, Color.bit_red, Color.bit_black, Nat.add_zero, Tree.ptr_node]
    refine ⟨hg0, hg4, hglt, ?mg, ⟨hu0, hu4, hult, ?mu, ?oul, ?our⟩, hp0, hp4, hplt, ?mp, ⟨hn0, hn4, hnlt, ?mn, ?ol, ?or⟩, ?os⟩
    case mp =>
      subst hS
      simp only [mem_wr_pc, hpg, hpg.symm, hpu, hpu.symm, if_false, if_true, hmp]
    case mn =>
      subst hS
      simp only [mem_wr_pc, hnp, hng, hnu, if_false, if_true, hmn]
    case mg =>
      subst hS
      simp only [mem_wr_pc, hpg, hpg.symm, hgu, hgu.symm, if_false, if_true, hmg]
    case mu =>
      subst hS
      simp only [mem_wr_pc, hpu, hpu.symm, hgu, hgu.symm, if_false, if_true, hmu]
    case ol =>
      exact Owns_congr (hreg _ (fun a => by
        have := key a; simp only [List.count_append, List.count_cons, List.count_nil, beq_iff_eq]
        omega)) hol
    case or =>
      exact Owns_congr (hreg _ (fun a => by
        have := key a; simp only [List.count_append, List.count_cons, List.count_nil, beq_iff_eq]
        omega)) hor
    case os =>
      exact Owns_congr (hreg _ (fun a => by
        have := key a; simp only [List.count_append, List.count_cons, List.count_nil, beq_iff_eq]
        omega)) hsib
    case oul =>
      exact Owns_congr (hreg _ (fun a => by
        have := key a; simp only [List.count_append, List.count_cons, List.count_nil, beq_iff_eq]
        omega)) houl
    case our =>
      exact Owns_congr (hreg _ (fun a => by
        have := key a; simp only [List.count_append, List.count_cons, List.count_nil, beq_iff_eq]
        omega)) hour
  · have := hnd
    simp only [pathBefore, pathAfter, Tree.inorder_node, Tree.setBlack_inorder, List.append_assoc,
      List.cons_append, List.nil_append, List.singleton_append] at this ⊢
    exact this

set_option maxRecDepth 4000 in
theorem insert_iter_red_RR {σ : Type} (hook : rb_state → Nat → Nat → σ → σ) (s : rb_state)
    (aug : σ) (fs : List Frame) (p g n ua : Nat) (gc c : Color) (sib ul ur l r : Tree)
    (hrep : Represents s
      (plug (.R p .red sib :: .R g gc (.node ua .red ul ur) :: fs) (.node n c l r))) :
    ∃ s1, __rb_insert_iter hook s aug n p = .ok (.next (s1, aug, g, pathParent fs)) ∧
      Represents s1 (plug fs (.node g .red (.node ua .black ul ur) (.node p .black sib (.node n c l r)))) := by
  rw [represents_plug] at hrep
  obtain ⟨hpath, hown, hnd⟩ := hrep
  simp only [OwnsPath, Tree.ptr_node, pathParent_cons, Frame.addr_L, Frame.addr_R, Color.bit_red, Owns,
    Nat.add_zero] at hpath hown
  obtain ⟨hp0, hp4, hplt, hmp, hsib, hg0, hg4, hglt, hmg, ⟨hu0, hu4, hult, hmu, houl, hour⟩, hpath⟩ :=
    hpath
  obtain ⟨hn0, hn4, hnlt, hmn, hol, hor⟩ := hown
  have key := fun a => List.nodup_iff_count_le_one.mp hnd a
  simp only [pathBefore, pathAfter, Tree.inorder_node, List.count_append, List.count_cons,
    List.count_nil, beq_iff_eq] at key
  have hcb := gc.bit_le
  obtain ⟨hgp4, hgplt⟩ := OwnsPath_parent hpath
  have hpg : p ≠ g := ne_named (fun a => by have := key a; omega)
  have hnp : n ≠ p := ne_named (fun a => by have := key a; omega)
  have hng : n ≠ g := ne_named (fun a => by have := key a; omega)
  have hnu : n ≠ ua := ne_named (fun a => by have := key a; omega)
  have hpu : p ≠ ua := ne_named (fun a => by have := key a; omega)
  have hgu : g ≠ ua := ne_named (fun a => by have := key a; omega)
  have hg2 := uintptr_add_black hg4 hglt
  have hgp2 := uintptr_add_red hgplt
  simp only [__rb_insert_iter, hp0, rb_is_black, rb_is_red, __rb_is_red, hmp, hmu, __rb_is_black,
    rb_color_aligned, rb_parent_aligned,
    rb_color_mask, rb_parent_mask, hp4, hg4, rb_red_parent, hg0, hu0, hmg,
    rb_parent, rb_set_parent_color, hpg,
    hpg.symm, hpu, hpu.symm, hgu, hgu.symm, hg2, hgp2,
    get_pc_ok, get_right_ok, get_left_ok, set_pc_ok, set_left_ok, set_right_ok, ok_bind, pure_eq_ok,
    if_false, ne_eq, not_false_eq_true, not_true_eq_false,
    decide_True, decide_False, if_true, Bool.false_eq_true, ite_not,
    mem_wr_pc, mem_wr_left, mem_wr_right, hcb, hgplt, hgp4]
  generalize hS : rb_state.wr_pc _ g _ = S
  have hSroot : S.root = s.root := by
    subst hS
    simp only [root_wr_pc]
  have hW : ∀ a, a ∉ [p, g, ua] → S.mem a = s.mem a := by
    intro a ha
    simp only [List.mem_cons, List.mem_singleton, List.not_mem_nil, or_false, not_or] at ha
    obtain ⟨h1, h2, h3⟩ := ha
    subst hS
    simp only [mem_wr_pc, h1, h2, h3, if_false]
  have hreg : ∀ X : List Nat, (∀ a, X.count a + ([] : List Nat).count a +
      [p, g, ua].count a ≤ 1) → ∀ a ∈ X, S.mem a = s.mem a :=
    fun X hX a ha => hW a (region_sep hX a ha).2
  refine ⟨S, rfl, ?_⟩
  rw [represents_plug]
  refine ⟨OwnsPath_congr hSroot (hreg _ (fun a => by
      have := key a; simp only [List.count_append, List.count_cons, List.count_nil, beq_iff_eq]
      omega)) hpath, ?_, ?_⟩
  · simp only [Owns, Color.bit_red, Color.bit_black, Nat.add_zero, Tree.ptr_node]
    refine ⟨hg0, hg4, hglt, ?mg, ⟨hu0, hu4, hult, ?mu, ?oul, ?our⟩, hp0, hp4, hplt, ?mp, ?os, ⟨hn0, hn4, hnlt, ?mn, ?ol, ?or⟩⟩
    case mp =>
      subst hS
      simp only [mem_wr_pc, hpg, hpg.symm, hpu, hpu.symm, if_false, if_true, hmp]
    case mn =>
      subst hS
      simp only [mem_wr_pc, hnp, hng, hnu, if_false, if_true, hmn]
    case mg =>
      subst hS
      simp only [mem_wr_pc, hpg, hpg.symm, hgu, hgu.symm, if_false, if_true, hmg]
    case mu =>
      subst hS
      simp only [mem_wr_pc, hpu, hpu.symm, hgu, hgu.symm, if_false, if_true, hmu]
    case ol =>
      exact Owns_congr (hreg _ (fun a => by
        have := key a; simp only [List.count_append, List.count_cons, List.count_nil, beq_iff_eq]
        omega)) hol
    case or =>
      exact Owns_congr (hreg _ (fun a => by
        have := key a; simp only [List.count_append, List.count_cons, List.count_nil, beq_iff_eq]
        omega)) hor
    case os =>
      exact Owns_congr (hreg _ (fun a => by
        have := key a; simp only [List.count_append, List.count_cons, List.count_nil, beq_iff_eq]
        omega)) hsib
    case oul =>
      exact Owns_congr (hreg _ (fun a => by
        have := key a; simp only [List.count_append, List.count_cons, List.count_nil, beq_iff_eq]
        omega)) houl
    case our =>
      exact Owns_congr (hreg _ (fun a => by
        have := key a; simp only [List.count_append, List.count_cons, List.count_nil, beq_iff_eq]
        omega)) hour
  · have := hnd
    simp only [pathBefore, pathAfter, Tree.inorder_node, Tree.setBlack_inorder, List.append_assoc,
      List.cons_append, List.nil_append, List.singleton_append] at this ⊢
    exact this

theorem insert_iter_root {σ : Type} (hook : rb_state → Nat → Nat → σ → σ) (s : rb_state) (aug : σ)
    (n : Nat) (c : Color) (l r : Tree) (hrep : Represents s (.node n c l r)) :
    ∃ s1, __rb_insert_iter hook s aug n 0 = .ok (.done (s1, aug)) ∧
      Represents s1 (.node n .black l r) := by
  obtain ⟨hroot, hown, hnd⟩ := hrep
  simp only [Owns] at hown
  obtain ⟨hn0, hn4, hnlt, hmn, hol, hor⟩ := hown
  have key := fun a => List.nodup_iff_count_le_one.mp hnd a
  simp only [Tree.inorder_node, List.count_append, List.count_cons, beq_iff_eq] at key
  have h1 : RB_BLACK % UINTPTR_MOD = 1 := by unfold UINTPTR_MOD RB_BLACK; rfl
  refine ⟨s.wr_pc n 1, by simp [__rb_insert_iter, rb_set_parent_color, hn0, h1], hroot, ?_, hnd⟩
  simp only [Owns, Color.bit_black]
  refine ⟨hn0, hn4, hnlt, by simp [hmn], Owns_congr (fun a ha => ?_) hol,
    Owns_congr (fun a ha => ?_) hor⟩
  · have : a ≠ n := disj_named (fun a => by have := key a; omega) a ha
    simp [this]
  · have : a ≠ n := disj_named (fun a => by have := key a; omega) a ha
    simp [this]

theorem insert_iter_black {σ : Type} (hook : rb_state → Nat → Nat → σ → σ) (s : rb_state) (aug : σ)
    (f : Frame) (fs : List Frame) (t : Tree) (hf : f.color = .black)
    (hrep : Represents s (plug (f :: fs) t)) :
    __rb_insert_iter hook s aug t.ptr (pathParent (f :: fs)) = .ok (.done (s, aug)) := by
  rw [represents_plug] at hrep
  obtain ⟨hpath, -, -⟩ := hrep
  obtain ⟨hgp4, hgplt⟩ := OwnsPath_parent (OwnsPath.tail hpath)
  cases f with
  | L p c sib =>
    simp only [Frame.color] at hf
    subst hf
    simp only [OwnsPath, Color.bit_black] at hpath
    obtain ⟨hp0, hp4, hplt, hmp, -, -⟩ := hpath
    simp [__rb_insert_iter, hp0, rb_is_black, __rb_is_black, hmp, rb_color_mask, hgp4]
  | R p c sib =>
    simp only [Frame.color] at hf
    subst hf
    simp only [OwnsPath, Color.bit_black] at hpath
    obtain ⟨hp0, hp4, hplt, hmp, -, -⟩ := hpath
    simp [__rb_insert_iter, hp0, rb_is_black, __rb_is_black, hmp, rb_color_mask, hgp4]

theorem insert_iter_refines {σ : Type} (hook : rb_state → Nat → Nat → σ → σ) (s : rb_state)
    (aug : σ) (fs : List Frame) (t : Tree) (hrep : Represents s (plug fs t)) :
    match ins_iter fs t with
    | none => True
    | some (.done T) =>
      ∃ s1 aug1, __rb_insert_iter hook s aug t.ptr (pathParent fs) = .ok (.done (s1, aug1)) ∧
        Represents s1 T
    | some (.next (fs1, t1)) =>
      ∃ s1 aug1, __rb_insert_iter hook s aug t.ptr (pathParent fs) =
          .ok (.next (s1, aug1, t1.ptr, pathParent fs1)) ∧ Represents s1 (plug fs1 t1) := by
  cases t with
  | nil => simp [ins_iter]
  | node n c l r =>
    cases fs with
    | nil =>
      obtain ⟨s1, h1, h2⟩ := insert_iter_root hook s aug n c l r hrep
      exact ⟨s1, aug, h1, h2⟩
    | cons f fs =>
      rcases f with ⟨p, _ | _, sib⟩ | ⟨p, _ | _, sib⟩
      · -- L red
        cases fs with
        | nil => simp [ins_iter]
        | cons f2 fs =>
          rcases f2 with ⟨g, gc, u⟩ | ⟨g, gc, u⟩
          · rcases u with _ | ⟨ua, _ | _, ul, ur⟩
            · obtain ⟨s1, s0, h1, h2⟩ := insert_iter_LL hook s aug fs p g n gc c sib .nil l r rfl hrep
              exact ⟨s1, _, h1, h2⟩
            · obtain ⟨s1, h1, h2⟩ := insert_iter_red_LL hook s aug fs p g n ua gc c sib ul ur l r hrep
              exact ⟨s1, aug, h1, h2⟩
            · obtain ⟨s1, s0, h1, h2⟩ := insert_iter_LL hook s aug fs p g n gc c sib (.node ua .black ul ur) l r rfl hrep
              exact ⟨s1, _, h1, h2⟩
          · rcases u with _ | ⟨ua, _ | _, ul, ur⟩
            · obtain ⟨s1, s0, s2, h1, h2⟩ := insert_iter_RL hook s aug fs p g n gc c sib .nil l r rfl hrep
              exact ⟨s1, _, h1, h2⟩
            · obtain ⟨s1, h1, h2⟩ := insert_iter_red_RL hook s aug fs p g n ua gc c sib ul ur l r hrep
              exact ⟨s1, aug, h1, h2⟩
            · obtain ⟨s1, s0, s2, h1, h2⟩ := insert_iter_RL hook s aug fs p g n gc c sib (.node ua .black ul ur) l r rfl hrep
              exact ⟨s1, _, h1, h2⟩
      · exact ⟨s, aug, insert_iter_black hook s aug _ fs _ rfl hrep, hrep⟩
      · cases fs with
        | nil => simp [ins_iter]
        | cons f2 fs =>
          rcases f2 with ⟨g, gc, u⟩ | ⟨g, gc, u⟩
          · rcases u with _ | ⟨ua, _ | _, ul, ur⟩
            · obtain ⟨s1, s0, s2, h1, h2⟩ := insert_iter_LR hook s aug fs p g n gc c sib .nil l r rfl hrep
              exact ⟨s1, _, h1, h2⟩
            · obtain ⟨s1, h1, h2⟩ := insert_iter_red_LR hook s aug fs p g n ua gc c sib ul ur l r hrep
              exact ⟨s1, aug, h1, h2⟩
            · obtain ⟨s1, s0, s2, h1, h2⟩ := insert_iter_LR hook s aug fs p g n gc c sib (.node ua .black ul ur) l r rfl hrep
              exact ⟨s1, _, h1, h2⟩
          · rcases u with _ | ⟨ua, _ | _, ul, ur⟩
            · obtain ⟨s1, s0, h1, h2⟩ := insert_iter_RR hook s aug fs p g n gc c sib .nil l r rfl hrep
              exact ⟨s1, _, h1, h2⟩
            · obtain ⟨s1, h1, h2⟩ := insert_iter_red_RR hook s aug fs p g n ua gc c sib ul ur l r hrep
              exact ⟨s1, aug, h1, h2⟩
            · obtain ⟨s1, s0, h1, h2⟩ := insert_iter_RR hook s aug fs p g n gc c sib (.node ua .black ul ur) l r rfl hrep
              exact ⟨s1, _, h1, h2⟩
      · exact ⟨s, aug, insert_iter_black hook s aug _ fs _ rfl hrep, hrep⟩

theorem insert_loop_refines {σ : Type} (hook : rb_state → Nat → Nat → σ → σ) (fuel : Nat)
    (s : rb_state) (aug : σ) (fs : List Frame) (t T : Tree) (hrep : Represents s (plug fs t))
    (h : ins_loop fuel fs t = some T) :
    ∃ s1 aug1, __rb_insert_loop hook fuel s aug t.ptr (pathParent fs) = .ok (s1, aug1) ∧
      Represents s1 T := by
  induction fuel generalizing s aug fs t with
  | zero => simp [ins_loop] at h
  | succ fuel ih =>
    have href := insert_iter_refines hook s aug fs t hrep
    simp only [ins_loop] at h
    cases hit : ins_iter fs t with
    | none => simp [hit] at h
    | some r =>
      cases r with
      | done T1 =>
        simp only [hit, Option.some.injEq] at h href
        subst h
        obtain ⟨s1, aug1, h1, h2⟩ := href
        exact ⟨s1, aug1, by simp [__rb_insert_loop, h1], h2⟩
      | next a =>
        obtain ⟨fs1, t1⟩ := a
        simp only [hit] at h href
        obtain ⟨s1, aug1, h1, h2⟩ := href
        obtain ⟨s2, aug2, h3, h4⟩ := ih s1 aug1 fs1 t1 h2 h
        exact ⟨s2, aug2, by simp [__rb_insert_loop, h1, h3], h4⟩

theorem Tree.rootBlack_iff (t : Tree) : t.rootBlack ↔ t.color = .black := by
  cases t <;> simp [Tree.rootBlack]

theorem plug_isRB {fs : List Frame} {t : Tree} (hp : PathRB fs t.color t.bh)
    (h1 : t.noRedRed) (h2 : t.balanced) : (plug fs t).isRB := by
  induction fs generalizing t with
  | nil =>
    simp only [PathRB] at hp
    exact ⟨(Tree.rootBlack_iff t).mpr hp, h1, h2⟩
  | cons f fs ih =>
    cases f with
    | L a c sib =>
      simp only [PathRB, Frame.sib, Frame.color] at hp
      obtain ⟨hs1, hs2, hs3, hs4, hs5⟩ := hp
      simp only [plug]
      apply ih
      · simpa [Tree.bh] using hs5
      · simp only [Tree.noRedRed]
        refine ⟨fun hc => ?_, h1, hs1⟩
        exact ⟨(Tree.rootBlack_iff t).mpr (hs4 hc).1, (hs4 hc).2⟩
      · exact ⟨hs3.symm, h2, hs2⟩
    | R a c sib =>
      simp only [PathRB, Frame.sib, Frame.color] at hp
      obtain ⟨hs1, hs2, hs3, hs4, hs5⟩ := hp
      simp only [plug]
      apply ih
      · simpa [Tree.bh, hs3] using hs5
      · simp only [Tree.noRedRed]
        refine ⟨fun hc => ?_, hs1, h1⟩
        exact ⟨(hs4 hc).2, (Tree.rootBlack_iff t).mpr (hs4 hc).1⟩
      · exact ⟨hs3, hs2, h2⟩

theorem isRB_plug {fs : List Frame} {t : Tree} (h : (plug fs t).isRB) :
    PathRB fs t.color t.bh ∧ t.noRedRed ∧ t.balanced := by
  induction fs generalizing t with
  | nil =>
    obtain ⟨h1, h2, h3⟩ := h
    exact ⟨(Tree.rootBlack_iff t).mp h1, h2, h3⟩
  | cons f fs ih =>
    cases f with
    | L a c sib =>
      simp only [plug] at h
      obtain ⟨hp, h1, h2⟩ := ih h
      simp only [Tree.noRedRed, Tree.balanced, Tree.color_node, Tree.bh] at hp h1 h2
      simp only [PathRB, Frame.sib, Frame.color]
      refine ⟨⟨h1.2.2, h2.2.2, h2.1.symm, fun hc => ?_, hp⟩, h1.2.1, h2.2.1⟩
      exact ⟨(Tree.rootBlack_iff t).mp (h1.1 hc).1, (h1.1 hc).2⟩
    | R a c sib =>
      simp only [plug] at h
      obtain ⟨hp, h1, h2⟩ := ih h
      simp only [Tree.noRedRed, Tree.balanced, Tree.color_node, Tree.bh] at hp h1 h2
      simp only [PathRB, Frame.sib, Frame.color]
      refine ⟨⟨h1.2.1, h2.2.1, h2.1, fun hc => ?_, by rw [← h2.1]; exact hp⟩, h1.2.2, h2.2.2⟩
      exact ⟨(Tree.rootBlack_iff t).mp (h1.1 hc).2, (h1.1 hc).1⟩

theorem ins_iter_inorder (fs : List Frame) (t : Tree) :
    match ins_iter fs t with
    | none => True
    | some (.done T) => T.inorder = (plug fs t).inorder
    | some (.next (fs1, t1)) => (plug fs1 t1).inorder = (plug fs t).inorder := by
  cases t with
  | nil => simp [ins_iter]
  | node n c l r =>
    cases fs with
    | nil => simp [ins_iter, plug]
    | cons f fs =>
      rcases f with ⟨p, _ | _, sib⟩ | ⟨p, _ | _, sib⟩
      · cases fs with
        | nil => simp [ins_iter]
        | cons f2 fs =>
          rcases f2 with ⟨g, gc, u⟩ | ⟨g, gc, u⟩ <;> rcases u with _ | ⟨ua, _ | _, ul, ur⟩ <;>
            simp [ins_iter, inorder_plug, pathBefore, pathAfter]
      · simp [ins_iter]
      · cases fs with
        | nil => simp [ins_iter]
        | cons f2 fs =>
          rcases f2 with ⟨g, gc, u⟩ | ⟨g, gc, u⟩ <;> rcases u with _ | ⟨ua, _ | _, ul, ur⟩ <;>
            simp [ins_iter, inorder_plug, pathBefore, pathAfter]
      · simp [ins_iter]

@[simp] theorem Tree.rootBlack_nil : Tree.nil.rootBlack := trivial
@[simp] theorem Tree.rootBlack_node (a : Nat) (c : Color) (l r : Tree) :
    (Tree.node a c l r).rootBlack ↔ c = .black := Iff.rfl

theorem Tree.setBlack_of_rootBlack {t : Tree} (h : t.rootBlack) : t.setBlack = t := by
  cases t with
  | nil => rfl
  | node a c l r => simp only [Tree.rootBlack_node] at h; subst h; rfl

set_option linter.unnecessarySeqFocus false in
theorem ins_iter_inv (fs : List Frame) (t : Tree) (h : InsInv fs t) :
    match ins_iter fs t with
    | none => False
    | some (.done T) => T.isRB
    | some (.next (fs1, t1)) => InsInv fs1 t1 ∧ fs1.length + 2 = fs.length := by
  obtain ⟨hc, hnr, hbal, hp⟩ := h
  cases t with
  | nil => simp at hc
  | node n c l r =>
    simp only [Tree.color_node] at hc
    subst hc
    simp only [Tree.noRedRed, Tree.balanced, Tree.bh, Color.bit_red, Nat.add_zero, true_implies] at hnr hbal hp
    obtain ⟨⟨hlb, hrb⟩, hln, hrn⟩ := hnr
    obtain ⟨hlr, hlbal, hrbal⟩ := hbal
    cases fs with
    | nil =>
      show (Tree.node n .black l r).isRB
      exact ⟨rfl, ⟨fun h => absurd h (by decide), hln, hrn⟩, hlr, hlbal, hrbal⟩
    | cons f fs =>
      have hblack : ∀ (f : Frame) (fs : List Frame) (t : Tree), f.color = .black → t.noRedRed →
          t.balanced → PathRB (f :: fs) .black t.bh → (plug (f :: fs) t).isRB := by
        intro f fs t hf h1 h2 h3
        refine plug_isRB ?_ h1 h2
        simp only [PathRB, hf] at h3 ⊢
        exact ⟨h3.1, h3.2.1, h3.2.2.1, fun h => absurd h (by decide), h3.2.2.2.2⟩
      rcases f with ⟨p, _ | _, sib⟩ | ⟨p, _ | _, sib⟩
      case L.black =>
        exact hblack _ fs (.node n .red l r) rfl ⟨fun _ => ⟨hlb, hrb⟩, hln, hrn⟩
          ⟨hlr, hlbal, hrbal⟩ (by simpa [Tree.bh] using hp)
      case R.black =>
        exact hblack _ fs (.node n .red l r) rfl ⟨fun _ => ⟨hlb, hrb⟩, hln, hrn⟩
          ⟨hlr, hlbal, hrbal⟩ (by simpa [Tree.bh] using hp)
      all_goals
        simp only [PathRB, Frame.sib, Frame.color, Color.bit_red, Nat.add_zero, true_implies, true_and] at hp
        obtain ⟨hs1, hs2, hs3, hs4, hp⟩ := hp
        cases fs with
        | nil => simp [PathRB] at hp
        | cons f2 fs =>
          rcases f2 with ⟨g, gc, u⟩ | ⟨g, gc, u⟩
          all_goals
            simp only [PathRB, Frame.sib, Frame.color] at hp
            obtain ⟨hu1, hu2, hu3, hu4, hp⟩ := hp
            have hgc : gc = .black := by
              cases gc
              · exact absurd (hu4 rfl).1 (by decide)
              · rfl
            subst hgc
            simp only [Color.bit_black] at hp
            rcases u with _ | ⟨ua, _ | _, ul, ur⟩
            · simp only [ins_iter, Tree.setBlack_of_rootBlack hs4, Tree.setBlack_of_rootBlack hlb,
                Tree.setBlack_of_rootBlack hrb]
              simp only [Tree.bh] at hu3
              refine plug_isRB ?_ ?_ ?_
              · convert hp using 1 <;>
                  (simp only [Tree.bh, Color.bit_red, Color.bit_black, Nat.add_zero] <;> omega)
              · simp [Tree.noRedRed, hln, hrn, hlb, hrb, hs1, hs4]
              · simp only [Tree.balanced, Tree.bh, Color.bit_red, Color.bit_black, Nat.add_zero,
                  hlbal, hrbal, hs2, and_true, true_and] <;> omega
            · simp only [Tree.noRedRed, Tree.balanced, Tree.bh, Color.bit_red, Nat.add_zero,
                true_implies] at hu1 hu2 hu3
              simp only [ins_iter]
              refine ⟨⟨rfl, ?_, ?_, ?_⟩, by simp⟩
              · simp [Tree.noRedRed, hln, hrn, hlb, hrb, hs1, hu1]
              · simp only [Tree.balanced, Tree.bh, Color.bit_red, Color.bit_black, Nat.add_zero,
                  hlbal, hrbal, hs2, hu2, and_true, true_and] <;> omega
              · convert hp using 1 <;>
                  (simp only [Tree.bh, Color.bit_red, Color.bit_black, Nat.add_zero] <;> omega)
            · simp only [Tree.noRedRed, Tree.balanced, Tree.bh, Color.bit_black] at hu1 hu2 hu3
              simp only [ins_iter, Tree.setBlack_of_rootBlack hs4, Tree.setBlack_of_rootBlack hlb,
                Tree.setBlack_of_rootBlack hrb]
              refine plug_isRB ?_ ?_ ?_
              · convert hp using 1 <;>
                  (simp only [Tree.bh, Color.bit_red, Color.bit_black, Nat.add_zero] <;> omega)
              · simp [Tree.noRedRed, hln, hrn, hlb, hrb, hs1, hs4, hu1]
              · simp only [Tree.balanced, Tree.bh, Color.bit_red, Color.bit_black, Nat.add_zero,
                  hlbal, hrbal, hs2, hu2, and_true, true_and] <;> omega

theorem ins_loop_total (fuel : Nat) (fs : List Frame) (t : Tree) (h : InsInv fs t)
    (hf : fs.length / 2 + 1 ≤ fuel) :
    ∃ T, ins_loop fuel fs t = some T ∧ T.isRB ∧ T.inorder = (plug fs t).inorder := by
  induction fuel generalizing fs t with
  | zero => omega
  | succ fuel ih =>
    have h1 := ins_iter_inv fs t h
    have h2 := ins_iter_inorder fs t
    simp only [ins_loop]
    cases hit : ins_iter fs t with
    | none => simp [hit] at h1
    | some r =>
      cases r with
      | done T =>
        simp only [hit] at h1 h2
        exact ⟨T, rfl, h1, h2⟩
      | next a =>
        obtain ⟨fs1, t1⟩ := a
        simp only [hit] at h1 h2
        obtain ⟨T, h3, h4, h5⟩ := ih fs1 t1 h1.1 (by omega)
        exact ⟨T, h3, h4, h5.trans h2⟩

theorem plug_append (fs gs : List Frame) (t : Tree) : plug (fs ++ gs) t = plug gs (plug fs t) := by
  induction fs generalizing t with
  | nil => rfl
  | cons f fs ih => cases f <;> simp [plug, ih]

theorem exists_path_of_mem {t : Tree} {p : Nat} (h : p ∈ t.inorder) :
    ∃ fs c l r, t = plug fs (.node p c l r) := by
  induction t with
  | nil => simp at h
  | node a c l r ihl ihr =>
    simp only [Tree.inorder_node, List.mem_append, List.mem_cons] at h
    rcases h with h | rfl | h
    · obtain ⟨fs, c1, l1, r1, rfl⟩ := ihl h
      exact ⟨fs ++ [.L a c r], c1, l1, r1, by simp [plug_append, plug]⟩
    · exact ⟨[], c, l, r, rfl⟩
    · obtain ⟨fs, c1, l1, r1, rfl⟩ := ihr h
      exact ⟨fs ++ [.R a c l], c1, l1, r1, by simp [plug_append, plug]⟩

theorem Owns_ptr_eq_zero {m : Nat → rb_node} {q : Nat} {t : Tree} (ho : Owns m q t)
    (h : t.ptr = 0) : t = .nil := by
  cases t with
  | nil => rfl
  | node a c l r => exact absurd h ho.1

theorem emptySlot_path {s : rb_state} {t : Tree} {parent : Nat} {link : rb_link}
    (hrep : Represents s t) (hslot : EmptySlot s t parent link) :
    ∃ fs, t = plug fs .nil ∧ parent = pathParent fs ∧ link = pathLink fs := by
  cases link with
  | root =>
    obtain ⟨h1, h2⟩ := hslot
    have := Owns_ptr_eq_zero hrep.2.1 (hrep.1.symm.trans h2)
    exact ⟨[], this, h1, rfl⟩
  | left p =>
    obtain ⟨h1, h2, h3⟩ := hslot
    obtain ⟨fs, c, l, r, rfl⟩ := exists_path_of_mem h2
    rw [represents_plug] at hrep
    obtain ⟨-, ho, -⟩ := hrep
    simp only [Owns] at ho
    obtain ⟨-, -, -, hm, hl, -⟩ := ho
    rw [hm] at h3
    have := Owns_ptr_eq_zero hl h3
    subst this
    exact ⟨.L p c r :: fs, rfl, h1, rfl⟩
  | right p =>
    obtain ⟨h1, h2, h3⟩ := hslot
    obtain ⟨fs, c, l, r, rfl⟩ := exists_path_of_mem h2
    rw [represents_plug] at hrep
    obtain ⟨-, ho, -⟩ := hrep
    simp only [Owns] at ho
    obtain ⟨-, -, -, hm, -, hr⟩ := ho
    rw [hm] at h3
    have := Owns_ptr_eq_zero hr h3
    subst this
    exact ⟨.R p c l :: fs, rfl, h1, rfl⟩

theorem height_plug (fs : List Frame) (t : Tree) : fs.length + t.height ≤ (plug fs t).height := by
  induction fs generalizing t with
  | nil => simp [plug]
  | cons f fs ih =>
    cases f with
    | L a c sib =>
      have := ih (.node a c t sib)
      simp only [plug, Tree.height, List.length_cons] at this ⊢
      omega
    | R a c sib =>
      have := ih (.node a c sib t)
      simp only [plug, Tree.height, List.length_cons] at this ⊢
      omega

theorem link_node_represents (s : rb_state) (fs : List Frame) (node : Nat)
    (hrep : Represents s (plug fs .nil))
    (h0 : node ≠ 0) (h4 : node % 4 = 0) (hlt : node < UINTPTR_MOD)
    (hfresh : node ∉ (plug fs .nil).inorder) :
    ∃ s1, rb_link_node s node (pathParent fs) (pathLink fs) = .ok s1 ∧
      Represents s1 (plug fs (.node node .red .nil .nil)) := by
  rw [inorder_plug] at hfresh
  rw [represents_plug] at hrep
  obtain ⟨hpath, -, hnd⟩ := hrep
  simp only [Tree.inorder_nil, List.nil_append] at hfresh hnd
  have hndn : (pathBefore fs ++ ((Tree.node node .red .nil .nil).inorder ++ pathAfter fs)).Nodup := by
    simp only [Tree.inorder_node, Tree.inorder_nil, List.nil_append, List.singleton_append]
    simp only [List.nodup_append, List.nodup_cons, List.mem_append, not_or, List.disjoint_cons_right]
      at hfresh hnd ⊢
    tauto
  cases fs with
  | nil =>
    refine ⟨{ root := node, mem := (((s.wr_pc node 0).wr_right node 0).wr_left node 0).mem },
      by simp [rb_link_node, rb_link.write, pathLink, h0], ?_⟩
    refine ⟨rfl, ?_, hndn⟩
    simp [Owns, h0, h4, hlt]
  | cons f fs =>
    have key := fun a => List.nodup_iff_count_le_one.mp hndn a
    cases f with
    | L a c sib =>
      simp only [OwnsPath] at hpath
      obtain ⟨ha0, ha4, halt, hma, hs, hp⟩ := hpath
      simp only [pathBefore, pathAfter, Tree.inorder_node, Tree.inorder_nil, List.count_append,
        List.count_cons, List.count_nil, beq_iff_eq] at key
      have hna : node ≠ a := ne_named (fun a => by have := key a; omega)
      refine ⟨(((s.wr_pc node a).wr_right node 0).wr_left node 0).wr_left a node,
        by simp [rb_link_node, rb_link.write, pathLink, h0, ha0], ?_⟩
      rw [represents_plug]
      refine ⟨?_, ?_, hndn⟩
      · simp only [OwnsPath, Tree.ptr_node]
        refine ⟨ha0, ha4, halt, by simp [hna, hna.symm, hma], Owns_congr (fun x hx => ?_) hs,
          OwnsPath_congr (s := s) rfl (fun x hx => ?_) hp⟩
        · have h1 : x ≠ node := disj_named (fun a => by have := key a; omega) x hx
          have h2 : x ≠ a := disj_named (fun a => by have := key a; omega) x hx
          simp [h1, h2]
        · have h1 : x ≠ node :=
            disj_named (fun a => by have := key a; simp only [List.count_append]; omega) x hx
          have h2 : x ≠ a :=
            disj_named (fun a => by have := key a; simp only [List.count_append]; omega) x hx
          simp [h1, h2]
      · simp [Owns, h0, h4, hlt, hna, hna.symm]
    | R a c sib =>
      simp only [OwnsPath] at hpath
      obtain ⟨ha0, ha4, halt, hma, hs, hp⟩ := hpath
      simp only [pathBefore, pathAfter, Tree.inorder_node, Tree.inorder_nil, List.count_append,
        List.count_cons, List.count_nil, beq_iff_eq] at key
      have hna : node ≠ a := ne_named (fun a => by have := key a; omega)
      refine ⟨(((s.wr_pc node a).wr_right node 0).wr_left node 0).wr_right a node,
        by simp [rb_link_node, rb_link.write, pathLink, h0, ha0], ?_⟩
      rw [represents_plug]
      refine ⟨?_, ?_, hndn⟩
      · simp only [OwnsPath, Tree.ptr_node]
        refine ⟨ha0, ha4, halt, by simp [hna, hna.symm, hma], Owns_congr (fun x hx => ?_) hs,
          OwnsPath_congr (s := s) rfl (fun x hx => ?_) hp⟩
        · have h1 : x ≠ node := disj_named (fun a => by have := key a; omega) x hx
          have h2 : x ≠ a := disj_named (fun a => by have := key a; omega) x hx
          simp [h1, h2]
        · have h1 : x ≠ node :=
            disj_named (fun a => by have := key a; simp only [List.count_append]; omega) x hx
          have h2 : x ≠ a :=
            disj_named (fun a => by have := key a; simp only [List.count_append]; omega) x hx
          simp [h1, h2]
      · simp [Owns, h0, h4, hlt, hna, hna.symm]

theorem insert_color_refines (fuel : Nat) (s : rb_state) (fs : List Frame) (n : Nat) (l r T : Tree)
    (hrep : Represents s (plug fs (.node n .red l r)))
    (h : ins_loop fuel fs (.node n .red l r) = some T) :
    ∃ s2, rb_insert_color fuel s n = .ok s2 ∧ Represents s2 T := by
  obtain ⟨s2, aug2, h1, h2⟩ := insert_loop_refines augment_rotate fuel s () fs _ T hrep h
  have hown := ((represents_plug s fs _).mp hrep).2.1
  simp only [Owns, Color.bit_red, Nat.add_zero] at hown
  obtain ⟨hn0, -, -, hmn, -, -⟩ := hown
  simp only [Tree.ptr_node] at h1
  exact ⟨s2, by simp [rb_insert_color, __rb_insert, rb_red_parent, hn0, hmn, h1], h2⟩

theorem rb_insert_color_spec (s : rb_state) (t : Tree) (node parent : Nat) (link : rb_link)
    (fuel : Nat) (hrep : Represents s t) (hrb : t.isRB)
    (hnode : node ≠ 0 ∧ node % 4 = 0 ∧ node < UINTPTR_MOD ∧ node ∉ t.inorder)
    (hslot : EmptySlot s t parent link) (hfuel : t.height / 2 + 1 ≤ fuel) :
    ∃ s1 s2 t2 fs, t = plug fs .nil ∧ parent = pathParent fs ∧ link = pathLink fs ∧
      rb_link_node s node parent link = .ok s1 ∧
      Represents s1 (plug fs (.node node .red .nil .nil)) ∧
      rb_insert_color fuel s1 node = .ok s2 ∧
      Represents s2 t2 ∧ t2.isRB ∧ t2.inorder = pathBefore fs ++ node :: pathAfter fs := by
  obtain ⟨fs, rfl, rfl, rfl⟩ := emptySlot_path hrep hslot
  obtain ⟨h0, h4, hlt, hfresh⟩ := hnode
  obtain ⟨s1, hs1, hrep1⟩ := link_node_represents s fs node hrep h0 h4 hlt hfresh
  have hinv : InsInv fs (.node node .red .nil .nil) := by
    obtain ⟨hp, -, -⟩ := isRB_plug hrb
    refine ⟨rfl, ?_, ?_, ?_⟩
    · simp [Tree.noRedRed]
    · simp [Tree.balanced]
    · simpa [Tree.bh] using hp
  have hlen : fs.length / 2 + 1 ≤ fuel := by
    have := height_plug fs .nil
    omega
  obtain ⟨T, hT, hTrb, hTin⟩ := ins_loop_total fuel fs _ hinv hlen
  obtain ⟨s2, hs2, hrep2⟩ := insert_color_refines fuel s1 fs node .nil .nil T hrep1 hT
  refine ⟨s1, s2, T, fs, rfl, rfl, rfl, hs1, hrep1, hs2, hrep2, hTrb, ?_⟩
  rw [hTin, inorder_plug]
  simp

/-- C1: on a valid red-black tree, after a fresh node has been linked by
`rb_link_node` as a red leaf into an empty child slot, `rb_insert_color`
returns a tree (with consistent parent links, holding the old nodes and the
new one) whose root is black and in which no red node has a red child. -/
theorem rb_insert_color_color_invariant (s : rb_state) (t : Tree) (node parent : Nat)
    (link : rb_link) (fuel : Nat) (hrep : Represents s t) (hrb : t.isRB)
    (hnode : node ≠ 0 ∧ node % 4 = 0 ∧ node < UINTPTR_MOD ∧ node ∉ t.inorder)
    (hslot : EmptySlot s t parent link) (hfuel : t.height / 2 + 1 ≤ fuel) :
    ∃ s1 s2 t2, rb_link_node s node parent link = .ok s1 ∧
      rb_insert_color fuel s1 node = .ok s2 ∧ Represents s2 t2 ∧
      (∀ a, a ∈ t2.inorder ↔ a = node ∨ a ∈ t.inorder) ∧ t2.rootBlack ∧ t2.noRedRed := by
  obtain ⟨s1, s2, t2, fs, ht, -, -, h1, -, h2, h3, h4, h5⟩ :=
    rb_insert_color_spec s t node parent link fuel hrep hrb hnode hslot hfuel
  refine ⟨s1, s2, t2, h1, h2, h3, fun a => ?_, h4.1, h4.2.1⟩
  rw [h5, ht, inorder_plug]
  simp only [Tree.inorder_nil, List.nil_append, List.mem_append, List.mem_cons]
  tauto

/-- C2: on a valid red-black tree, after a fresh node has been linked by
`rb_link_node` as a red leaf into an empty child slot, `rb_insert_color`
returns a tree in which every node has the same number of black nodes on
every path down to an absent child. -/
theorem rb_insert_color_black_height (s : rb_state) (t : Tree) (node parent : Nat)
    (link : rb_link) (fuel : Nat) (hrep : Represents s t) (hrb : t.isRB)
    (hnode : node ≠ 0 ∧ node % 4 = 0 ∧ node < UINTPTR_MOD ∧ node ∉ t.inorder)
    (hslot : EmptySlot s t parent link) (hfuel : t.height / 2 + 1 ≤ fuel) :
    ∃ s1 s2 t2, rb_link_node s node parent link = .ok s1 ∧
      rb_insert_color fuel s1 node = .ok s2 ∧ Represents s2 t2 ∧
      (∀ a, a ∈ t2.inorder ↔ a = node ∨ a ∈ t.inorder) ∧ t2.balanced := by
  obtain ⟨s1, s2, t2, fs, ht, -, -, h1, -, h2, h3, h4, h5⟩ :=
    rb_insert_color_spec s t node parent link fuel hrep hrb hnode hslot hfuel
  refine ⟨s1, s2, t2, h1, h2, h3, fun a => ?_, h4.2.2⟩
  rw [h5, ht, inorder_plug]
  simp only [Tree.inorder_nil, List.nil_append, List.mem_append, List.mem_cons]
  tauto

/-- Instance of C1: node `20` linked below the red leaf `40` of `ex_state_two`. -/
theorem rb_insert_color_color_invariant_witness :
    (Represents ex_state_two ex_tree_two ∧ ex_tree_two.isRB ∧
      ((20 : Nat) ≠ 0 ∧ 20 % 4 = 0 ∧ 20 < UINTPTR_MOD ∧ 20 ∉ ex_tree_two.inorder) ∧
      EmptySlot ex_state_two ex_tree_two 40 (.left 40) ∧ ex_tree_two.height / 2 + 1 ≤ 2) ∧
    ∃ s1 s2 t2, rb_link_node ex_state_two 20 40 (.left 40) = .ok s1 ∧
      rb_insert_color 2 s1 20 = .ok s2 ∧ Represents s2 t2 ∧
      (∀ a, a ∈ t2.inorder ↔ a = 20 ∨ a ∈ ex_tree_two.inorder) ∧ t2.rootBlack ∧ t2.noRedRed :=
  ⟨⟨by decide, by decide, by decide, by decide, by decide⟩,
    rb_insert_color_color_invariant ex_state_two ex_tree_two 20 40 (.left 40) 2
      (by decide) (by decide) (by decide) (by decide) (by decide)⟩

/-- Instance of C2: node `120` linked as right child of the root of `ex_state_two`. -/
theorem rb_insert_color_black_height_witness :
    (Represents ex_state_two ex_tree_two ∧ ex_tree_two.isRB ∧
      ((120 : Nat) ≠ 0 ∧ 120 % 4 = 0 ∧ 120 < UINTPTR_MOD ∧ 120 ∉ ex_tree_two.inorder) ∧
      EmptySlot ex_state_two ex_tree_two 80 (.right 80) ∧ ex_tree_two.height / 2 + 1 ≤ 2) ∧
    ∃ s1 s2 t2, rb_link_node ex_state_two 120 80 (.right 80) = .ok s1 ∧
      rb_insert_color 2 s1 120 = .ok s2 ∧ Represents s2 t2 ∧
      (∀ a, a ∈ t2.inorder ↔ a = 120 ∨ a ∈ ex_tree_two.inorder) ∧ t2.balanced :=
  ⟨⟨by decide, by decide, by decide, by decide, by decide⟩,
    rb_insert_color_black_height ex_state_two ex_tree_two 120 80 (.right 80) 2
      (by decide) (by decide) (by decide) (by decide) (by decide)⟩

theorem plug_descend (less : Nat → Nat → Bool) (n : Nat) (t : Tree) (acc : List Frame) :
    plug (descend less n t acc) .nil = plug acc t := by
  induction t generalizing acc with
  | nil => rfl
  | node a c l r ihl ihr =>
    simp only [descend]
    split
    · rw [ihl]; rfl
    · rw [ihr]; rfl

theorem read_pathLink {s : rb_state} {h : Nat} {fs : List Frame} (ho : OwnsPath s h fs) :
    (pathLink fs).read s = .ok h := by
  cases fs with
  | nil => simpa [pathLink, rb_link.read, OwnsPath] using ho
  | cons f fs =>
    cases f <;> simp only [OwnsPath] at ho <;>
      simp [pathLink, rb_link.read, ho.1, ho.2.2.2.1]

theorem search_refines (less : Nat → Nat → Bool) (n : Nat) (s : rb_state) (t : Tree)
    (acc : List Frame) (fuel : Nat) (hrep : Represents s (plug acc t))
    (hfuel : t.height + 1 ≤ fuel) :
    rb_add_search less n fuel s (pathLink acc) (pathParent acc) =
      .ok (pathLink (descend less n t acc), pathParent (descend less n t acc)) := by
  induction t generalizing acc fuel with
  | nil =>
    obtain ⟨fuel, rfl⟩ : ∃ k, fuel = k + 1 := ⟨fuel - 1, by omega⟩
    have := read_pathLink ((represents_plug s acc _).mp hrep).1
    simp [rb_add_search, this, descend]
  | node a c l r ihl ihr =>
    obtain ⟨fuel, rfl⟩ : ∃ k, fuel = k + 1 := ⟨fuel - 1, by omega⟩
    have hread := read_pathLink ((represents_plug s acc _).mp hrep).1
    have ha0 : a ≠ 0 := ((represents_plug s acc _).mp hrep).2.1.1
    simp only [Tree.height] at hfuel
    simp only [rb_add_search, hread, Tree.ptr_node, ha0, if_false, descend]
    split
    · exact ihl (.L a c r :: acc) fuel hrep (by omega)
    · exact ihr (.R a c l :: acc) fuel hrep (by omega)

theorem descend_order (less : Nat → Nat → Bool) (n : Nat) (hneg : ∀ a b c, less a b = false →
    less b c = false → less a c = false) (t : Tree) (acc : List Frame)
    (hsorted : SortedBy less t.inorder)
    (hb : ∀ m ∈ pathBefore acc, less n m = false) (ha : ∀ m ∈ pathAfter acc, less n m = true) :
    (∀ m ∈ pathBefore (descend less n t acc), less n m = false) ∧
      (∀ m ∈ pathAfter (descend less n t acc), less n m = true) := by
  induction t generalizing acc with
  | nil => exact ⟨hb, ha⟩
  | node a c l r ihl ihr =>
    simp only [SortedBy, Tree.inorder_node, List.pairwise_append, List.pairwise_cons,
      List.mem_cons] at hsorted
    obtain ⟨hl, ⟨har, hr⟩, hlr⟩ := hsorted
    simp only [descend]
    split
    · rename_i hlt
      apply ihl _ hl
      · simpa [pathBefore] using hb
      · intro m hm
        simp only [pathAfter, List.mem_append, List.mem_cons] at hm
        rcases hm with (rfl | hm) | hm
        · exact hlt
        · by_contra hc
          have h1 : less n m = false := by simpa using hc
          have := hneg n m a h1 (har m hm)
          simp [hlt] at this
        · exact ha m hm
    · rename_i hlt
      have hlt : less n a = false := by simpa using hlt
      apply ihr _ hr
      · intro m hm
        simp only [pathBefore, List.mem_append, List.mem_cons, List.mem_singleton,
          List.not_mem_nil, or_false] at hm
        rcases hm with hm | hm | rfl
        · exact hb m hm
        · exact hneg n a m hlt (hlr m hm a (Or.inl rfl))
        · exact hlt
      · simpa [pathAfter] using ha

theorem takeWhile_split (p : Nat → Bool) (l1 l2 : List Nat) (h1 : ∀ m ∈ l1, p m = true)
    (h2 : ∀ m ∈ l2, p m = false) :
    (l1 ++ l2).takeWhile p = l1 ∧ (l1 ++ l2).dropWhile p = l2 := by
  induction l1 with
  | nil =>
    cases l2 with
    | nil => simp
    | cons b l2 => simp [List.takeWhile, List.dropWhile, h2 b (by simp)]
  | cons a l1 ih =>
    have := ih (fun m hm => h1 m (by simp [hm]))
    simp [List.takeWhile, List.dropWhile, h1 a (by simp), this]

theorem rb_add_spec (s : rb_state) (t : Tree) (n : Nat) (less : Nat → Nat → Bool) (fuel : Nat)
    (hrep : Represents s t) (hrb : t.isRB)
    (hnode : n ≠ 0 ∧ n % 4 = 0 ∧ n < UINTPTR_MOD ∧ n ∉ t.inorder)
    (hfuel : t.height + 1 ≤ fuel) :
    ∃ s2 t2, rb_add fuel s n less = .ok s2 ∧ Represents s2 t2 ∧ t2.isRB ∧
      ins_loop fuel (descend less n t []) (.node n .red .nil .nil) = some t2 ∧
      t.inorder = pathBefore (descend less n t []) ++ pathAfter (descend less n t []) ∧
      t2.inorder = pathBefore (descend less n t []) ++ n :: pathAfter (descend less n t []) := by
  have hplug := plug_descend less n t []
  have hsearch : rb_add_search less n fuel s .root 0 = _ :=
    search_refines less n s t [] fuel hrep hfuel
  obtain ⟨fs, hfs⟩ : ∃ fs, fs = descend less n t [] := ⟨_, rfl⟩
  rw [← hfs] at hplug hsearch ⊢
  simp only [plug] at hplug
  obtain ⟨h0, h4, hlt, hfresh⟩ := hnode
  subst hplug
  obtain ⟨s1, hs1, hrep1⟩ := link_node_represents s fs n hrep h0 h4 hlt hfresh
  have hinv : InsInv fs (.node n .red .nil .nil) := by
    obtain ⟨hp, -, -⟩ := isRB_plug hrb
    refine ⟨rfl, ?_, ?_, ?_⟩
    · simp [Tree.noRedRed]
    · simp [Tree.balanced]
    · simpa [Tree.bh] using hp
  have hlen : fs.length / 2 + 1 ≤ fuel := by
    have := height_plug fs .nil
    omega
  obtain ⟨T, hT, hTrb, hTin⟩ := ins_loop_total fuel _ _ hinv hlen
  obtain ⟨s2, hs2, hrep2⟩ := insert_color_refines fuel s1 _ n .nil .nil T hrep1 hT
  refine ⟨s2, T, by simp [rb_add, hsearch, hs1, hs2], hrep2, hTrb, hT, ?_, ?_⟩
  · rw [inorder_plug]; simp
  · rw [hTin, inorder_plug]; simp

/-- C3: on a valid red-black tree whose in-order sequence is sorted by a strict
weak order `less`, `rb_add` of a fresh node `n` returns a tree whose in-order
sequence is the old one with `n` inserted right after the last old node `m`
with `less n m` false (all nodes before the insertion point have `less n m`
false, all after it have it true); the new sequence is sorted, and every node
occurs exactly once. -/
theorem rb_add_inorder (s : rb_state) (t : Tree) (n : Nat) (less : Nat → Nat → Bool)
    (fuel : Nat) (hrep : Represents s t) (hrb : t.isRB)
    (hnode : n ≠ 0 ∧ n % 4 = 0 ∧ n < UINTPTR_MOD ∧ n ∉ t.inorder)
    (hless : StrictWeakOrder less) (hsorted : SortedBy less t.inorder)
    (hfuel : t.height + 1 ≤ fuel) :
    ∃ s2 t2, rb_add fuel s n less = .ok s2 ∧ Represents s2 t2 ∧
      t2.inorder = t.inorder.takeWhile (fun m => !less n m) ++
        n :: t.inorder.dropWhile (fun m => !less n m) ∧
      (∀ m ∈ t.inorder.takeWhile (fun m => !less n m), less n m = false) ∧
      (∀ m ∈ t.inorder.dropWhile (fun m => !less n m), less n m = true) ∧
      SortedBy less t2.inorder ∧ t2.inorder.Nodup := by
  obtain ⟨s2, t2, h1, h2, -, -, h3, h4⟩ := rb_add_spec s t n less fuel hrep hrb hnode hfuel
  obtain ⟨hb, ha⟩ := descend_order less n hless.neg_trans t [] hsorted
    (by simp [pathBefore]) (by simp [pathAfter])
  obtain ⟨ht, hd⟩ := takeWhile_split (fun m => !less n m) _ _
    (fun m hm => by simp [hb m hm]) (fun m hm => by simp [ha m hm])
  rw [← h3] at ht hd
  refine ⟨s2, t2, h1, h2, by rw [ht, hd, h4], by rw [ht]; exact hb, by rw [hd]; exact ha, ?_,
    h2.2.2⟩
  rw [h4]
  rw [h3] at hsorted
  simp only [SortedBy, List.pairwise_append, List.pairwise_cons, List.mem_cons] at hsorted ⊢
  refine ⟨hsorted.1, ⟨fun m hm => ?_, hsorted.2.1⟩, fun a ha1 b hb1 => ?_⟩
  · by_contra hc
    have hmn : less m n = true := by simpa using hc
    have := hless.trans n m n (ha m hm) hmn
    simp [hless.irrefl n] at this
  · rcases hb1 with rfl | hb1
    · exact hb a ha1
    · exact hsorted.2.2 a ha1 b hb1

theorem addr_less_strict_weak : StrictWeakOrder addr_less where
  irrefl := by intro a; simp [addr_less]
  trans := by intro a b c; simp only [addr_less, decide_eq_true_eq]; omega
  neg_trans := by intro a b c; simp only [addr_less, decide_eq_false_iff_not]; omega

/-- Instance of C3: node `60` added to `ex_state_two`, ordered by address. -/
theorem rb_add_inorder_witness :
    (Represents ex_state_two ex_tree_two ∧ ex_tree_two.isRB ∧
      ((60 : Nat) ≠ 0 ∧ 60 % 4 = 0 ∧ 60 < UINTPTR_MOD ∧ 60 ∉ ex_tree_two.inorder) ∧
      StrictWeakOrder addr_less ∧ SortedBy addr_less ex_tree_two.inorder ∧
      ex_tree_two.height + 1 ≤ 3) ∧
    ∃ s2 t2, rb_add 3 ex_state_two 60 addr_less = .ok s2 ∧ Represents s2 t2 ∧
      t2.inorder = ex_tree_two.inorder.takeWhile (fun m => !addr_less 60 m) ++
        60 :: ex_tree_two.inorder.dropWhile (fun m => !addr_less 60 m) ∧
      (∀ m ∈ ex_tree_two.inorder.takeWhile (fun m => !addr_less 60 m), addr_less 60 m = false) ∧
      (∀ m ∈ ex_tree_two.inorder.dropWhile (fun m => !addr_less 60 m), addr_less 60 m = true) ∧
      SortedBy addr_less t2.inorder ∧ t2.inorder.Nodup :=
  ⟨⟨by decide, by decide, by decide, addr_less_strict_weak, by decide, by decide⟩,
    rb_add_inorder ex_state_two ex_tree_two 60 addr_less 3 (by decide) (by decide) (by decide)
      addr_less_strict_weak (by decide) (by decide)⟩

/-- C10: on a tree made of a black root `r` with two red leaf children `x` and
`y`, `rb_add` of a fresh node `n` only recolours: the root is still `r` and
black, `x` and `y` are still its children and are now black, and `n` is a red
leaf (both children null) below `x` or `y`, on the side chosen by `less`. -/
theorem rb_add_recolour_only (s : rb_state) (r x y n : Nat) (less : Nat → Nat → Bool)
    (fuel : Nat)
    (hrep : Represents s (.node r .black (.node x .red .nil .nil) (.node y .red .nil .nil)))
    (hnode : n ≠ 0 ∧ n % 4 = 0 ∧ n < UINTPTR_MOD ∧ n ≠ r ∧ n ≠ x ∧ n ≠ y)
    (hfuel : 3 ≤ fuel) :
    ∃ s2, rb_add fuel s n less = .ok s2 ∧
      Represents s2
        (if less n r then
          (if less n x then
            .node r .black (.node x .black (.node n .red .nil .nil) .nil) (.node y .black .nil .nil)
          else
            .node r .black (.node x .black .nil (.node n .red .nil .nil)) (.node y .black .nil .nil))
        else
          (if less n y then
            .node r .black (.node x .black .nil .nil) (.node y .black (.node n .red .nil .nil) .nil)
          else
            .node r .black (.node x .black .nil .nil)
              (.node y .black .nil (.node n .red .nil .nil)))) := by
  obtain ⟨fuel, rfl⟩ : ∃ k, fuel = k + 3 := ⟨fuel - 3, by omega⟩
  obtain ⟨h0, h4, hlt, h1, h2, h3⟩ := hnode
  obtain ⟨s2, t2, hs2, hrep2, -, hloop, -, -⟩ := rb_add_spec s _ n less (fuel + 3) hrep
    (by simp [Tree.isRB, Tree.noRedRed, Tree.balanced, Tree.bh])
    ⟨h0, h4, hlt, by simp [h1, h2, h3]⟩ (by simp [Tree.height])
  refine ⟨s2, hs2, ?_⟩
  by_cases c1 : less n r = true
  · by_cases c2 : less n x = true
    · simp [descend, c1, c2, ins_loop, ins_iter, plug] at hloop
      subst hloop
      simpa [c1, c2] using hrep2
    · simp [descend, c1, c2, ins_loop, ins_iter, plug] at hloop
      subst hloop
      simpa [c1, c2] using hrep2
  · by_cases c2 : less n y = true
    · simp [descend, c1, c2, ins_loop, ins_iter, plug] at hloop
      subst hloop
      simpa [c1, c2] using hrep2
    · simp [descend, c1, c2, ins_loop, ins_iter, plug] at hloop
      subst hloop
      simpa [c1, c2] using hrep2

/-- Instance of C10: node `40` added to `ex_state_three`, ordered by address. -/
theorem rb_add_recolour_only_witness :
    (Represents ex_state_three
        (.node 160 .black (.node 80 .red .nil .nil) (.node 240 .red .nil .nil)) ∧
      ((40 : Nat) ≠ 0 ∧ 40 % 4 = 0 ∧ 40 < UINTPTR_MOD ∧ (40 : Nat) ≠ 160 ∧ (40 : Nat) ≠ 80 ∧
        (40 : Nat) ≠ 240) ∧ 3 ≤ 3) ∧
    ∃ s2, rb_add 3 ex_state_three 40 addr_less = .ok s2 ∧
      Represents s2
        (if addr_less 40 160 then
          (if addr_less 40 80 then
            .node 160 .black (.node 80 .black (.node 40 .red .nil .nil) .nil)
              (.node 240 .black .nil .nil)
          else
            .node 160 .black (.node 80 .black .nil (.node 40 .red .nil .nil))
              (.node 240 .black .nil .nil))
        else
          (if addr_less 40 240 then
            .node 160 .black (.node 80 .black .nil .nil)
              (.node 240 .black (.node 40 .red .nil .nil) .nil)
          else
            .node 160 .black (.node 80 .black .nil .nil)
              (.node 240 .black .nil (.node 40 .red .nil .nil)))) :=
  ⟨⟨by decide, by decide, by decide⟩,
    rb_add_recolour_only ex_state_three 160 80 240 40 addr_less 3 (by decide) (by decide)
      (by decide)⟩

theorem rb_add_first (s : rb_state) (n : Nat) (less : Nat → Nat → Bool) (fuel : Nat)
    (hroot : s.root = 0) (hn : n ≠ 0 ∧ n % 4 = 0 ∧ n < UINTPTR_MOD) (hfuel : 1 ≤ fuel) :
    ∃ s2, rb_add fuel s n less = .ok s2 ∧ Represents s2 (.node n .black .nil .nil) := by
  obtain ⟨fuel, rfl⟩ : ∃ k, fuel = k + 1 := ⟨fuel - 1, by omega⟩
  obtain ⟨s2, t2, hs2, hrep2, -, hloop, -, -⟩ := rb_add_spec s .nil n less (fuel + 1)
    ⟨hroot, trivial, by simp⟩ (by simp [Tree.isRB, Tree.noRedRed, Tree.balanced])
    ⟨hn.1, hn.2.1, hn.2.2, by simp⟩ (by simp [Tree.height])
  simp [descend, ins_loop, ins_iter] at hloop
  subst hloop
  exact ⟨s2, hs2, hrep2⟩

theorem rb_add_second (s : rb_state) (r n : Nat) (less : Nat → Nat → Bool) (fuel : Nat)
    (hrep : Represents s (.node r .black .nil .nil))
    (hn : n ≠ 0 ∧ n % 4 = 0 ∧ n < UINTPTR_MOD) (hnr : n ≠ r) (hfuel : 2 ≤ fuel) :
    ∃ s2, rb_add fuel s n less = .ok s2 ∧
      Represents s2 (if less n r then .node r .black (.node n .red .nil .nil) .nil
        else .node r .black .nil (.node n .red .nil .nil)) := by
  obtain ⟨fuel, rfl⟩ : ∃ k, fuel = k + 2 := ⟨fuel - 2, by omega⟩
  obtain ⟨s2, t2, hs2, hrep2, -, hloop, -, -⟩ := rb_add_spec s _ n less (fuel + 2) hrep
    (by simp [Tree.isRB, Tree.noRedRed, Tree.balanced])
    ⟨hn.1, hn.2.1, hn.2.2, by simp [hnr]⟩ (by simp [Tree.height])
  refine ⟨s2, hs2, ?_⟩
  by_cases c1 : less n r = true
  · simp [descend, c1, ins_loop, ins_iter, plug] at hloop
    subst hloop
    simpa [c1] using hrep2
  · simp [descend, c1, ins_loop, ins_iter, plug] at hloop
    subst hloop
    simpa [c1] using hrep2

theorem rb_add_third_left (s : rb_state) (r x n : Nat) (less : Nat → Nat → Bool) (fuel : Nat)
    (hrep : Represents s (.node r .black (.node x .red .nil .nil) .nil))
    (hn : n ≠ 0 ∧ n % 4 = 0 ∧ n < UINTPTR_MOD) (hnr : n ≠ r) (hnx : n ≠ x) (hfuel : 3 ≤ fuel) :
    ∃ s2, rb_add fuel s n less = .ok s2 ∧
      Represents s2 (if less n r then
          (if less n x then .node x .black (.node n .red .nil .nil) (.node r .red .nil .nil)
           else .node n .black (.node x .red .nil .nil) (.node r .red .nil .nil))
        else .node r .black (.node x .red .nil .nil) (.node n .red .nil .nil)) := by
  obtain ⟨fuel, rfl⟩ : ∃ k, fuel = k + 3 := ⟨fuel - 3, by omega⟩
  obtain ⟨s2, t2, hs2, hrep2, -, hloop, -, -⟩ := rb_add_spec s _ n less (fuel + 3) hrep
    (by simp [Tree.isRB, Tree.noRedRed, Tree.balanced, Tree.bh])
    ⟨hn.1, hn.2.1, hn.2.2, by simp [hnr, hnx]⟩ (by simp [Tree.height])
  refine ⟨s2, hs2, ?_⟩
  by_cases c1 : less n r = true
  · by_cases c2 : less n x = true
    · simp [descend, c1, c2, ins_loop, ins_iter, plug, Tree.setBlack] at hloop
      subst hloop
      simpa [c1, c2] using hrep2
    · simp [descend, c1, c2, ins_loop, ins_iter, plug, Tree.setBlack] at hloop
      subst hloop
      simpa [c1, c2] using hrep2
  · simp [descend, c1, ins_loop, ins_iter, plug, Tree.setBlack] at hloop
    subst hloop
    simpa [c1] using hrep2

theorem rb_add_third_right (s : rb_state) (r y n : Nat) (less : Nat → Nat → Bool) (fuel : Nat)
    (hrep : Represents s (.node r .black .nil (.node y .red .nil .nil)))
    (hn : n ≠ 0 ∧ n % 4 = 0 ∧ n < UINTPTR_MOD) (hnr : n ≠ r) (hny : n ≠ y) (hfuel : 3 ≤ fuel) :
    ∃ s2, rb_add fuel s n less = .ok s2 ∧
      Represents s2 (if less n r then
          .node r .black (.node n .red .nil .nil) (.node y .red .nil .nil)
        else
          (if less n y then .node n .black (.node r .red .nil .nil) (.node y .red .nil .nil)
           else .node y .black (.node r .red .nil .nil) (.node n .red .nil .nil))) := by
  obtain ⟨fuel, rfl⟩ : ∃ k, fuel = k + 3 := ⟨fuel - 3, by omega⟩
  obtain ⟨s2, t2, hs2, hrep2, -, hloop, -, -⟩ := rb_add_spec s _ n less (fuel + 3) hrep
    (by simp [Tree.isRB, Tree.noRedRed, Tree.balanced, Tree.bh])
    ⟨hn.1, hn.2.1, hn.2.2, by simp [hnr, hny]⟩ (by simp [Tree.height])
  refine ⟨s2, hs2, ?_⟩
  by_cases c1 : less n r = true
  · simp [descend, c1, ins_loop, ins_iter, plug, Tree.setBlack] at hloop
    subst hloop
    simpa [c1] using hrep2
  · by_cases c2 : less n y = true
    · simp [descend, c1, c2, ins_loop, ins_iter, plug, Tree.setBlack] at hloop
      subst hloop
      simpa [c1, c2] using hrep2
    · simp [descend, c1, c2, ins_loop, ins_iter, plug, Tree.setBlack] at hloop
      subst hloop
      simpa [c1, c2] using hrep2

theorem perm_three_cases {x y z a b c : Nat} (h : [x, y, z].Perm [a, b, c])
    (hab : a ≠ b) (hac : a ≠ c) (hbc : b ≠ c) :
    (x = a ∧ y = b ∧ z = c) ∨ (x = a ∧ y = c ∧ z = b) ∨ (x = b ∧ y = a ∧ z = c) ∨
      (x = b ∧ y = c ∧ z = a) ∨ (x = c ∧ y = a ∧ z = b) ∨ (x = c ∧ y = b ∧ z = a) := by
  have hnd : [x, y, z].Nodup := h.nodup_iff.mpr (by simp [hab, hac, hbc])
  have hx : x ∈ [a, b, c] := h.mem_iff.mp (by simp)
  have hy : y ∈ [a, b, c] := h.mem_iff.mp (by simp)
  have hz : z ∈ [a, b, c] := h.mem_iff.mp (by simp)
  simp only [List.mem_cons, List.mem_singleton, List.not_mem_nil, or_false] at hx hy hz
  simp only [List.nodup_cons, List.mem_cons, List.mem_singleton, List.not_mem_nil, or_false,
    not_or, List.nodup_nil, and_true, not_false_eq_true] at hnd
  obtain ⟨⟨hxy, hxz⟩, hyz⟩ := hnd
  rcases hx with rfl | rfl | rfl <;> rcases hy with rfl | rfl | rfl <;>
    rcases hz with rfl | rfl | rfl <;> simp_all

/-- C9: three nodes `a`, `b`, `c` with `a` before `b` before `c` in a strict
weak order, added with `rb_add` to an empty tree in any of the six orders,
give the tree with `b` as black root, `a` as its red left child and `c` as its
red right child, the children of `a` and of `c` being null. -/
theorem rb_add_three_nodes (s0 : rb_state) (less : Nat → Nat → Bool) (a b c x y z fuel : Nat)
    (hroot : s0.root = 0) (hless : StrictWeakOrder less)
    (ha : a ≠ 0 ∧ a % 4 = 0 ∧ a < UINTPTR_MOD) (hb : b ≠ 0 ∧ b % 4 = 0 ∧ b < UINTPTR_MOD)
    (hc : c ≠ 0 ∧ c % 4 = 0 ∧ c < UINTPTR_MOD)
    (hab : less a b = true) (hbc : less b c = true)
    (hperm : [x, y, z].Perm [a, b, c]) (hfuel : 3 ≤ fuel) :
    ∃ s, rb_add_all fuel less s0 [x, y, z] = .ok s ∧
      Represents s (.node b .black (.node a .red .nil .nil) (.node c .red .nil .nil)) := by
  have hac : less a c = true := hless.trans a b c hab hbc
  have asym : ∀ u v, less u v = true → less v u = false := by
    intro u v huv
    by_contra hvu
    have := hless.trans u v u huv (by simpa using hvu)
    simp [hless.irrefl u] at this
  have hba := asym a b hab
  have hcb := asym b c hbc
  have hca := asym a c hac
  have nab : a ≠ b := by rintro rfl; simp [hless.irrefl a] at hab
  have nbc : b ≠ c := by rintro rfl; simp [hless.irrefl b] at hbc
  have nac : a ≠ c := by rintro rfl; simp [hless.irrefl a] at hac
  rcases perm_three_cases hperm nab nac nbc with h | h | h | h | h | h <;>
    obtain ⟨hx, hy, hz⟩ := h <;> subst hx hy hz
  · obtain ⟨s1, h1, r1⟩ := rb_add_first s0 x less fuel hroot ha (by omega)
    obtain ⟨s2, h2, r2⟩ := rb_add_second s1 x y less fuel r1 hb nab.symm (by omega)
    simp only [hba, Bool.false_eq_true, if_false] at r2
    obtain ⟨s3, h3, r3⟩ := rb_add_third_right s2 x y z less fuel r2 hc nac.symm nbc.symm hfuel
    simp only [hca, hcb, Bool.false_eq_true, if_false] at r3
    exact ⟨s3, by simp [rb_add_all, h1, h2, h3], r3⟩
  · obtain ⟨s1, h1, r1⟩ := rb_add_first s0 x less fuel hroot ha (by omega)
    obtain ⟨s2, h2, r2⟩ := rb_add_second s1 x y less fuel r1 hc nac.symm (by omega)
    simp only [hca, Bool.false_eq_true, if_false] at r2
    obtain ⟨s3, h3, r3⟩ := rb_add_third_right s2 x y z less fuel r2 hb nab.symm nbc hfuel
    simp only [hba, hbc, Bool.false_eq_true, if_false, if_true] at r3
    exact ⟨s3, by simp [rb_add_all, h1, h2, h3], r3⟩
  · obtain ⟨s1, h1, r1⟩ := rb_add_first s0 x less fuel hroot hb (by omega)
    obtain ⟨s2, h2, r2⟩ := rb_add_second s1 x y less fuel r1 ha nab (by omega)
    simp only [hab, if_true] at r2
    obtain ⟨s3, h3, r3⟩ := rb_add_third_left s2 x y z less fuel r2 hc nbc.symm nac.symm hfuel
    simp only [hcb, Bool.false_eq_true, if_false] at r3
    exact ⟨s3, by simp [rb_add_all, h1, h2, h3], r3⟩
  · obtain ⟨s1, h1, r1⟩ := rb_add_first s0 x less fuel hroot hb (by omega)
    obtain ⟨s2, h2, r2⟩ := rb_add_second s1 x y less fuel r1 hc nbc.symm (by omega)
    simp only [hcb, Bool.false_eq_true, if_false] at r2
    obtain ⟨s3, h3, r3⟩ := rb_add_third_right s2 x y z less fuel r2 ha nab nac hfuel
    simp only [hab, if_true] at r3
    exact ⟨s3, by simp [rb_add_all, h1, h2, h3], r3⟩
  · obtain ⟨s1, h1, r1⟩ := rb_add_first s0 x less fuel hroot hc (by omega)
    obtain ⟨s2, h2, r2⟩ := rb_add_second s1 x y less fuel r1 ha nac (by omega)
    simp only [hac, if_true] at r2
    obtain ⟨s3, h3, r3⟩ := rb_add_third_left s2 x y z less fuel r2 hb nbc nab.symm hfuel
    simp only [hbc, hba, Bool.false_eq_true, if_false, if_true] at r3
    exact ⟨s3, by simp [rb_add_all, h1, h2, h3], r3⟩
  · obtain ⟨s1, h1, r1⟩ := rb_add_first s0 x less fuel hroot hc (by omega)
    obtain ⟨s2, h2, r2⟩ := rb_add_second s1 x y less fuel r1 hb nbc (by omega)
    simp only [hbc, if_true] at r2
    obtain ⟨s3, h3, r3⟩ := rb_add_third_left s2 x y z less fuel r2 ha nac nab hfuel
    simp only [hac, hab, if_true] at r3
    exact ⟨s3, by simp [rb_add_all, h1, h2, h3], r3⟩

/-- Instance of C9: the nodes `240`, `80`, `160` added in this order to the empty tree. -/
theorem rb_add_three_nodes_witness :
    (rb_empty.root = 0 ∧ StrictWeakOrder addr_less ∧
      ((80 : Nat) ≠ 0 ∧ 80 % 4 = 0 ∧ 80 < UINTPTR_MOD) ∧
      ((160 : Nat) ≠ 0 ∧ 160 % 4 = 0 ∧ 160 < UINTPTR_MOD) ∧
      ((240 : Nat) ≠ 0 ∧ 240 % 4 = 0 ∧ 240 < UINTPTR_MOD) ∧
      addr_less 80 160 = true ∧ addr_less 160 240 = true ∧
      [240, 80, 160].Perm [80, 160, 240] ∧ 3 ≤ 3) ∧
    ∃ s, rb_add_all 3 addr_less rb_empty [240, 80, 160] = .ok s ∧
      Represents s (.node 160 .black (.node 80 .red .nil .nil) (.node 240 .red .nil .nil)) :=
  ⟨⟨rfl, addr_less_strict_weak, by decide, by decide, by decide, by decide, by decide,
      by decide, by decide⟩,
    rb_add_three_nodes rb_empty addr_less 80 160 240 240 80 160 3 rfl addr_less_strict_weak
      (by decide) (by decide) (by decide) (by decide) (by decide) (by decide) (by decide)⟩

theorem not_represents_of_bad_parent (s : rb_state) (a b : Nat) (ha : a ≠ 0) (hb : b ≠ 0)
    (h1 : s.root = a) (h2 : (s.mem a).rb_left = b)
    (h3 : (s.mem b).__rb_parent_color ≠ a ∧ (s.mem b).__rb_parent_color ≠ a + 1) :
    ¬ ∃ T, Represents s T := by
  rintro ⟨T, hroot, hown, -⟩
  cases T with
  | nil => exact ha (h1.symm.trans hroot)
  | node x c l r =>
    simp only [Tree.ptr_node] at hroot
    have hxa : x = a := hroot.symm.trans h1
    subst hxa
    simp only [Owns] at hown
    obtain ⟨-, -, -, hm, hl, -⟩ := hown
    rw [hm] at h2
    simp only at h2
    cases l with
    | nil => exact hb h2.symm
    | node y d ll lr =>
      simp only [Tree.ptr_node] at h2
      subst h2
      simp only [Owns] at hl
      obtain ⟨-, -, -, hm2, -, -⟩ := hl
      rw [hm2] at h3
      cases d <;> simp at h3

/-- C4 (failing input): `erase_state_six` holds a valid red-black tree and
`240` is a member; `rb_erase` returns normally, yet afterwards node `40` is the
left child of both `80` and `160`, and its parent word fits neither the
root's child position nor any tree: the memory no longer holds a tree with
consistent parent links, let alone a red-black tree.  The state is the one
built by adding 160, 80, 240, 40, 120, 20 to an empty tree. -/
theorem rb_erase_corrupts_tree :
    Represents erase_state_six erase_tree_six ∧ erase_tree_six.isRB ∧
      240 ∈ erase_tree_six.inorder ∧
      (state_of (rb_add_all 10 addr_less rb_empty [160, 80, 240, 40, 120, 20])).map
        (fun s => decide (Represents s erase_tree_six)) = some true ∧
      ∃ s1, rb_erase 10 erase_state_six 240 = .ok s1 ∧ s1.root = 80 ∧
        (s1.mem 80).rb_left = 40 ∧ (s1.mem 80).rb_right = 160 ∧ (s1.mem 160).rb_left = 40 ∧
        ¬ ∃ T, Represents s1 T :=
  ⟨by decide, by decide, by decide, by decide!, _, rfl, by decide, by decide, by decide,
    by decide,
    not_represents_of_bad_parent _ 80 40 (by decide) (by decide) (by decide) (by decide)
      (by decide)⟩

/-- C5 (failing input): `erase_state_five` holds a valid red-black tree with
in-order sequence 40, 80, 120, 160, 240; after `rb_erase` of the member `240`
the nodes reachable from the root in in-order are 40, 80, 40, 160: node `120`
is lost and node `40` is reached twice. -/
theorem rb_erase_loses_node :
    Represents erase_state_five erase_tree_five ∧ erase_tree_five.isRB ∧
      erase_tree_five.inorder = [40, 80, 120, 160, 240] ∧
      (state_of (rb_erase 10 erase_state_five 240)).map (fun s1 => inorder_walk s1 10 s1.root) =
        some [40, 80, 40, 160] := by
  refine ⟨by decide, by decide, by decide, ?_⟩
  decide!

/-- C6 (failing input): the sequence of the repository's own test
`erase_all`: the nodes with keys 10..60 (here at addresses 80..480, ordered by
address) are added to an empty tree and erased in the same order; the adds
succeed, the first two erases succeed, and the third erase dereferences a null
pointer, so the root handle never becomes null. -/
theorem rb_erase_all_faults :
    (state_of (rb_add_all 10 addr_less rb_empty [80, 160, 240, 320, 400, 480])).isSome = true ∧
    ((state_of (rb_add_all 10 addr_less rb_empty [80, 160, 240, 320, 400, 480])).bind
      (fun s => state_of (rb_erase_all 10 s [80, 160]))).isSome = true ∧
    (state_of (rb_add_all 10 addr_less rb_empty [80, 160, 240, 320, 400, 480])).map
      (fun s => fault_of (rb_erase_all 10 s [80, 160, 240, 320, 400, 480])) =
        some (some .null_deref) := by
  refine ⟨?_, ?_, ?_⟩ <;> decide!

/-- C7 (failing input): `erase_state_four` holds a valid red-black tree (the
one built by adding 160, 80, 240, 40) and `240` is a member; `rb_erase` of
`240` dereferences a null pointer in the rebalance loop. -/
theorem rb_erase_null_deref :
    Represents erase_state_four erase_tree_four ∧ erase_tree_four.isRB ∧
      240 ∈ erase_tree_four.inorder ∧
      (state_of (rb_add_all 10 addr_less rb_empty [160, 80, 240, 40])).map
        (fun s => decide (Represents s erase_tree_four)) = some true ∧
      rb_erase 10 erase_state_four 240 = .error .null_deref := by
  refine ⟨by decide, by decide, by decide, ?_, rfl⟩
  decide!

/-- C8 (counterexample): in the tree with black root `160` and red leaves `80`
and `240`, a first `rb_erase` of `80` leaves the tree 160 -> (null, 240); a
second `rb_erase` of `80`, which is no longer linked, returns normally and has
set the right child of `160` to null: node `240` is unlinked and the tree is
the single node `160`. -/
theorem rb_erase_twice_unlinks_sibling :
    Represents ex_state_three ex_tree_three ∧
    ∃ s1 s2, rb_erase 10 ex_state_three 80 = .ok s1 ∧
      Represents s1 (.node 160 .black .nil (.node 240 .red .nil .nil)) ∧
      rb_erase 10 s1 80 = .ok s2 ∧
      (s1.mem 160).rb_right = 240 ∧ (s2.mem 160).rb_right = 0 ∧
      Represents s2 (.node 160 .black .nil .nil) :=
  ⟨by decide, _, _, rfl, by decide, rfl, by decide, by decide, by decide⟩

/-- C8 (amended): `rb_erase` makes no membership check.  On any node whose own
fields say "red, no children, parent `p`" it returns normally after clearing a
child slot of `p`: the left slot when that holds the node, the right slot
otherwise, whatever is linked there and whether or not the node is linked. -/
theorem rb_erase_unchecked_leaf (fuel : Nat) (s : rb_state) (n p : Nat) (hn : n ≠ 0)
    (hp : p ≠ 0 ∧ p % 4 = 0 ∧ p < UINTPTR_MOD) (hmem : s.mem n = ⟨p, 0, 0⟩) :
    rb_erase fuel s n =
      .ok (if (s.mem p).rb_left = n then s.wr_left p 0 else s.wr_right p 0) := by
  obtain ⟨hp0, hp4, hplt⟩ := hp
  by_cases hnp : n = p
  · subst hnp
    have h0n : (0 : Nat) ≠ n := fun h => hn h.symm
    simp [rb_erase, __rb_erase, hn, hmem, rb_parent, rb_parent_aligned, hp4, hplt,
      __rb_change_child, load, __rb_is_black, rb_color_aligned, h0n]
  · by_cases hl : (s.mem p).rb_left = n
    · simp [rb_erase, __rb_erase, hn, hmem, rb_parent, rb_parent_aligned, hp4, hplt,
        __rb_change_child, hp0, hl, load, hnp, __rb_is_black, rb_color_aligned]
    · simp [rb_erase, __rb_erase, hn, hmem, rb_parent, rb_parent_aligned, hp4, hplt,
        __rb_change_child, hp0, hl, load, hnp, __rb_is_black, rb_color_aligned]

/-- Instance of C8 (amended): a second erase of the red leaf `80` of `ex_state_three`. -/
theorem rb_erase_unchecked_leaf_witness :
    ((80 : Nat) ≠ 0 ∧ ((160 : Nat) ≠ 0 ∧ 160 % 4 = 0 ∧ 160 < UINTPTR_MOD) ∧
      (ex_state_three.wr_left 160 0).mem 80 = ⟨160, 0, 0⟩) ∧
    rb_erase 10 (ex_state_three.wr_left 160 0) 80 =
      .ok (if ((ex_state_three.wr_left 160 0).mem 160).rb_left = 80
        then (ex_state_three.wr_left 160 0).wr_left 160 0
        else (ex_state_three.wr_left 160 0).wr_right 160 0) :=
  ⟨⟨by decide, by decide, by decide⟩,
    rb_erase_unchecked_leaf 10 (ex_state_three.wr_left 160 0) 80 160 (by decide) (by decide)
      (by decide)⟩

/-! ## Encoding of parent and colour, linking -/

/-- C15 (as amended): for every parent address `p` (null included) that is a
multiple of 4 and fits a machine word, and every colour `c`, after
`rb_set_parent_color(node, p, c)` the decoders give `rb_parent(node) = p` and
`rb_color(node) = c`, and exactly one of `rb_is_red` and `rb_is_black` holds. -/
theorem rb_set_parent_color_decodes (s : rb_state) (node p c : Nat) (hnode : node ≠ 0)
    (hp : p % 4 = 0) (hlt : p < UINTPTR_MOD) (hc : c = RB_RED ∨ c = RB_BLACK) :
    ∃ s1, rb_set_parent_color s node p c = .ok s1 ∧
      rb_parent s1 node = .ok p ∧
      rb_color s1 node = .ok (decide (c = RB_BLACK)) ∧
      rb_is_red s1 node = .ok (decide (c = RB_RED)) ∧
      rb_is_black s1 node = .ok (decide (c = RB_BLACK)) ∧
      (decide (c = RB_RED) ≠ decide (c = RB_BLACK)) := by
  have hc1 : c ≤ 1 := by rcases hc with rfl | rfl <;> simp [RB_RED, RB_BLACK]
  have hmod : (p + c) % UINTPTR_MOD = p + c := by
    unfold UINTPTR_MOD at *
    omega
  have hpar := rb_parent_mask p c hp hlt hc1
  have hcol := rb_color_mask p c hp hc1
  refine ⟨s.wr_pc node (p + c), by simp [rb_set_parent_color, hnode, hmod], ?_⟩
  rcases hc with rfl | rfl <;> simp only [RB_RED, RB_BLACK, Nat.add_zero] at hpar hcol <;>
    simp [rb_parent, rb_color, rb_is_red, rb_is_black, __rb_is_red, __rb_is_black, hnode,
      hpar, hcol, RB_RED, RB_BLACK]

/-- Instance of C15: parent `80`, colour black, stored in node `40`. -/
theorem rb_set_parent_color_decodes_witness :
    ((40 : Nat) ≠ 0 ∧ 80 % 4 = 0 ∧ 80 < UINTPTR_MOD ∧ (RB_BLACK = RB_RED ∨ RB_BLACK = RB_BLACK)) ∧
    ∃ s1, rb_set_parent_color rb_empty 40 80 RB_BLACK = .ok s1 ∧
      rb_parent s1 40 = .ok 80 ∧
      rb_color s1 40 = .ok (decide (RB_BLACK = RB_BLACK)) ∧
      rb_is_red s1 40 = .ok (decide (RB_BLACK = RB_RED)) ∧
      rb_is_black s1 40 = .ok (decide (RB_BLACK = RB_BLACK)) ∧
      (decide (RB_BLACK = RB_RED) ≠ decide (RB_BLACK = RB_BLACK)) :=
  ⟨⟨by decide, by decide, by decide, Or.inr rfl⟩,
    rb_set_parent_color_decodes rb_empty 40 80 RB_BLACK (by decide) (by decide)
      (by decide) (Or.inr rfl)⟩

/-- C15, counterexample: the parent address `2` is aligned to 2 bytes, yet
after `rb_set_parent_color(node, 2, RB_RED)` the decoder `rb_parent` returns
null, because `__rb_parent` clears the two low bits. -/
theorem rb_parent_two_byte_aligned :
    (2 : Nat) % 2 = 0 ∧
      ((rb_set_parent_color rb_empty 40 2 RB_RED).toOption.map fun s1 =>
        (rb_parent s1 40).toOption) = some (some 0) := by
  decide

theorem link_node_forgets (s : rb_state) (node parent : Nat) (link : rb_link) (v : rb_node) :
    rb_link_node { s with mem := Function.update s.mem node v } node parent link =
      rb_link_node s node parent link := by
  by_cases hn : node = 0
  · simp [rb_link_node, set_pc, hn]
  · have hst : (({ s with mem := Function.update s.mem node v } : rb_state).wr_pc node parent
        |>.wr_right node 0 |>.wr_left node 0) = ((s.wr_pc node parent).wr_right node 0).wr_left node 0 := by
      simp only [rb_state.wr_pc, rb_state.wr_right, rb_state.wr_left, Function.update_same,
        Function.update_idem]
    simp only [rb_link_node, set_pc_ok _ _ hn, set_right_ok _ _ hn, set_left_ok _ _ hn, ok_bind, hst]

theorem represents_update_fresh {s : rb_state} {t : Tree} {node : Nat} (v : rb_node)
    (hrep : Represents s t) (hfresh : node ∉ t.inorder) :
    Represents { s with mem := Function.update s.mem node v } t := by
  obtain ⟨h1, h2, h3⟩ := hrep
  refine ⟨h1, Owns_congr (fun a ha => ?_) h2, h3⟩
  have : a ≠ node := fun h => hfresh (h ▸ ha)
  simp [Function.update, this]

theorem rb_add_forgets (s : rb_state) (t : Tree) (node : Nat) (less : Nat → Nat → Bool)
    (fuel : Nat) (v : rb_node) (hrep : Represents s t) (hfresh : node ∉ t.inorder)
    (hfuel : t.height + 1 ≤ fuel) :
    rb_add fuel { s with mem := Function.update s.mem node v } node less =
      rb_add fuel s node less := by
  have h1 := search_refines less node s t [] fuel hrep hfuel
  have h2 := search_refines less node _ t [] fuel (represents_update_fresh v hrep hfresh) hfuel
  simp only [pathLink, pathParent] at h1 h2
  simp only [rb_add, h1, h2, ok_bind, link_node_forgets]

/-- C16: `rb_link_node(node, parent, slot)` on a node whose three fields hold
anything leaves the node red with `rb_parent(node) = parent`, both children
null and the slot holding the node; no field of another node changes except
the slot itself, and the result does not depend on the old fields; so `rb_add`
of a node gives the same result whatever the node held before. -/
theorem rb_link_node_overwrites (s : rb_state) (node parent : Nat) (link : rb_link)
    (hnode : node ≠ 0) (hp : parent % 4 = 0 ∧ parent < UINTPTR_MOD)
    (hlink : link = .root ∨ ∃ p, p ≠ 0 ∧ p ≠ node ∧ (link = .left p ∨ link = .right p)) :
    ∃ s1, rb_link_node s node parent link = .ok s1 ∧
      rb_is_red s1 node = .ok true ∧ rb_parent s1 node = .ok parent ∧
      get_left s1 node = .ok 0 ∧ get_right s1 node = .ok 0 ∧ link.read s1 = .ok node ∧
      (∀ a, a ≠ node → (s1.mem a).__rb_parent_color = (s.mem a).__rb_parent_color ∧
        (link ≠ .left a → (s1.mem a).rb_left = (s.mem a).rb_left) ∧
        (link ≠ .right a → (s1.mem a).rb_right = (s.mem a).rb_right)) ∧
      (link ≠ .root → s1.root = s.root) ∧
      (∀ v, rb_link_node { s with mem := Function.update s.mem node v } node parent link = .ok s1) ∧
      (∀ t fuel less v, Represents s t → node ∉ t.inorder → t.height + 1 ≤ fuel →
        rb_add fuel { s with mem := Function.update s.mem node v } node less =
          rb_add fuel s node less) := by
  obtain ⟨hp4, hplt⟩ := hp
  have hpar := rb_parent_aligned hp4 hplt
  have hcol := rb_color_aligned hp4
  rcases hlink with rfl | ⟨p, hp0, hpn, rfl | rfl⟩
  · refine ⟨_, by
      simp only [rb_link_node, set_pc_ok _ _ hnode, set_right_ok _ _ hnode,
      set_left_ok _ _ hnode, ok_bind, rb_link.write, pure_eq_ok]; rfl, ?_⟩
    refine ⟨?_, ?_, ?_, ?_, ?_, ?_, ?_, ?_, ?_⟩
    · simp [rb_is_red, __rb_is_red, get_pc, hnode, rb_state.wr_pc, rb_state.wr_left,
        rb_state.wr_right, hcol]
    · simp [rb_parent, get_pc, hnode, rb_state.wr_pc, rb_state.wr_left, rb_state.wr_right, hpar]
    · simp [get_left, hnode, rb_state.wr_pc, rb_state.wr_left, rb_state.wr_right]
    · simp [get_right, hnode, rb_state.wr_pc, rb_state.wr_left, rb_state.wr_right]
    · simp [rb_link.read]
    · intro a ha
      simp [rb_state.wr_pc, rb_state.wr_left, rb_state.wr_right, Function.update, ha]
    · simp
    · intro v
      rw [link_node_forgets]
      simp only [rb_link_node, set_pc_ok _ _ hnode, set_right_ok _ _ hnode,
        set_left_ok _ _ hnode, ok_bind, rb_link.write, pure_eq_ok]
    · intro t fuel less v h1 h2 h3
      exact rb_add_forgets s t node less fuel v h1 h2 h3
  · refine ⟨_, by
      simp only [rb_link_node, set_pc_ok _ _ hnode, set_right_ok _ _ hnode,
      set_left_ok _ _ hnode, ok_bind, rb_link.write, set_left_ok _ _ hp0]; rfl, ?_⟩
    refine ⟨?_, ?_, ?_, ?_, ?_, ?_, ?_, ?_, ?_⟩
    · simp [rb_is_red, __rb_is_red, get_pc, hnode, rb_state.wr_pc, rb_state.wr_left,
        rb_state.wr_right, hcol, Function.update, hpn, Ne.symm hpn]
    · simp [rb_parent, get_pc, hnode, rb_state.wr_pc, rb_state.wr_left, rb_state.wr_right, hpar,
        Function.update, hpn, Ne.symm hpn]
    · simp [get_left, hnode, rb_state.wr_pc, rb_state.wr_left, rb_state.wr_right,
        Function.update, hpn, Ne.symm hpn]
    · simp [get_right, hnode, rb_state.wr_pc, rb_state.wr_left, rb_state.wr_right,
        Function.update, hpn, Ne.symm hpn]
    · simp [rb_link.read, get_left, hp0, rb_state.wr_left]
    · intro a ha
      by_cases hap : a = p <;>
        simp [rb_state.wr_pc, rb_state.wr_left, rb_state.wr_right, Function.update, ha, hap, hpn]
    · simp [rb_state.wr_pc, rb_state.wr_left, rb_state.wr_right]
    · intro v
      rw [link_node_forgets]
      simp only [rb_link_node, set_pc_ok _ _ hnode, set_right_ok _ _ hnode,
        set_left_ok _ _ hnode, ok_bind, rb_link.write, set_left_ok _ _ hp0]
    · intro t fuel less v h1 h2 h3
      exact rb_add_forgets s t node less fuel v h1 h2 h3
  · refine ⟨_, by
      simp only [rb_link_node, set_pc_ok _ _ hnode, set_right_ok _ _ hnode,
      set_left_ok _ _ hnode, ok_bind, rb_link.write, set_right_ok _ _ hp0]; rfl, ?_⟩
    refine ⟨?_, ?_, ?_, ?_, ?_, ?_, ?_, ?_, ?_⟩
    · simp [rb_is_red, __rb_is_red, get_pc, hnode, rb_state.wr_pc, rb_state.wr_left,
        rb_state.wr_right, hcol, Function.update, hpn, Ne.symm hpn]
    · simp [rb_parent, get_pc, hnode, rb_state.wr_pc, rb_state.wr_left, rb_state.wr_right, hpar,
        Function.update, hpn, Ne.symm hpn]
    · simp [get_left, hnode, rb_state.wr_pc, rb_state.wr_left, rb_state.wr_right,
        Function.update, hpn, Ne.symm hpn]
    · simp [get_right, hnode, rb_state.wr_pc, rb_state.wr_left, rb_state.wr_right,
        Function.update, hpn, Ne.symm hpn]
    · simp [rb_link.read, get_right, hp0, rb_state.wr_right]
    · intro a ha
      by_cases hap : a = p <;>
        simp [rb_state.wr_pc, rb_state.wr_left, rb_state.wr_right, Function.update, ha, hap, hpn]
    · simp [rb_state.wr_pc, rb_state.wr_left, rb_state.wr_right]
    · intro v
      rw [link_node_forgets]
      simp only [rb_link_node, set_pc_ok _ _ hnode, set_right_ok _ _ hnode,
        set_left_ok _ _ hnode, ok_bind, rb_link.write, set_right_ok _ _ hp0]
    · intro t fuel less v h1 h2 h3
      exact rb_add_forgets s t node less fuel v h1 h2 h3

/-- Instance of C16: node `20` linked into the left slot of node `40` of
`ex_state_two`. -/
theorem rb_link_node_overwrites_witness :
    ((20 : Nat) ≠ 0 ∧ (40 % 4 = 0 ∧ 40 < UINTPTR_MOD) ∧
      ((rb_link.left 40 = .root) ∨
        ∃ p, p ≠ 0 ∧ p ≠ 20 ∧ (rb_link.left 40 = .left p ∨ rb_link.left 40 = .right p))) ∧
    ∃ s1, rb_link_node ex_state_two 20 40 (.left 40) = .ok s1 ∧
      rb_is_red s1 20 = .ok true ∧ rb_parent s1 20 = .ok 40 ∧
      get_left s1 20 = .ok 0 ∧ get_right s1 20 = .ok 0 ∧ (rb_link.left 40).read s1 = .ok 20 ∧
      (∀ a, a ≠ 20 →
        (s1.mem a).__rb_parent_color = (ex_state_two.mem a).__rb_parent_color ∧
        (rb_link.left 40 ≠ .left a → (s1.mem a).rb_left = (ex_state_two.mem a).rb_left) ∧
        (rb_link.left 40 ≠ .right a → (s1.mem a).rb_right = (ex_state_two.mem a).rb_right)) ∧
      (rb_link.left 40 ≠ .root → s1.root = ex_state_two.root) ∧
      (∀ v, rb_link_node { ex_state_two with mem := Function.update ex_state_two.mem 20 v }
        20 40 (.left 40) = .ok s1) ∧
      (∀ t fuel less v, Represents ex_state_two t → 20 ∉ t.inorder → t.height + 1 ≤ fuel →
        rb_add fuel { ex_state_two with mem := Function.update ex_state_two.mem 20 v } 20 less =
          rb_add fuel ex_state_two 20 less) :=
  ⟨⟨by decide, ⟨by decide, by decide⟩, Or.inr ⟨40, by decide, by decide, Or.inl rfl⟩⟩,
    rb_link_node_overwrites ex_state_two 20 40 (.left 40) (by decide) ⟨by decide, by decide⟩
      (Or.inr ⟨40, by decide, by decide, Or.inl rfl⟩)⟩

/-! ## Lookup -/

theorem find_loop_refines {κ : Type} (key : κ) (compar : κ → Nat → Int) (s : rb_state)
    (t : Tree) (q fuel : Nat) (ho : Owns s.mem q t) (hord : SearchOrdered (compar key) t.inorder)
    (hfuel : t.height + 1 ≤ fuel) :
    ∃ r, rb_find_loop key compar fuel s t.ptr = .ok r ∧
      (r ≠ 0 → r ∈ t.inorder ∧ compar key r = 0) ∧
      (r = 0 ↔ ∀ a ∈ t.inorder, compar key a ≠ 0) := by
  induction t generalizing q fuel with
  | nil =>
    obtain ⟨fuel, rfl⟩ : ∃ k, fuel = k + 1 := ⟨fuel - 1, by omega⟩
    exact ⟨0, by simp [rb_find_loop], by simp, by simp⟩
  | node a c l r ihl ihr =>
    obtain ⟨fuel, rfl⟩ : ∃ k, fuel = k + 1 := ⟨fuel - 1, by omega⟩
    simp only [Owns] at ho
    obtain ⟨h0, h4, hlt, hm, hl, hr⟩ := ho
    simp only [Tree.height] at hfuel
    simp only [SearchOrdered, Tree.inorder_node, List.pairwise_append, List.pairwise_cons,
      List.mem_cons, forall_eq_or_imp] at hord
    obtain ⟨hordl, ⟨hra, hordr⟩, hlr⟩ := hord
    simp only [rb_find_loop, Tree.ptr_node, h0, if_false, get_left_ok _ h0, get_right_ok _ h0, hm]
    by_cases hneg : compar key a < 0
    · obtain ⟨x, hx, hx1, hx2⟩ := ihl a fuel hl hordl (by omega)
      refine ⟨x, by simp [hneg, hx], fun h => ⟨?_, (hx1 h).2⟩, ?_⟩
      · simp [(hx1 h).1]
      · rw [hx2]
        simp only [Tree.inorder_node, List.mem_append, List.mem_cons]
        constructor
        · rintro h b (hb | rfl | hb)
          · exact h b hb
          · omega
          · have h1 := hra b hb
            have h2 : (compar key a).sign = -1 := Int.sign_eq_neg_one_of_neg hneg
            intro h3
            rw [h2, h3] at h1
            simp at h1
        · exact fun h b hb => h b (Or.inl hb)
    · by_cases hpos : 0 < compar key a
      · obtain ⟨x, hx, hx1, hx2⟩ := ihr a fuel hr hordr (by omega)
        refine ⟨x, by simp [hneg, hpos, hx], fun h => ⟨?_, (hx1 h).2⟩, ?_⟩
        · simp [(hx1 h).1]
        · rw [hx2]
          simp only [Tree.inorder_node, List.mem_append, List.mem_cons]
          constructor
          · rintro h b (hb | rfl | hb)
            · have h1 := (hlr b hb).1
              have h2 : (compar key a).sign = 1 := Int.sign_eq_one_of_pos hpos
              intro h3
              rw [h2, h3] at h1
              simp at h1
            · omega
            · exact h b hb
          · exact fun h b hb => h b (Or.inr (Or.inr hb))
      · have hz : compar key a = 0 := by omega
        refine ⟨a, by simp [hneg, hpos], fun _ => ⟨by simp, hz⟩, ?_⟩
        constructor
        · intro h; exact absurd h h0
        · intro h; exact absurd hz (h a (by simp))

/-- C17: on a tree whose in-order sequence is ordered for the three-way
comparison `compar(key, ·)`, `rb_find` returns (with enough fuel) a node of
the tree that compares equal to the key whenever the tree holds one, and null
exactly when it holds none; the function has no store, so nothing is
modified. -/
theorem rb_find_spec {κ : Type} (key : κ) (compar : κ → Nat → Int) (s : rb_state) (t : Tree)
    (fuel : Nat) (hrep : Represents s t) (hord : SearchOrdered (compar key) t.inorder)
    (hfuel : t.height + 1 ≤ fuel) :
    ∃ r, rb_find fuel s key compar = .ok r ∧
      (r ≠ 0 → r ∈ t.inorder ∧ compar key r = 0) ∧
      (r = 0 ↔ ∀ a ∈ t.inorder, compar key a ≠ 0) ∧
      ((∃ a ∈ t.inorder, compar key a = 0) → r ≠ 0) := by
  obtain ⟨r, h1, h2, h3⟩ := find_loop_refines key compar s t 0 fuel hrep.2.1 hord hfuel
  refine ⟨r, by rw [rb_find, hrep.1, h1], h2, h3, ?_⟩
  rintro ⟨a, ha, hz⟩ hr
  exact (h3.mp hr) a ha hz

/-- Instance of C17: looking up the address `40` in `ex_state_two`, comparing
addresses. -/
theorem rb_find_spec_witness :
    (Represents ex_state_two ex_tree_two ∧
      SearchOrdered ((fun (k : Nat) (n : Nat) => (k : Int) - n) 40) ex_tree_two.inorder ∧
      ex_tree_two.height + 1 ≤ 3) ∧
    ∃ r, rb_find 3 ex_state_two (40 : Nat) (fun k n => (k : Int) - n) = .ok r ∧
      (r ≠ 0 → r ∈ ex_tree_two.inorder ∧ (fun (k : Nat) (n : Nat) => (k : Int) - n) 40 r = 0) ∧
      (r = 0 ↔ ∀ a ∈ ex_tree_two.inorder, (fun (k : Nat) (n : Nat) => (k : Int) - n) 40 a ≠ 0) ∧
      ((∃ a ∈ ex_tree_two.inorder, (fun (k : Nat) (n : Nat) => (k : Int) - n) 40 a = 0) → r ≠ 0) :=
  ⟨⟨by decide, by decide, by decide⟩,
    rb_find_spec 40 (fun k n => (k : Int) - n) ex_state_two ex_tree_two 3
      (by decide) (by decide) (by decide)⟩

/-! ## Insertion: base cases and the rotation hook -/

theorem pc_wr_left (s : rb_state) (p v a : Nat) :
    ((s.wr_left p v).mem a).__rb_parent_color = (s.mem a).__rb_parent_color := by
  by_cases h : a = p <;> simp [h]

theorem pc_wr_right (s : rb_state) (p v a : Nat) :
    ((s.wr_right p v).mem a).__rb_parent_color = (s.mem a).__rb_parent_color := by
  by_cases h : a = p <;> simp [h]

theorem pc_wr_pc (s : rb_state) (p v a : Nat) :
    ((s.wr_pc p v).mem a).__rb_parent_color = if a = p then v else (s.mem a).__rb_parent_color := by
  by_cases h : a = p <;> simp [h]

theorem link_node_eq (s : rb_state) (node parent : Nat) (link : rb_link) (hnode : node ≠ 0)
    (hlink : link = .root ∨ ∃ p, p ≠ 0 ∧ (link = .left p ∨ link = .right p)) :
    ∃ s1, rb_link_node s node parent link = .ok s1 ∧
      (s1.mem node).__rb_parent_color = parent ∧
      (∀ a, (s1.mem a).__rb_parent_color =
        if a = node then parent else (s.mem a).__rb_parent_color) ∧
      (link = .root → s1.root = node ∧ s1.mem node = ⟨parent, 0, 0⟩) := by
  rcases hlink with rfl | ⟨p, hp0, rfl | rfl⟩
  · refine ⟨_, by
      simp only [rb_link_node, set_pc_ok _ _ hnode, set_right_ok _ _ hnode,
        set_left_ok _ _ hnode, ok_bind, rb_link.write, pure_eq_ok]; rfl, ?_, ?_, ?_⟩
    · simp
    · intro a; by_cases h : a = node <;> simp [h]
    · intro _; simp
  · refine ⟨_, by
      simp only [rb_link_node, set_pc_ok _ _ hnode, set_right_ok _ _ hnode,
        set_left_ok _ _ hnode, ok_bind, rb_link.write, set_left_ok _ _ hp0]; rfl, ?_, ?_, ?_⟩
    · simp only [pc_wr_left, pc_wr_right, pc_wr_pc, if_true]
    · intro a
      simp only [pc_wr_left, pc_wr_right, pc_wr_pc]
    · intro h; cases h
  · refine ⟨_, by
      simp only [rb_link_node, set_pc_ok _ _ hnode, set_right_ok _ _ hnode,
        set_left_ok _ _ hnode, ok_bind, rb_link.write, set_right_ok _ _ hp0]; rfl, ?_, ?_, ?_⟩
    · simp only [pc_wr_left, pc_wr_right, pc_wr_pc, if_true]
    · intro a
      simp only [pc_wr_left, pc_wr_right, pc_wr_pc]
    · intro h; cases h

/-- C12: when the node just linked by `rb_link_node` has no parent or a black
parent, `rb_insert_color` (one pass is enough) never calls the rotation hook
and writes no node other than the new one: without a parent the node becomes
the black root, otherwise the state is exactly the one `rb_link_node`
produced and the node stays red. -/
theorem rb_insert_color_base_cases (s : rb_state) (node parent : Nat) (link : rb_link)
    (fuel : Nat) (hnode : node ≠ 0)
    (hlink : link = .root ∨ ∃ p, p ≠ 0 ∧ (link = .left p ∨ link = .right p))
    (hblack : parent ≠ 0 → parent ≠ node ∧ rb_is_black s parent = .ok true)
    (hfuel : 1 ≤ fuel) :
    ∃ s1, rb_link_node s node parent link = .ok s1 ∧
      (∀ (σ : Type) (hook : rb_state → Nat → Nat → σ → σ) (aug : σ),
        __rb_insert hook fuel s1 aug node =
          .ok (if parent = 0 then s1.wr_pc node 1 else s1, aug)) ∧
      rb_insert_color fuel s1 node = .ok (if parent = 0 then s1.wr_pc node 1 else s1) ∧
      (parent = 0 → link = .root →
        (s1.wr_pc node 1).root = node ∧ (s1.wr_pc node 1).mem node = ⟨1, 0, 0⟩) ∧
      (parent ≠ 0 → rb_is_red s1 node = rb_is_red (s.wr_pc node parent) node) := by
  obtain ⟨s1, hs1, hpc, hpcs, hroot⟩ := link_node_eq s node parent link hnode hlink
  obtain ⟨fuel, rfl⟩ : ∃ k, fuel = k + 1 := ⟨fuel - 1, by omega⟩
  have hins : ∀ (σ : Type) (hook : rb_state → Nat → Nat → σ → σ) (aug : σ),
      __rb_insert hook (fuel + 1) s1 aug node =
        .ok (if parent = 0 then s1.wr_pc node 1 else s1, aug) := by
    intro σ hook aug
    by_cases hp : parent = 0
    · have h1 : RB_BLACK % UINTPTR_MOD = 1 := by unfold UINTPTR_MOD RB_BLACK; rfl
      simp [__rb_insert, rb_red_parent, hnode, hpc, __rb_insert_loop, __rb_insert_iter, hp,
        rb_set_parent_color, h1]
    · obtain ⟨hpn, hb⟩ := hblack hp
      have hb1 : rb_is_black s1 parent = .ok true := by
        simp only [rb_is_black, get_pc_ok _ hp, ok_bind, hpcs parent, hpn, if_false] at hb ⊢
        exact hb
      simp [__rb_insert, rb_red_parent, hnode, hpc, __rb_insert_loop, __rb_insert_iter, hp, hb1]
  refine ⟨s1, hs1, hins, ?_, ?_, ?_⟩
  · simp [rb_insert_color, hins]
  · intro _ hl
    obtain ⟨h1, h2⟩ := hroot hl
    simp [h1, h2]
  · intro _
    simp [rb_is_red, hnode, hpc]

/-- Instance of C12: node `120` linked as right child of the black root `80`
of `ex_state_two`. -/
theorem rb_insert_color_base_cases_witness :
    ((120 : Nat) ≠ 0 ∧
      ((rb_link.right 80 = .root) ∨
        ∃ p, p ≠ 0 ∧ (rb_link.right 80 = .left p ∨ rb_link.right 80 = .right p)) ∧
      ((80 : Nat) ≠ 0 → (80 : Nat) ≠ 120 ∧ rb_is_black ex_state_two 80 = .ok true) ∧ 1 ≤ 1) ∧
    ∃ s1, rb_link_node ex_state_two 120 80 (.right 80) = .ok s1 ∧
      (∀ (σ : Type) (hook : rb_state → Nat → Nat → σ → σ) (aug : σ),
        __rb_insert hook 1 s1 aug 120 = .ok (if 80 = 0 then s1.wr_pc 120 1 else s1, aug)) ∧
      rb_insert_color 1 s1 120 = .ok (if 80 = 0 then s1.wr_pc 120 1 else s1) ∧
      ((80 : Nat) = 0 → rb_link.right 80 = .root →
        (s1.wr_pc 120 1).root = 120 ∧ (s1.wr_pc 120 1).mem 120 = ⟨1, 0, 0⟩) ∧
      ((80 : Nat) ≠ 0 → rb_is_red s1 120 = rb_is_red (ex_state_two.wr_pc 120 80) 120) :=
  ⟨⟨by decide, Or.inr ⟨80, by decide, Or.inr rfl⟩, fun _ => ⟨by decide, rfl⟩, by decide⟩,
    rb_insert_color_base_cases ex_state_two 120 80 (.right 80) 1 (by decide)
      (Or.inr ⟨80, by decide, Or.inr rfl⟩) (fun _ => ⟨by decide, rfl⟩) (by decide)⟩

theorem insert_iter_hook {σ : Type} (h : Nat → Nat → σ → σ) (s : rb_state)
    (aug : σ) (fs : List Frame) (t : Tree) (hrep : Represents s (plug fs t)) :
    match ins_iter fs t with
    | none => True
    | some (.done T) =>
      ∃ s1, __rb_insert_iter (fun _ o n a => h o n a) s aug t.ptr (pathParent fs) =
          .ok (.done (s1, run_hook h (ins_iter_rots fs t) aug)) ∧ Represents s1 T
    | some (.next (fs1, t1)) =>
      ∃ s1, __rb_insert_iter (fun _ o n a => h o n a) s aug t.ptr (pathParent fs) =
          .ok (.next (s1, run_hook h (ins_iter_rots fs t) aug, t1.ptr, pathParent fs1)) ∧
        Represents s1 (plug fs1 t1) := by
  cases t with
  | nil => simp [ins_iter]
  | node n c l r =>
    cases fs with
    | nil => exact insert_iter_root _ s aug n c l r hrep
    | cons f fs =>
      rcases f with ⟨p, _ | _, sib⟩ | ⟨p, _ | _, sib⟩
      · cases fs with
        | nil => simp [ins_iter]
        | cons f2 fs =>
          rcases f2 with ⟨g, gc, u⟩ | ⟨g, gc, u⟩
          · rcases u with _ | ⟨ua, _ | _, ul, ur⟩
            · obtain ⟨s1, s0, h1, h2⟩ := insert_iter_LL (fun _ o n a => h o n a) s aug fs p g n gc
                c sib .nil l r rfl hrep
              exact ⟨s1, h1, h2⟩
            · exact insert_iter_red_LL _ s aug fs p g n ua gc c sib ul ur l r hrep
            · obtain ⟨s1, s0, h1, h2⟩ := insert_iter_LL (fun _ o n a => h o n a) s aug fs p g n gc
                c sib (.node ua .black ul ur) l r rfl hrep
              exact ⟨s1, h1, h2⟩
          · rcases u with _ | ⟨ua, _ | _, ul, ur⟩
            · obtain ⟨s1, s0, s2, h1, h2⟩ := insert_iter_RL (fun _ o n a => h o n a) s aug fs p g
                n gc c sib .nil l r rfl hrep
              exact ⟨s1, h1, h2⟩
            · exact insert_iter_red_RL _ s aug fs p g n ua gc c sib ul ur l r hrep
            · obtain ⟨s1, s0, s2, h1, h2⟩ := insert_iter_RL (fun _ o n a => h o n a) s aug fs p g
                n gc c sib (.node ua .black ul ur) l r rfl hrep
              exact ⟨s1, h1, h2⟩
      · exact ⟨s, insert_iter_black _ s aug _ fs _ rfl hrep, hrep⟩
      · cases fs with
        | nil => simp [ins_iter]
        | cons f2 fs =>
          rcases f2 with ⟨g, gc, u⟩ | ⟨g, gc, u⟩
          · rcases u with _ | ⟨ua, _ | _, ul, ur⟩
            · obtain ⟨s1, s0, s2, h1, h2⟩ := insert_iter_LR (fun _ o n a => h o n a) s aug fs p g
                n gc c sib .nil l r rfl hrep
              exact ⟨s1, h1, h2⟩
            · exact insert_iter_red_LR _ s aug fs p g n ua gc c sib ul ur l r hrep
            · obtain ⟨s1, s0, s2, h1, h2⟩ := insert_iter_LR (fun _ o n a => h o n a) s aug fs p g
                n gc c sib (.node ua .black ul ur) l r rfl hrep
              exact ⟨s1, h1, h2⟩
          · rcases u with _ | ⟨ua, _ | _, ul, ur⟩
            · obtain ⟨s1, s0, h1, h2⟩ := insert_iter_RR (fun _ o n a => h o n a) s aug fs p g n gc
                c sib .nil l r rfl hrep
              exact ⟨s1, h1, h2⟩
            · exact insert_iter_red_RR _ s aug fs p g n ua gc c sib ul ur l r hrep
            · obtain ⟨s1, s0, h1, h2⟩ := insert_iter_RR (fun _ o n a => h o n a) s aug fs p g n gc
                c sib (.node ua .black ul ur) l r rfl hrep
              exact ⟨s1, h1, h2⟩
      · exact ⟨s, insert_iter_black _ s aug _ fs _ rfl hrep, hrep⟩

theorem run_hook_append {σ : Type} (h : Nat → Nat → σ → σ) (xs ys : List (Nat × Nat)) (aug : σ) :
    run_hook h (xs ++ ys) aug = run_hook h ys (run_hook h xs aug) := by
  simp [run_hook, List.foldl_append]

theorem insert_loop_hook {σ : Type} (h : Nat → Nat → σ → σ) (fuel : Nat)
    (s : rb_state) (aug : σ) (fs : List Frame) (t T : Tree) (hrep : Represents s (plug fs t))
    (hT : ins_loop fuel fs t = some T) :
    ∃ s1, __rb_insert_loop (fun _ o n a => h o n a) fuel s aug t.ptr (pathParent fs) =
        .ok (s1, run_hook h (ins_loop_rots fuel fs t) aug) ∧ Represents s1 T := by
  induction fuel generalizing s aug fs t with
  | zero => simp [ins_loop] at hT
  | succ fuel ih =>
    have href := insert_iter_hook h s aug fs t hrep
    simp only [ins_loop] at hT
    cases hit : ins_iter fs t with
    | none => simp [hit] at hT
    | some r =>
      cases r with
      | done T1 =>
        simp only [hit, Option.some.injEq] at hT href
        subst hT
        obtain ⟨s1, h1, h2⟩ := href
        exact ⟨s1, by simp [__rb_insert_loop, h1, ins_loop_rots, hit], h2⟩
      | next a =>
        obtain ⟨fs1, t1⟩ := a
        simp only [hit] at hT href
        obtain ⟨s1, h1, h2⟩ := href
        obtain ⟨s2, h3, h4⟩ := ih s1 (run_hook h (ins_iter_rots fs t) aug) fs1 t1 h2 hT
        exact ⟨s2, by simp [__rb_insert_loop, h1, h3, ins_loop_rots, hit, run_hook_append], h4⟩

theorem ins_iter_rots_length (fs : List Frame) (t : Tree) :
    (ins_iter_rots fs t).length ≤ 2 ∧
      (∀ fs1 t1, ins_iter fs t = some (.next (fs1, t1)) → ins_iter_rots fs t = []) := by
  cases t with
  | nil => cases fs <;> simp [ins_iter, ins_iter_rots]
  | node n c l r =>
    rcases fs with _ | ⟨⟨p, _ | _, sib⟩ | ⟨p, _ | _, sib⟩, _ | ⟨⟨g, gc, u⟩ | ⟨g, gc, u⟩, fs⟩⟩ <;>
      (try rcases u with _ | ⟨ua, _ | _, ul, ur⟩) <;> simp [ins_iter, ins_iter_rots]

theorem ins_loop_rots_length (fuel : Nat) (fs : List Frame) (t : Tree) :
    (ins_loop_rots fuel fs t).length ≤ 2 := by
  induction fuel generalizing fs t with
  | zero => simp [ins_loop_rots]
  | succ fuel ih =>
    simp only [ins_loop_rots]
    have h := ins_iter_rots_length fs t
    cases hit : ins_iter fs t with
    | none => simpa using h.1
    | some r =>
      cases r with
      | done T1 => simpa using h.1
      | next a =>
        obtain ⟨fs1, t1⟩ := a
        simp only [h.2 fs1 t1 hit, List.nil_append]
        exact ih fs1 t1

/-- C20: on a valid red-black tree with a fresh node linked by `rb_link_node`,
`rb_insert_color` run with a rotation hook calls the hook exactly once for
each rotation it performs, in the order of the rotations, with the root of the
rotated subtree before and after the rotation, and not at all when no
rotation happens: the final hook state is the hook folded over the list of
rotations (at most two) of the insertion. -/
theorem rb_insert_color_hook_calls (s : rb_state) (t : Tree) (node parent : Nat)
    (link : rb_link) (fuel : Nat) (hrep : Represents s t) (hrb : t.isRB)
    (hnode : node ≠ 0 ∧ node % 4 = 0 ∧ node < UINTPTR_MOD ∧ node ∉ t.inorder)
    (hslot : EmptySlot s t parent link) (hfuel : t.height / 2 + 1 ≤ fuel) :
    ∃ s1 fs t2, t = plug fs .nil ∧ parent = pathParent fs ∧ link = pathLink fs ∧
      rb_link_node s node parent link = .ok s1 ∧
      ins_loop fuel fs (.node node .red .nil .nil) = some t2 ∧
      (ins_loop_rots fuel fs (.node node .red .nil .nil)).length ≤ 2 ∧
      (∃ s2, rb_insert_color fuel s1 node = .ok s2 ∧ Represents s2 t2) ∧
      ∀ (σ : Type) (h : Nat → Nat → σ → σ) (aug : σ),
        ∃ s2, __rb_insert (fun _ old new a => h old new a) fuel s1 aug node =
            .ok (s2, run_hook h (ins_loop_rots fuel fs (.node node .red .nil .nil)) aug) ∧
          Represents s2 t2 := by
  obtain ⟨fs, rfl, rfl, rfl⟩ := emptySlot_path hrep hslot
  obtain ⟨h0, h4, hlt, hfresh⟩ := hnode
  obtain ⟨s1, hs1, hrep1⟩ := link_node_represents s fs node hrep h0 h4 hlt hfresh
  have hinv : InsInv fs (.node node .red .nil .nil) := by
    obtain ⟨hp, -, -⟩ := isRB_plug hrb
    exact ⟨rfl, by simp [Tree.noRedRed], by simp [Tree.balanced], by simpa [Tree.bh] using hp⟩
  have hlen : fs.length / 2 + 1 ≤ fuel := by
    have := height_plug fs .nil
    omega
  obtain ⟨T, hT, -, -⟩ := ins_loop_total fuel fs _ hinv hlen
  have hmn : (s1.mem node).__rb_parent_color = pathParent fs := by
    have hown := ((represents_plug s1 fs _).mp hrep1).2.1
    simp only [Owns, Color.bit_red, Nat.add_zero] at hown
    rw [hown.2.2.2.1]
  refine ⟨s1, fs, T, rfl, rfl, rfl, hs1, hT, ins_loop_rots_length _ _ _,
    insert_color_refines fuel s1 fs node .nil .nil T hrep1 hT, fun σ h aug => ?_⟩
  obtain ⟨s2, h1, h2⟩ := insert_loop_hook h fuel s1 aug fs _ T hrep1 hT
  simp only [Tree.ptr_node] at h1
  exact ⟨s2, by simp [__rb_insert, rb_red_parent, h0, hmn, h1], h2⟩

/-- Instance of C20: node `20` linked below the red leaf `40` of
`ex_state_two`, which takes one rotation at the root `80`. -/
theorem rb_insert_color_hook_calls_witness :
    (Represents ex_state_two ex_tree_two ∧ ex_tree_two.isRB ∧
      ((20 : Nat) ≠ 0 ∧ 20 % 4 = 0 ∧ 20 < UINTPTR_MOD ∧ 20 ∉ ex_tree_two.inorder) ∧
      EmptySlot ex_state_two ex_tree_two 40 (.left 40) ∧ ex_tree_two.height / 2 + 1 ≤ 2) ∧
    ∃ s1 fs t2, ex_tree_two = plug fs .nil ∧ 40 = pathParent fs ∧ rb_link.left 40 = pathLink fs ∧
      rb_link_node ex_state_two 20 40 (.left 40) = .ok s1 ∧
      ins_loop 2 fs (.node 20 .red .nil .nil) = some t2 ∧
      (ins_loop_rots 2 fs (.node 20 .red .nil .nil)).length ≤ 2 ∧
      (∃ s2, rb_insert_color 2 s1 20 = .ok s2 ∧ Represents s2 t2) ∧
      ∀ (σ : Type) (h : Nat → Nat → σ → σ) (aug : σ),
        ∃ s2, __rb_insert (fun _ old new a => h old new a) 2 s1 aug 20 =
            .ok (s2, run_hook h (ins_loop_rots 2 fs (.node 20 .red .nil .nil)) aug) ∧
          Represents s2 t2 :=
  ⟨⟨by decide, by decide, by decide, by decide, by decide⟩,
    rb_insert_color_hook_calls ex_state_two ex_tree_two 20 40 (.left 40) 2
      (by decide) (by decide) (by decide) (by decide) (by decide)⟩

/-! ## Removal: the structural phase -/

@[simp] theorem Tree.setColor_ptr (c : Color) (t : Tree) : (t.setColor c).ptr = t.ptr := by
  cases t <;> rfl
@[simp] theorem Tree.setColor_inorder (c : Color) (t : Tree) :
    (t.setColor c).inorder = t.inorder := by
  cases t <;> rfl
@[simp] theorem Tree.setColor_nil (c : Color) : Tree.nil.setColor c = .nil := rfl
@[simp] theorem Tree.setColor_node (c d : Color) (a : Nat) (l r : Tree) :
    (Tree.node a d l r).setColor c = .node a c l r := rfl
theorem Tree.setColor_color (t : Tree) : t.setColor t.color = t := by cases t <;> rfl
theorem Tree.setColor_black (t : Tree) : t.setColor .black = t.setBlack := by cases t <;> rfl

theorem Owns_setColor_of {m m1 : Nat → rb_node} {q q1 : Nat} {t : Tree} (c : Color)
    (ho : Owns m q t) (hnd : t.inorder.Nodup)
    (hroot : t.ptr ≠ 0 → m1 t.ptr = ⟨q1 + c.bit, (m t.ptr).rb_left, (m t.ptr).rb_right⟩)
    (hrest : ∀ a ∈ t.inorder, a ≠ t.ptr → m1 a = m a) : Owns m1 q1 (t.setColor c) := by
  cases t with
  | nil => trivial
  | node a d l r =>
    simp only [Owns] at ho
    obtain ⟨h0, h4, hlt, hm, hl, hr⟩ := ho
    have key := fun x => List.nodup_iff_count_le_one.mp hnd x
    simp only [Tree.inorder_node, List.count_append, List.count_cons, beq_iff_eq] at key
    simp only [Tree.ptr_node] at hroot hrest
    simp only [Tree.setColor, Owns]
    refine ⟨h0, h4, hlt, ?_, Owns_congr (fun x hx => hrest x ?_ ?_) hl,
      Owns_congr (fun x hx => hrest x ?_ ?_) hr⟩
    · rw [hroot h0, hm]
    · simp [hx]
    · exact disj_named (x := a) (fun y => by have := key y; omega) x hx
    · simp [hx]
    · exact disj_named (x := a) (fun y => by have := key y; omega) x hx

theorem splice_represents (st : rb_state) (fs : List Frame) (n : Nat) (nc : Color) (X : Tree)
    (hpath : OwnsPath st n fs) (hn0 : n ≠ 0) (hX : Owns st.mem n X)
    (key : ∀ a, (pathBefore fs).count a + (pathAfter fs).count a + X.inorder.count a +
      (if n = a then 1 else 0) ≤ 1) :
    ∃ s1, __rb_change_child st n X.ptr (pathParent fs) = .ok s1 ∧ s1.mem n = st.mem n ∧
      Represents (if X.ptr = 0 then s1 else s1.wr_pc X.ptr (pathParent fs + nc.bit))
        (plug fs (X.setColor nc)) := by
  have hnpath : n ∉ pathBefore fs ++ pathAfter fs := fun h =>
    disj_named (x := n) (fun a => by have := key a; simp only [List.count_append]; omega) _ h rfl
  have hXpath : ∀ a ∈ X.inorder, a ∉ pathBefore fs ++ pathAfter fs :=
    disj_region (fun a => by have := key a; simp only [List.count_append]; omega)
  obtain ⟨s1, hs1, hpath1, hmem1⟩ := change_child_path (s := st) X.ptr hpath rfl
    (fun _ _ => rfl) hn0 hnpath
    (nodup_of_count (fun a => by have := key a; simp only [List.count_append]; omega))
  refine ⟨s1, hs1, hmem1 n hnpath, ?_⟩
  rw [represents_plug]
  refine ⟨?_, ?_, ?_⟩
  · rw [Tree.setColor_ptr]
    refine OwnsPath_congr (s := s1) ?_ (fun a ha => ?_) hpath1
    · simp only [root_ite, root_wr_pc, ite_self]
    · exact mem_reparent_ne s1 X _ (fun h => hXpath a h ha)
  · refine Owns_setColor_of nc hX
      (nodup_of_count (fun a => by have := key a; omega)) (fun h => ?_) (fun a ha hne => ?_)
    · simp only [h, if_false, mem_wr_pc, if_true, hmem1 _ (hXpath _ (Tree.ptr_mem h))]
    · by_cases hY : X.ptr = 0
      · simp only [hY, if_true, hmem1 a (hXpath a ha)]
      · simp only [hY, if_false, mem_wr_pc, hne, hmem1 a (hXpath a ha)]
  · simp only [Tree.setColor_inorder]
    exact nodup_of_count (fun a => by
      have := key a; simp only [List.count_append]; omega)

theorem Color.bit_ne_zero (c : Color) : c.bit ≠ 0 ↔ c = .black := by cases c <;> simp [Color.bit]

theorem erase_no_left (fuel : Nat) (st : rb_state) (fs : List Frame) (n : Nat) (nc : Color)
    (R : Tree) (hrep : Represents st (plug fs (.node n nc .nil R))) :
    ∃ s1, __rb_change_child st n R.ptr (pathParent fs) = .ok s1 ∧
      __rb_erase fuel st n =
        .ok (if R.ptr = 0 then s1 else s1.wr_pc R.ptr (pathParent fs + nc.bit),
          if R.ptr = 0 ∧ nc = .black then pathParent fs else 0) ∧
      Represents (if R.ptr = 0 then s1 else s1.wr_pc R.ptr (pathParent fs + nc.bit))
        (plug fs (R.setColor nc)) ∧
      (if R.ptr = 0 then s1 else s1.wr_pc R.ptr (pathParent fs + nc.bit)).mem n = st.mem n := by
  rw [represents_plug] at hrep
  obtain ⟨hpath, hown, hnd⟩ := hrep
  simp only [Owns, Tree.ptr_node, Tree.ptr_nil] at hpath hown
  obtain ⟨hn0, hn4, hnlt, hmn, -, hor⟩ := hown
  have key := fun a => List.nodup_iff_count_le_one.mp hnd a
  simp only [Tree.inorder_node, Tree.inorder_nil, List.count_append, List.count_cons,
    List.count_nil, beq_iff_eq] at key
  obtain ⟨hgp4, hgplt⟩ := OwnsPath_parent hpath
  obtain ⟨s1, hs1, hs1n, hrep1⟩ := splice_represents st fs n nc R hpath hn0 hor
    (fun a => by have := key a; omega)
  have hnR : n ≠ R.ptr := ne_ptr_of_notin hn0 fun h =>
    disj_named (x := n) (fun a => by have := key a; omega) _ h rfl
  refine ⟨s1, hs1, ?_, hrep1, ?_⟩
  · have hcb := nc.bit_le
    simp only [__rb_erase, get_left_ok _ hn0, get_right_ok _ hn0, rb_parent, get_pc_ok _ hn0,
      hmn, ok_bind, pure_eq_ok, rb_parent_mask _ _ hgp4 hgplt hcb, if_true, hs1, load, hn0,
      if_false, hs1n, __rb_is_black, rb_color_mask _ _ hgp4 hcb, ne_eq]
    by_cases hR : R.ptr = 0
    · simp only [hR, not_true_eq_false, if_false, if_true, true_and, Color.bit_ne_zero]
    · simp only [hR, not_false_eq_true, if_true, if_false, set_pc_ok _ _ hR, ok_bind,
        pure_eq_ok, false_and]
  · by_cases hR : R.ptr = 0
    · simp only [hR, if_true, hs1n]
    · simp only [hR, if_false, mem_wr_pc, hnR, hs1n]

theorem erase_one_left (fuel : Nat) (st : rb_state) (fs : List Frame) (n : Nat) (nc : Color)
    (L : Tree) (hL : L.ptr ≠ 0) (hrep : Represents st (plug fs (.node n nc L .nil))) :
    ∃ s1, __rb_change_child st n L.ptr (pathParent fs) = .ok s1 ∧
      __rb_erase fuel st n = .ok (s1.wr_pc L.ptr (pathParent fs + nc.bit), 0) ∧
      Represents (s1.wr_pc L.ptr (pathParent fs + nc.bit)) (plug fs (L.setColor nc)) ∧
      (s1.wr_pc L.ptr (pathParent fs + nc.bit)).mem n = st.mem n := by
  rw [represents_plug] at hrep
  obtain ⟨hpath, hown, hnd⟩ := hrep
  simp only [Owns, Tree.ptr_node, Tree.ptr_nil] at hpath hown
  obtain ⟨hn0, hn4, hnlt, hmn, hol, -⟩ := hown
  have key := fun a => List.nodup_iff_count_le_one.mp hnd a
  simp only [Tree.inorder_node, Tree.inorder_nil, List.count_append, List.count_cons,
    List.count_nil, beq_iff_eq] at key
  obtain ⟨hgp4, hgplt⟩ := OwnsPath_parent hpath
  obtain ⟨s1, hs1, hs1n, hrep1⟩ := splice_represents st fs n nc L hpath hn0 hol
    (fun a => by have := key a; omega)
  simp only [hL, if_false] at hrep1
  have hnL : n ≠ L.ptr := ne_ptr_of_notin hn0 fun h =>
    disj_named (x := n) (fun a => by have := key a; omega) _ h rfl
  have hcb := nc.bit_le
  refine ⟨s1, hs1, ?_, hrep1, by simp only [mem_wr_pc, hnL, if_false, hs1n]⟩
  simp only [__rb_erase, get_left_ok _ hn0, get_right_ok _ hn0, rb_parent, get_pc_ok _ hn0,
    hmn, ok_bind, pure_eq_ok, rb_parent_mask _ _ hgp4 hgplt hcb, if_true, hs1, hL,
    if_false, hs1n, set_pc_ok _ _ hL]

theorem Tree.nil_of_rootBlack_bh {t : Tree} (h1 : t.rootBlack) (h2 : t.bh = 0) : t = .nil := by
  cases t with
  | nil => rfl
  | node a c l r =>
    simp only [Tree.rootBlack] at h1
    subst h1
    simp [Tree.bh, Color.bit] at h2

theorem one_child_shape {n c : Nat} {nc cc : Color} {cl cr : Tree}
    (h : ((Tree.node n nc .nil (.node c cc cl cr)).noRedRed ∧
        (Tree.node n nc .nil (.node c cc cl cr)).balanced) ∨
      ((Tree.node n nc (.node c cc cl cr) .nil).noRedRed ∧
        (Tree.node n nc (.node c cc cl cr) .nil).balanced)) :
    nc = .black ∧ cc = .red ∧ cl = .nil ∧ cr = .nil := by
  have aux : (nc = .red → cc = .black) → cl.bh + cc.bit = 0 → cl.bh = cr.bh →
      (cc = .red → cl.rootBlack ∧ cr.rootBlack) → nc = .black ∧ cc = .red ∧ cl = .nil ∧ cr = .nil := by
    intro h1 h2 h3 h4
    have hcc : cc = .red := by
      cases cc with
      | red => rfl
      | black => simp [Color.bit] at h2
    have hnc : nc = .black := by
      cases nc with
      | black => rfl
      | red => rw [h1 rfl] at hcc; cases hcc
    obtain ⟨h5, h6⟩ := h4 hcc
    exact ⟨hnc, hcc, Tree.nil_of_rootBlack_bh h5 (by omega), Tree.nil_of_rootBlack_bh h6 (by omega)⟩
  rcases h with ⟨h1, h2⟩ | ⟨h1, h2⟩
  · simp only [Tree.noRedRed, Tree.balanced, Tree.rootBlack, Tree.bh] at h1 h2
    exact aux (fun h => (h1.1 h).2) h2.1.symm h2.2.2.1 h1.2.2.1
  · simp only [Tree.noRedRed, Tree.balanced, Tree.rootBlack, Tree.bh] at h1 h2
    exact aux (fun h => (h1.1 h).1) h2.1 h2.2.1.1 h1.2.1.1

theorem rb_erase_of_struct {fuel : Nat} {st S : rb_state} {n : Nat}
    (h : __rb_erase fuel st n = .ok (S, 0)) : rb_erase fuel st n = .ok S := by
  simp [rb_erase, h]

/-- C11: on a valid red-black tree, `rb_erase` of a red leaf `n` clears the
child slot of the parent of `n` that held `n` and does nothing else: the
structural phase asks for no rebalancing, and no other pointer, colour or the
root handle changes. -/
theorem rb_erase_red_leaf (fuel : Nat) (st : rb_state) (fs : List Frame) (n : Nat)
    (hrep : Represents st (plug fs (.node n .red .nil .nil)))
    (hrb : (plug fs (.node n .red .nil .nil)).isRB) :
    pathParent fs ≠ 0 ∧
      (pathLink fs = .left (pathParent fs) ∨ pathLink fs = .right (pathParent fs)) ∧
      (pathLink fs).read st = .ok n ∧
      (pathLink fs).write st 0 =
        .ok (if (st.mem (pathParent fs)).rb_left = n then st.wr_left (pathParent fs) 0
          else st.wr_right (pathParent fs) 0) ∧
      __rb_erase fuel st n =
        .ok (if (st.mem (pathParent fs)).rb_left = n then st.wr_left (pathParent fs) 0
          else st.wr_right (pathParent fs) 0, 0) ∧
      rb_erase fuel st n =
        .ok (if (st.mem (pathParent fs)).rb_left = n then st.wr_left (pathParent fs) 0
          else st.wr_right (pathParent fs) 0) ∧
      Represents (if (st.mem (pathParent fs)).rb_left = n then st.wr_left (pathParent fs) 0
          else st.wr_right (pathParent fs) 0) (plug fs .nil) := by
  obtain ⟨s1, hs1, herase, hrep1, -⟩ := erase_no_left fuel st fs n .red .nil hrep
  have hpath := ((represents_plug st fs _).mp hrep).1
  have hnd := ((represents_plug st fs _).mp hrep).2.2
  have hread := read_pathLink hpath
  obtain ⟨hp, -, -⟩ := isRB_plug hrb
  cases fs with
  | nil => simp [PathRB, Tree.color] at hp
  | cons f fs =>
    have key := fun a => List.nodup_iff_count_le_one.mp hnd a
    simp only [Tree.ptr_nil, if_true, Tree.setColor_nil, true_and, if_false] at herase hrep1 hs1
    have hS : s1 = (if (st.mem (pathParent (f :: fs))).rb_left = n
        then st.wr_left (pathParent (f :: fs)) 0 else st.wr_right (pathParent (f :: fs)) 0) ∧
        pathParent (f :: fs) ≠ 0 ∧
        (pathLink (f :: fs)).write st 0 = .ok (if (st.mem (pathParent (f :: fs))).rb_left = n
          then st.wr_left (pathParent (f :: fs)) 0 else st.wr_right (pathParent (f :: fs)) 0) := by
      cases f with
      | L p c sib =>
        simp only [OwnsPath, Tree.ptr_node] at hpath
        obtain ⟨hp0, -, -, hmp, -, -⟩ := hpath
        simp only [__rb_change_child, pathParent_cons, Frame.addr_L, hp0, if_false,
          get_left_ok _ hp0, hmp, ok_bind, if_true, set_left_ok _ _ hp0, Except.ok.injEq] at hs1
        simp [hp0, hmp, hs1, pathLink, rb_link.write]
      | R p c sib =>
        simp only [OwnsPath, Tree.ptr_node] at hpath
        obtain ⟨hp0, -, -, hmp, hsib, -⟩ := hpath
        simp only [pathBefore, pathAfter, Tree.inorder_node, Tree.inorder_nil, List.count_append,
          List.count_cons, List.count_nil, beq_iff_eq] at key
        have hne : sib.ptr ≠ n := fun h => by
          have hn0 : n ≠ 0 := Represents.ne_zero hrep n (by simp)
          have hs0 : sib.ptr ≠ 0 := h ▸ hn0
          have := Tree.ptr_mem hs0
          exact disj_named (x := n) (fun a => by have := key a; omega) _ this h
        simp only [__rb_change_child, pathParent_cons, Frame.addr_R, hp0, if_false,
          get_left_ok _ hp0, hmp, ok_bind, hne, set_right_ok _ _ hp0, Except.ok.injEq] at hs1
        simp [hp0, hmp, hs1, pathLink, rb_link.write, hne]
    obtain ⟨hS1, hS2, hS3⟩ := hS
    rw [hS1] at herase hrep1
    refine ⟨hS2, ?_, hread, hS3, ?_, rb_erase_of_struct ?_, hrep1⟩
    · cases f <;> simp [pathLink, pathParent, Frame.addr]
    · simpa using herase
    · simpa using herase

/-- Instance of C11: erasing the red leaf `80` of `ex_state_three`, the left
child of the root `160`. -/
theorem rb_erase_red_leaf_witness :
    (Represents ex_state_three
        (plug [.L 160 .black (.node 240 .red .nil .nil)] (.node 80 .red .nil .nil)) ∧
      (plug [.L 160 .black (.node 240 .red .nil .nil)] (.node 80 .red .nil .nil)).isRB) ∧
    (pathParent [.L 160 .black (.node 240 .red .nil .nil)] ≠ 0 ∧
      (pathLink [.L 160 .black (.node 240 .red .nil .nil)] =
          .left (pathParent [.L 160 .black (.node 240 .red .nil .nil)]) ∨
        pathLink [.L 160 .black (.node 240 .red .nil .nil)] =
          .right (pathParent [.L 160 .black (.node 240 .red .nil .nil)])) ∧
      (pathLink [.L 160 .black (.node 240 .red .nil .nil)]).read ex_state_three = .ok 80 ∧
      (pathLink [.L 160 .black (.node 240 .red .nil .nil)]).write ex_state_three 0 =
        .ok (if (ex_state_three.mem
            (pathParent [.L 160 .black (.node 240 .red .nil .nil)])).rb_left = 80
          then ex_state_three.wr_left (pathParent [.L 160 .black (.node 240 .red .nil .nil)]) 0
          else ex_state_three.wr_right (pathParent [.L 160 .black (.node 240 .red .nil .nil)]) 0) ∧
      __rb_erase 1 ex_state_three 80 =
        .ok (if (ex_state_three.mem
            (pathParent [.L 160 .black (.node 240 .red .nil .nil)])).rb_left = 80
          then ex_state_three.wr_left (pathParent [.L 160 .black (.node 240 .red .nil .nil)]) 0
          else ex_state_three.wr_right (pathParent [.L 160 .black (.node 240 .red .nil .nil)]) 0,
          0) ∧
      rb_erase 1 ex_state_three 80 =
        .ok (if (ex_state_three.mem
            (pathParent [.L 160 .black (.node 240 .red .nil .nil)])).rb_left = 80
          then ex_state_three.wr_left (pathParent [.L 160 .black (.node 240 .red .nil .nil)]) 0
          else ex_state_three.wr_right (pathParent [.L 160 .black (.node 240 .red .nil .nil)]) 0) ∧
      Represents (if (ex_state_three.mem
            (pathParent [.L 160 .black (.node 240 .red .nil .nil)])).rb_left = 80
          then ex_state_three.wr_left (pathParent [.L 160 .black (.node 240 .red .nil .nil)]) 0
          else ex_state_three.wr_right (pathParent [.L 160 .black (.node 240 .red .nil .nil)]) 0)
        (plug [.L 160 .black (.node 240 .red .nil .nil)] .nil)) :=
  ⟨⟨by decide, by decide⟩,
    rb_erase_red_leaf 1 ex_state_three [.L 160 .black (.node 240 .red .nil .nil)] 80
      (by decide) (by decide)⟩

/-- C13: on a valid red-black tree, when `n` has exactly one child `c`,
`rb_erase` puts `c` into the slot that held `n` and gives `c` the parent and
the colour that `n` had (black); the rest of the tree is untouched and the
structural phase asks for no rebalancing. -/
theorem rb_erase_one_child (fuel : Nat) (st : rb_state) (fs : List Frame) (n c : Nat)
    (nc cc : Color) (l r cl cr : Tree)
    (hone : (l = .nil ∧ r = .node c cc cl cr) ∨ (l = .node c cc cl cr ∧ r = .nil))
    (hrep : Represents st (plug fs (.node n nc l r)))
    (hrb : (plug fs (.node n nc l r)).isRB) :
    ∃ s1 S, __rb_change_child st n c (pathParent fs) = .ok s1 ∧
      S = s1.wr_pc c (st.mem n).__rb_parent_color ∧
      __rb_erase fuel st n = .ok (S, 0) ∧ rb_erase fuel st n = .ok S ∧
      (pathLink fs).read S = .ok c ∧
      rb_parent S c = rb_parent st n ∧ rb_color S c = rb_color st n ∧
      rb_color st n = .ok true ∧
      Represents S (plug fs (.node c .black .nil .nil)) ∧
      nc = .black ∧ cc = .red ∧ cl = .nil ∧ cr = .nil := by
  obtain ⟨-, h1, h2⟩ := isRB_plug hrb
  have hpath := ((represents_plug st fs _).mp hrep).1
  have hown := ((represents_plug st fs _).mp hrep).2.1
  simp only [Owns] at hown
  obtain ⟨hn0, hn4, hnlt, hmn, hol, hor⟩ := hown
  obtain ⟨hgp4, hgplt⟩ := OwnsPath_parent hpath
  have hfin : ∀ s1 : rb_state, __rb_change_child st n c (pathParent fs) = .ok s1 →
      c ≠ 0 → c ≠ n → nc = .black →
      __rb_erase fuel st n = .ok (s1.wr_pc c (pathParent fs + nc.bit), 0) →
      Represents (s1.wr_pc c (pathParent fs + nc.bit)) (plug fs (.node c nc cl cr)) →
      ∃ s1 S, __rb_change_child st n c (pathParent fs) = .ok s1 ∧
        S = s1.wr_pc c (st.mem n).__rb_parent_color ∧
        __rb_erase fuel st n = .ok (S, 0) ∧ rb_erase fuel st n = .ok S ∧
        (pathLink fs).read S = .ok c ∧
        rb_parent S c = rb_parent st n ∧ rb_color S c = rb_color st n ∧
        rb_color st n = .ok true ∧
        Represents S (plug fs (.node c nc cl cr)) := by
    intro s1 hs1 hc0 hcn hb he hr
    have hread := read_pathLink ((represents_plug _ fs _).mp hr).1
    refine ⟨s1, _, hs1, rfl, ?_, ?_, ?_, ?_, ?_, ?_, ?_⟩
    · rw [hmn]; exact he
    · rw [hmn]; exact rb_erase_of_struct he
    · rw [hmn]; exact hread
    · simp [rb_parent, hc0, hn0]
    · simp [rb_color, hc0, hn0]
    · subst hb
      simp [rb_color, hn0, hmn, rb_color_mask _ _ hgp4, Color.bit]
    · rw [hmn]; exact hr
  rcases hone with ⟨rfl, rfl⟩ | ⟨rfl, rfl⟩
  · obtain ⟨hb, hred, rfl, rfl⟩ := one_child_shape (Or.inl ⟨h1, h2⟩)
    simp only [Owns] at hor
    have hc0 := hor.1
    have hcn : c ≠ n := by
      have key := fun a => List.nodup_iff_count_le_one.mp hrep.2.2 a
      simp only [inorder_plug, Tree.inorder_node, Tree.inorder_nil, List.count_append,
        List.count_cons, List.count_nil, beq_iff_eq] at key
      exact ne_named (fun a => by have := key a; omega)
    obtain ⟨s1, hs1, herase, hrep1, -⟩ := erase_no_left fuel st fs n nc _ hrep
    simp only [Tree.ptr_node, hc0, if_false, false_and, Tree.setColor_node] at hs1 herase hrep1
    obtain ⟨s1, S, g1, g2, g3, g4, g5, g6, g7, g8, g9⟩ := hfin s1 hs1 hc0 hcn hb herase hrep1
    subst hb
    exact ⟨s1, S, g1, g2, g3, g4, g5, g6, g7, g8, g9, rfl, hred, rfl, rfl⟩
  · obtain ⟨hb, hred, rfl, rfl⟩ := one_child_shape (Or.inr ⟨h1, h2⟩)
    simp only [Owns] at hol
    have hc0 := hol.1
    have hcn : c ≠ n := by
      have key := fun a => List.nodup_iff_count_le_one.mp hrep.2.2 a
      simp only [inorder_plug, Tree.inorder_node, Tree.inorder_nil, List.count_append,
        List.count_cons, List.count_nil, beq_iff_eq] at key
      exact ne_named (fun a => by have := key a; omega)
    obtain ⟨s1, hs1, herase, hrep1, -⟩ := erase_one_left fuel st fs n nc _
      (by simpa using hc0) hrep
    simp only [Tree.ptr_node, Tree.setColor_node] at hs1 herase hrep1
    obtain ⟨s1, S, g1, g2, g3, g4, g5, g6, g7, g8, g9⟩ := hfin s1 hs1 hc0 hcn hb herase hrep1
    subst hb
    exact ⟨s1, S, g1, g2, g3, g4, g5, g6, g7, g8, g9, rfl, hred, rfl, rfl⟩

/-- Instance of C13: erasing node `80` of `erase_state_four`, whose only child
is the red leaf `40`. -/
theorem rb_erase_one_child_witness :
    ((((Tree.node 40 .red .nil .nil) = .nil ∧ Tree.nil = .node 40 .red .nil .nil) ∨
        ((Tree.node 40 .red .nil .nil) = .node 40 .red .nil .nil ∧ Tree.nil = .nil)) ∧
      Represents erase_state_four (plug [.L 160 .black (.node 240 .black .nil .nil)]
        (.node 80 .black (.node 40 .red .nil .nil) .nil)) ∧
      (plug [.L 160 .black (.node 240 .black .nil .nil)]
        (.node 80 .black (.node 40 .red .nil .nil) .nil)).isRB) ∧
    ∃ s1 S, __rb_change_child erase_state_four 80 40
        (pathParent [.L 160 .black (.node 240 .black .nil .nil)]) = .ok s1 ∧
      S = s1.wr_pc 40 (erase_state_four.mem 80).__rb_parent_color ∧
      __rb_erase 1 erase_state_four 80 = .ok (S, 0) ∧ rb_erase 1 erase_state_four 80 = .ok S ∧
      (pathLink [.L 160 .black (.node 240 .black .nil .nil)]).read S = .ok 40 ∧
      rb_parent S 40 = rb_parent erase_state_four 80 ∧
      rb_color S 40 = rb_color erase_state_four 80 ∧
      rb_color erase_state_four 80 = .ok true ∧
      Represents S (plug [.L 160 .black (.node 240 .black .nil .nil)]
        (.node 40 .black .nil .nil)) ∧
      Color.black = .black ∧ Color.red = .red ∧ Tree.nil = .nil ∧ Tree.nil = .nil :=
  ⟨⟨Or.inr ⟨rfl, rfl⟩, by decide, by decide⟩,
    rb_erase_one_child 1 erase_state_four [.L 160 .black (.node 240 .black .nil .nil)] 80 40
      .black .red _ _ .nil .nil (Or.inr ⟨rfl, rfl⟩) (by decide) (by decide)⟩

theorem segTop_ptr (rs : List Frame) (t : Tree) : (plug rs t).ptr = segTop t.ptr rs := by
  induction rs generalizing t with
  | nil => rfl
  | cons f rs ih => cases f <;> simp [plug, ih, segTop, Frame.addr]

theorem owns_plug_seg (m : Nat → rb_node) (q : Nat) (rs : List Frame) (t : Tree) :
    Owns m q (plug rs t) ↔ (OwnsSeg m q t.ptr rs ∧ Owns m (segParent q rs) t) := by
  induction rs generalizing t with
  | nil => simp [plug, OwnsSeg, segParent]
  | cons f rs ih =>
    cases f with
    | L a c sib =>
      rw [plug, ih]
      simp only [OwnsSeg, Owns, Tree.ptr_node, segParent, Frame.addr, Frame.cell, Frame.sib]
      tauto
    | R a c sib =>
      rw [plug, ih]
      simp only [OwnsSeg, Owns, Tree.ptr_node, segParent, Frame.addr, Frame.cell, Frame.sib]
      tauto

theorem count_segFoot (rs : List Frame) (a : Nat) :
    (pathBefore rs).count a + (pathAfter rs).count a = (segFoot rs).count a := by
  induction rs with
  | nil => rfl
  | cons f rs ih =>
    cases f <;>
      simp only [pathBefore, pathAfter, segFoot, Frame.addr, Frame.sib, List.count_append,
        List.count_cons, List.count_nil, beq_iff_eq] <;> omega

theorem count_plug (rs : List Frame) (t : Tree) (a : Nat) :
    (plug rs t).inorder.count a = (segFoot rs).count a + t.inorder.count a := by
  rw [inorder_plug, ← count_segFoot]
  simp only [List.count_append]
  omega

theorem OwnsSeg_congr {m m1 : Nat → rb_node} {q h : Nat} {rs : List Frame}
    (hm : ∀ a ∈ segFoot rs, m1 a = m a) (ho : OwnsSeg m q h rs) : OwnsSeg m1 q h rs := by
  induction rs generalizing h with
  | nil => trivial
  | cons f rs ih =>
    obtain ⟨h0, h4, hlt, hc, hs, hr⟩ := ho
    refine ⟨h0, h4, hlt, ?_, Owns_congr (fun a ha => hm a ?_) hs, ih (fun a ha => hm a ?_) hr⟩
    · rw [hm _ (by simp [segFoot]), hc]
    · simp [segFoot, ha]
    · simp [segFoot, ha]

theorem segTop_mem (rs : List Frame) (f : Frame) : segTop f.addr rs ∈ segFoot (f :: rs) := by
  induction rs generalizing f with
  | nil => simp [segTop, segFoot]
  | cons g rs ih =>
    have := ih g
    simp only [segTop, segFoot, List.mem_cons, List.mem_append] at this ⊢
    tauto

theorem Frame.cell_pc (f : Frame) (q h : Nat) : (f.cell q h).__rb_parent_color = q + f.color.bit := by
  cases f <;> rfl

theorem Frame.cell_reparent (f : Frame) (q q1 h : Nat) :
    (⟨q1 + f.color.bit, (f.cell q h).rb_left, (f.cell q h).rb_right⟩ : rb_node) = f.cell q1 h := by
  cases f <;> rfl

theorem seg_reparent {m m1 : Nat → rb_node} {q q1 K : Nat} (rs : List Frame) (f : Frame) (h : Nat)
    (ho : OwnsSeg m q h (f :: rs))
    (key : ∀ a, (segFoot (f :: rs)).count a ≤ 1)
    (hK : (m (segTop f.addr rs)).__rb_parent_color = q + K)
    (htop : m1 (segTop f.addr rs) =
      ⟨q1 + K, (m (segTop f.addr rs)).rb_left, (m (segTop f.addr rs)).rb_right⟩)
    (hagree : ∀ a ∈ segFoot (f :: rs), a ≠ segTop f.addr rs → m1 a = m a) :
    OwnsSeg m1 q1 h (f :: rs) := by
  induction rs generalizing f h with
  | nil =>
    obtain ⟨h0, h4, hlt, hc, hs, -⟩ := ho
    simp only [segTop, segParent] at hK htop hagree hc
    simp only [segFoot, List.count_cons, List.count_append, List.count_nil, beq_iff_eq] at key
    have hKc : K = f.color.bit := by
      rw [hc, Frame.cell_pc] at hK
      omega
    refine ⟨h0, h4, hlt, ?_, Owns_congr (fun a ha => hagree a ?_ ?_) hs, trivial⟩
    · rw [htop, hc, hKc, segParent, Frame.cell_reparent]
    · simp [segFoot, ha]
    · exact disj_named (x := f.addr) (fun y => by have := key y; omega) a ha
  | cons g rs ih =>
    obtain ⟨h0, h4, hlt, hc, hs, hr⟩ := ho
    simp only [segTop] at hK htop hagree
    have hmem := segTop_mem rs g
    have key2 := key
    simp only [segFoot, List.count_cons, List.count_append, List.count_nil, beq_iff_eq] at key
    have hne : f.addr ≠ segTop g.addr rs := by
      intro e
      have h1 := List.one_le_count_iff.mpr hmem
      have := key (f.addr)
      simp only [segFoot, List.count_cons, List.count_append, beq_iff_eq, ← e] at h1
      simp only [if_true] at this
      omega
    refine ⟨h0, h4, hlt, ?_, Owns_congr (fun a ha => hagree a ?_ ?_) hs, ?_⟩
    · rw [hagree _ (by simp [segFoot]) hne, hc]
      rfl
    · simp [segFoot, ha]
    · intro e
      have h1 := List.one_le_count_iff.mpr hmem
      have h2 := List.one_le_count_iff.mpr ha
      have := key a
      simp only [segFoot, List.count_cons, List.count_append, beq_iff_eq, ← e] at h1
      omega
    · refine ih g f.addr hr (fun a => ?_) hK htop (fun a ha hne => hagree a ?_ hne)
      · have := key a
        simp only [segFoot, List.count_cons, List.count_append, beq_iff_eq]
        omega
      · simp only [segFoot, List.mem_cons, List.mem_append] at ha ⊢
        tauto

theorem seg_retarget {m m1 : Nat → rb_node} {q q1 K : Nat} (rs : List Frame) (pl : Nat)
    (c : Color) (sib : Tree) (h h1 : Nat)
    (ho : OwnsSeg m q h (.L pl c sib :: rs))
    (key : ∀ a, (segFoot (.L pl c sib :: rs)).count a ≤ 1)
    (hK : (m (segTop pl rs)).__rb_parent_color = q + K)
    (hpl : m1 pl = ⟨if pl = segTop pl rs then q1 + K else (m pl).__rb_parent_color, h1,
      (m pl).rb_right⟩)
    (htop : pl ≠ segTop pl rs → m1 (segTop pl rs) =
      ⟨q1 + K, (m (segTop pl rs)).rb_left, (m (segTop pl rs)).rb_right⟩)
    (hagree : ∀ a ∈ segFoot (.L pl c sib :: rs), a ≠ pl → a ≠ segTop pl rs → m1 a = m a) :
    OwnsSeg m1 q1 h1 (.L pl c sib :: rs) := by
  obtain ⟨h0, h4, hlt, hc, hs, hr⟩ := ho
  simp only [Frame.addr, Frame.sib, Frame.cell] at h0 h4 hlt hc hs hr
  have key1 : ∀ a, sib.inorder.count a + (segFoot rs).count a + (if pl = a then 1 else 0) ≤ 1 := by
    intro a
    have := key a
    simp only [segFoot, Frame.addr, Frame.sib, List.count_cons, List.count_append, beq_iff_eq]
      at this
    omega
  have hsibpl : ∀ a ∈ sib.inorder, a ≠ pl :=
    disj_named (x := pl) (fun y => by have := key1 y; omega)
  have hsibfoot : ∀ a ∈ sib.inorder, a ∈ segFoot (.L pl c sib :: rs) := by
    intro a ha
    simp only [segFoot, Frame.sib, Frame.addr, List.mem_cons, List.mem_append]
    tauto
  cases rs with
  | nil =>
    simp only [segTop, if_true, segParent] at hK hpl hagree hc
    have hKc : K = c.bit := by rw [hc] at hK; simp only at hK; omega
    refine ⟨h0, h4, hlt, ?_,
      Owns_congr (fun a (ha : a ∈ sib.inorder) =>
        hagree a (hsibfoot a ha) (hsibpl a ha) (hsibpl a ha)) hs, trivial⟩
    simp only [Frame.addr, Frame.cell, segParent, hpl, hc, hKc]
  | cons g rs =>
    simp only [segTop] at hK hpl htop hagree
    have hmem := List.one_le_count_iff.mpr (segTop_mem rs g)
    have hne : pl ≠ segTop g.addr rs := by
      intro e
      have := key1 (segTop g.addr rs)
      rw [if_pos e] at this
      omega
    simp only [hne, if_false] at hpl
    simp only [segParent] at hc
    refine ⟨h0, h4, hlt, ?_,
      Owns_congr (fun a (ha : a ∈ sib.inorder) =>
        hagree a (hsibfoot a ha) (hsibpl a ha) ?_) hs, ?_⟩
    · simp only [Frame.addr, Frame.cell, segParent, hpl, hc]
    · intro e
      have h2 := List.one_le_count_iff.mpr ha
      have := key1 a
      rw [e] at h2 this
      omega
    · refine seg_reparent rs g pl hr (fun a => ?_) hK (htop hne)
        (fun a ha hna => hagree a ?_ ?_ hna)
      · have := key1 a
        omega
      · simp only [segFoot, List.mem_cons, List.mem_append] at ha ⊢
        tauto
      · intro e
        have h2 := List.one_le_count_iff.mpr ha
        have := key1 a
        rw [if_pos e.symm] at this
        omega

theorem segParent_snoc (q : Nat) (rs : List Frame) (g : Frame) :
    segParent q (rs ++ [g]) = segParent g.addr rs := by
  cases rs <;> rfl

theorem segTop_snoc (h : Nat) (rs : List Frame) (g : Frame) : segTop h (rs ++ [g]) = g.addr := by
  induction rs generalizing h with
  | nil => rfl
  | cons f rs ih => simp [segTop, ih]

theorem OwnsSeg_snoc (m : Nat → rb_node) (q h : Nat) (rs : List Frame) (g : Frame) :
    OwnsSeg m q h (rs ++ [g]) ↔
      (OwnsSeg m g.addr h rs ∧ g.addr ≠ 0 ∧ g.addr % 4 = 0 ∧ g.addr < UINTPTR_MOD ∧
        m g.addr = g.cell q (segTop h rs) ∧ Owns m g.addr g.sib) := by
  induction rs generalizing h with
  | nil => simp [OwnsSeg, segTop, segParent]
  | cons f rs ih =>
    simp only [List.cons_append, OwnsSeg, List.append_eq, ih, segParent_snoc, segTop]
    tauto

theorem segTop_ne_zero {m : Nat → rb_node} {q h : Nat} {rs : List Frame}
    (ho : OwnsSeg m q h rs) (h0 : h ≠ 0) : segTop h rs ≠ 0 := by
  induction rs generalizing h with
  | nil => exact h0
  | cons f rs ih => exact ih ho.2.2.2.2.2 ho.1

theorem erase_leftmost_spec (st : rb_state) (s : Nat) (hs0 : s ≠ 0)
    (hsl : (st.mem s).rb_left = 0) (rs : List Frame) :
    ∀ (q fuel : Nat), rs ≠ [] → (∀ f ∈ rs, f.isLeft = true) → OwnsSeg st.mem q s rs →
      rs.length ≤ fuel →
      (st.mem (segTop s rs)).rb_left ≠ 0 ∧
        __rb_erase_leftmost fuel st (segTop s rs) = .ok (segParent 0 rs, s) := by
  induction rs using List.reverseRecOn with
  | nil => intro q fuel h; exact absurd rfl h
  | append_singleton init g ih =>
    intro q fuel _ hleft ho hfuel
    rw [OwnsSeg_snoc] at ho
    obtain ⟨hinit, hg0, -, -, hmg, -⟩ := ho
    have hgl : g.isLeft = true := hleft g (by simp)
    obtain ⟨fuel, rfl⟩ : ∃ k, fuel = k + 1 := ⟨fuel - 1, by simp at hfuel; omega⟩
    have hnext : (st.mem g.addr).rb_left = segTop s init := by
      cases g with
      | L a c sib => rw [hmg]; rfl
      | R a c sib => simp [Frame.isLeft] at hgl
    have hn0 := segTop_ne_zero hinit hs0
    rw [segTop_snoc]
    refine ⟨by rw [hnext]; exact hn0, ?_⟩
    simp only [__rb_erase_leftmost, get_left_ok _ hg0, hnext, get_left_ok _ hn0]
    cases init with
    | nil => simp [segTop, hsl, segParent]
    | cons f init =>
      obtain ⟨h1, h2⟩ := ih g.addr fuel (by simp) (fun x hx => hleft x (List.mem_append_left _ hx)) hinit
        (by simp at hfuel ⊢; omega)
      simp only [ne_eq, h1, not_false_eq_true, if_true, h2]
      rfl

/-! ## Removal of a node with two children -/

theorem Color.bit_ite (c : Color) : (if c.bit ≠ 0 then 1 else 0) = c.bit := by
  cases c <;> simp [Color.bit]

theorem uintptr_add_bit {a b : Nat} (h4 : a % 4 = 0) (hlt : a < UINTPTR_MOD) (hb : b ≤ 1) :
    (b + a) % UINTPTR_MOD = a + b := by
  unfold UINTPTR_MOD at *; omega

theorem Owns_reparent {m m1 : Nat → rb_node} {q q1 : Nat} {t : Tree}
    (ho : Owns m q t) (hnd : t.inorder.Nodup)
    (hroot : t.ptr ≠ 0 → m1 t.ptr = ⟨q1 + t.color.bit, (m t.ptr).rb_left, (m t.ptr).rb_right⟩)
    (hrest : ∀ a ∈ t.inorder, a ≠ t.ptr → m1 a = m a) : Owns m1 q1 t := by
  have := Owns_setColor_of t.color ho hnd hroot hrest
  rwa [Tree.setColor_color] at this

set_option maxRecDepth 4000 in
theorem erase_two_near (fuel : Nat) (st : rb_state) (fs : List Frame) (n s : Nat)
    (nc sc : Color) (L sr : Tree) (hL : L.ptr ≠ 0)
    (hrep : Represents st (plug fs (.node n nc L (.node s sc .nil sr)))) :
    ∃ S, __rb_erase fuel st n = .ok (S, if sr.ptr = 0 ∧ sc = .black then s else 0) ∧
      Represents S (plug fs (.node s nc L sr.setBlack)) ∧ S.mem n = st.mem n := by
  rw [represents_plug] at hrep
  obtain ⟨hpath, hown, hnd⟩ := hrep
  simp only [Owns, Tree.ptr_node, Tree.ptr_nil] at hpath hown
  obtain ⟨hn0, hn4, hnlt, hmn, hol, hs0, hs4, hslt, hms, -, hosr⟩ := hown
  have key := fun a => List.nodup_iff_count_le_one.mp hnd a
  simp only [Tree.inorder_node, Tree.inorder_nil, List.count_append, List.count_cons,
    List.count_nil, beq_iff_eq] at key
  obtain ⟨hgp4, hgplt⟩ := OwnsPath_parent hpath
  obtain ⟨hL4, hLlt, hmL⟩ := Owns_root hol hL
  have hcb := nc.bit_le
  have hsb := sc.bit_le
  have hLb := L.color.bit_le
  have hLmem := Tree.ptr_mem hL
  have hns : n ≠ s := ne_named (fun a => by have := key a; omega)
  have hnL : n ≠ L.ptr := fun h =>
    disj_named (x := n) (fun a => by have := key a; omega) _ hLmem h.symm
  have hsL : s ≠ L.ptr := fun h =>
    disj_named (x := s) (fun a => by have := key a; omega) _ hLmem h.symm
  have hnsr : n ≠ sr.ptr := ne_ptr_of_notin hn0 fun h =>
    disj_named (x := n) (fun a => by have := key a; omega) _ h rfl
  have hssr : s ≠ sr.ptr := ne_ptr_of_notin hs0 fun h =>
    disj_named (x := s) (fun a => by have := key a; omega) _ h rfl
  have hLsr : L.ptr ≠ sr.ptr := ne_ptr_of_notin hL fun h =>
    disj_region (fun a => by have := key a; omega) _ hLmem h
  simp only [__rb_erase, get_left_ok _ hn0, get_right_ok _ hn0, rb_parent, get_pc_ok _ hn0,
    hmn, ok_bind, pure_eq_ok, rb_parent_mask _ _ hgp4 hgplt hcb, hL, if_false, hs0,
    get_left_ok _ hs0, get_right_ok _ hs0, hms, if_true, set_left_ok _ _ hs0,
    rb_set_parent, rb_color, get_pc_ok _ hL, mem_wr_left, mem_wr_pc, hsL, hsL.symm, hmL,
    rb_color_mask _ _ hn4 hLb, decide_eq_true_eq, Color.bit_ite, uintptr_add_bit hs4 hslt hLb,
    set_pc_ok _ _ hL, load, hns, hns.symm, hnL, hnL.symm, set_pc_ok _ _ hs0]
  generalize hS : rb_state.wr_pc _ s (pathParent fs + nc.bit) = S6
  have hS6root : S6.root = st.root := by
    subst hS
    simp only [root_wr_pc, root_wr_left]
  have hW : ∀ a, a ≠ s → a ≠ L.ptr → S6.mem a = st.mem a := by
    intro a h1 h2
    subst hS
    simp only [mem_wr_pc, mem_wr_left, h1, h2, if_false]
  have hLpath : L.ptr ∉ pathBefore fs ++ pathAfter fs :=
    disj_region (fun a => by have := key a; simp only [List.count_append]; omega) _ hLmem
  have hspath : s ∉ pathBefore fs ++ pathAfter fs := fun h =>
    disj_named (x := s) (fun a => by have := key a; simp only [List.count_append]; omega) _ h rfl
  have hnpath : n ∉ pathBefore fs ++ pathAfter fs := fun h =>
    disj_named (x := n) (fun a => by have := key a; simp only [List.count_append]; omega) _ h rfl
  obtain ⟨s7, hs7, hpath7, hmem7⟩ := change_child_path (s := S6) s hpath hS6root
    (fun a ha => hW a (fun h => hspath (h ▸ ha)) (fun h => hLpath (h ▸ ha))) hn0 hnpath
    (nodup_of_count (fun a => by have := key a; simp only [List.count_append]; omega))
  rw [hs7]
  have hs1 := uintptr_add_black hs4 hslt
  have hblk : (__rb_is_black (n + sc.bit) ≠ 0) ↔ sc = .black := by
    rw [__rb_is_black, rb_color_mask _ _ hn4 hsb, Color.bit_ne_zero]
  refine ⟨if sr.ptr = 0 then s7 else s7.wr_pc sr.ptr (s + 1), ?_, ?_, ?_⟩
  · by_cases hsr : sr.ptr = 0
    · simp only [ok_bind, hsr, ne_eq, not_true_eq_false, if_false, if_true, true_and, hblk]
    · simp only [ok_bind, hsr, ne_eq, not_false_eq_true, if_true, if_false, false_and,
        rb_set_parent_color, set_pc_ok _ _ hsr, hs1]
  · have hsrpath : ∀ a ∈ sr.inorder, a ∉ pathBefore fs ++ pathAfter fs :=
      disj_region (fun a => by have := key a; simp only [List.count_append]; omega)
    have hLin : ∀ a ∈ L.inorder, a ∉ pathBefore fs ++ pathAfter fs :=
      disj_region (fun a => by have := key a; simp only [List.count_append]; omega)
    rw [represents_plug]
    refine ⟨?_, ?_, ?_⟩
    · refine OwnsPath_congr (s := s7) ?_ (fun a ha => ?_) hpath7
      · simp only [root_ite, root_wr_pc, ite_self]
      · exact mem_reparent_ne s7 sr _ (fun h => hsrpath a h ha)
    · simp only [Owns, Tree.setBlack_ptr]
      refine ⟨hs0, hs4, hslt, ?_, ?_, ?_⟩
      · rw [mem_reparent_ne_ptr _ _ _ hssr, hmem7 s hspath]
        subst hS
        simp only [mem_wr_pc, mem_wr_left, if_true, hsL, hsL.symm, if_false, hms]
      · refine Owns_reparent hol (nodup_of_count (fun a => by have := key a; omega))
          (fun _ => ?_) (fun a ha hne => ?_)
        · rw [mem_reparent_ne_ptr _ _ _ hLsr, hmem7 _ hLpath]
          subst hS
          simp only [mem_wr_pc, mem_wr_left, if_true, hsL, hsL.symm, if_false]
        · have h1 : a ≠ s := disj_named (x := s) (fun a => by have := key a; omega) a ha
          have h2 : a ∉ sr.inorder := disj_region (fun a => by have := key a; omega) a ha
          rw [mem_reparent_ne _ _ _ h2, hmem7 a (hLin a ha), hW a h1 hne]
      · refine Owns_setBlack_of hosr (nodup_of_count (fun a => by have := key a; omega))
          (fun h => ?_) (fun a ha hne => ?_)
        · simp only [h, if_false, mem_wr_pc, if_true, hmem7 _ (hsrpath _ (Tree.ptr_mem h)),
            hW _ hssr.symm hLsr.symm]
        · have h1 : a ≠ s := disj_named (x := s) (fun a => by have := key a; omega) a ha
          have h2 : a ≠ L.ptr := fun h =>
            disj_region (fun a => by have := key a; omega) _ hLmem (h ▸ ha)
          rw [mem_reparent_ne_ptr _ _ _ hne, hmem7 a (hsrpath a ha), hW a h1 h2]
    · simp only [Tree.inorder_node, Tree.setBlack_inorder]
      exact nodup_of_count (fun a => by
        have := key a
        simp only [List.count_append, List.count_cons, beq_iff_eq]
        omega)
  · rw [mem_reparent_ne_ptr _ _ _ hnsr, hmem7 n hnpath, hW n hns hnL, hmn]

theorem named_sep {X : List Nat} {a x : Nat} (ha : a ∈ X)
    (h : X.count a + (if x = a then 1 else 0) ≤ 1) : a ≠ x := by
  intro e
  have h2 := List.one_le_count_iff.mpr ha
  rw [if_pos e.symm] at h
  omega

theorem list_sep {X Y : List Nat} {a : Nat} (ha : a ∈ X) (h : X.count a + Y.count a ≤ 1) :
    a ∉ Y := by
  intro hy
  have h2 := List.one_le_count_iff.mpr ha
  have h3 := List.one_le_count_iff.mpr hy
  omega

set_option maxRecDepth 4000 in
theorem erase_two_far (fuel : Nat) (st : rb_state) (fs : List Frame) (n s pl : Nat)
    (nc sc pc : Color) (L sr psib : Tree) (rs : List Frame) (hL : L.ptr ≠ 0)
    (hleft : ∀ f ∈ rs, f.isLeft = true) (hfuel : rs.length + 1 ≤ fuel)
    (hrep : Represents st
      (plug fs (.node n nc L (plug (.L pl pc psib :: rs) (.node s sc .nil sr))))) :
    ∃ S, __rb_erase fuel st n = .ok (S, if sr.ptr = 0 ∧ sc = .black then pl else 0) ∧
      Represents S (plug fs (.node s nc L (plug (.L pl pc psib :: rs) sr.setBlack))) ∧
      S.mem n = st.mem n := by
  rw [represents_plug] at hrep
  obtain ⟨hpath, hown, hnd⟩ := hrep
  simp only [Owns, Tree.ptr_node, Tree.ptr_nil] at hpath hown
  obtain ⟨hn0, hn4, hnlt, hmn, hol, hoR⟩ := hown
  have hoR2 := (owns_plug_seg _ _ _ _).mp hoR
  simp only [segParent, Frame.addr, Owns, Tree.ptr_node, Tree.ptr_nil] at hoR2
  obtain ⟨hseg, hs0, hs4, hslt, hms, -, hosr⟩ := hoR2
  have hseg2 := hseg
  obtain ⟨hpl0, hpl4, hpllt, hmpl, hopsib, hseg'⟩ := hseg2
  simp only [Frame.addr, Frame.cell, Frame.sib] at hpl0 hpl4 hpllt hmpl hopsib hseg'
  have key : ∀ a, (pathBefore fs).count a + (pathAfter fs).count a + L.inorder.count a +
      (segFoot (.L pl pc psib :: rs)).count a + sr.inorder.count a +
      (if s = a then 1 else 0) + (if n = a then 1 else 0) ≤ 1 := by
    intro a
    have := List.nodup_iff_count_le_one.mp hnd a
    simp only [Tree.inorder_node, Tree.inorder_nil, List.count_append, List.count_cons,
      List.count_nil, beq_iff_eq, count_plug] at this
    omega
  obtain ⟨child, hchild⟩ : ∃ child, child = segTop pl rs := ⟨_, rfl⟩
  have hRptr : (plug (.L pl pc psib :: rs) (.node s sc .nil sr)).ptr = child := by
    rw [segTop_ptr, hchild]; rfl
  have hRptr2 : (plug (.L pl pc psib :: rs) sr.setBlack).ptr = child := by
    rw [segTop_ptr, hchild]; rfl
  have hchmem : child ∈ segFoot (.L pl pc psib :: rs) := by
    rw [hchild]; exact segTop_mem rs (.L pl pc psib)
  have hplmem : pl ∈ segFoot (.L pl pc psib :: rs) := by simp [segFoot, Frame.addr]
  have hch0 : child ≠ 0 := by
    rw [hchild]; exact segTop_ne_zero hseg' hpl0
  rw [hRptr] at hmn
  obtain ⟨-, -, hmch⟩ := Owns_root hoR (by rw [hRptr]; exact hch0)
  rw [hRptr] at hmch
  generalize hK : (plug (Frame.L pl pc psib :: rs) (Tree.node s sc Tree.nil sr)).color.bit = K
    at hmch
  have hKb : K ≤ 1 := by rw [← hK]; exact Color.bit_le _
  obtain ⟨hsl, hloop⟩ := erase_leftmost_spec st s hs0 (by rw [hms]) (.L pl pc psib :: rs)
    n fuel (by simp) (by simpa [Frame.isLeft] using hleft) hseg (by simpa using hfuel)
  simp only [segTop, Frame.addr, segParent, ← hchild] at hsl hloop
  obtain ⟨hgp4, hgplt⟩ := OwnsPath_parent hpath
  obtain ⟨hL4, hLlt, hmL⟩ := Owns_root hol hL
  have hcb := nc.bit_le
  have hsb := sc.bit_le
  have hLb := L.color.bit_le
  have hLmem := Tree.ptr_mem hL
  have hns : n ≠ s := ne_named (fun a => by have := key a; omega)
  have hnL : n ≠ L.ptr := fun h =>
    disj_named (x := n) (fun a => by have := key a; omega) _ hLmem h.symm
  have hsL : s ≠ L.ptr := fun h =>
    disj_named (x := s) (fun a => by have := key a; omega) _ hLmem h.symm
  have hnsr : n ≠ sr.ptr := ne_ptr_of_notin hn0 fun h =>
    disj_named (x := n) (fun a => by have := key a; omega) _ h rfl
  have hssr : s ≠ sr.ptr := ne_ptr_of_notin hs0 fun h =>
    disj_named (x := s) (fun a => by have := key a; omega) _ h rfl
  have hLsr : L.ptr ≠ sr.ptr := ne_ptr_of_notin hL fun h =>
    disj_region (fun a => by have := key a; omega) _ hLmem h
  have hfoot : ∀ a ∈ segFoot (.L pl pc psib :: rs), a ≠ n ∧ a ≠ s ∧ a ∉ L.inorder ∧
      a ∉ sr.inorder ∧ a ∉ pathBefore fs ++ pathAfter fs := fun a ha =>
    ⟨named_sep ha (by have := key a; omega), named_sep ha (by have := key a; omega),
      list_sep ha (by have := key a; omega), list_sep ha (by have := key a; omega),
      list_sep ha (by have := key a; simp only [List.count_append]; omega)⟩
  obtain ⟨hchn, hchs, hchL, hchsr, hchpath⟩ := hfoot child hchmem
  obtain ⟨hpln, hpls, hplL, hplsr, hplpath⟩ := hfoot pl hplmem
  have hchLp : child ≠ L.ptr := fun h => hchL (h ▸ hLmem)
  have hplLp : pl ≠ L.ptr := fun h => hplL (h ▸ hLmem)
  have hchsrp : child ≠ sr.ptr := ne_ptr_of_notin hch0 hchsr
  have hplsrp : pl ≠ sr.ptr := ne_ptr_of_notin hpl0 hplsr
  have hKs : ((if K ≠ 0 then 1 else 0) + s) % UINTPTR_MOD = s + K := by
    have : (if K ≠ 0 then 1 else 0) = K := by split <;> omega
    rw [this, uintptr_add_bit hs4 hslt hKb]
  simp only [__rb_erase, get_left_ok _ hn0, get_right_ok _ hn0, rb_parent, get_pc_ok _ hn0,
    hmn, ok_bind, pure_eq_ok, rb_parent_mask _ _ hgp4 hgplt hcb, hL, if_false, hch0, hKs,
    get_left_ok _ hch0, hsl, hloop, get_right_ok _ hs0, hms, set_left_ok _ _ hpl0,
    set_right_ok _ _ hs0, rb_set_parent, rb_color, get_pc_ok _ hch0, pc_wr_left, pc_wr_right,
    pc_wr_pc, hmch, rb_color_mask _ _ hn4 hKb, decide_eq_true_eq,
    set_pc_ok _ _ hch0, set_left_ok _ _ hs0, get_pc_ok _ hL, hchLp.symm, hmL,
    rb_color_mask _ _ hn4 hLb, Color.bit_ite, uintptr_add_bit hs4 hslt hLb,
    set_pc_ok _ _ hL, load, hs0, hsL, hchs.symm, hns, hns.symm, hnL, hchn.symm,
    set_pc_ok _ _ hs0]
  generalize hS : rb_state.wr_pc _ s (pathParent fs + nc.bit) = S6
  have hS6root : S6.root = st.root := by
    subst hS
    simp only [root_wr_pc, root_wr_left, root_wr_right]
  have hW : ∀ a, a ≠ s → a ≠ L.ptr → a ≠ pl → a ≠ child → S6.mem a = st.mem a := by
    intro a h1 h2 h3 h4
    subst hS
    simp only [mem_wr_pc, mem_wr_left, mem_wr_right, h1, h2, h3, h4, if_false]
  have hS6s : S6.mem s = ⟨pathParent fs + nc.bit, L.ptr, child⟩ := by
    subst hS
    simp only [mem_wr_pc, mem_wr_left, mem_wr_right, if_true, hsL, hchs.symm, hpls.symm,
      if_false]
  have hS6L : S6.mem L.ptr =
      ⟨s + L.color.bit, (st.mem L.ptr).rb_left, (st.mem L.ptr).rb_right⟩ := by
    subst hS
    simp only [mem_wr_pc, mem_wr_left, mem_wr_right, if_true, hsL.symm, hchLp.symm,
      hplLp.symm, if_false]
  have hS6pl : S6.mem pl = ⟨if pl = child then s + K else (st.mem pl).__rb_parent_color,
      sr.ptr, (st.mem pl).rb_right⟩ := by
    subst hS
    by_cases hpc : pl = child
    · simp only [mem_wr_pc, mem_wr_left, mem_wr_right, if_true, hpls, hplLp, hpc, hchs,
        hchLp, if_false]
    · simp only [mem_wr_pc, mem_wr_left, mem_wr_right, if_true, hpls, hplLp, hpc, hchs,
        hchLp, if_false]
  have hS6ch : pl ≠ child → S6.mem child =
      ⟨s + K, (st.mem child).rb_left, (st.mem child).rb_right⟩ := by
    intro hpc
    subst hS
    simp only [mem_wr_pc, mem_wr_left, mem_wr_right, if_true, hchs, hchLp, Ne.symm hpc,
      if_false]
  have hLpath : L.ptr ∉ pathBefore fs ++ pathAfter fs :=
    disj_region (fun a => by have := key a; simp only [List.count_append]; omega) _ hLmem
  have hspath : s ∉ pathBefore fs ++ pathAfter fs := fun h =>
    disj_named (x := s) (fun a => by have := key a; simp only [List.count_append]; omega) _ h rfl
  have hnpath : n ∉ pathBefore fs ++ pathAfter fs := fun h =>
    disj_named (x := n) (fun a => by have := key a; simp only [List.count_append]; omega) _ h rfl
  obtain ⟨s7, hs7, hpath7, hmem7⟩ := change_child_path (s := S6) s hpath hS6root
    (fun a ha => hW a (fun h => hspath (h ▸ ha)) (fun h => hLpath (h ▸ ha))
      (fun h => hplpath (h ▸ ha)) (fun h => hchpath (h ▸ ha))) hn0 hnpath
    (nodup_of_count (fun a => by have := key a; simp only [List.count_append]; omega))
  rw [hs7]
  have hpl1 := uintptr_add_black hpl4 hpllt
  have hblk : (__rb_is_black (pl + sc.bit) ≠ 0) ↔ sc = .black := by
    rw [__rb_is_black, rb_color_mask _ _ hpl4 hsb, Color.bit_ne_zero]
  refine ⟨if sr.ptr = 0 then s7 else s7.wr_pc sr.ptr (pl + 1), ?_, ?_, ?_⟩
  · by_cases hsr : sr.ptr = 0
    · simp only [ok_bind, hsr, ne_eq, not_true_eq_false, if_false, if_true, true_and, hblk]
    · simp only [ok_bind, hsr, ne_eq, not_false_eq_true, if_true, if_false, false_and,
        rb_set_parent_color, set_pc_ok _ _ hsr, hpl1]
  · have hsrpath : ∀ a ∈ sr.inorder, a ∉ pathBefore fs ++ pathAfter fs :=
      disj_region (fun a => by have := key a; simp only [List.count_append]; omega)
    have hLin : ∀ a ∈ L.inorder, a ∉ pathBefore fs ++ pathAfter fs :=
      disj_region (fun a => by have := key a; simp only [List.count_append]; omega)
    rw [represents_plug]
    refine ⟨?_, ?_, ?_⟩
    · refine OwnsPath_congr (s := s7) ?_ (fun a ha => ?_) hpath7
      · simp only [root_ite, root_wr_pc, ite_self]
      · exact mem_reparent_ne s7 sr _ (fun h => hsrpath a h ha)
    · simp only [Owns, Tree.ptr_node]
      refine ⟨hs0, hs4, hslt, ?_, ?_, ?_⟩
      · rw [mem_reparent_ne_ptr _ _ _ hssr, hmem7 s hspath, hS6s, hRptr2]
      · refine Owns_reparent hol (nodup_of_count (fun a => by have := key a; omega))
          (fun _ => ?_) (fun a ha hne => ?_)
        · rw [mem_reparent_ne_ptr _ _ _ hLsr, hmem7 _ hLpath, hS6L]
        · have h1 : a ≠ s := disj_named (x := s) (fun a => by have := key a; omega) a ha
          have h2 : a ∉ sr.inorder := disj_region (fun a => by have := key a; omega) a ha
          have h3 : a ≠ pl := fun h => hplL (h ▸ ha)
          have h4 : a ≠ child := fun h => hchL (h ▸ ha)
          rw [mem_reparent_ne _ _ _ h2, hmem7 a (hLin a ha), hW a h1 hne h3 h4]
      · rw [owns_plug_seg]
        refine ⟨?_, ?_⟩
        · simp only [Tree.setBlack_ptr]
          refine seg_retarget rs pl pc psib s sr.ptr hseg (fun a => by have := key a; omega)
            (by rw [← hchild]; exact hmch) ?_ ?_ ?_
          · rw [mem_reparent_ne_ptr _ _ _ hplsrp, hmem7 _ hplpath, hS6pl, ← hchild]
          · intro hpc
            rw [← hchild] at hpc ⊢
            rw [mem_reparent_ne_ptr _ _ _ hchsrp, hmem7 _ hchpath, hS6ch hpc]
          · intro a ha h1 h2
            rw [← hchild] at h2
            obtain ⟨g1, g2, g3, g4, g5⟩ := hfoot a ha
            rw [mem_reparent_ne _ _ _ g4, hmem7 a g5,
              hW a g2 (fun h => g3 (h ▸ hLmem)) h1 h2]
        · simp only [segParent, Frame.addr]
          refine Owns_setBlack_of hosr (nodup_of_count (fun a => by have := key a; omega))
            (fun h => ?_) (fun a ha hne => ?_)
          · simp only [h, if_false, mem_wr_pc, if_true, hmem7 _ (hsrpath _ (Tree.ptr_mem h)),
              hW _ hssr.symm hLsr.symm hplsrp.symm hchsrp.symm]
          · have h1 : a ≠ s := disj_named (x := s) (fun a => by have := key a; omega) a ha
            have h2 : a ≠ L.ptr := fun h =>
              disj_region (fun a => by have := key a; omega) _ hLmem (h ▸ ha)
            have h3 : a ≠ pl := fun h => hplsr (h ▸ ha)
            have h4 : a ≠ child := fun h => hchsr (h ▸ ha)
            rw [mem_reparent_ne_ptr _ _ _ hne, hmem7 a (hsrpath a ha), hW a h1 h2 h3 h4]
    · simp only [Tree.inorder_node, Tree.setBlack_inorder]
      exact nodup_of_count (fun a => by
        have := key a
        simp only [List.count_append, List.count_cons, beq_iff_eq, count_plug,
          Tree.setBlack_inorder]
        omega)
  · rw [mem_reparent_ne_ptr _ _ _ hnsr, hmem7 n hnpath, hW n hns hnL hpln.symm hchn.symm]
    exact hmn

theorem erase_two_children (fuel : Nat) (st : rb_state) (fs : List Frame) (n s : Nat)
    (nc sc : Color) (L sr : Tree) (rs : List Frame) (hL : L.ptr ≠ 0)
    (hleft : ∀ f ∈ rs, f.isLeft = true) (hfuel : rs.length ≤ fuel)
    (hrep : Represents st (plug fs (.node n nc L (plug rs (.node s sc .nil sr))))) :
    ∃ S, __rb_erase fuel st n =
        .ok (S, if sr.ptr = 0 ∧ sc = .black then segParent s rs else 0) ∧
      Represents S (plug fs (.node s nc L (plug rs sr.setBlack))) ∧ S.mem n = st.mem n := by
  cases rs with
  | nil => exact erase_two_near fuel st fs n s nc sc L sr hL hrep
  | cons f rs =>
    cases f with
    | L pl pc psib =>
      exact erase_two_far fuel st fs n s pl nc sc pc L sr psib rs hL
        (fun g hg => hleft g (List.mem_cons_of_mem _ hg)) (by simpa using hfuel) hrep
    | R pl pc psib => simpa [Frame.isLeft] using hleft (.R pl pc psib) (by simp)

theorem exists_leftmost (R : Tree) (hR : R ≠ .nil) :
    ∃ rs s sc sr, (∀ f ∈ rs, f.isLeft = true) ∧ R = plug rs (.node s sc .nil sr) ∧
      rs.length + 1 ≤ R.height := by
  induction R with
  | nil => exact absurd rfl hR
  | node a c l r ihl _ =>
    cases hl : l with
    | nil => exact ⟨[], a, c, r, by simp, rfl, by simp [Tree.height]⟩
    | node la lc ll lr =>
      obtain ⟨rs, s, sc, sr, h1, h2, h3⟩ := ihl (by rw [hl]; simp)
      rw [hl] at h2 h3
      refine ⟨rs ++ [.L a c r], s, sc, sr, ?_, ?_, ?_⟩
      · intro f hf
        simp only [List.mem_append, List.mem_singleton] at hf
        rcases hf with hf | rfl
        · exact h1 f hf
        · rfl
      · rw [plug_append, ← h2]; rfl
      · simp only [List.length_append, List.length_singleton, Tree.height] at h3 ⊢
        omega

theorem pathParent_ne_zero {s : rb_state} {h : Nat} {fs : List Frame} (ho : OwnsPath s h fs) :
    pathParent fs ≠ 0 ↔ fs ≠ [] := by
  cases fs with
  | nil => simp [pathParent]
  | cons f fs => cases f <;> simp only [OwnsPath] at ho <;> simp [pathParent, Frame.addr, ho.1]

theorem Tree.ptr_eq_zero_iff {m : Nat → rb_node} {q : Nat} {t : Tree} (ho : Owns m q t) :
    t.ptr = 0 ↔ t = .nil := by
  cases t with
  | nil => simp
  | node a c l r => simp only [Owns] at ho; simp [ho.1]

/-- C14: when `n` has two children, `__rb_erase` (with fuel for the walk down
the right subtree) puts the leftmost node `s` of the right subtree of `n` into
the slot that held `n`, with the parent and the colour `n` had and with the
left child `n` had; the former right subtree of `s` is black at its root and
sits where `s` used to be, and nothing else in the tree moves. -/
theorem rb_erase_two_children (fuel : Nat) (st : rb_state) (fs : List Frame) (n : Nat)
    (nc : Color) (L R : Tree) (hL : L ≠ .nil) (hR : R ≠ .nil) (hfuel : R.height ≤ fuel)
    (hrep : Represents st (plug fs (.node n nc L R))) :
    ∃ rs s sc sr S reb, (∀ f ∈ rs, f.isLeft = true) ∧ R = plug rs (.node s sc .nil sr) ∧
      __rb_erase fuel st n = .ok (S, reb) ∧
      Represents S (plug fs (.node s nc L (plug rs sr.setBlack))) ∧
      (pathLink fs).read S = .ok s ∧
      rb_parent S s = rb_parent st n ∧ rb_color S s = rb_color st n ∧
      get_left S s = get_left st n ∧
      (sr ≠ .nil → rb_is_black S sr.ptr = .ok true ∧
        (if rs = [] then get_right S s else get_left S (pathParent rs)) = .ok sr.ptr) := by
  have hown := ((represents_plug st fs _).mp hrep).2.1
  simp only [Owns] at hown
  obtain ⟨hn0, hn4, hnlt, hmn, hol, hor⟩ := hown
  have hLp : L.ptr ≠ 0 := fun h => hL ((Tree.ptr_eq_zero_iff hol).mp h)
  have hRp : R.ptr ≠ 0 := fun h => hR ((Tree.ptr_eq_zero_iff hor).mp h)
  obtain ⟨rs, s, sc, sr, hleft, rfl, hlen⟩ := exists_leftmost R hR
  obtain ⟨S, hS, hrepS, hSn⟩ := erase_two_children fuel st fs n s nc sc L sr rs hLp hleft
    (by omega) hrep
  have hpathS := ((represents_plug S fs _).mp hrepS).1
  have hownS := ((represents_plug S fs _).mp hrepS).2.1
  simp only [Owns] at hownS
  obtain ⟨hs0, hs4, hslt, hmS, -, horS⟩ := hownS
  rw [owns_plug_seg] at horS
  obtain ⟨hsegS, hsrS⟩ := horS
  refine ⟨rs, s, sc, sr, S, _, hleft, rfl, hS, hrepS, read_pathLink hpathS, ?_, ?_, ?_, ?_⟩
  · simp [rb_parent, hs0, hn0, hmS, hmn]
  · simp [rb_color, hs0, hn0, hmS, hmn]
  · simp [hs0, hn0, hmS, hmn]
  · intro hsr
    have hsr0 : sr.ptr ≠ 0 := by
      cases sr with
      | nil => exact absurd rfl hsr
      | node a c l r => simp only [Owns, Tree.setBlack] at hsrS; exact hsrS.1
    obtain ⟨h4, -, hpc⟩ := Owns_root hsrS (by simpa using hsr0)
    have hq4 : segParent s rs % 4 = 0 := by
      cases rs with
      | nil => exact hs4
      | cons f rs => exact hsegS.2.1
    constructor
    · have hcol : (sr.setBlack).color.bit = 1 := by
        cases sr with
        | nil => simp at hsr
        | node a c l r => rfl
      simp only [Tree.setBlack_ptr] at hpc
      simp [rb_is_black, __rb_is_black, hsr0, hpc, hcol, rb_color_mask _ _ hq4]
    · cases rs with
      | nil =>
        simp only [plug, Tree.setBlack_ptr] at hmS
        simp [hs0, hmS]
      | cons f rs =>
        obtain ⟨hf0, -, -, hmf, -, -⟩ := hsegS
        have hfl : f.isLeft = true := hleft f (by simp)
        cases f with
        | L a c sib =>
          simp only [Frame.addr, Frame.cell, Tree.setBlack_ptr] at hf0 hmf
          simp [pathParent, Frame.addr, hf0, hmf]
        | R a c sib => simp [Frame.isLeft] at hfl

/-- Instance of C14: erasing the root `160` of `ex_state_three`, whose
successor is its right child `240`. -/
theorem rb_erase_two_children_witness :
    ((Tree.node 80 .red .nil .nil ≠ .nil) ∧ (Tree.node 240 .red .nil .nil ≠ .nil) ∧
      (Tree.node 240 .red .nil .nil).height ≤ 1 ∧
      Represents ex_state_three
        (plug [] (.node 160 .black (.node 80 .red .nil .nil) (.node 240 .red .nil .nil)))) ∧
    ∃ rs s sc sr S reb, (∀ f ∈ rs, f.isLeft = true) ∧
      Tree.node 240 .red .nil .nil = plug rs (.node s sc .nil sr) ∧
      __rb_erase 1 ex_state_three 160 = .ok (S, reb) ∧
      Represents S (plug [] (.node s .black (.node 80 .red .nil .nil) (plug rs sr.setBlack))) ∧
      (pathLink []).read S = .ok s ∧
      rb_parent S s = rb_parent ex_state_three 160 ∧
      rb_color S s = rb_color ex_state_three 160 ∧
      get_left S s = get_left ex_state_three 160 ∧
      (sr ≠ .nil → rb_is_black S sr.ptr = .ok true ∧
        (if rs = [] then get_right S s else get_left S (pathParent rs)) = .ok sr.ptr) :=
  ⟨⟨by decide, by decide, by decide, by decide⟩,
    rb_erase_two_children 1 ex_state_three [] 160 .black _ _ (by decide) (by decide)
      (by decide) (by decide)⟩

/-- C19: `__rb_erase` returns a node to rebalance at exactly when the node it
structurally removed (`n` itself when `n` has fewer than two children,
otherwise the leftmost node of the right subtree of `n`) was black, had no
child to take its place and was not the root; that node is then the parent of
the vacated position.  Here `P` is the path of the vacated position in the
tree after the removal, `X` the subtree now at that position and `rc` the
colour of the removed node. -/
theorem rb_erase_rebalance_request (fuel : Nat) (st : rb_state) (fs : List Frame) (n : Nat)
    (nc : Color) (L R : Tree) (hfuel : R.height ≤ fuel)
    (hrep : Represents st (plug fs (.node n nc L R))) :
    ∃ S reb P X rc, __rb_erase fuel st n = .ok (S, reb) ∧ Represents S (plug P X) ∧
      (L = .nil → P = fs ∧ X = R.setColor nc ∧ rc = nc) ∧
      (L ≠ .nil → R = .nil → P = fs ∧ X = L.setColor nc ∧ rc = nc) ∧
      (L ≠ .nil → R ≠ .nil → ∃ rs s sc sr, (∀ f ∈ rs, f.isLeft = true) ∧
        R = plug rs (.node s sc .nil sr) ∧ P = rs ++ .R s nc L :: fs ∧ X = sr.setBlack ∧
        rc = sc) ∧
      (reb ≠ 0 ↔ rc = .black ∧ X = .nil ∧ P ≠ []) ∧
      (reb ≠ 0 → reb = pathParent P) := by
  have hpath := ((represents_plug st fs _).mp hrep).1
  have hown := ((represents_plug st fs _).mp hrep).2.1
  simp only [Owns] at hown
  obtain ⟨hn0, hn4, hnlt, hmn, hol, hor⟩ := hown
  have hpp := pathParent_ne_zero hpath
  by_cases hL : L = .nil
  · subst hL
    obtain ⟨s1, -, herase, hrep1, -⟩ := erase_no_left fuel st fs n nc R hrep
    have hRn : R.ptr = 0 ↔ R.setColor nc = .nil := by
      rw [Tree.ptr_eq_zero_iff hor]
      cases R <;> simp
    refine ⟨_, _, fs, R.setColor nc, nc, herase, hrep1, fun _ => ⟨rfl, rfl, rfl⟩,
      fun h => absurd rfl h, fun h => absurd rfl h, ?_, ?_⟩
    · rw [← hRn, ← hpp]
      by_cases h1 : R.ptr = 0 <;> by_cases h2 : nc = .black <;> simp [h1, h2]
    · intro h
      by_cases h1 : R.ptr = 0 ∧ nc = .black
      · simp [h1]
      · simp [h1] at h
  · have hLp : L.ptr ≠ 0 := fun h => hL ((Tree.ptr_eq_zero_iff hol).mp h)
    by_cases hR : R = .nil
    · subst hR
      obtain ⟨s1, -, herase, hrep1, -⟩ := erase_one_left fuel st fs n nc L hLp hrep
      refine ⟨_, _, fs, L.setColor nc, nc, herase, hrep1, fun h => absurd h hL,
        fun _ _ => ⟨rfl, rfl, rfl⟩, fun _ h => absurd rfl h, ?_, ?_⟩
      · have : L.setColor nc ≠ .nil := by cases L <;> simp at hL ⊢
        simp [this]
      · simp
    · obtain ⟨rs, s, sc, sr, hleft, rfl, hlen⟩ := exists_leftmost R hR
      obtain ⟨S, hS, hrepS, -⟩ := erase_two_children fuel st fs n s nc sc L sr rs hLp hleft
        (by omega) hrep
      rw [owns_plug_seg] at hor
      obtain ⟨hseg, hos⟩ := hor
      simp only [Owns] at hos
      obtain ⟨hs0, -, -, -, -, hosr⟩ := hos
      have hq0 : segParent s rs ≠ 0 := by
        cases rs with
        | nil => exact hs0
        | cons f rs => exact hseg.1
      have hP : pathParent (rs ++ Frame.R s nc L :: fs) = segParent s rs := by
        cases rs <;> rfl
      have hsrn : sr.ptr = 0 ↔ sr.setBlack = .nil := by
        rw [Tree.ptr_eq_zero_iff hosr]
        cases sr <;> simp [Tree.setBlack]
      refine ⟨S, _, rs ++ .R s nc L :: fs, sr.setBlack, sc, hS, ?_, fun h => absurd h hL,
        fun _ h => absurd h hR, fun _ _ => ⟨rs, s, sc, sr, hleft, rfl, rfl, rfl, rfl⟩, ?_, ?_⟩
      · rw [plug_append]
        exact hrepS
      · rw [← hsrn]
        by_cases h1 : sr.ptr = 0 <;> by_cases h2 : sc = .black <;> simp [h1, h2, hq0]
      · intro h
        rw [hP]
        by_cases h1 : sr.ptr = 0 ∧ sc = .black
        · simp [h1]
        · simp [h1] at h

/-- Instance of C19: erasing the black leaf `240` of `erase_state_four`. -/
theorem rb_erase_rebalance_request_witness :
    (Tree.nil.height ≤ 1 ∧
      Represents erase_state_four
        (plug [.R 160 .black (.node 80 .black (.node 40 .red .nil .nil) .nil)]
          (.node 240 .black .nil .nil))) ∧
    ∃ S reb P X rc, __rb_erase 1 erase_state_four 240 = .ok (S, reb) ∧
      Represents S (plug P X) ∧
      (Tree.nil = .nil →
        P = [.R 160 .black (.node 80 .black (.node 40 .red .nil .nil) .nil)] ∧
        X = Tree.nil.setColor .black ∧ rc = .black) ∧
      (Tree.nil ≠ .nil → Tree.nil = .nil →
        P = [.R 160 .black (.node 80 .black (.node 40 .red .nil .nil) .nil)] ∧
        X = Tree.nil.setColor .black ∧ rc = .black) ∧
      (Tree.nil ≠ .nil → Tree.nil ≠ .nil → ∃ rs s sc sr, (∀ f ∈ rs, f.isLeft = true) ∧
        Tree.nil = plug rs (.node s sc .nil sr) ∧
        P = rs ++ .R s .black .nil ::
          [.R 160 .black (.node 80 .black (.node 40 .red .nil .nil) .nil)] ∧
        X = sr.setBlack ∧ rc = sc) ∧
      (reb ≠ 0 ↔ rc = .black ∧ X = .nil ∧ P ≠ []) ∧
      (reb ≠ 0 → reb = pathParent P) :=
  ⟨⟨by decide, by decide⟩,
    rb_erase_rebalance_request 1 erase_state_four
      [.R 160 .black (.node 80 .black (.node 40 .red .nil .nil) .nil)] 240 .black .nil .nil
      (by decide) (by decide)⟩

/-! ## Mirror symmetry of the removal rebalance -/

/-- C18 fails on the code.  The state `erase_state_short` holds a tree whose
root `160` misses one black node on the right; its mirror image holds the
mirror tree.  `__rb_erase_rebalance` at `160` on the mirror image returns the
valid tree with root `80`, in which `120` is the right child of `160`; on the
original it returns a state whose mirror image has `40` in that slot (and
`40` claims `160` as parent while being the child of `80`), so the two results
are not mirror images of each other. -/
theorem rb_erase_rebalance_mirror_asymmetric :
    Represents erase_state_short erase_tree_short ∧
    Represents erase_state_short.mirror erase_tree_short.mirror ∧
    ((__rb_erase 3 erase_state_five 240).toOption.map fun r =>
      (r.2, decide (Represents r.1 erase_tree_short))) = some (160, true) ∧
    (state_of (__rb_erase_rebalance 3 erase_state_short.mirror 160)).map
      (fun s => decide (Represents s
        (.node 80 .black (.node 160 .black .nil (.node 120 .red .nil .nil))
          (.node 40 .black .nil .nil)))) = some true ∧
    (state_of (__rb_erase_rebalance 3 erase_state_short.mirror 160)).map
      (fun s => ((s.mem 160).rb_right, (s.mem 40).__rb_parent_color)) = some (120, 81) ∧
    (state_of ((__rb_erase_rebalance 3 erase_state_short 160).map rb_state.mirror)).map
      (fun s => ((s.mem 160).rb_right, (s.mem 40).__rb_parent_color)) = some (40, 161) := by
  decide!

/-! ## Removal: what the structural phase leaves -/

theorem erase_struct_cases (fuel : Nat) (st : rb_state) (fs : List Frame) (n : Nat)
    (nc : Color) (L R : Tree) (hfuel : R.height ≤ fuel)
    (hrep : Represents st (plug fs (.node n nc L R))) :
    ∃ S reb, __rb_erase fuel st n = .ok (S, reb) ∧ S.mem n = st.mem n ∧
      ((L = .nil ∧ Represents S (plug fs (R.setColor nc)) ∧
          reb = (if R = .nil ∧ nc = .black then pathParent fs else 0)) ∨
        (L ≠ .nil ∧ R = .nil ∧ Represents S (plug fs (L.setColor nc)) ∧ reb = 0) ∨
        (L ≠ .nil ∧ ∃ rs s sc sr, (∀ f ∈ rs, f.isLeft = true) ∧
          R = plug rs (.node s sc .nil sr) ∧
          Represents S (plug fs (.node s nc L (plug rs sr.setBlack))) ∧
          reb = (if sr = .nil ∧ sc = .black then segParent s rs else 0) ∧
          segParent s rs ≠ 0)) := by
  have hown := ((represents_plug st fs _).mp hrep).2.1
  simp only [Owns] at hown
  obtain ⟨hn0, hn4, hnlt, hmn, hol, hor⟩ := hown
  by_cases hL : L = .nil
  · subst hL
    obtain ⟨s1, -, herase, hrep1, hmem⟩ := erase_no_left fuel st fs n nc R hrep
    refine ⟨_, _, herase, hmem, Or.inl ⟨rfl, hrep1, ?_⟩⟩
    simp only [Tree.ptr_eq_zero_iff hor]
  · have hLp : L.ptr ≠ 0 := fun h => hL ((Tree.ptr_eq_zero_iff hol).mp h)
    by_cases hR : R = .nil
    · subst hR
      obtain ⟨s1, -, herase, hrep1, hmem⟩ := erase_one_left fuel st fs n nc L hLp hrep
      exact ⟨_, _, herase, hmem, Or.inr (Or.inl ⟨hL, rfl, hrep1, rfl⟩)⟩
    · obtain ⟨rs, s, sc, sr, hleft, rfl, hlen⟩ := exists_leftmost R hR
      obtain ⟨S, hS, hrepS, hmem⟩ := erase_two_children fuel st fs n s nc sc L sr rs hLp hleft
        (by omega) hrep
      rw [owns_plug_seg] at hor
      obtain ⟨hseg, hos⟩ := hor
      simp only [Owns] at hos
      obtain ⟨hs0, -, -, -, -, hosr⟩ := hos
      have hq0 : segParent s rs ≠ 0 := by
        cases rs with
        | nil => exact hs0
        | cons f rs => exact hseg.1
      refine ⟨S, _, hS, hmem, Or.inr (Or.inr ⟨hL, rs, s, sc, sr, hleft, rfl, hrepS, ?_, hq0⟩)⟩
      simp only [Tree.ptr_eq_zero_iff hosr]

theorem pathBefore_left {rs : List Frame} (h : ∀ f ∈ rs, f.isLeft = true) : pathBefore rs = [] := by
  induction rs with
  | nil => rfl
  | cons f rs ih =>
    cases f with
    | L a c sib => simpa [pathBefore] using ih (fun g hg => h g (List.mem_cons_of_mem _ hg))
    | R a c sib => simpa [Frame.isLeft] using h (.R a c sib) (by simp)

theorem height_plug_le (fs : List Frame) (t : Tree) : t.height ≤ (plug fs t).height := by
  have := height_plug fs t
  omega

theorem erase_struct_inorder (fuel : Nat) (st : rb_state) (t : Tree) (n : Nat)
    (hrep : Represents st t) (hmem : n ∈ t.inorder) (hfuel : t.height ≤ fuel) :
    ∃ S reb t1 xs ys, __rb_erase fuel st n = .ok (S, reb) ∧ Represents S t1 ∧
      t.inorder = xs ++ n :: ys ∧ t1.inorder = xs ++ ys := by
  obtain ⟨fs, nc, L, R, rfl⟩ := exists_path_of_mem hmem
  have hh : R.height ≤ fuel := by
    have := height_plug_le fs (.node n nc L R)
    simp only [Tree.height] at this
    omega
  obtain ⟨S, reb, hS, -, h | h | h⟩ := erase_struct_cases fuel st fs n nc L R hh hrep
  · obtain ⟨rfl, h1, -⟩ := h
    exact ⟨S, reb, _, pathBefore fs, R.inorder ++ pathAfter fs, hS, h1,
      by simp [inorder_plug], by simp [inorder_plug]⟩
  · obtain ⟨-, rfl, h1, -⟩ := h
    exact ⟨S, reb, _, pathBefore fs ++ L.inorder, pathAfter fs, hS, h1,
      by simp [inorder_plug], by simp [inorder_plug]⟩
  · obtain ⟨-, rs, s, sc, sr, hleft, rfl, h1, -, -⟩ := h
    exact ⟨S, reb, _, pathBefore fs ++ L.inorder, s :: sr.inorder ++ pathAfter rs ++ pathAfter fs,
      hS, h1, by simp [inorder_plug, pathBefore_left hleft],
      by simp [inorder_plug, pathBefore_left hleft]⟩

theorem erase_split {l xs ys : List Nat} {n : Nat} (hnd : l.Nodup) (h : l = xs ++ n :: ys) :
    l.erase n = xs ++ ys := by
  subst h
  have hn : n ∉ xs := by
    intro hx
    have := List.nodup_iff_count_le_one.mp hnd n
    have h2 := List.one_le_count_iff.mpr hx
    simp only [List.count_append, List.count_cons, beq_self_eq_true, if_true] at this
    omega
  rw [List.erase_append_right _ hn, List.erase_cons_head]

/-- C28: for every well-formed tree and member node `n` (whatever its number of
children and wherever its successor), the structural phase `__rb_erase` alone
returns (with fuel for the walk to the successor) and leaves a well-formed
binary tree with consistent parent links whose in-order sequence is the old
one with `n` removed. -/
theorem rb_erase_struct_keeps_order (fuel : Nat) (st : rb_state) (t : Tree) (n : Nat)
    (hrep : Represents st t) (hmem : n ∈ t.inorder) (hfuel : t.height ≤ fuel) :
    ∃ S reb t1, __rb_erase fuel st n = .ok (S, reb) ∧ Represents S t1 ∧
      t1.inorder = t.inorder.erase n ∧
      (∃ xs ys, t.inorder = xs ++ n :: ys ∧ t1.inorder = xs ++ ys) ∧ n ∉ t1.inorder := by
  obtain ⟨S, reb, t1, xs, ys, h1, h2, h3, h4⟩ := erase_struct_inorder fuel st t n hrep hmem hfuel
  have h5 := erase_split hrep.2.2 h3
  refine ⟨S, reb, t1, h1, h2, by rw [h4, h5], ⟨xs, ys, h3, h4⟩, ?_⟩
  rw [h4, ← h5]
  exact fun h => (List.Nodup.mem_erase_iff hrep.2.2).mp h |>.1 rfl

/-- Instance of C28: removing the root `160` of `erase_state_five`, a node with
two children. -/
theorem rb_erase_struct_keeps_order_witness :
    (Represents erase_state_five erase_tree_five ∧ 160 ∈ erase_tree_five.inorder ∧
      erase_tree_five.height ≤ 3) ∧
    ∃ S reb t1, __rb_erase 3 erase_state_five 160 = .ok (S, reb) ∧ Represents S t1 ∧
      t1.inorder = erase_tree_five.inorder.erase 160 ∧
      (∃ xs ys, erase_tree_five.inorder = xs ++ 160 :: ys ∧ t1.inorder = xs ++ ys) ∧
      160 ∉ t1.inorder :=
  ⟨⟨by decide, by decide, by decide⟩,
    rb_erase_struct_keeps_order 3 erase_state_five erase_tree_five 160
      (by decide) (by decide) (by decide)⟩

theorem PathRB_black {fs : List Frame} {c : Color} {k : Nat} (h : PathRB fs c k) :
    PathRB fs .black k := by
  cases fs with
  | nil => rfl
  | cons f fs =>
    obtain ⟨h1, h2, h3, h4, h5⟩ := h
    exact ⟨h1, h2, h3, fun hf => ⟨rfl, (h4 hf).2⟩, h5⟩

theorem PathRB_readdress (rs fs : List Frame) (a b : Nat) (nc : Color) (L : Tree) (c : Color)
    (k : Nat) (h : PathRB (rs ++ Frame.R a nc L :: fs) c k) :
    PathRB (rs ++ Frame.R b nc L :: fs) c k := by
  induction rs generalizing c k with
  | nil => exact h
  | cons f rs ih =>
    obtain ⟨h1, h2, h3, h4, h5⟩ := h
    exact ⟨h1, h2, h3, h4, ih _ _ h5⟩

theorem erase_struct_valid (fuel : Nat) (st : rb_state) (fs : List Frame) (n : Nat)
    (nc : Color) (L R : Tree) (hfuel : R.height ≤ fuel)
    (hrep : Represents st (plug fs (.node n nc L R)))
    (hrb : (plug fs (.node n nc L R)).isRB) :
    ∃ S reb t1, __rb_erase fuel st n = .ok (S, reb) ∧ Represents S t1 ∧
      (∃ xs ys, (plug fs (.node n nc L R)).inorder = xs ++ n :: ys ∧ t1.inorder = xs ++ ys) ∧
      (reb = 0 → t1.isRB) := by
  have hpath := ((represents_plug st fs _).mp hrep).1
  obtain ⟨hp, hnr, hbal⟩ := isRB_plug hrb
  obtain ⟨S, reb, hS, -, h | h | h⟩ := erase_struct_cases fuel st fs n nc L R hfuel hrep
  · obtain ⟨rfl, h1, h2⟩ := h
    refine ⟨S, reb, _, hS, h1, ⟨pathBefore fs, R.inorder ++ pathAfter fs,
      by simp [inorder_plug], by simp [inorder_plug]⟩, fun h0 => ?_⟩
    cases R with
    | nil =>
      simp only [true_and] at h2
      by_cases hc : nc = .black
      · simp only [hc, if_true] at h2
        have : fs = [] := by
          by_contra hne
          exact (pathParent_ne_zero hpath).mpr hne (h2.symm.trans h0)
        subst this
        exact ⟨trivial, trivial, trivial⟩
      · have hred : nc = .red := by cases nc <;> simp at hc ⊢
        subst hred
        refine plug_isRB (PathRB_black (c := .red) ?_) trivial trivial
        simpa [Tree.bh, Color.bit] using hp
    | node c cc cl cr =>
      obtain ⟨rfl, rfl, rfl, rfl⟩ := one_child_shape (Or.inl ⟨hnr, hbal⟩)
      refine plug_isRB ?_ (by simp [Tree.noRedRed, Tree.rootBlack]) (by simp [Tree.balanced])
      simpa [Tree.bh, Color.bit, Tree.color] using hp
  · obtain ⟨hL, rfl, h1, -⟩ := h
    refine ⟨S, reb, _, hS, h1, ⟨pathBefore fs ++ L.inorder, pathAfter fs,
      by simp [inorder_plug], by simp [inorder_plug]⟩, fun _ => ?_⟩
    cases L with
    | nil => exact absurd rfl hL
    | node c cc cl cr =>
      obtain ⟨rfl, rfl, rfl, rfl⟩ := one_child_shape (Or.inr ⟨hnr, hbal⟩)
      refine plug_isRB ?_ (by simp [Tree.noRedRed, Tree.rootBlack]) (by simp [Tree.balanced])
      simpa [Tree.bh, Color.bit, Tree.color] using hp
  · obtain ⟨hL, rs, s, sc, sr, hleft, rfl, h1, h2, hq0⟩ := h
    refine ⟨S, reb, _, hS, h1, ⟨pathBefore fs ++ L.inorder,
      s :: sr.inorder ++ pathAfter rs ++ pathAfter fs,
      by simp [inorder_plug, pathBefore_left hleft],
      by simp [inorder_plug, pathBefore_left hleft]⟩, fun h0 => ?_⟩
    have hrb2 : (plug (rs ++ Frame.R n nc L :: fs) (.node s sc .nil sr)).isRB := by
      rw [plug_append]; exact hrb
    obtain ⟨hp2, hnr2, hbal2⟩ := isRB_plug hrb2
    have hgoal : (plug (rs ++ Frame.R s nc L :: fs) sr.setBlack).isRB := by
      cases sr with
      | nil =>
        simp only [true_and] at h2
        by_cases hc : sc = .black
        · simp only [hc, if_true] at h2
          exact absurd (h2.symm.trans h0) hq0
        · have hred : sc = .red := by cases sc <;> simp at hc ⊢
          subst hred
          refine plug_isRB (PathRB_black (c := .red) (PathRB_readdress rs fs n s nc L _ _ ?_)) trivial trivial
          simpa [Tree.bh, Color.bit, Tree.setBlack] using hp2
      | node c cc cl cr =>
        obtain ⟨rfl, rfl, rfl, rfl⟩ := one_child_shape (Or.inl ⟨hnr2, hbal2⟩)
        refine plug_isRB (PathRB_readdress rs fs n s nc L _ _ ?_)
          (by simp [Tree.setBlack, Tree.noRedRed, Tree.rootBlack])
          (by simp [Tree.setBlack, Tree.balanced])
        simpa [Tree.bh, Color.bit, Tree.color, Tree.setBlack] using hp2
    rw [plug_append] at hgoal
    exact hgoal

/-- C27: on a valid red-black tree with member node `n`, whenever the
structural phase `__rb_erase` returns null (no rebalance needed), `rb_erase`
returns the state `__rb_erase` left, and that state holds a tree, made of the
old nodes without `n`, that satisfies the red-black invariants (black root, no
red node with a red child, equal black counts on all paths). -/
theorem rb_erase_no_rebalance_valid (fuel : Nat) (st : rb_state) (t : Tree) (n : Nat)
    (hrep : Represents st t) (hrb : t.isRB) (hmem : n ∈ t.inorder) (hfuel : t.height ≤ fuel) :
    ∃ S reb t1, __rb_erase fuel st n = .ok (S, reb) ∧ Represents S t1 ∧
      (∀ a, a ∈ t1.inorder ↔ a ∈ t.inorder ∧ a ≠ n) ∧
      (reb = 0 → rb_erase fuel st n = .ok S ∧ t1.isRB) := by
  obtain ⟨fs, nc, L, R, rfl⟩ := exists_path_of_mem hmem
  have hh : R.height ≤ fuel := by
    have := height_plug_le fs (.node n nc L R)
    simp only [Tree.height] at this
    omega
  obtain ⟨S, reb, t1, h1, h2, ⟨xs, ys, h3, h4⟩, h5⟩ :=
    erase_struct_valid fuel st fs n nc L R hh hrep hrb
  have h6 := erase_split hrep.2.2 h3
  refine ⟨S, reb, t1, h1, h2, fun a => ?_, fun h0 => ?_⟩
  · rw [h4, ← h6, List.Nodup.mem_erase_iff hrep.2.2]
    tauto
  · subst h0
    exact ⟨rb_erase_of_struct h1, h5 rfl⟩

/-- Instance of C27: erasing the red leaf `80` of `ex_state_three`, for which
`__rb_erase` returns null. -/
theorem rb_erase_no_rebalance_valid_witness :
    (Represents ex_state_three ex_tree_three ∧ ex_tree_three.isRB ∧
      80 ∈ ex_tree_three.inorder ∧ ex_tree_three.height ≤ 2) ∧
    ∃ S reb t1, __rb_erase 2 ex_state_three 80 = .ok (S, reb) ∧ Represents S t1 ∧
      (∀ a, a ∈ t1.inorder ↔ a ∈ ex_tree_three.inorder ∧ a ≠ 80) ∧
      (reb = 0 → rb_erase 2 ex_state_three 80 = .ok S ∧ t1.isRB) :=
  ⟨⟨by decide, by decide, by decide, by decide⟩,
    rb_erase_no_rebalance_valid 2 ex_state_three ex_tree_three 80
      (by decide) (by decide) (by decide) (by decide)⟩

/-! ## Removal rebalance: single passes -/

theorem child_is_black {s : rb_state} {q : Nat} {t : Tree} (hq4 : q % 4 = 0)
    (ho : Owns s.mem q t) (hc : t.color = .black) :
    (if t.ptr = 0 then Except.ok true else rb_is_black s t.ptr) = .ok true := by
  split
  · rfl
  · rename_i h
    obtain ⟨-, -, hpc⟩ := Owns_root ho h
    simp [rb_is_black, __rb_is_black, h, hpc, hc, rb_color_mask _ _ hq4, Color.bit]

set_option maxRecDepth 4000 in
theorem erase_case2_red (s : rb_state) (fs : List Frame) (p sb : Nat) (X sl sr : Tree)
    (left : Bool) (hsl : sl.color = .black) (hsr : sr.color = .black)
    (hrep : Represents s (plug fs (if left then .node p .red X (.node sb .black sl sr)
      else .node p .red (.node sb .black sl sr) X))) :
    __rb_erase_rebalance_iter s X.ptr p =
        .ok (.done ((s.wr_pc sb p).wr_pc p (pathParent fs + 1))) ∧
      Represents ((s.wr_pc sb p).wr_pc p (pathParent fs + 1))
        (plug fs (if left then .node p .black X (.node sb .red sl sr)
          else .node p .black (.node sb .red sl sr) X)) ∧
      (s.mem sb).__rb_parent_color = p + 1 ∧ (s.mem p).__rb_parent_color = pathParent fs ∧
      p % 4 = 0 ∧ p < UINTPTR_MOD ∧ pathParent fs % 4 = 0 ∧ pathParent fs < UINTPTR_MOD ∧
      p ≠ 0 ∧ sb ≠ 0 := by
  rw [represents_plug] at hrep
  obtain ⟨hpath, hown, hnd⟩ := hrep
  obtain ⟨hgp4, hgplt⟩ := OwnsPath_parent (h := p) (by cases left <;> exact hpath)
  have h1 := uintptr_add_red (g := p)
  cases left with
  | true =>
    simp only [if_true, Owns, Tree.ptr_node, Color.bit_red, Color.bit_black, Nat.add_zero]
      at hpath hown hnd ⊢
    obtain ⟨hp0, hp4, hplt, hmp, hoX, hb0, hb4, hblt, hmb, hosl, hosr⟩ := hown
    have key := fun a => List.nodup_iff_count_le_one.mp hnd a
    simp only [Tree.inorder_node, List.count_append, List.count_cons, List.count_nil,
      beq_iff_eq] at key
    have hpb : p ≠ sb := ne_named (fun a => by have := key a; omega)
    have hbX : sb ≠ X.ptr := ne_ptr_of_notin hb0 fun h =>
      disj_named (x := sb) (fun a => by have := key a; omega) _ h rfl
    have hb1 := child_is_black hb4 hosr hsr
    have hb2 := child_is_black hb4 hosl hsl
    have hpg := uintptr_add_black hgp4 hgplt
    refine ⟨?_, ?_, by rw [hmb], by rw [hmp], hp4, hplt, hgp4, hgplt, hp0, hb0⟩
    · simp only [__rb_erase_rebalance_iter, get_right_ok _ hp0, hmp, ok_bind, hbX, ne_eq,
        not_false_eq_true, if_true, rb_is_red, get_pc_ok _ hb0, hmb, __rb_is_red,
        rb_color_mask _ _ hp4 (Nat.le_refl 1), pure_eq_ok, decide_False, decide_True,
        Bool.false_eq_true, if_false, get_left_ok _ hb0, get_right_ok _ hb0, hb1, hb2,
        rb_set_parent_color,
        h1 hplt, set_pc_ok _ _ hb0, get_pc_ok _ hp0, mem_wr_pc, hpb, rb_color_aligned hgp4,
        rb_set_black, hpg, set_pc_ok _ _ hp0, one_ne_zero, not_true_eq_false]
    · rw [represents_plug]
      refine ⟨OwnsPath_congr (s := s) rfl (fun a ha => ?_) hpath, ?_, ?_⟩
      · have hap : a ≠ p := fun h => disj_named (x := p)
          (fun a => by have := key a; simp only [List.count_append]; omega) a ha h
        have hab : a ≠ sb := fun h => disj_named (x := sb)
          (fun a => by have := key a; simp only [List.count_append]; omega) a ha h
        simp only [mem_wr_pc, hap, hab, if_false]
      · simp only [Owns, Tree.ptr_node, Color.bit_red, Color.bit_black, Nat.add_zero]
        refine ⟨hp0, hp4, hplt, by simp [hmp, hpb], Owns_congr (fun a ha => ?_) hoX, hb0, hb4,
          hblt, by simp [hmb, hpb.symm], Owns_congr (fun a ha => ?_) hosl,
          Owns_congr (fun a ha => ?_) hosr⟩
        all_goals
          have hap : a ≠ p := disj_named (x := p) (fun a => by have := key a; omega) a ha
          have hab : a ≠ sb := disj_named (x := sb) (fun a => by have := key a; omega) a ha
          simp only [mem_wr_pc, hap, hab, if_false]
      · simpa only [Tree.inorder_node] using hnd
  | false =>
    simp only [Bool.false_eq_true, if_false, Owns, Tree.ptr_node, Color.bit_red,
      Color.bit_black, Nat.add_zero] at hpath hown hnd ⊢
    obtain ⟨hp0, hp4, hplt, hmp, ⟨hb0, hb4, hblt, hmb, hosl, hosr⟩, hoX⟩ := hown
    have key := fun a => List.nodup_iff_count_le_one.mp hnd a
    simp only [Tree.inorder_node, List.count_append, List.count_cons, List.count_nil,
      beq_iff_eq] at key
    have hpb : p ≠ sb := ne_named (fun a => by have := key a; omega)
    have hb1 := child_is_black hb4 hosr hsr
    have hb2 := child_is_black hb4 hosl hsl
    have hpg := uintptr_add_black hgp4 hgplt
    refine ⟨?_, ?_, by rw [hmb], by rw [hmp], hp4, hplt, hgp4, hgplt, hp0, hb0⟩
    · simp only [__rb_erase_rebalance_iter, get_right_ok _ hp0, get_left_ok _ hp0, hmp, ok_bind,
        ne_eq, not_true_eq_false, if_false, rb_is_red, get_pc_ok _ hb0, hmb, __rb_is_red,
        rb_color_mask _ _ hp4 (Nat.le_refl 1), pure_eq_ok, decide_False, decide_True,
        Bool.false_eq_true, get_left_ok _ hb0, get_right_ok _ hb0, hb1, hb2,
        rb_set_parent_color, if_true,
        h1 hplt, set_pc_ok _ _ hb0, get_pc_ok _ hp0, mem_wr_pc, hpb, rb_color_aligned hgp4,
        rb_set_black, hpg, set_pc_ok _ _ hp0, one_ne_zero, not_false_eq_true]
    · rw [represents_plug]
      refine ⟨OwnsPath_congr (s := s) rfl (fun a ha => ?_) hpath, ?_, ?_⟩
      · have hap : a ≠ p := fun h => disj_named (x := p)
          (fun a => by have := key a; simp only [List.count_append]; omega) a ha h
        have hab : a ≠ sb := fun h => disj_named (x := sb)
          (fun a => by have := key a; simp only [List.count_append]; omega) a ha h
        simp only [mem_wr_pc, hap, hab, if_false]
      · simp only [Owns, Tree.ptr_node, Color.bit_red, Color.bit_black, Nat.add_zero]
        refine ⟨hp0, hp4, hplt, by simp [hmp, hpb], ⟨hb0, hb4, hblt, by simp [hmb, hpb.symm],
          Owns_congr (fun a ha => ?_) hosl, Owns_congr (fun a ha => ?_) hosr⟩,
          Owns_congr (fun a ha => ?_) hoX⟩
        all_goals
          have hap : a ≠ p := disj_named (x := p) (fun a => by have := key a; omega) a ha
          have hab : a ≠ sb := disj_named (x := sb) (fun a => by have := key a; omega) a ha
          simp only [mem_wr_pc, hap, hab, if_false]
      · simpa only [Tree.inorder_node] using hnd

/-- C29: in a pass of the removal rebalance that starts with a red parent `p`, a
black sibling `sb` none of whose children is red, and the short subtree `X`
on either side (`left` says whether `X` is the left child), the sibling
becomes red and the parent black, no child pointer, parent link or the root
handle changes, and the loop stops after this pass. -/
theorem rb_erase_rebalance_case2_red (fuel : Nat) (s : rb_state) (fs : List Frame)
    (p sb : Nat) (X sl sr : Tree) (left : Bool) (hsl : sl.color = .black)
    (hsr : sr.color = .black)
    (hrep : Represents s (plug fs (if left then .node p .red X (.node sb .black sl sr)
      else .node p .red (.node sb .black sl sr) X))) :
    ∃ S, __rb_erase_rebalance_iter s X.ptr p = .ok (.done S) ∧
      __rb_erase_rebalance_loop (fuel + 1) s X.ptr p = .ok S ∧
      Represents S (plug fs (if left then .node p .black X (.node sb .red sl sr)
        else .node p .black (.node sb .red sl sr) X)) ∧
      rb_is_red s p = .ok true ∧ rb_is_black s sb = .ok true ∧
      rb_is_red S sb = .ok true ∧ rb_is_black S p = .ok true ∧
      S.root = s.root ∧
      ∀ a, (S.mem a).rb_left = (s.mem a).rb_left ∧ (S.mem a).rb_right = (s.mem a).rb_right ∧
        __rb_parent (S.mem a).__rb_parent_color = __rb_parent (s.mem a).__rb_parent_color := by
  obtain ⟨h1, h2, hmb, hmp, hp4, hplt, hg4, hglt, hp0, hb0⟩ :=
    erase_case2_red s fs p sb X sl sr left hsl hsr hrep
  have hpb : p ≠ sb := by
    intro e
    rw [← e, hmp] at hmb
    have := rb_color_aligned hg4
    rw [hmb, rb_color_mask _ _ hp4 (Nat.le_refl 1)] at this
    exact absurd this one_ne_zero
  refine ⟨_, h1, by simp only [__rb_erase_rebalance_loop, h1], h2, ?_, ?_, ?_, ?_, rfl,
    fun a => ?_⟩
  · simp [rb_is_red, __rb_is_red, hp0, hmp, rb_color_aligned hg4]
  · simp [rb_is_black, __rb_is_black, hb0, hmb, rb_color_mask _ _ hp4 (Nat.le_refl 1)]
  · simp [rb_is_red, __rb_is_red, hb0, hpb.symm, rb_color_aligned hp4]
  · simp [rb_is_black, __rb_is_black, hp0, rb_color_mask _ _ hg4 (Nat.le_refl 1)]
  · by_cases hap : a = p
    · subst hap
      simp [hmp, hpb, rb_parent_mask _ _ hg4 hglt (Nat.le_refl 1), rb_parent_aligned hg4 hglt]
    · by_cases hab : a = sb
      · subst hab
        simp [hap, hmb, rb_parent_mask _ _ hp4 hplt (Nat.le_refl 1), rb_parent_aligned hp4 hplt]
      · simp [hap, hab]

/-- Instance of C29: the red node `160` of `erase_state_case2`, short on the
left, with the black sibling leaf `240`. -/
theorem rb_erase_rebalance_case2_red_witness :
    ((Tree.nil.color = .black) ∧ (Tree.nil.color = .black) ∧
      Represents erase_state_case2 (plug [.L 320 .black (.node 400 .black .nil .nil)]
        (if true then .node 160 .red .nil (.node 240 .black .nil .nil)
          else .node 160 .red (.node 240 .black .nil .nil) .nil))) ∧
    ∃ S, __rb_erase_rebalance_iter erase_state_case2 Tree.nil.ptr 160 = .ok (.done S) ∧
      __rb_erase_rebalance_loop (0 + 1) erase_state_case2 Tree.nil.ptr 160 = .ok S ∧
      Represents S (plug [.L 320 .black (.node 400 .black .nil .nil)]
        (if true then .node 160 .black .nil (.node 240 .red .nil .nil)
          else .node 160 .black (.node 240 .red .nil .nil) .nil)) ∧
      rb_is_red erase_state_case2 160 = .ok true ∧
      rb_is_black erase_state_case2 240 = .ok true ∧
      rb_is_red S 240 = .ok true ∧ rb_is_black S 160 = .ok true ∧
      S.root = erase_state_case2.root ∧
      ∀ a, (S.mem a).rb_left = (erase_state_case2.mem a).rb_left ∧
        (S.mem a).rb_right = (erase_state_case2.mem a).rb_right ∧
        __rb_parent (S.mem a).__rb_parent_color =
          __rb_parent (erase_state_case2.mem a).__rb_parent_color :=
  ⟨⟨rfl, rfl, by decide⟩,
    rb_erase_rebalance_case2_red 0 erase_state_case2 [.L 320 .black (.node 400 .black .nil .nil)]
      160 240 .nil .nil .nil true rfl rfl (by decide)⟩

/-- C30 fails on the code.  In the valid tree `erase_tree_case5`, erasing the
black leaf `80` leaves the root `160` short on the left with the black sibling
`240`, whose right child `320` is red: case 5.  The pass that performs the
rotation at `160` (the root handle becomes `240`) does not stop the loop but
asks for another pass with the same `node` (null) and `parent` (`160`); that pass reads the colour of the
null left child of `160`, so `rb_erase` ends in a null dereference instead of
returning. -/
theorem rb_erase_case5_not_terminal :
    Represents erase_state_case5 erase_tree_case5 ∧ erase_tree_case5.isRB ∧
    ((__rb_erase 2 erase_state_case5 80).toOption.map fun r =>
      (r.2, next_of (__rb_erase_rebalance_iter r.1 0 r.2))) = some (160, some (240, 0, 160)) ∧
    fault_of (rb_erase 10 erase_state_case5 80) = some .null_deref := by
  decide!

/-! ## Reference counters -/

/-- C22: for a non-null single-thread counter (a `uint32_t` value), `rc_inc`
aborts exactly when the counter equals `UINT32_MAX`, and then the counter is
unchanged; otherwise it returns with the counter increased by exactly one, so
the stored value is never 0. -/
theorem rc_inc_saturation (r : rc) (h : r.ref ≤ UINT32_MAX) :
    (rc_inc (some r) = .abort (some r) ↔ r.ref = UINT32_MAX) ∧
      (∀ m, rc_inc (some r) = .abort m → m = some r ∧ r.ref = UINT32_MAX) ∧
      (r.ref ≠ UINT32_MAX →
        rc_inc (some r) = .ret (some ⟨r.ref + 1⟩) () ∧ r.ref + 1 ≤ UINT32_MAX) ∧
      (∀ m v, rc_inc (some r) = .ret m v → m ≠ some ⟨0⟩) := by
  unfold UINT32_MAX at *
  by_cases hmax : r.ref = 4294967295
  · simp [rc_inc, UINT32_MAX, hmax]
  · have hlt : (r.ref + 1) % 4294967296 = r.ref + 1 := by omega
    simp [rc_inc, UINT32_MAX, hmax, hlt]
    omega

/-- Instance of C22: a counter that holds `7`. -/
theorem rc_inc_saturation_witness :
    ((7 : Nat) ≤ UINT32_MAX) ∧
    ((rc_inc (some ⟨7⟩) = .abort (some ⟨7⟩) ↔ (⟨7⟩ : rc).ref = UINT32_MAX) ∧
      (∀ m, rc_inc (some ⟨7⟩) = .abort m → m = some ⟨7⟩ ∧ (⟨7⟩ : rc).ref = UINT32_MAX) ∧
      ((⟨7⟩ : rc).ref ≠ UINT32_MAX →
        rc_inc (some ⟨7⟩) = .ret (some ⟨(⟨7⟩ : rc).ref + 1⟩) () ∧
          (⟨7⟩ : rc).ref + 1 ≤ UINT32_MAX) ∧
      (∀ m v, rc_inc (some ⟨7⟩) = .ret m v → m ≠ some ⟨0⟩)) :=
  ⟨by decide, rc_inc_saturation ⟨7⟩ (by decide)⟩

/-- C23: for a non-null single-thread counter, `rc_dec` stores the counter
minus one (modulo 2^32) and returns true exactly when the stored value is 0,
that is when the counter was 1; and whenever `rc_inc` returns, `rc_dec` on its
result restores the counter. -/
theorem rc_dec_reaches_zero (r : rc) (h : r.ref ≤ UINT32_MAX) :
    ∃ m b, rc_dec (some r) = .ret (some m) b ∧ m.ref = (r.ref + 4294967295) % 4294967296 ∧
      (b = true ↔ m.ref = 0) ∧ (b = true ↔ r.ref = 1) ∧
      (∀ m1, rc_inc (some r) = .ret m1 () → ∃ b1, rc_dec m1 = .ret (some r) b1) := by
  unfold UINT32_MAX at h
  refine ⟨_, _, rfl, rfl, ?_, ?_, ?_⟩
  · by_cases h1 : r.ref = 1
    · simp [h1]
    · simp only [h1, if_false, Bool.false_eq_true, false_iff]
      omega
  · by_cases h1 : r.ref = 1 <;> simp [h1]
  · intro m1 hm
    by_cases hmax : r.ref = 4294967295
    · simp [rc_inc, UINT32_MAX, hmax] at hm
    · have hlt : (r.ref + 1) % 4294967296 = r.ref + 1 := by omega
      simp only [rc_inc, UINT32_MAX, hmax, if_false, hlt, Run.ret.injEq, and_true] at hm
      subst hm
      refine ⟨if r.ref + 1 = 1 then true else false, ?_⟩
      simp only [rc_dec, Run.ret.injEq, Option.some.injEq, and_true]
      cases r with
      | mk v =>
        simp only [rc.mk.injEq] at *
        omega

/-- Instance of C23: a counter that holds `1`. -/
theorem rc_dec_reaches_zero_witness :
    ((1 : Nat) ≤ UINT32_MAX) ∧
    ∃ m b, rc_dec (some ⟨1⟩) = .ret (some m) b ∧
      m.ref = ((⟨1⟩ : rc).ref + 4294967295) % 4294967296 ∧
      (b = true ↔ m.ref = 0) ∧ (b = true ↔ (⟨1⟩ : rc).ref = 1) ∧
      (∀ m1, rc_inc (some ⟨1⟩) = .ret m1 () → ∃ b1, rc_dec m1 = .ret (some ⟨1⟩) b1) :=
  ⟨by decide, rc_dec_reaches_zero ⟨1⟩ (by decide)⟩

/-- C24 (as amended): under sequential execution, for every value below
`UINT32_MAX` of a non-null atomic counter, `arc_inc` stores the old value plus
one, without wrapping modulo 2^32, and it aborts the process (after that
store) exactly when the old value was `INT32_MAX`. -/
theorem arc_inc_threshold (r : arc) (h : r.ref < UINT32_MAX) :
    (r.ref + 1) % 4294967296 = r.ref + 1 ∧
      (r.ref = INT32_MAX → arc_inc (some r) = .abort (some ⟨r.ref + 1⟩)) ∧
      (r.ref ≠ INT32_MAX → arc_inc (some r) = .ret (some ⟨r.ref + 1⟩) ()) ∧
      ((∃ m, arc_inc (some r) = .abort m) ↔ r.ref = INT32_MAX) := by
  unfold UINT32_MAX at h
  have hlt : (r.ref + 1) % 4294967296 = r.ref + 1 := by omega
  refine ⟨hlt, fun hmax => ?_, fun hmax => ?_, ?_⟩
  · simp only [arc_inc, if_pos hmax, hlt]
  · simp only [arc_inc, hmax, if_false, hlt]
  · by_cases hmax : r.ref = INT32_MAX
    · exact ⟨fun _ => hmax, fun _ => ⟨some ⟨r.ref + 1⟩, by simp only [arc_inc, if_pos hmax, hlt]⟩⟩
    · simp only [arc_inc, hmax, if_false, iff_false, not_exists]
      intro m hm
      cases hm

/-- Instance of C24 (as amended): a counter that holds `INT32_MAX`. -/
theorem arc_inc_threshold_witness :
    (INT32_MAX < UINT32_MAX) ∧
    (((⟨INT32_MAX⟩ : arc).ref + 1) % 4294967296 = (⟨INT32_MAX⟩ : arc).ref + 1 ∧
      ((⟨INT32_MAX⟩ : arc).ref = INT32_MAX →
        arc_inc (some ⟨INT32_MAX⟩) = .abort (some ⟨(⟨INT32_MAX⟩ : arc).ref + 1⟩)) ∧
      ((⟨INT32_MAX⟩ : arc).ref ≠ INT32_MAX →
        arc_inc (some ⟨INT32_MAX⟩) = .ret (some ⟨(⟨INT32_MAX⟩ : arc).ref + 1⟩) ()) ∧
      ((∃ m, arc_inc (some ⟨INT32_MAX⟩) = .abort m) ↔ (⟨INT32_MAX⟩ : arc).ref = INT32_MAX)) :=
  ⟨by decide, arc_inc_threshold ⟨INT32_MAX⟩ (by decide)⟩

/-- C24, counterexample: on a counter that holds `UINT32_MAX`, `arc_inc` does
not abort and returns with the counter wrapped to 0. -/
theorem arc_inc_wraps_at_max :
    arc_inc (some ⟨UINT32_MAX⟩) = .ret (some ⟨0⟩) () ∧
      (UINT32_MAX + 1) % 4294967296 ≠ UINT32_MAX + 1 := by
  decide

/-! ## Coroutines -/

/-- C25: on a block that is finished or has no task function, `co_poll`
returns 0 and leaves the block finished with label, task and data unchanged,
whatever the task pointers designate (also tasks that never return, so no
task is invoked); a block is finished after `co_stop` and after a task body
has run through `CO_END`; a zero-initialized block is not done. -/
theorem co_poll_finished (tasks : co_tasks) (co : co_block)
    (h : co.state = .CO_STATE_FINISH ∨ co.fn = 0) :
    co_poll tasks co = some ({ co with state := .CO_STATE_FINISH }, 0) ∧
      co_poll (fun _ _ _ => none) co = some ({ co with state := .CO_STATE_FINISH }, 0) ∧
      co_done { co with state := .CO_STATE_FINISH } = true ∧
      (∀ c : co_block, (co_stop c).1.state = .CO_STATE_FINISH) ∧
      (∀ (c : co_block) (r : Int), (co_body_from [] r c).1.state = .CO_STATE_FINISH) ∧
      co_zero.fn = 0 ∧ co_done co_zero = false := by
  have key : ∀ t : co_tasks, co_poll t co = some ({ co with state := .CO_STATE_FINISH }, 0) := by
    intro t
    by_cases hs : co.state = .CO_STATE_FINISH
    · have : ({ co with state := .CO_STATE_FINISH } : co_block) = co := by
        cases co
        simp only at hs
        simp [hs]
      simp [co_poll, hs, this]
    · have hf : co.fn = 0 := h.resolve_left hs
      simp [co_poll, hs, hf]
  exact ⟨key _, key _, by simp [co_done], fun c => rfl, fun c r => rfl, rfl, by decide⟩

/-- Instance of C25: polling the zero-initialized block. -/
theorem co_poll_finished_witness :
    (co_zero.state = .CO_STATE_FINISH ∨ co_zero.fn = 0) ∧
    (co_poll (fun _ _ _ => some (co_zero, 7)) co_zero =
        some ({ co_zero with state := .CO_STATE_FINISH }, 0) ∧
      co_poll (fun _ _ _ => none) co_zero =
        some ({ co_zero with state := .CO_STATE_FINISH }, 0) ∧
      co_done { co_zero with state := .CO_STATE_FINISH } = true ∧
      (∀ c : co_block, (co_stop c).1.state = .CO_STATE_FINISH) ∧
      (∀ (c : co_block) (r : Int), (co_body_from [] r c).1.state = .CO_STATE_FINISH) ∧
      co_zero.fn = 0 ∧ co_done co_zero = false) :=
  ⟨Or.inr rfl, co_poll_finished (fun _ _ _ => some (co_zero, 7)) co_zero (Or.inr rfl)⟩

theorem co_at_nil (fn data : Nat) : co_at fn data [] = ⟨.CO_STATE_INIT, fn, data, 0⟩ := rfl

theorem co_at_snoc (fn data : Nat) (pre : List (Nat × Int)) (y : Nat × Int) :
    co_at fn data (pre ++ [y]) = ⟨.CO_STATE_YIELD, fn, data, y.1⟩ := by
  simp [co_at]

theorem co_at_not_done (fn data : Nat) (pre : List (Nat × Int)) :
    co_done (co_at fn data pre) = false := by
  unfold co_at
  cases pre.getLast? <;> simp [co_done]

theorem co_body_resume_skip (pre rest : List (Nat × Int)) (z : Nat × Int) (r : Int)
    (co : co_block) (hl : co.label = z.1 % 4294967296)
    (hpre : ∀ y ∈ pre, y.1 % 4294967296 ≠ z.1 % 4294967296) :
    co_body_resume (pre ++ z :: rest) r co = co_body_from rest r co := by
  induction pre with
  | nil => simp [co_body_resume, hl]
  | cons y pre ih =>
    have h1 : co.label ≠ y.1 % 4294967296 := by
      rw [hl]; exact (hpre y (by simp)).symm
    simp only [List.cons_append, co_body_resume, h1, if_false]
    exact ih (fun x hx => hpre x (List.mem_cons_of_mem _ hx))

theorem co_body_after (fn data : Nat) (pre post : List (Nat × Int)) (r : Int)
    (hlines : ((pre ++ post).map (·.1)).Nodup)
    (hpos : ∀ y ∈ pre ++ post, 0 < y.1 ∧ y.1 < 4294967296) :
    co_body (pre ++ post) r { co_at fn data pre with state := .CO_STATE_RUN } data =
      some (co_body_from post r { co_at fn data pre with state := .CO_STATE_RUN }) := by
  rcases List.eq_nil_or_concat pre with rfl | ⟨pre1, z, rfl⟩
  · simp [co_body, co_at]
  · simp only [List.concat_eq_append] at hlines hpos ⊢
    have hz := hpos z (by simp)
    have hzmod : z.1 % 4294967296 = z.1 := Nat.mod_eq_of_lt hz.2
    have hne : z.1 ≠ 0 := by omega
    simp only [co_at_snoc, co_body, hne, if_false, List.append_assoc, List.singleton_append]
    rw [co_body_resume_skip pre1 post z r _ (by simp only [hzmod])]
    intro y hy
    have hy2 := hpos y (by simp [hy])
    rw [Nat.mod_eq_of_lt hy2.2, hzmod]
    intro e
    simp only [List.map_append, List.map_cons, List.map_nil, List.append_assoc,
      List.singleton_append, List.nodup_append, List.nodup_cons, List.mem_map,
      List.disjoint_cons_right] at hlines
    exact hlines.2.2.1 ⟨y, hy, e⟩

theorem co_at_fields (fn data : Nat) (pre : List (Nat × Int)) :
    (co_at fn data pre).fn = fn ∧ (co_at fn data pre).data = data ∧
      (co_at fn data pre).state ≠ .CO_STATE_FINISH := by
  unfold co_at
  cases pre.getLast? <;> simp

theorem co_poll_at (tasks : co_tasks) (fn data : Nat) (pre post : List (Nat × Int)) (r : Int)
    (hfn : fn ≠ 0) (htask : tasks fn = co_body (pre ++ post) r)
    (hlines : ((pre ++ post).map (·.1)).Nodup)
    (hpos : ∀ y ∈ pre ++ post, 0 < y.1 ∧ y.1 < 4294967296) :
    co_poll tasks (co_at fn data pre) =
      some (co_body_from post r { co_at fn data pre with state := .CO_STATE_RUN }) := by
  obtain ⟨h1, h2, h3⟩ := co_at_fields fn data pre
  simp only [co_poll, h3, if_false, h1, h2, hfn, ne_eq, not_false_eq_true, if_true, htask]
  have := co_body_after fn data pre post r hlines hpos
  simp only [h1, h2] at this
  exact this

theorem co_poll_yield (tasks : co_tasks) (fn data : Nat) (pre post : List (Nat × Int))
    (y : Nat × Int) (r : Int)
    (hfn : fn ≠ 0) (htask : tasks fn = co_body (pre ++ y :: post) r)
    (hlines : ((pre ++ y :: post).map (·.1)).Nodup)
    (hpos : ∀ x ∈ pre ++ y :: post, 0 < x.1 ∧ x.1 < 4294967296) :
    co_poll tasks (co_at fn data pre) = some (co_at fn data (pre ++ [y]), y.2) := by
  rw [co_poll_at tasks fn data pre (y :: post) r hfn htask hlines hpos, co_at_snoc]
  obtain ⟨h1, h2, -⟩ := co_at_fields fn data pre
  have hy := hpos y (by simp)
  simp [co_body_from, h1, h2, Nat.mod_eq_of_lt hy.2]

theorem co_poll_seq_prefix (tasks : co_tasks) (fn data : Nat) (r : Int) (hfn : fn ≠ 0)
    (i : Nat) : ∀ (pre post : List (Nat × Int)), tasks fn = co_body (pre ++ post) r →
      ((pre ++ post).map (·.1)).Nodup → (∀ x ∈ pre ++ post, 0 < x.1 ∧ x.1 < 4294967296) →
      i ≤ post.length →
      co_poll_seq tasks i (co_at fn data pre) =
        some (co_at fn data (pre ++ post.take i), (post.take i).map (·.2)) := by
  induction i with
  | zero => intro pre post _ _ _ _; simp [co_poll_seq]
  | succ i ih =>
    intro pre post htask hlines hpos hi
    cases post with
    | nil => simp at hi
    | cons y post =>
      have h1 := co_poll_yield tasks fn data pre post y r hfn htask hlines hpos
      have h2 := ih (pre ++ [y]) post (by simpa using htask) (by simpa using hlines)
        (by simpa using hpos) (by simpa using hi)
      simp only [co_poll_seq, h1, h2, List.take_succ_cons, List.map_cons, List.append_assoc,
        List.singleton_append]

theorem co_poll_seq_all (tasks : co_tasks) (fn data : Nat) (r : Int) (hfn : fn ≠ 0)
    (post : List (Nat × Int)) : ∀ (pre : List (Nat × Int)), tasks fn = co_body (pre ++ post) r →
      ((pre ++ post).map (·.1)).Nodup → (∀ x ∈ pre ++ post, 0 < x.1 ∧ x.1 < 4294967296) →
      co_poll_seq tasks (post.length + 1) (co_at fn data pre) =
        some ({ co_at fn data (pre ++ post) with state := .CO_STATE_FINISH },
          post.map (·.2) ++ [r]) := by
  induction post with
  | nil =>
    intro pre htask hlines hpos
    have h1 := co_poll_at tasks fn data pre [] r hfn htask hlines hpos
    simp [co_poll_seq, h1, co_body_from]
  | cons y post ih =>
    intro pre htask hlines hpos
    have h1 := co_poll_yield tasks fn data pre post y r hfn htask hlines hpos
    have h2 := ih (pre ++ [y]) (by simpa using htask) (by simpa using hlines)
      (by simpa using hpos)
    simp only [List.length_cons, co_poll_seq, h1]
    simp only [co_poll_seq] at h2
    simp only [h2, List.map_cons, List.cons_append, List.append_assoc, List.singleton_append,
      List.nil_append]

/-- C26: for a task whose body is `CO_BEGIN`, then the yields `ys` (each with
its source line and value, the lines distinct), then `CO_END` and `return r`:
after `co_init`, the first `k` calls of `co_poll` return the values of the
yields in order and leave `co_done` false after each of them, and the call
after them returns `r` and leaves `co_done` true. -/
theorem co_poll_yield_sequence (tasks : co_tasks) (ys : List (Nat × Int)) (r : Int)
    (fn data : Nat) (co0 : co_block) (hfn : fn ≠ 0) (htask : tasks fn = co_body ys r)
    (hlines : (ys.map (·.1)).Nodup) (hpos : ∀ y ∈ ys, 0 < y.1 ∧ y.1 < 4294967296) :
    (∀ i, i ≤ ys.length → ∃ c, co_poll_seq tasks i (co_init co0 fn data) =
        some (c, (ys.map (·.2)).take i) ∧ co_done c = false) ∧
      ∃ c, co_poll_seq tasks (ys.length + 1) (co_init co0 fn data) =
        some (c, ys.map (·.2) ++ [r]) ∧ co_done c = true := by
  have hinit : co_init co0 fn data = co_at fn data [] := rfl
  constructor
  · intro i hi
    refine ⟨_, ?_, co_at_not_done fn data ([] ++ ys.take i)⟩
    rw [hinit, co_poll_seq_prefix tasks fn data r hfn i [] ys (by simpa using htask)
      (by simpa using hlines) (by simpa using hpos) hi, List.map_take]
  · refine ⟨{ co_at fn data ([] ++ ys) with state := .CO_STATE_FINISH }, ?_, ?_⟩
    · rw [hinit]
      exact co_poll_seq_all tasks fn data r hfn ys [] (by simpa using htask)
        (by simpa using hlines) (by simpa using hpos)
    · simp [co_done]

/-- Instance of C26: the task `test_co_fn` of the test file, with the yields of
`1` and `2` on the lines 62 and 63 and the result `0`: three polls give 1, 2
and 0. -/
theorem co_poll_yield_sequence_witness :
    ((1 : Nat) ≠ 0 ∧
      (fun a => if a = 1 then co_body [(62, 1), (63, 2)] 0 else fun _ _ => none) 1 =
        co_body [(62, 1), (63, 2)] 0 ∧
      (([(62, 1), (63, 2)] : List (Nat × Int)).map (·.1)).Nodup ∧
      (∀ y ∈ ([(62, 1), (63, 2)] : List (Nat × Int)), 0 < y.1 ∧ y.1 < 4294967296)) ∧
    ((∀ i, i ≤ ([(62, 1), (63, 2)] : List (Nat × Int)).length →
        ∃ c, co_poll_seq
            (fun a => if a = 1 then co_body [(62, 1), (63, 2)] 0 else fun _ _ => none) i
            (co_init co_zero 1 0) =
          some (c, (([(62, 1), (63, 2)] : List (Nat × Int)).map (·.2)).take i) ∧
          co_done c = false) ∧
      ∃ c, co_poll_seq
          (fun a => if a = 1 then co_body [(62, 1), (63, 2)] 0 else fun _ _ => none)
          (([(62, 1), (63, 2)] : List (Nat × Int)).length + 1) (co_init co_zero 1 0) =
        some (c, ([(62, 1), (63, 2)] : List (Nat × Int)).map (·.2) ++ [0]) ∧
        co_done c = true) :=
  ⟨⟨by decide, rfl, by decide, by decide⟩,
    co_poll_yield_sequence
      (fun a => if a = 1 then co_body [(62, 1), (63, 2)] 0 else fun _ _ => none)
      [(62, 1), (63, 2)] 0 1 0 co_zero (by decide) rfl (by decide) (by decide)⟩

/-! ## Traversal -/

theorem leftmost_spec (s : rb_state) (t : Tree) (q fuel : Nat) (ho : Owns s.mem q t)
    (ht : t ≠ .nil) (hfuel : t.height ≤ fuel) :
    rb_leftmost fuel s t.ptr = .ok (t.inorder.headD 0) := by
  induction t generalizing q fuel with
  | nil => exact absurd rfl ht
  | node a c l r ihl _ =>
    simp only [Owns] at ho
    obtain ⟨h0, -, -, hm, hl, -⟩ := ho
    simp only [Tree.height] at hfuel
    obtain ⟨fuel, rfl⟩ : ∃ k, fuel = k + 1 := ⟨fuel - 1, by omega⟩
    simp only [rb_leftmost, Tree.ptr_node, get_left_ok _ h0, hm]
    cases l with
    | nil => simp
    | node la lc ll lr =>
      have hla : la ≠ 0 := by simp only [Owns] at hl; exact hl.1
      have := ihl a fuel hl (by simp) (by omega)
      simp only [Tree.ptr_node] at this
      simp [hla, this]

theorem climb_next_spec (s : rb_state) (fs : List Frame) :
    ∀ (node k fuel : Nat), OwnsPath s node fs → node ≠ 0 →
      (s.mem node).__rb_parent_color = pathParent fs + k → k ≤ 1 →
      (∀ a, (pathBefore fs).count a + (pathAfter fs).count a + (if node = a then 1 else 0) ≤ 1) →
      fs.length + 1 ≤ fuel →
      rb_climb_next fuel s node = .ok ((pathAfter fs).headD 0) := by
  induction fs with
  | nil =>
    intro node k fuel _ hn0 hpc hk _ hfuel
    obtain ⟨fuel, rfl⟩ : ∃ j, fuel = j + 1 := ⟨fuel - 1, by omega⟩
    have : __rb_parent (0 + k) = 0 := rb_parent_mask 0 k (by decide) (by decide) hk
    simp only [pathParent_nil] at hpc
    simp only [rb_climb_next, rb_parent, get_pc_ok _ hn0, hpc, ok_bind, pure_eq_ok, this,
      if_true, pathAfter, List.headD_nil]
  | cons f fs ih =>
    intro node k fuel hpath hn0 hpc hk key hfuel
    obtain ⟨fuel, rfl⟩ : ∃ j, fuel = j + 1 := ⟨fuel - 1, by omega⟩
    obtain ⟨hg4, hglt⟩ := OwnsPath_parent (OwnsPath.tail hpath)
    cases f with
    | L a c sib =>
      simp only [OwnsPath] at hpath
      obtain ⟨ha0, ha4, halt, hma, -, -⟩ := hpath
      simp only [pathParent_cons, Frame.addr_L] at hpc
      simp [rb_climb_next, rb_parent, hn0, hpc, rb_parent_mask _ _ ha4 halt hk, ha0, hma,
        pathAfter]
    | R a c sib =>
      simp only [OwnsPath] at hpath
      obtain ⟨ha0, ha4, halt, hma, hsib, hrest⟩ := hpath
      simp only [pathParent_cons, Frame.addr_R] at hpc
      simp only [pathBefore, pathAfter, List.count_append, List.count_cons, List.count_nil,
        beq_iff_eq] at key
      have hne : sib.ptr ≠ node := by
        intro e
        have hs0 : sib.ptr ≠ 0 := e ▸ hn0
        have h1 := List.one_le_count_iff.mpr (Tree.ptr_mem hs0)
        have := key node
        rw [e] at h1
        simp only [if_true] at this
        omega
      have := ih a c.bit fuel hrest ha0 (by rw [hma]) c.bit_le
        (fun x => by have := key x; omega) (by simpa using hfuel)
      simp [rb_climb_next, rb_parent, hn0, hpc, rb_parent_mask _ _ ha4 halt hk, ha0, hma,
        hne, this, pathAfter]

theorem headD_append_left {l m : List Nat} (h : l ≠ []) (d : Nat) :
    (l ++ m).headD d = l.headD d := by
  cases l with
  | nil => exact absurd rfl h
  | cons a l => rfl

theorem next_at_path (s : rb_state) (fs : List Frame) (n : Nat) (c : Color) (l r : Tree)
    (fuel : Nat) (hrep : Represents s (plug fs (.node n c l r)))
    (hfuel : (plug fs (.node n c l r)).height + 1 ≤ fuel) :
    rb_next fuel s n = .ok ((r.inorder ++ pathAfter fs).headD 0) := by
  have hh := height_plug fs (.node n c l r)
  simp only [Tree.height] at hh
  rw [represents_plug] at hrep
  obtain ⟨hpath, hown, hnd⟩ := hrep
  simp only [Owns, Tree.ptr_node] at hpath hown
  obtain ⟨hn0, hn4, hnlt, hmn, -, hor⟩ := hown
  have key := fun a => List.nodup_iff_count_le_one.mp hnd a
  simp only [Tree.inorder_node, List.count_append, List.count_cons, beq_iff_eq] at key
  simp only [rb_next, get_right_ok _ hn0, hmn]
  cases r with
  | nil =>
    simp only [Tree.ptr_nil, ne_eq, not_true_eq_false, if_false, Tree.inorder_nil,
      List.nil_append]
    exact climb_next_spec s fs n c.bit fuel hpath hn0 (by rw [hmn]) c.bit_le
      (fun a => by have := key a; omega) (by omega)
  | node ra rc rl rr =>
    have hra : ra ≠ 0 := by simp only [Owns] at hor; exact hor.1
    have := leftmost_spec s _ n fuel hor (by simp) (by omega)
    simp only [Tree.ptr_node] at this
    simp only [Tree.ptr_node, ne_eq, hra, not_false_eq_true, if_true, this]
    rw [headD_append_left (by simp)]

theorem split_unique {xs ys xs1 ys1 : List Nat} {n : Nat} (hnd : (xs ++ n :: ys).Nodup)
    (h : xs ++ n :: ys = xs1 ++ n :: ys1) : ys = ys1 := by
  induction xs generalizing xs1 with
  | nil =>
    cases xs1 with
    | nil => simpa using h
    | cons b xs1 =>
      simp only [List.nil_append, List.cons_append, List.cons.injEq] at h
      obtain ⟨rfl, h2⟩ := h
      simp only [List.nil_append, List.nodup_cons] at hnd
      exact absurd (h2 ▸ (by simp : n ∈ xs1 ++ n :: ys1)) hnd.1
  | cons a xs ih =>
    cases xs1 with
    | nil =>
      simp only [List.nil_append, List.cons_append, List.cons.injEq] at h
      obtain ⟨rfl, h2⟩ := h
      simp only [List.cons_append, List.nodup_cons] at hnd
      exact absurd (by simp : a ∈ xs ++ a :: ys) hnd.1
    | cons b xs1 =>
      simp only [List.cons_append, List.cons.injEq] at h
      simp only [List.cons_append, List.nodup_cons] at hnd
      exact ih hnd.2 h.2

theorem next_spec (s : rb_state) (t : Tree) (xs ys : List Nat) (n fuel : Nat)
    (hrep : Represents s t) (hsplit : t.inorder = xs ++ n :: ys) (hfuel : t.height + 1 ≤ fuel) :
    rb_next fuel s n = .ok (ys.headD 0) := by
  have hmem : n ∈ t.inorder := by rw [hsplit]; simp
  obtain ⟨fs, c, l, r, rfl⟩ := exists_path_of_mem hmem
  have h1 := next_at_path s fs n c l r fuel hrep hfuel
  have h2 : (plug fs (.node n c l r)).inorder =
      (pathBefore fs ++ l.inorder) ++ n :: (r.inorder ++ pathAfter fs) := by
    simp [inorder_plug]
  have hnd := hrep.2.2
  rw [hsplit] at hnd h2
  rw [h1, ← split_unique hnd h2]

theorem walk_next_spec (s : rb_state) (t : Tree) (fuel : Nat) (hrep : Represents s t)
    (hfuel : t.height + 1 ≤ fuel) (ys : List Nat) :
    ∀ xs, t.inorder = xs ++ ys →
      rb_walk (rb_next fuel s) (ys.length + 1) (ys.headD 0) = .ok ys := by
  induction ys with
  | nil => intro _ _; simp [rb_walk]
  | cons a ys ih =>
    intro xs hsplit
    have ha0 : a ≠ 0 := Owns_ptr_ne_zero hrep.2.1 a (by rw [hsplit]; simp)
    have h1 := next_spec s t xs ys a fuel hrep hsplit hfuel
    have h2 := ih (xs ++ [a]) (by simpa using hsplit)
    simp only [List.length_cons, List.headD_cons]
    rw [rb_walk]
    simp only [ha0, if_false, h1, h2]

theorem first_spec (s : rb_state) (t : Tree) (fuel : Nat) (hrep : Represents s t)
    (hfuel : t.height + 1 ≤ fuel) : rb_first fuel s = .ok (t.inorder.headD 0) := by
  obtain ⟨hroot, hown, -⟩ := hrep
  cases t with
  | nil => simp [rb_first, hroot]
  | node a c l r =>
    have ha0 : a ≠ 0 := by simp only [Owns] at hown; exact hown.1
    have := leftmost_spec s _ 0 fuel hown (by simp) (by omega)
    simp only [Tree.ptr_node] at this hroot
    simp only [rb_first, hroot, ha0, if_false, this]

theorem headD_eq_zero {s : rb_state} {t : Tree} (hrep : Represents s t) :
    t.inorder.headD 0 = 0 ↔ t = .nil := by
  cases t with
  | nil => simp
  | node a c l r =>
    have h := Owns_ptr_ne_zero hrep.2.1
    refine ⟨fun e => ?_, fun e => by cases e⟩
    exfalso
    cases hl : (Tree.node a c l r).inorder with
    | nil => simp at hl
    | cons b bs =>
      rw [hl] at e h
      exact h b (by simp) (by simpa using e)

theorem get_left_mirror (s : rb_state) (p : Nat) : get_left s.mirror p = get_right s p := by
  simp [get_left, get_right, rb_state.mirror]

theorem get_right_mirror (s : rb_state) (p : Nat) : get_right s.mirror p = get_left s p := by
  simp [get_left, get_right, rb_state.mirror]

theorem rb_parent_mirror (s : rb_state) (p : Nat) : rb_parent s.mirror p = rb_parent s p := by
  simp [rb_parent, get_pc, rb_state.mirror]

theorem rightmost_mirror (fuel : Nat) (s : rb_state) (n : Nat) :
    rb_rightmost fuel s n = rb_leftmost fuel s.mirror n := by
  induction fuel generalizing n with
  | zero => rfl
  | succ fuel ih => simp only [rb_rightmost, rb_leftmost, get_left_mirror, ih]

theorem climb_prev_mirror (fuel : Nat) (s : rb_state) (n : Nat) :
    rb_climb_prev fuel s n = rb_climb_next fuel s.mirror n := by
  induction fuel generalizing n with
  | zero => rfl
  | succ fuel ih =>
    simp only [rb_climb_prev, rb_climb_next, get_left_mirror, rb_parent_mirror, ih]

theorem last_mirror (fuel : Nat) (s : rb_state) : rb_last fuel s = rb_first fuel s.mirror := by
  simp only [rb_last, rb_first, rightmost_mirror]
  rfl

theorem prev_mirror (fuel : Nat) (s : rb_state) : rb_prev fuel s = rb_next fuel s.mirror := by
  funext cur
  simp only [rb_prev, rb_next, get_right_mirror, rightmost_mirror, climb_prev_mirror]

theorem Tree.mirror_inorder (t : Tree) : t.mirror.inorder = t.inorder.reverse := by
  induction t with
  | nil => rfl
  | node a c l r ihl ihr => simp [Tree.mirror, ihl, ihr]

theorem Tree.mirror_height (t : Tree) : t.mirror.height = t.height := by
  induction t with
  | nil => rfl
  | node a c l r ihl ihr => simp [Tree.mirror, Tree.height, ihl, ihr, Nat.max_comm]

theorem Tree.mirror_ptr (t : Tree) : t.mirror.ptr = t.ptr := by cases t <;> rfl

theorem Owns_mirror {s : rb_state} {q : Nat} {t : Tree} (ho : Owns s.mem q t) :
    Owns s.mirror.mem q t.mirror := by
  induction t generalizing q with
  | nil => trivial
  | node a c l r ihl ihr =>
    simp only [Owns] at ho
    obtain ⟨h0, h4, hlt, hm, hl, hr⟩ := ho
    simp only [Tree.mirror, Owns]
    exact ⟨h0, h4, hlt, by simp [rb_state.mirror, hm, Tree.mirror_ptr], ihr hr, ihl hl⟩

theorem Represents_mirror {s : rb_state} {t : Tree} (hrep : Represents s t) :
    Represents s.mirror t.mirror :=
  ⟨by rw [Tree.mirror_ptr]; exact hrep.1, Owns_mirror hrep.2.1,
    by rw [Tree.mirror_inorder]; exact List.nodup_reverse.mpr hrep.2.2⟩

/-- C21: on every well-formed tree, `rb_first` returns the first node in
in-order and the walk that applies `rb_next` until it returns null visits
exactly the in-order sequence, each node once; `rb_last` and `rb_prev` give
the reverse sequence; `rb_first` and `rb_last` return null exactly for the
empty tree (all with fuel for the height of the tree). -/
theorem rb_traversal_inorder (s : rb_state) (t : Tree) (fuel : Nat) (hrep : Represents s t)
    (hfuel : t.height + 1 ≤ fuel) :
    (∃ f, rb_first fuel s = .ok f ∧ (f = 0 ↔ t = .nil) ∧
      rb_walk (rb_next fuel s) (t.inorder.length + 1) f = .ok t.inorder) ∧
    (∃ l, rb_last fuel s = .ok l ∧ (l = 0 ↔ t = .nil) ∧
      rb_walk (rb_prev fuel s) (t.inorder.length + 1) l = .ok t.inorder.reverse) ∧
    t.inorder.Nodup ∧
    (∀ xs ys n, t.inorder = xs ++ n :: ys → rb_next fuel s n = .ok (ys.headD 0)) := by
  refine ⟨⟨_, first_spec s t fuel hrep hfuel, headD_eq_zero hrep,
    walk_next_spec s t fuel hrep hfuel t.inorder [] rfl⟩, ?_, hrep.2.2,
    fun xs ys n h => next_spec s t xs ys n fuel hrep h hfuel⟩
  have hm := Represents_mirror hrep
  have hf : t.mirror.height + 1 ≤ fuel := by rw [Tree.mirror_height]; exact hfuel
  have h1 := first_spec s.mirror t.mirror fuel hm hf
  have h2 := walk_next_spec s.mirror t.mirror fuel hm hf t.mirror.inorder [] rfl
  have h3 := headD_eq_zero hm
  rw [Tree.mirror_inorder] at h1 h2 h3
  refine ⟨_, by rw [last_mirror]; exact h1, ?_, ?_⟩
  · rw [h3]
    cases t <;> simp [Tree.mirror]
  · rw [prev_mirror]
    simpa using h2

/-- Instance of C21: the walks over `ex_state_three`. -/
theorem rb_traversal_inorder_witness :
    (Represents ex_state_three ex_tree_three ∧ ex_tree_three.height + 1 ≤ 3) ∧
    ((∃ f, rb_first 3 ex_state_three = .ok f ∧ (f = 0 ↔ ex_tree_three = .nil) ∧
      rb_walk (rb_next 3 ex_state_three) (ex_tree_three.inorder.length + 1) f =
        .ok ex_tree_three.inorder) ∧
    (∃ l, rb_last 3 ex_state_three = .ok l ∧ (l = 0 ↔ ex_tree_three = .nil) ∧
      rb_walk (rb_prev 3 ex_state_three) (ex_tree_three.inorder.length + 1) l =
        .ok ex_tree_three.inorder.reverse) ∧
    ex_tree_three.inorder.Nodup ∧
    (∀ xs ys n, ex_tree_three.inorder = xs ++ n :: ys →
      rb_next 3 ex_state_three n = .ok (ys.headD 0))) :=
  ⟨⟨by decide, by decide⟩,
    rb_traversal_inorder ex_state_three ex_tree_three 3 (by decide) (by decide)⟩

/-! ## Rotations, `rb_set_black` and the case steps of the removal rebalance on explicit states -/

/-- C38 fails on the code.  In `erase_state_five` the node `160` has the left
child `80`, whose subtrees are `40` (left) and `120` (right).
`__rb_rotate_right` at `160` with child `80` makes `160` the right child of `80`
but puts `40`, the left subtree of `80`, into the left slot of `160` and records
`160` as the parent of `40`; `120` is no longer reachable from `80` and `40` is
reached twice.  The mirror image of `__rb_rotate_left` on the mirrored state
puts `120` there and keeps the in-order sequence. -/
theorem rb_rotate_right_not_mirror :
    Represents erase_state_five erase_tree_five ∧
    inorder_walk erase_state_five 4 160 = [40, 80, 120, 160, 240] ∧
    (state_of (__rb_rotate_right erase_state_five 160 80 RB_BLACK)).map
      (fun s => [node_view s 160, node_view s 80, node_view s 40, node_view s 120,
        inorder_walk s 4 80]) =
      some [[0, 1, 40, 240], [160, 0, 40, 160], [160, 1, 0, 0], [80, 1, 0, 0],
        [40, 80, 40, 160, 240]] ∧
    (state_of ((__rb_rotate_left erase_state_five.mirror 160 80 RB_BLACK).map
        rb_state.mirror)).map
      (fun s => [node_view s 160, node_view s 80, node_view s 40, node_view s 120,
        inorder_walk s 4 80]) =
      some [[0, 1, 120, 240], [160, 0, 40, 160], [80, 1, 0, 0], [160, 1, 0, 0],
        [40, 80, 120, 160, 240]] := by
  decide!

/-- C35 (counterexample): in `erase_state_five` the node `240` is black with
parent `160` (word `161`) and the node `80` is red with parent `160` (word
`160`).  `rb_set_black` adds `RB_BLACK` to the word: on the red node `80` the
word becomes `161`, black with the same parent; on the already black node `240`
it becomes `162`, which reads as red (the parent is still `160`), and a second
call gives `163`, which is black again, so the call is not idempotent. -/
theorem rb_set_black_flips_black_node :
    node_view erase_state_five 240 = [160, 1, 0, 0] ∧
    node_view erase_state_five 80 = [160, 0, 40, 120] ∧
    (state_of (rb_set_black erase_state_five 80)).map
      (fun s => (s.mem 80).__rb_parent_color :: node_view s 80) =
      some [161, 160, 1, 40, 120] ∧
    (state_of (rb_set_black erase_state_five 240)).map
      (fun s => (s.mem 240).__rb_parent_color :: node_view s 240) =
      some [162, 160, 0, 0, 0] ∧
    (state_of (rb_set_black erase_state_five 240)).map
      (fun s => ((rb_is_black s 240).toOption, (rb_is_red s 240).toOption)) =
      some (some false, some true) ∧
    ((state_of (rb_set_black erase_state_five 240)).bind
        fun s => state_of (rb_set_black s 240)).map
      (fun s => (s.mem 240).__rb_parent_color :: node_view s 240) =
      some [163, 160, 1, 0, 0] := by
  decide!

theorem rb_parent_succ_even (pc : Nat) (h : pc % 2 = 0) : __rb_parent (pc + 1) = __rb_parent pc := by
  unfold __rb_parent
  apply Nat.eq_of_testBit_eq
  intro i
  rw [Nat.testBit_land, Nat.testBit_land]
  cases i with
  | zero => simp [Nat.testBit_zero]
  | succ i =>
    have e : (pc + 1) / 2 = pc / 2 := by omega
    rw [Nat.testBit_succ, Nat.testBit_succ pc, e]

/-- C35 (amended): for every red node whose word is a `uintptr_t` value, after
`rb_set_black(node)` the node is black (`rb_is_black` holds, `rb_is_red` does
not), `rb_parent(node)` reads the same pointer as before, and nothing but the
parent/colour word of `node` has been written. -/
theorem rb_set_black_red_node (s : rb_state) (node : Nat)
    (hlt : (s.mem node).__rb_parent_color < UINTPTR_MOD)
    (hred : rb_is_red s node = .ok true) :
    ∃ s1, rb_set_black s node = .ok s1 ∧
      rb_is_black s1 node = .ok true ∧ rb_is_red s1 node = .ok false ∧
      rb_parent s1 node = rb_parent s node ∧
      (s1.mem node).__rb_parent_color = (s.mem node).__rb_parent_color + RB_BLACK ∧
      (s1.mem node).rb_left = (s.mem node).rb_left ∧
      (s1.mem node).rb_right = (s.mem node).rb_right ∧
      s1.root = s.root ∧ ∀ a, a ≠ node → s1.mem a = s.mem a := by
  have h0 : node ≠ 0 := by
    intro h
    subst h
    simp [rb_is_red, get_pc, bind, Except.bind] at hred
  have hcol : __rb_color (s.mem node).__rb_parent_color = 0 := by
    simp only [rb_is_red, get_pc_ok s h0, ok_bind, pure_eq_ok, __rb_is_red, Except.ok.injEq,
      decide_eq_true_eq] at hred
    by_contra hne
    simp [hne] at hred
  have heven : (s.mem node).__rb_parent_color % 2 = 0 := by
    unfold __rb_color at hcol
    rw [Nat.and_one_is_mod] at hcol
    exact hcol
  have hwrap : ((s.mem node).__rb_parent_color + RB_BLACK) % UINTPTR_MOD =
      (s.mem node).__rb_parent_color + 1 := by
    unfold UINTPTR_MOD at *; unfold RB_BLACK; omega
  have hc1 : __rb_color ((s.mem node).__rb_parent_color + 1) = 1 := by
    unfold __rb_color
    rw [Nat.and_one_is_mod]
    omega
  refine ⟨s.wr_pc node ((s.mem node).__rb_parent_color + 1), ?_, ?_, ?_, ?_, ?_, ?_, ?_, rfl, ?_⟩
  · simp [rb_set_black, h0, hwrap]
  · simp [rb_is_black, __rb_is_black, h0, hc1]
  · simp [rb_is_red, __rb_is_red, h0, hc1]
  · simp [rb_parent, h0, rb_parent_succ_even _ heven]
  · simp [RB_BLACK]
  · simp
  · simp
  · intro a ha
    simp [ha]

/-- Instance of C35 (amended): the red node `80` of `erase_state_five`, whose
word is `160`. -/
theorem rb_set_black_red_node_witness :
    ((erase_state_five.mem 80).__rb_parent_color < UINTPTR_MOD ∧
      rb_is_red erase_state_five 80 = .ok true) ∧
    ∃ s1, rb_set_black erase_state_five 80 = .ok s1 ∧
      rb_is_black s1 80 = .ok true ∧ rb_is_red s1 80 = .ok false ∧
      rb_parent s1 80 = rb_parent erase_state_five 80 ∧
      (s1.mem 80).__rb_parent_color = (erase_state_five.mem 80).__rb_parent_color + RB_BLACK ∧
      (s1.mem 80).rb_left = (erase_state_five.mem 80).rb_left ∧
      (s1.mem 80).rb_right = (erase_state_five.mem 80).rb_right ∧
      s1.root = erase_state_five.root ∧ ∀ a, a ≠ 80 → s1.mem a = erase_state_five.mem a :=
  ⟨⟨by decide, rfl⟩, rb_set_black_red_node erase_state_five 80 (by decide) rfl⟩

/-- C31 fails on the code.  In the valid tree `erase_tree_case5_full`, erasing
the black leaf `80` leaves the root `160` short on the left with the black
sibling `240`, whose children `200` (tmp2) and `320` (tmp1) are red.  The
case-5 pass puts `240` into the root slot with the colour of `160` (black) and
makes `160` its black left child with `200` as right child, but `320` is still
red after the pass and `200` has been made black. -/
theorem rb_erase_case5_colours :
    Represents erase_state_case5_full erase_tree_case5_full ∧ erase_tree_case5_full.isRB ∧
    (state_of (rb_add_all 10 addr_less rb_empty [160, 80, 240, 200, 320])).map
      (fun s => decide (Represents s erase_tree_case5_full)) = some true ∧
    ((__rb_erase 2 erase_state_case5_full 80).toOption.map fun r =>
      [[r.2], node_view r.1 160, node_view r.1 240, node_view r.1 200, node_view r.1 320]) =
      some [[160], [0, 1, 0, 240], [160, 1, 200, 320], [240, 0, 0, 0], [240, 0, 0, 0]] ∧
    ((__rb_erase 2 erase_state_case5_full 80).toOption.bind fun r =>
      (next_state_of (__rb_erase_rebalance_iter r.1 0 r.2)).map fun s =>
        [[s.root], node_view s 240, node_view s 160, node_view s 200, node_view s 320]) =
      some [[240], [0, 1, 160, 320], [240, 1, 0, 200], [160, 1, 0, 0], [240, 0, 0, 0]] := by
  decide!

/-- C32 fails on the code.  `erase_state_case3` holds the valid tree with black
root `160` and black leaves `80` and `240` (the tree after adding 160, 80, 240,
40 and erasing 40).  Erasing `80` starts the rebalance at `160`; the first pass
is case 3 and asks for another pass with `node = 160`, which is the root, and
`parent = 0`; that pass reads the right child of the null parent, so `rb_erase`
ends in a null dereference. -/
theorem rb_erase_rebalance_reaches_root :
    Represents erase_state_case3 erase_tree_case3 ∧ erase_tree_case3.isRB ∧
    ((state_of (rb_add_all 10 addr_less rb_empty [160, 80, 240, 40])).bind
        fun s => state_of (rb_erase 10 s 40)).map
      (fun s => decide (Represents s erase_tree_case3)) = some true ∧
    ((__rb_erase 2 erase_state_case3 80).toOption.map fun r =>
      (r.2, next_of (__rb_erase_rebalance_iter r.1 0 r.2))) = some (160, some (160, 160, 0)) ∧
    ((__rb_erase 2 erase_state_case3 80).toOption.bind fun r =>
      (next_state_of (__rb_erase_rebalance_iter r.1 0 r.2)).map fun s =>
        fault_of (__rb_erase_rebalance_iter s 160 0)) = some (some .null_deref) ∧
    fault_of (rb_erase 10 erase_state_case3 80) = some .null_deref := by
  decide!

/-! ## Insertion: in-order sequence and parent links -/

theorem inorder_walk_owns {s : rb_state} {q : Nat} {t : Tree} (ho : Owns s.mem q t)
    (fuel : Nat) (hf : t.height ≤ fuel) : inorder_walk s fuel t.ptr = t.inorder := by
  induction t generalizing q fuel with
  | nil => cases fuel <;> simp [inorder_walk]
  | node a c l r ihl ihr =>
    simp only [Owns] at ho
    obtain ⟨h0, -, -, hm, hl, hr⟩ := ho
    cases fuel with
    | zero => simp [Tree.height] at hf
    | succ fuel =>
      simp only [Tree.height] at hf
      simp only [inorder_walk, Tree.ptr_node, h0, if_false, hm, Tree.inorder_node]
      rw [ihl hl fuel (by omega), ihr hr fuel (by omega)]

theorem Tree.ptr_mem_or {t : Tree} : t.ptr = 0 ∨ t.ptr ∈ t.inorder := by
  cases t with
  | nil => exact Or.inl rfl
  | node a c l r => right; simp [Tree.inorder_node]

theorem pathParent_mem (fs : List Frame) :
    pathParent fs = 0 ∨ pathParent fs ∈ pathBefore fs ++ pathAfter fs := by
  cases fs with
  | nil => exact Or.inl rfl
  | cons f fs => cases f <;> right <;> simp [pathParent, Frame.addr, pathBefore, pathAfter]

/-- What the memory holds at a node of a represented tree. -/
theorem represents_node {s : rb_state} {t : Tree} (hrep : Represents s t) {a : Nat}
    (ha : a ∈ t.inorder) :
    a ≠ 0 ∧ a % 4 = 0 ∧ a < UINTPTR_MOD ∧
      ∃ p b, (s.mem a).__rb_parent_color = p + b ∧ b ≤ 1 ∧ p % 4 = 0 ∧ p < UINTPTR_MOD ∧
        ((s.mem a).rb_left = 0 ∨ (s.mem a).rb_left ∈ t.inorder) ∧
        ((s.mem a).rb_right = 0 ∨ (s.mem a).rb_right ∈ t.inorder) ∧
        ((p = 0 ∧ s.root = a) ∨
          (p ≠ 0 ∧ p ∈ t.inorder ∧ ((s.mem p).rb_left = a ∨ (s.mem p).rb_right = a))) := by
  obtain ⟨fs, c, l, r, rfl⟩ := exists_path_of_mem ha
  obtain ⟨hpath, hown, -⟩ := (represents_plug s fs _).mp hrep
  obtain ⟨hp4, hplt⟩ := OwnsPath_parent hpath
  simp only [Owns] at hown
  obtain ⟨h0, h4, hlt, hm, -, -⟩ := hown
  refine ⟨h0, h4, hlt, pathParent fs, c.bit, by rw [hm], Color.bit_le c, hp4, hplt, ?_, ?_, ?_⟩
  · rw [hm]
    rcases @Tree.ptr_mem_or l with h | h
    · exact Or.inl h
    · right; simp [inorder_plug, Tree.inorder_node, h]
  · rw [hm]
    rcases @Tree.ptr_mem_or r with h | h
    · exact Or.inl h
    · right; simp [inorder_plug, Tree.inorder_node, h]
  · cases fs with
    | nil => left; exact ⟨rfl, by simpa [OwnsPath] using hpath⟩
    | cons f fs =>
      right
      cases f with
      | L g gc sib =>
        simp only [OwnsPath, Tree.ptr_node] at hpath
        obtain ⟨hg0, -, -, hmg, -, -⟩ := hpath
        refine ⟨hg0, ?_, Or.inl (by simp [pathParent, Frame.addr, hmg])⟩
        simp [inorder_plug, pathParent, Frame.addr, pathAfter]
      | R g gc sib =>
        simp only [OwnsPath, Tree.ptr_node] at hpath
        obtain ⟨hg0, -, -, hmg, -, -⟩ := hpath
        refine ⟨hg0, ?_, Or.inr (by simp [pathParent, Frame.addr, hmg])⟩
        simp [inorder_plug, pathParent, Frame.addr, pathBefore]

theorem represents_root {s : rb_state} {t : Tree} (hrep : Represents s t) {a : Nat}
    (ha : a ∈ t.inorder) (hroot : a = s.root) :
    __rb_parent (s.mem a).__rb_parent_color = 0 := by
  obtain ⟨h1, h2, -⟩ := hrep
  cases t with
  | nil => simp at ha
  | node x c l r =>
    simp only [Tree.ptr_node] at h1
    simp only [Owns] at h2
    obtain ⟨-, -, -, hm, -, -⟩ := h2
    rw [hroot, h1, hm]
    exact rb_parent_mask 0 c.bit (by decide) (by decide) (Color.bit_le c)

theorem represents_parentLinked {s : rb_state} {t : Tree} (hrep : Represents s t) :
    ParentLinked s t.inorder := by
  intro a ha
  obtain ⟨h0, -, -, p, b, hpc, hb, hp4, hplt, -, -, hpar⟩ := represents_node hrep ha
  have hp : __rb_parent (s.mem a).__rb_parent_color = p := by
    rw [hpc]; exact rb_parent_mask p b hp4 hplt hb
  refine ⟨h0, represents_root hrep ha, fun hne => ?_⟩
  rcases hpar with ⟨-, h⟩ | ⟨-, h1, h2⟩
  · exact absurd h.symm hne
  · rw [hp]; exact ⟨h1, h2⟩

theorem represents_root_unique {s : rb_state} {t : Tree} (hrep : Represents s t) {a : Nat}
    (ha : a ∈ t.inorder) :
    rb_parent s a = .ok 0 ↔ a = s.root := by
  obtain ⟨h0, -, -, p, b, hpc, hb, hp4, hplt, -, -, hpar⟩ := represents_node hrep ha
  have hp : __rb_parent (s.mem a).__rb_parent_color = p := by
    rw [hpc]; exact rb_parent_mask p b hp4 hplt hb
  have hrd : rb_parent s a = .ok p := by
    simp [rb_parent, get_pc, h0, hp, pure, Except.pure, bind, Except.bind]
  rw [hrd]
  constructor
  · intro h
    have hp0 : p = 0 := by injection h
    rcases hpar with ⟨-, h⟩ | ⟨h, -⟩
    · exact h.symm
    · exact absurd hp0 h
  · intro h
    have := represents_root hrep ha h
    rw [hp] at this
    rw [this]

/-- C36: on a valid red-black tree, after a fresh node has been linked by
`rb_link_node` as a red leaf into an empty child slot (any empty slot, ordered
or not), `rb_insert_color` returns a tree whose in-order sequence is the one
the tree had just after `rb_link_node`; the two states hold the same set of
nodes, and reading the nodes through the child pointers from the root handle
gives the same sequence before and after. -/
theorem rb_insert_color_keeps_inorder (s : rb_state) (t : Tree) (node parent : Nat)
    (link : rb_link) (fuel : Nat) (hrep : Represents s t) (hrb : t.isRB)
    (hnode : node ≠ 0 ∧ node % 4 = 0 ∧ node < UINTPTR_MOD ∧ node ∉ t.inorder)
    (hslot : EmptySlot s t parent link) (hfuel : t.height / 2 + 1 ≤ fuel) :
    ∃ s1 s2 t1 t2, rb_link_node s node parent link = .ok s1 ∧ Represents s1 t1 ∧
      rb_insert_color fuel s1 node = .ok s2 ∧ Represents s2 t2 ∧
      t2.inorder = t1.inorder ∧ (∀ a, a ∈ t2.inorder ↔ a ∈ t1.inorder) ∧
      (∀ k, t1.height ≤ k → t2.height ≤ k →
        inorder_walk s2 k s2.root = inorder_walk s1 k s1.root ∧
        inorder_walk s1 k s1.root = t1.inorder) := by
  obtain ⟨s1, s2, t2, fs, -, -, -, h1, h2, h3, h4, -, h5⟩ :=
    rb_insert_color_spec s t node parent link fuel hrep hrb hnode hslot hfuel
  have h6 : t2.inorder = (plug fs (.node node .red .nil .nil)).inorder := by
    rw [h5, inorder_plug]; simp
  refine ⟨s1, s2, _, t2, h1, h2, h3, h4, h6, fun a => by rw [h6], fun k hk1 hk2 => ?_⟩
  have e1 := inorder_walk_owns h2.2.1 k hk1
  have e2 := inorder_walk_owns h4.2.1 k hk2
  rw [← h2.1] at e1
  rw [← h4.1] at e2
  exact ⟨by rw [e1, e2, h6], e1⟩

/-- Instance of C36: node `20` linked below the red leaf `40` of `ex_state_two`. -/
theorem rb_insert_color_keeps_inorder_witness :
    (Represents ex_state_two ex_tree_two ∧ ex_tree_two.isRB ∧
      ((20 : Nat) ≠ 0 ∧ 20 % 4 = 0 ∧ 20 < UINTPTR_MOD ∧ 20 ∉ ex_tree_two.inorder) ∧
      EmptySlot ex_state_two ex_tree_two 40 (.left 40) ∧ ex_tree_two.height / 2 + 1 ≤ 2) ∧
    ∃ s1 s2 t1 t2, rb_link_node ex_state_two 20 40 (.left 40) = .ok s1 ∧ Represents s1 t1 ∧
      rb_insert_color 2 s1 20 = .ok s2 ∧ Represents s2 t2 ∧
      t2.inorder = t1.inorder ∧ (∀ a, a ∈ t2.inorder ↔ a ∈ t1.inorder) ∧
      (∀ k, t1.height ≤ k → t2.height ≤ k →
        inorder_walk s2 k s2.root = inorder_walk s1 k s1.root ∧
        inorder_walk s1 k s1.root = t1.inorder) :=
  ⟨⟨by decide, by decide, by decide, by decide, by decide⟩,
    rb_insert_color_keeps_inorder ex_state_two ex_tree_two 20 40 (.left 40) 2
      (by decide) (by decide) (by decide) (by decide) (by decide)⟩

/-- C37: when the state holds a valid red-black tree with consistent parent
links, `rb_add` of a fresh node returns a state in which the parent links of
all nodes (the old ones and the new one) are consistent again: the node the
root handle points to has a null parent, every other node's `rb_parent` is a
node of the tree that has it as a child, and a node of the tree has a null
`rb_parent` exactly when it is the one the root handle points to. -/
theorem rb_add_parent_links (s : rb_state) (t : Tree) (n : Nat) (less : Nat → Nat → Bool)
    (fuel : Nat) (hrep : Represents s t) (hrb : t.isRB)
    (hnode : n ≠ 0 ∧ n % 4 = 0 ∧ n < UINTPTR_MOD ∧ n ∉ t.inorder)
    (hfuel : t.height + 1 ≤ fuel) :
    ParentLinked s t.inorder ∧
    ∃ s2 nodes, rb_add fuel s n less = .ok s2 ∧ (∀ a, a ∈ nodes ↔ a = n ∨ a ∈ t.inorder) ∧
      ParentLinked s2 nodes ∧ s2.root ∈ nodes ∧
      (∀ a ∈ nodes, rb_parent s2 a = .ok 0 ↔ a = s2.root) := by
  obtain ⟨s2, t2, h1, h2, -, -, h3, h4⟩ := rb_add_spec s t n less fuel hrep hrb hnode hfuel
  refine ⟨represents_parentLinked hrep, s2, t2.inorder, h1, fun a => ?_,
    represents_parentLinked h2, ?_, fun a ha => represents_root_unique h2 ha⟩
  · rw [h4, h3]
    simp only [List.mem_append, List.mem_cons]
    tauto
  · rw [h2.1]
    rcases @Tree.ptr_mem_or t2 with h | h
    · have : t2 = .nil := Owns_ptr_eq_zero h2.2.1 h
      rw [this] at h4
      simp at h4
    · exact h

/-- Instance of C37: adding `20` to `ex_state_two` under the address order. -/
theorem rb_add_parent_links_witness :
    (Represents ex_state_two ex_tree_two ∧ ex_tree_two.isRB ∧
      ((20 : Nat) ≠ 0 ∧ 20 % 4 = 0 ∧ 20 < UINTPTR_MOD ∧ 20 ∉ ex_tree_two.inorder) ∧
      ex_tree_two.height + 1 ≤ 3) ∧
    (ParentLinked ex_state_two ex_tree_two.inorder ∧
    ∃ s2 nodes, rb_add 3 ex_state_two 20 addr_less = .ok s2 ∧
      (∀ a, a ∈ nodes ↔ a = 20 ∨ a ∈ ex_tree_two.inorder) ∧
      ParentLinked s2 nodes ∧ s2.root ∈ nodes ∧
      (∀ a ∈ nodes, rb_parent s2 a = .ok 0 ↔ a = s2.root)) :=
  ⟨⟨by decide, by decide, by decide, by decide⟩,
    rb_add_parent_links ex_state_two ex_tree_two 20 addr_less 3
      (by decide) (by decide) (by decide) (by decide)⟩

/-! ## Insertion: safety of the loop -/

theorem ins_iter_next_shape {fs fs1 : List Frame} {t t1 : Tree}
    (h : ins_iter fs t = some (.next (fs1, t1))) :
    ∃ f1 f2, fs = f1 :: f2 :: fs1 ∧ f1.color = .red ∧ t1.ptr = f2.addr := by
  cases t with
  | nil => simp [ins_iter] at h
  | node n c l r =>
    cases fs with
    | nil => simp [ins_iter] at h
    | cons f fs =>
      rcases f with ⟨p, _ | _, sib⟩ | ⟨p, _ | _, sib⟩
      · cases fs with
        | nil => simp [ins_iter] at h
        | cons f2 fs =>
          rcases f2 with ⟨g, gc, u⟩ | ⟨g, gc, u⟩ <;>
            (rcases u with _ | ⟨ua, _ | _, ul, ur⟩ <;> simp [ins_iter] at h) <;>
            (obtain ⟨rfl, rfl⟩ := h; exact ⟨_, _, rfl, rfl, rfl⟩)
      · simp [ins_iter] at h
      · cases fs with
        | nil => simp [ins_iter] at h
        | cons f2 fs =>
          rcases f2 with ⟨g, gc, u⟩ | ⟨g, gc, u⟩ <;>
            (rcases u with _ | ⟨ua, _ | _, ul, ur⟩ <;> simp [ins_iter] at h) <;>
            (obtain ⟨rfl, rfl⟩ := h; exact ⟨_, _, rfl, rfl, rfl⟩)
      · simp [ins_iter] at h

theorem frame_word {s : rb_state} {h : Nat} {f : Frame} {fs : List Frame}
    (ho : OwnsPath s h (f :: fs)) :
    f.addr ≠ 0 ∧ (s.mem f.addr).__rb_parent_color = pathParent fs + f.color.bit ∧
      OwnsPath s f.addr fs := by
  cases f <;> simp only [OwnsPath] at ho <;>
    exact ⟨ho.1, by simp [Frame.addr, Frame.color, ho.2.2.2.1], ho.2.2.2.2.2⟩

/-- What holds at the start of a pass of the insertion loop. -/
theorem insert_pass_facts {s : rb_state} {fs : List Frame} {t : Tree}
    (hrep : Represents s (plug fs t)) (hinv : InsInv fs t) :
    rb_is_red s t.ptr = .ok true ∧
      (pathParent fs ≠ 0 → rb_is_red s (pathParent fs) = .ok true →
        ∃ g, rb_red_parent s (pathParent fs) = .ok g ∧ g ≠ 0 ∧
          fs.tail.head?.map Frame.addr = some g) := by
  obtain ⟨hc, -, -, hp⟩ := hinv
  obtain ⟨hpath, hown, -⟩ := (represents_plug s fs t).mp hrep
  obtain ⟨hp4, hplt⟩ := OwnsPath_parent hpath
  cases t with
  | nil => simp at hc
  | node n c l r =>
    simp only [Tree.color_node] at hc
    subst hc
    simp only [Owns, Color.bit_red, Nat.add_zero] at hown
    obtain ⟨hn0, -, -, hmn, -, -⟩ := hown
    refine ⟨by simp [rb_is_red, __rb_is_red, hn0, hmn, rb_color_aligned hp4], ?_⟩
    intro hpar hred
    cases fs with
    | nil => simp at hpar
    | cons f fs =>
      obtain ⟨hf0, hmf, hpath1⟩ := frame_word hpath
      obtain ⟨hg4, hglt⟩ := OwnsPath_parent hpath1
      have hfc : f.color = .red := by
        cases hcol : f.color with
        | red => rfl
        | black =>
          simp [rb_is_red, __rb_is_red, hf0, hmf, hcol, rb_color_mask _ 1 hg4 (by omega)] at hred
      simp only [PathRB, hfc, Color.bit_red, Nat.add_zero] at hp
      obtain ⟨-, -, -, -, hp1⟩ := hp
      cases fs with
      | nil => simp [PathRB] at hp1
      | cons f2 fs =>
        obtain ⟨hg0, -, -⟩ := frame_word hpath1
        refine ⟨f2.addr, ?_, hg0, by simp⟩
        simp [rb_red_parent, hf0, hmf, hfc]

theorem insert_passes_spec {σ : Type} (hook : rb_state → Nat → Nat → σ → σ) (fuel : Nat)
    (s : rb_state) (aug : σ) (fs : List Frame) (t : Tree) (hrep : Represents s (plug fs t))
    (hinv : InsInv fs t) :
    (__rb_insert_passes hook fuel s aug t.ptr (pathParent fs)).length ≤ fs.length / 2 + 1 ∧
      (∀ e ∈ __rb_insert_passes hook fuel s aug t.ptr (pathParent fs),
        rb_is_red e.1 e.2.1 = .ok true ∧
          (e.2.2 ≠ 0 → rb_is_red e.1 e.2.2 = .ok true →
            ∃ g, rb_red_parent e.1 e.2.2 = .ok g ∧ g ≠ 0)) ∧
      List.Chain' (fun e e1 => rb_red_parent e.1 e.2.2 = .ok e1.2.1)
        (__rb_insert_passes hook fuel s aug t.ptr (pathParent fs)) := by
  induction fuel generalizing s aug fs t with
  | zero => simp [__rb_insert_passes]
  | succ fuel ih =>
    have hfacts := insert_pass_facts hrep hinv
    have href := insert_iter_refines hook s aug fs t hrep
    have hstep := ins_iter_inv fs t hinv
    have hhere : rb_is_red s t.ptr = .ok true ∧
        (pathParent fs ≠ 0 → rb_is_red s (pathParent fs) = .ok true →
          ∃ g, rb_red_parent s (pathParent fs) = .ok g ∧ g ≠ 0) :=
      ⟨hfacts.1, fun h1 h2 => by
        obtain ⟨g, hg, hg0, -⟩ := hfacts.2 h1 h2
        exact ⟨g, hg, hg0⟩⟩
    cases hit : ins_iter fs t with
    | none => simp [hit] at hstep
    | some r =>
      cases r with
      | done T =>
        simp only [hit] at href
        obtain ⟨s1, aug1, h1, -⟩ := href
        simp only [__rb_insert_passes, h1, List.length_singleton, List.mem_singleton,
          List.chain'_singleton, and_true]
        exact ⟨by omega, fun e he => by subst he; exact hhere⟩
      | next a =>
        obtain ⟨fs1, t1⟩ := a
        simp only [hit] at href hstep
        obtain ⟨s1, aug1, h1, hrep1⟩ := href
        obtain ⟨hinv1, hlen⟩ := hstep
        obtain ⟨ih1, ih2, ih3⟩ := ih s1 aug1 fs1 t1 hrep1 hinv1
        obtain ⟨f1, f2, hfs, hf1, hptr⟩ := ins_iter_next_shape hit
        have hgp : rb_red_parent s (pathParent fs) = .ok t1.ptr := by
          obtain ⟨hpath, -, -⟩ := (represents_plug s fs t).mp hrep
          rw [hfs] at hpath ⊢
          obtain ⟨hf0, hmf, -⟩ := frame_word hpath
          simp [rb_red_parent, hf0, hmf, hf1, hptr]
        simp only [__rb_insert_passes, h1, List.length_cons, List.mem_cons]
        refine ⟨by omega, fun e he => ?_, ?_⟩
        · rcases he with rfl | he
          · exact hhere
          · exact ih2 e he
        · rw [List.chain'_cons']
          refine ⟨fun y hy => ?_, ih3⟩
          cases fuel with
          | zero => simp [__rb_insert_passes] at hy
          | succ k =>
            simp only [__rb_insert_passes, List.head?_cons, Option.mem_def,
              Option.some.injEq] at hy
            subst hy
            exact hgp

/-- C34: on a valid red-black tree, after a fresh node has been linked by
`rb_link_node` as a red leaf into an empty child slot, `rb_insert_color`
returns without a fault; its loop makes at most `height / 2 + 1` passes, and
from one pass to the next `node` becomes the grandparent of the former `node`
(what `rb_red_parent(parent)` reads); at the start of every pass `node` is red,
and whenever `parent` is non-null and red, the grandparent that
`rb_red_parent(parent)` reads is a non-null node. -/
theorem rb_insert_color_safe (s : rb_state) (t : Tree) (node parent : Nat)
    (link : rb_link) (fuel : Nat) (hrep : Represents s t) (hrb : t.isRB)
    (hnode : node ≠ 0 ∧ node % 4 = 0 ∧ node < UINTPTR_MOD ∧ node ∉ t.inorder)
    (hslot : EmptySlot s t parent link) (hfuel : t.height / 2 + 1 ≤ fuel) :
    ∃ s1 s2, rb_link_node s node parent link = .ok s1 ∧
      rb_insert_color fuel s1 node = .ok s2 ∧
      (rb_insert_color_passes fuel s1 node).head? = some (s1, node, parent) ∧
      (rb_insert_color_passes fuel s1 node).length ≤ t.height / 2 + 1 ∧
      (∀ e ∈ rb_insert_color_passes fuel s1 node,
        rb_is_red e.1 e.2.1 = .ok true ∧
          (e.2.2 ≠ 0 → rb_is_red e.1 e.2.2 = .ok true →
            ∃ g, rb_red_parent e.1 e.2.2 = .ok g ∧ g ≠ 0)) ∧
      List.Chain' (fun e e1 => rb_red_parent e.1 e.2.2 = .ok e1.2.1)
        (rb_insert_color_passes fuel s1 node) := by
  obtain ⟨s1, s2, t2, fs, ht, hpar, -, h1, h2, h3, -, -, -⟩ :=
    rb_insert_color_spec s t node parent link fuel hrep hrb hnode hslot hfuel
  have hinv : InsInv fs (.node node .red .nil .nil) := by
    rw [ht] at hrb
    obtain ⟨hp, -, -⟩ := isRB_plug hrb
    refine ⟨rfl, ?_, ?_, ?_⟩
    · simp [Tree.noRedRed]
    · simp [Tree.balanced]
    · simpa [Tree.bh] using hp
  have hlen : fs.length / 2 + 1 ≤ t.height / 2 + 1 := by
    have := height_plug fs .nil
    rw [← ht] at this
    omega
  obtain ⟨hpath, hown, -⟩ := (represents_plug s1 fs _).mp h2
  simp only [Owns, Color.bit_red, Nat.add_zero] at hown
  obtain ⟨hn0, -, -, hmn, -, -⟩ := hown
  have hpasses : rb_insert_color_passes fuel s1 node =
      __rb_insert_passes augment_rotate fuel s1 () node (pathParent fs) := by
    simp [rb_insert_color_passes, rb_red_parent, hn0, hmn]
  obtain ⟨p1, p2, p3⟩ := insert_passes_spec augment_rotate fuel s1 () fs _ h2 hinv
  simp only [Tree.ptr_node] at p1 p2 p3
  refine ⟨s1, s2, h1, h3, ?_, ?_, ?_, ?_⟩ <;> rw [hpasses]
  rotate_left
  · omega
  · exact p2
  · exact p3
  obtain ⟨k, rfl⟩ : ∃ k, fuel = k + 1 := ⟨fuel - 1, by omega⟩
  simp [__rb_insert_passes, hpar]

/-- Instance of C34: node `20` linked below the red leaf `40` of `ex_state_two`. -/
theorem rb_insert_color_safe_witness :
    (Represents ex_state_two ex_tree_two ∧ ex_tree_two.isRB ∧
      ((20 : Nat) ≠ 0 ∧ 20 % 4 = 0 ∧ 20 < UINTPTR_MOD ∧ 20 ∉ ex_tree_two.inorder) ∧
      EmptySlot ex_state_two ex_tree_two 40 (.left 40) ∧ ex_tree_two.height / 2 + 1 ≤ 2) ∧
    ∃ s1 s2, rb_link_node ex_state_two 20 40 (.left 40) = .ok s1 ∧
      rb_insert_color 2 s1 20 = .ok s2 ∧
      (rb_insert_color_passes 2 s1 20).head? = some (s1, 20, 40) ∧
      (rb_insert_color_passes 2 s1 20).length ≤ ex_tree_two.height / 2 + 1 ∧
      (∀ e ∈ rb_insert_color_passes 2 s1 20,
        rb_is_red e.1 e.2.1 = .ok true ∧
          (e.2.2 ≠ 0 → rb_is_red e.1 e.2.2 = .ok true →
            ∃ g, rb_red_parent e.1 e.2.2 = .ok g ∧ g ≠ 0)) ∧
      List.Chain' (fun e e1 => rb_red_parent e.1 e.2.2 = .ok e1.2.1)
        (rb_insert_color_passes 2 s1 20) :=
  ⟨⟨by decide, by decide, by decide, by decide, by decide⟩,
    rb_insert_color_safe ex_state_two ex_tree_two 20 40 (.left 40) 2
      (by decide) (by decide) (by decide) (by decide) (by decide)⟩

/-! ## Removal: the rebalance loop writes only nodes of the tree -/

theorem ensures_bind {α β : Type} {P : β → Prop} (Q : α → Prop) {x : Except Fault α}
    {f : α → Except Fault β} (hx : Ensures Q x) (hf : ∀ a, Q a → Ensures P (f a)) :
    Ensures P (x >>= f) := by
  cases x with
  | error e => trivial
  | ok a => exact hf a hx

theorem ensures_ok {α : Type} {P : α → Prop} {a : α} (h : P a) :
    Ensures P (pure a : Except Fault α) := h

theorem ensures_self {α : Type} (x : Except Fault α) : Ensures (fun a => x = .ok a) x := by
  cases x with
  | error e => trivial
  | ok a => exact rfl

theorem ensures_ite {α : Type} {P : α → Prop} {c : Prop} [Decidable c]
    {x y : Except Fault α} (hx : c → Ensures P x) (hy : ¬ c → Ensures P y) :
    Ensures P (if c then x else y) := by
  split
  · exact hx ‹_›
  · exact hy ‹_›

theorem within_aligned {A : Nat → Prop} {m0 : Nat → rb_node} {s : rb_state}
    (hw : Within A m0 s) {p : Nat} (hp : p = 0 ∨ A p) :
    p % 4 = 0 ∧ p < UINTPTR_MOD := by
  rcases hp with rfl | hp
  · simp [UINTPTR_MOD]
  · exact ⟨(hw.1 p hp).2.1, (hw.1 p hp).2.2.1⟩

theorem get_left_ens {A : Nat → Prop} {m0 : Nat → rb_node} {s : rb_state}
    (hw : Within A m0 s) {p : Nat} (hp : p = 0 ∨ A p) :
    Ensures (fun v => v = 0 ∨ A v) (get_left s p) := by
  unfold get_left
  split
  · trivial
  · rcases hp with rfl | hp
    · contradiction
    · exact (hw.1 p hp).2.2.2.2.1

theorem get_right_ens {A : Nat → Prop} {m0 : Nat → rb_node} {s : rb_state}
    (hw : Within A m0 s) {p : Nat} (hp : p = 0 ∨ A p) :
    Ensures (fun v => v = 0 ∨ A v) (get_right s p) := by
  unfold get_right
  split
  · trivial
  · rcases hp with rfl | hp
    · contradiction
    · exact (hw.1 p hp).2.2.2.2.2

theorem get_pc_ens {A : Nat → Prop} {m0 : Nat → rb_node} {s : rb_state}
    (hw : Within A m0 s) {p : Nat} (hp : p = 0 ∨ A p) :
    Ensures (fun v => ∃ q b, v = q + b ∧ b ≤ 1 ∧ (q = 0 ∨ A q)) (get_pc s p) := by
  unfold get_pc
  split
  · trivial
  · rcases hp with rfl | hp
    · contradiction
    · exact (hw.1 p hp).2.2.2.1

theorem rb_parent_ens {A : Nat → Prop} {m0 : Nat → rb_node} {s : rb_state}
    (hw : Within A m0 s) {p : Nat} (hp : p = 0 ∨ A p) :
    Ensures (fun v => v = 0 ∨ A v) (rb_parent s p) := by
  unfold rb_parent
  refine ensures_bind _ (get_pc_ens hw hp) fun pc hpc => ?_
  obtain ⟨q, b, rfl, hb, hq⟩ := hpc
  obtain ⟨h4, hlt⟩ := within_aligned hw hq
  rw [rb_parent_mask q b h4 hlt hb]
  exact hq

theorem set_left_ens {A : Nat → Prop} {m0 : Nat → rb_node} {s : rb_state}
    (hw : Within A m0 s) {p v : Nat} (hp : p = 0 ∨ A p) (hv : v = 0 ∨ A v) :
    Ensures (Within A m0) (set_left s p v) := by
  unfold set_left
  split
  · trivial
  · rcases hp with rfl | hp
    · contradiction
    · refine ⟨fun a ha => ?_, fun a ha => ?_⟩
      · obtain ⟨h1, h2, h3, h4, h5, h6⟩ := hw.1 a ha
        refine ⟨h1, h2, h3, ?_, ?_, ?_⟩ <;>
          (simp only [mem_wr_left]; split <;> simp_all)
      · have : a ≠ p := fun e => ha (e ▸ hp)
        simp [this, hw.2 a ha]

theorem set_right_ens {A : Nat → Prop} {m0 : Nat → rb_node} {s : rb_state}
    (hw : Within A m0 s) {p v : Nat} (hp : p = 0 ∨ A p) (hv : v = 0 ∨ A v) :
    Ensures (Within A m0) (set_right s p v) := by
  unfold set_right
  split
  · trivial
  · rcases hp with rfl | hp
    · contradiction
    · refine ⟨fun a ha => ?_, fun a ha => ?_⟩
      · obtain ⟨h1, h2, h3, h4, h5, h6⟩ := hw.1 a ha
        refine ⟨h1, h2, h3, ?_, ?_, ?_⟩ <;>
          (simp only [mem_wr_right]; split <;> simp_all)
      · have : a ≠ p := fun e => ha (e ▸ hp)
        simp [this, hw.2 a ha]

theorem set_pc_ens {A : Nat → Prop} {m0 : Nat → rb_node} {s : rb_state}
    (hw : Within A m0 s) {p v : Nat} (hp : p = 0 ∨ A p)
    (hv : ∃ q b, v = q + b ∧ b ≤ 1 ∧ (q = 0 ∨ A q)) :
    Ensures (Within A m0) (set_pc s p v) := by
  unfold set_pc
  split
  · trivial
  · rcases hp with rfl | hp
    · contradiction
    · refine ⟨fun a ha => ?_, fun a ha => ?_⟩
      · obtain ⟨h1, h2, h3, h4, h5, h6⟩ := hw.1 a ha
        refine ⟨h1, h2, h3, ?_, ?_, ?_⟩ <;>
          (simp only [mem_wr_pc]; split <;> simp_all)
      · have : a ≠ p := fun e => ha (e ▸ hp)
        simp [this, hw.2 a ha]

theorem rb_set_parent_color_ens {A : Nat → Prop} {m0 : Nat → rb_node} {s : rb_state}
    (hw : Within A m0 s) {node parent color : Nat}
    (hn : node = 0 ∨ A node) (hp : parent = 0 ∨ A parent) (hc : color ≤ 1) :
    Ensures (Within A m0) (rb_set_parent_color s node parent color) := by
  unfold rb_set_parent_color
  obtain ⟨h4, hlt⟩ := within_aligned hw hp
  have : (parent + color) % UINTPTR_MOD = parent + color := by
    unfold UINTPTR_MOD at *; omega
  rw [this]
  exact set_pc_ens hw hn ⟨parent, color, rfl, hc, hp⟩

theorem rb_set_black_ens {A : Nat → Prop} {m0 : Nat → rb_node} {s : rb_state}
    (hw : Within A m0 s) {node : Nat} (hn : node = 0 ∨ A node)
    (hred : rb_is_red s node = .ok true) :
    Ensures (Within A m0) (rb_set_black s node) := by
  unfold rb_set_black
  by_cases h0 : node = 0
  · subst h0; trivial
  · have hA : A node := hn.resolve_left h0
    obtain ⟨-, -, -, ⟨q, b, hpc, hb, hq⟩, -, -⟩ := hw.1 node hA
    obtain ⟨h4, hlt⟩ := within_aligned hw hq
    have hb0 : b = 0 := by
      simp only [rb_is_red, get_pc_ok s h0, ok_bind, pure_eq_ok, __rb_is_red, hpc,
        rb_color_mask q b h4 hb, Except.ok.injEq, decide_eq_true_eq] at hred
      by_contra hne
      simp [hne] at hred
    subst hb0
    simp only [get_pc_ok s h0, ok_bind, hpc, Nat.add_zero, uintptr_add_black h4 hlt]
    exact set_pc_ens hw hn ⟨q, 1, rfl, by omega, hq⟩

theorem rotate_left_ens {A : Nat → Prop} {m0 : Nat → rb_node} {s : rb_state}
    (hw : Within A m0 s) {parent child color : Nat}
    (hp : parent = 0 ∨ A parent) (hc : child = 0 ∨ A child) (hcol : color ≤ 1) :
    Ensures (Within A m0) (__rb_rotate_left s parent child color) := by
  unfold __rb_rotate_left
  refine ensures_bind _ (get_left_ens hw hc) fun cl hcl => ?_
  refine ensures_bind _ (set_right_ens hw hp hcl) fun s1 hw1 => ?_
  refine ensures_bind _ (set_left_ens hw1 hc hp) fun s2 hw2 => ?_
  exact ensures_ite (fun _ => rb_set_parent_color_ens hw2 hcl hp hcol) (fun _ => ensures_ok hw2)

theorem rotate_right_ens {A : Nat → Prop} {m0 : Nat → rb_node} {s : rb_state}
    (hw : Within A m0 s) {parent child color : Nat}
    (hp : parent = 0 ∨ A parent) (hc : child = 0 ∨ A child) (hcol : color ≤ 1) :
    Ensures (Within A m0) (__rb_rotate_right s parent child color) := by
  unfold __rb_rotate_right
  refine ensures_bind _ (get_left_ens hw hc) fun cr hcr => ?_
  refine ensures_bind _ (set_left_ens hw hp hcr) fun s1 hw1 => ?_
  refine ensures_bind _ (set_right_ens hw1 hc hp) fun s2 hw2 => ?_
  exact ensures_ite (fun _ => rb_set_parent_color_ens hw2 hcr hp hcol) (fun _ => ensures_ok hw2)

theorem change_child_ens {A : Nat → Prop} {m0 : Nat → rb_node} {s : rb_state}
    (hw : Within A m0 s) {old new parent : Nat}
    (hn : new = 0 ∨ A new) (hp : parent = 0 ∨ A parent) :
    Ensures (Within A m0) (__rb_change_child s old new parent) := by
  unfold __rb_change_child
  refine ensures_ite (fun _ => ensures_ok ⟨hw.1, hw.2⟩) fun _ => ?_
  refine ensures_bind _ (get_left_ens hw hp) fun l _ => ?_
  exact ensures_ite (fun _ => set_left_ens hw hp hn) (fun _ => set_right_ens hw hp hn)

theorem rotate_set_parent_ens {A : Nat → Prop} {m0 : Nat → rb_node} {s : rb_state}
    (hw : Within A m0 s) {old new color : Nat}
    (ho : old = 0 ∨ A old) (hn : new = 0 ∨ A new) (hcol : color ≤ 1) :
    Ensures (Within A m0) (__rb_rotate_set_parent s old new color) := by
  unfold __rb_rotate_set_parent
  refine ensures_bind _ (rb_parent_ens hw ho) fun parent hpar => ?_
  refine ensures_bind _ (get_pc_ens hw ho) fun pc hpc => ?_
  refine ensures_bind _ (set_pc_ens hw hn hpc) fun s1 hw1 => ?_
  refine ensures_bind _ (rb_set_parent_color_ens hw1 ho hn hcol) fun s2 hw2 => ?_
  exact change_child_ens hw2 hn hpar



theorem ensures_any {α : Type} (x : Except Fault α) : Ensures (fun _ => True) x := by
  cases x <;> trivial

theorem rebalance_case2_ens {A : Nat → Prop} {m0 : Nat → rb_node} {s : rb_state}
    (hw : Within A m0 s) {siblings parent : Nat}
    (hsib : siblings = 0 ∨ A siblings) (hp : parent = 0 ∨ A parent) :
    Ensures (WithinCtl A m0) (do
      let s ← rb_set_parent_color s siblings parent RB_RED
      let pred ← rb_is_red s parent
      if pred then do
        let s ← rb_set_black s parent
        pure (.done s)
      else do
        let node := parent
        let parent ← rb_parent s node
        pure (.next (s, node, parent))) := by
  refine ensures_bind _ (rb_set_parent_color_ens hw hsib hp (by decide)) fun s1 hw1 => ?_
  refine ensures_bind _ (ensures_self _) fun pred hpred => ?_
  refine ensures_ite (fun hc => ?_) (fun _ => ?_)
  · rw [hc] at hpred
    refine ensures_bind _ (rb_set_black_ens hw1 hp hpred) fun s2 hw2 => ?_
    exact ensures_ok hw2
  · refine ensures_bind _ (rb_parent_ens hw1 hp) fun gp hgp => ?_
    exact ensures_ok ⟨hw1, hp, hgp⟩

theorem rebalance_iter_ens {A : Nat → Prop} {m0 : Nat → rb_node} {s : rb_state}
    (hw : Within A m0 s) {node parent : Nat}
    (hn : node = 0 ∨ A node) (hp : parent = 0 ∨ A parent) :
    Ensures (WithinCtl A m0) (__rb_erase_rebalance_iter s node parent) := by
  unfold __rb_erase_rebalance_iter
  refine ensures_bind _ (get_right_ens hw hp) fun siblings hsib => ?_
  refine ensures_ite (fun _ => ?_) (fun _ => ?_)
  · refine ensures_bind _ (ensures_any _) fun sred _ => ?_
    refine ensures_bind (fun r => Within A m0 r.1 ∧ (r.2 = 0 ∨ A r.2)) ?_ fun r hr => ?_
    · refine ensures_ite (fun _ => ?_) (fun _ => ensures_ok ⟨hw, hsib⟩)
      refine ensures_bind _ (get_left_ens hw hsib) fun tmp1 ht1 => ?_
      refine ensures_bind _ (rotate_left_ens hw hp hsib (by decide)) fun s1 hw1 => ?_
      refine ensures_bind _ (rotate_set_parent_ens hw1 hp hsib (by decide)) fun s2 hw2 => ?_
      exact ensures_ok ⟨hw2, ht1⟩
    · obtain ⟨s1, sib1⟩ := r
      obtain ⟨hw1, hsib1⟩ := hr
      dsimp only at hw1 hsib1 ⊢
      refine ensures_bind _ (get_right_ens hw1 hsib1) fun tmp1 ht1 => ?_
      refine ensures_bind _ (ensures_any _) fun b1 _ => ?_
      refine ensures_ite (fun _ => ?_) (fun _ => ?_)
      · refine ensures_bind _ (get_left_ens hw1 hsib1) fun tmp2 ht2 => ?_
        refine ensures_bind _ (ensures_any _) fun b2 _ => ?_
        refine ensures_ite (fun _ => rebalance_case2_ens hw1 hsib1 hp) (fun _ => ?_)
        refine ensures_bind _ (rotate_right_ens hw1 hsib1 ht2 (by decide)) fun s2 hw2 => ?_
        refine ensures_bind _ (rotate_set_parent_ens hw2 hsib1 ht2 (by decide)) fun s3 hw3 => ?_
        refine ensures_bind _ (ensures_any _) fun _ _ => ?_
        refine ensures_bind _ (ensures_any _) fun _ _ => ?_
        refine ensures_bind _ (rotate_left_ens hw3 hp ht2 (by decide)) fun s4 hw4 => ?_
        refine ensures_bind _ (rotate_set_parent_ens hw4 hp ht2 (by decide)) fun s5 hw5 => ?_
        exact ensures_ok ⟨hw5, hn, hp⟩
      · refine ensures_bind _ (rotate_left_ens hw1 hp hsib1 (by decide)) fun s2 hw2 => ?_
        refine ensures_bind _ (rotate_set_parent_ens hw2 hp hsib1 (by decide)) fun s3 hw3 => ?_
        exact ensures_ok ⟨hw3, hn, hp⟩
  · refine ensures_bind _ (get_left_ens hw hp) fun sib0 hsib0 => ?_
    refine ensures_bind _ (ensures_any _) fun sred _ => ?_
    refine ensures_bind (fun r => Within A m0 r.1 ∧ (r.2 = 0 ∨ A r.2)) ?_ fun r hr => ?_
    · refine ensures_ite (fun _ => ?_) (fun _ => ensures_ok ⟨hw, hsib0⟩)
      refine ensures_bind _ (get_right_ens hw hsib0) fun tmp1 ht1 => ?_
      refine ensures_bind _ (rotate_right_ens hw hp hsib0 (by decide)) fun s1 hw1 => ?_
      refine ensures_bind _ (rotate_set_parent_ens hw1 hp hsib0 (by decide)) fun s2 hw2 => ?_
      exact ensures_ok ⟨hw2, ht1⟩
    · obtain ⟨s1, sib1⟩ := r
      obtain ⟨hw1, hsib1⟩ := hr
      dsimp only at hw1 hsib1 ⊢
      refine ensures_bind _ (get_left_ens hw1 hsib1) fun tmp1 ht1 => ?_
      refine ensures_bind _ (ensures_any _) fun b1 _ => ?_
      refine ensures_ite (fun _ => ?_) (fun _ => ?_)
      · refine ensures_bind _ (get_right_ens hw1 hsib1) fun tmp2 ht2 => ?_
        refine ensures_bind _ (ensures_any _) fun b2 _ => ?_
        refine ensures_ite (fun _ => rebalance_case2_ens hw1 hsib1 hp) (fun _ => ?_)
        refine ensures_bind _ (rotate_left_ens hw1 hsib1 ht2 (by decide)) fun s2 hw2 => ?_
        refine ensures_bind _ (rotate_set_parent_ens hw2 hsib1 ht2 (by decide)) fun s3 hw3 => ?_
        refine ensures_bind _ (ensures_any _) fun _ _ => ?_
        refine ensures_bind _ (ensures_any _) fun _ _ => ?_
        refine ensures_bind _ (rotate_right_ens hw3 hp ht2 (by decide)) fun s4 hw4 => ?_
        refine ensures_bind _ (rotate_set_parent_ens hw4 hp ht2 (by decide)) fun s5 hw5 => ?_
        exact ensures_ok ⟨hw5, hn, hp⟩
      · refine ensures_bind _ (rotate_right_ens hw1 hp hsib1 (by decide)) fun s2 hw2 => ?_
        refine ensures_bind _ (rotate_set_parent_ens hw2 hp hsib1 (by decide)) fun s3 hw3 => ?_
        exact ensures_ok ⟨hw3, hn, hp⟩

theorem rebalance_loop_ens {A : Nat → Prop} {m0 : Nat → rb_node} {s : rb_state}
    (fuel node parent : Nat) (hw : Within A m0 s)
    (hn : node = 0 ∨ A node) (hp : parent = 0 ∨ A parent) :
    Ensures (Within A m0) (__rb_erase_rebalance_loop fuel s node parent) := by
  induction fuel generalizing s node parent with
  | zero => trivial
  | succ fuel ih =>
    have h := rebalance_iter_ens hw hn hp
    unfold __rb_erase_rebalance_loop
    cases hit : __rb_erase_rebalance_iter s node parent with
    | error e => trivial
    | ok r =>
      rw [hit] at h
      cases r with
      | done s1 => exact h
      | next a =>
        obtain ⟨s1, n1, p1⟩ := a
        exact ih n1 p1 h.1 h.2.1 h.2.2

theorem rebalance_passes_ens {A : Nat → Prop} {m0 : Nat → rb_node} {s : rb_state}
    (fuel node parent : Nat) (hw : Within A m0 s)
    (hn : node = 0 ∨ A node) (hp : parent = 0 ∨ A parent) :
    ∀ e ∈ __rb_erase_rebalance_passes fuel s node parent, Within A m0 e := by
  induction fuel generalizing s node parent with
  | zero => simp [__rb_erase_rebalance_passes]
  | succ fuel ih =>
    have h := rebalance_iter_ens hw hn hp
    unfold __rb_erase_rebalance_passes
    intro e he
    rcases List.mem_cons.mp he with rfl | he
    · exact hw
    · cases hit : __rb_erase_rebalance_iter s node parent with
      | error e => simp [hit] at he
      | ok r =>
        rw [hit] at h
        cases r with
        | done s1 => simp [hit] at he
        | next a =>
          obtain ⟨s1, n1, p1⟩ := a
          simp only [hit] at he
          exact ih n1 p1 h.1 h.2.1 h.2.2 e he

theorem represents_within {s : rb_state} {t : Tree} (hrep : Represents s t) :
    Within (fun a => a ∈ t.inorder) s.mem s := by
  refine ⟨fun a ha => ?_, fun _ _ => rfl⟩
  obtain ⟨h0, h4, hlt, p, b, hpc, hb, -, -, hl, hr, hpar⟩ := represents_node hrep ha
  refine ⟨h0, h4, hlt, ⟨p, b, hpc, hb, ?_⟩, hl, hr⟩
  rcases hpar with ⟨h, -⟩ | ⟨-, h, -⟩
  · exact Or.inl h
  · exact Or.inr h

theorem segParent_mem (q : Nat) (rs : List Frame) :
    segParent q rs = q ∨ segParent q rs ∈ pathBefore rs ++ pathAfter rs := by
  cases rs with
  | nil => exact Or.inl rfl
  | cons f rs => cases f <;> right <;> simp [segParent, Frame.addr, pathBefore, pathAfter]

/-- The structural phase of a removal leaves a tree without `n`, does not write
`n`, and the node it returns for rebalancing is null or a node of that tree. -/
theorem erase_struct_frame (fuel : Nat) (st : rb_state) (t : Tree) (n : Nat)
    (hrep : Represents st t) (hmem : n ∈ t.inorder) (hfuel : t.height ≤ fuel) :
    ∃ S reb t1, __rb_erase fuel st n = .ok (S, reb) ∧ Represents S t1 ∧
      S.mem n = st.mem n ∧ n ∉ t1.inorder ∧ (reb = 0 ∨ reb ∈ t1.inorder) := by
  obtain ⟨fs, nc, L, R, rfl⟩ := exists_path_of_mem hmem
  have hh : R.height ≤ fuel := by
    have := height_plug_le fs (.node n nc L R)
    simp only [Tree.height] at this
    omega
  have hsame : ∀ (t1 : Tree) (xs1 ys1 : List Nat),
      (plug fs (.node n nc L R)).inorder = xs1 ++ n :: ys1 → t1.inorder = xs1 ++ ys1 →
      n ∉ t1.inorder := by
    intro t1 xs1 ys1 e1 e2
    rw [e2, ← erase_split hrep.2.2 e1]
    exact fun h => (List.Nodup.mem_erase_iff hrep.2.2).mp h |>.1 rfl
  obtain ⟨S, reb, hS, hmemn, h | h | h⟩ := erase_struct_cases fuel st fs n nc L R hh hrep
  · obtain ⟨rfl, hr1, hreb⟩ := h
    refine ⟨S, reb, _, hS, hr1, hmemn,
      hsame _ (pathBefore fs) (R.inorder ++ pathAfter fs)
        (by simp [inorder_plug]) (by simp [inorder_plug]), ?_⟩
    rw [hreb]
    split
    · rcases pathParent_mem fs with h | h
      · exact Or.inl h
      · right
        simp only [inorder_plug, List.mem_append] at h ⊢
        tauto
    · exact Or.inl rfl
  · obtain ⟨-, rfl, hr1, hreb⟩ := h
    exact ⟨S, reb, _, hS, hr1, hmemn,
      hsame _ (pathBefore fs ++ L.inorder) (pathAfter fs)
        (by simp [inorder_plug]) (by simp [inorder_plug]), Or.inl hreb⟩
  · obtain ⟨-, rs, sx, sc, sr, hleft, rfl, hr1, hreb, -⟩ := h
    refine ⟨S, reb, _, hS, hr1, hmemn,
      hsame _ (pathBefore fs ++ L.inorder)
        (sx :: sr.inorder ++ pathAfter rs ++ pathAfter fs)
        (by simp [inorder_plug, pathBefore_left hleft])
        (by simp [inorder_plug, pathBefore_left hleft]), ?_⟩
    rw [hreb]
    split
    · right
      rcases segParent_mem sx rs with h | h
      · rw [h]; simp [inorder_plug]
      · simp only [inorder_plug, Tree.inorder_node, List.mem_append, List.mem_cons] at h ⊢
        tauto
    · exact Or.inl rfl

/-- C33: for every well-formed tree (valid red-black trees included) and member
node `n`, `rb_erase(root, n)` never writes to `n`: the structural phase returns
with the three words of `n` (parent/colour word, left and right pointer)
unchanged, the state at the start of every pass of the rebalance loop has them
unchanged, and whenever `rb_erase` returns they are the same as before the
call. -/
theorem rb_erase_leaves_node (fuel : Nat) (st : rb_state) (t : Tree) (n : Nat)
    (hrep : Represents st t) (hmem : n ∈ t.inorder) (hfuel : t.height ≤ fuel) :
    ∃ S1 reb, __rb_erase fuel st n = .ok (S1, reb) ∧ S1.mem n = st.mem n ∧
      (∀ k, ∀ e ∈ __rb_erase_rebalance_passes k S1 0 reb, e.mem n = st.mem n) ∧
      ∀ S, rb_erase fuel st n = .ok S → S.mem n = st.mem n := by
  obtain ⟨S1, reb, t1, h1, h2, h3, h4, h5⟩ := erase_struct_frame fuel st t n hrep hmem hfuel
  refine ⟨S1, reb, h1, h3, fun k e he => ?_, fun S hS => ?_⟩
  · have hens := rebalance_passes_ens (A := fun a => a ∈ t1.inorder) k 0 reb
      (represents_within h2) (Or.inl rfl) h5 e he
    rw [hens.2 n h4, h3]
  · simp only [rb_erase, h1, ok_bind] at hS
    by_cases h0 : reb = 0
    · simp only [h0, ne_eq, not_true_eq_false, if_false, pure_eq_ok, Except.ok.injEq] at hS
      rw [← hS, h3]
    · simp only [ne_eq, h0, not_false_eq_true, if_true, __rb_erase_rebalance] at hS
      have hens := rebalance_loop_ens (A := fun a => a ∈ t1.inorder) fuel 0 reb
        (represents_within h2) (Or.inl rfl) h5
      rw [hS] at hens
      rw [hens.2 n h4, h3]

/-- Instance of C33: erasing the black leaf `40` of `erase_state_five`, where
the rebalance loop runs and returns. -/
theorem rb_erase_leaves_node_witness :
    (Represents erase_state_five erase_tree_five ∧
      40 ∈ erase_tree_five.inorder ∧ erase_tree_five.height ≤ 3) ∧
    ∃ S1 reb, __rb_erase 3 erase_state_five 40 = .ok (S1, reb) ∧
      S1.mem 40 = erase_state_five.mem 40 ∧
      (∀ k, ∀ e ∈ __rb_erase_rebalance_passes k S1 0 reb, e.mem 40 = erase_state_five.mem 40) ∧
      ∀ S, rb_erase 3 erase_state_five 40 = .ok S → S.mem 40 = erase_state_five.mem 40 :=
  ⟨⟨by decide, by decide, by decide⟩,
    rb_erase_leaves_node 3 erase_state_five erase_tree_five 40
      (by decide) (by decide) (by decide)⟩

end Libcove
